import Mathlib

/-!
# Index scan pipeline: collate array codec, composite filters, entry cache, source callback

A shallow embedding of `secondary/collatejson/array.go` and of the filtering,
caching and emission code of `secondary/indexer/scan_pipeline.go`.

Conventions of the embedding.

* A Go `[]byte` is a `List Nat` (its contents); a Go `[][]byte` is a list of those.
  Where the source tests a slice against `nil`, the slice is an `Option`.
* A Go call either returns, panics (index or slice bounds out of range) or never
  returns: `Exec` records which.
* A Go `error` result is an `Option Error` next to the other results, as in the source.
* Functions of the repository that the embedded code calls but that are defined in
  files outside this excerpt (`code2json`, `lenKey`, the buffer pool, `WriteItem`) are
  fields of `Codec` and `Env`: every theorem holds for each value of them that meets the
  stated hypotheses.
-/

namespace Indexing

/-- One byte of a Go byte slice. -/
abbrev Byte := Nat

/-- The contents of a Go byte slice. -/
abbrev Bytes := List Byte

/-- Outcome of running a Go function: it returns, panics, or loops forever. -/
inductive Exec (α : Type) where
  | ret (a : α)
  | panic
  | diverge
  deriving Repr, DecidableEq

/-- Sequencing of Go statements: a panic or a non-terminating call ends the run. -/
def Exec.bind {α β : Type} (x : Exec α) (f : α → Exec β) : Exec β :=
  match x with
  | .ret a => f a
  | .panic => .panic
  | .diverge => .diverge

/-- Whether a computation returns normally. -/
def Exec.isRet {α : Type} : Exec α → Bool
  | .ret _ => true
  | _ => false

/-- The error values the embedded code creates or passes on. -/
inductive Error where
  | ErrNotAnArray
  | ErrLenPrefixUnsupported
  | ErrLimitReached
  | ErrIndexRollback
  | ErrSupervisorKill
  | ErrMoreRanges
  | other (code : Nat)
  deriving Repr, DecidableEq

/-- Modelled from the spec: the collate type discriminant of arrays (`TypeArray=7`);
the constant is declared outside `array.go`. -/
def TypeArray : Byte := 7

/-- Modelled from the spec: the byte that ends variable-length values and container
bodies (`Terminator=0`); the constant is declared outside `array.go`. -/
def Terminator : Byte := 0

/-- The collate codec as far as `array.go` uses it. `code2json code text` is the element
decoder, defined outside this excerpt: it returns the decoded text, the rest of the
input and an error. The rest is a tail of `code`, so it is given by the number of
bytes consumed. -/
structure Codec where
  arrayLenPrefix : Bool
  code2json : Bytes → Bytes → Exec (Bytes × Nat × Option Error)

/-! ## `ExplodeArray` -/

/-- The loop of `ExplodeArray` (lines 23-33). `fuel` bounds the number of iterations by
the length of the input: an iteration that goes on consumes at least one byte, and an
iteration that consumes nothing repeats itself forever. -/
def ExplodeArray.loop (codec : Codec) (tmp : Bytes) :
    Nat → Bytes → Bytes → List Bytes → Exec (Option (List Bytes) × Option Error)
  | _, [], _, _ => .panic
  | fuel, c :: cs, elemBuf, array =>
    if c = Terminator then .ret (some array, none)
    else
      match fuel with
      | 0 => .diverge
      | fuel + 1 =>
        (codec.code2json (c :: cs) tmp).bind fun r =>
          match r.2.2 with
          | some e => .ret (some array, some e)
          | none =>
            if r.2.1 = 0 then .diverge
            else
              let code := (c :: cs).drop r.2.1
              if code.length < elemBuf.length then
                ExplodeArray.loop codec tmp fuel code code
                  (array ++ [elemBuf.take (elemBuf.length - code.length)])
              else
                ExplodeArray.loop codec tmp fuel code elemBuf array

/-- `Codec.ExplodeArray` (array.go lines 8-36). -/
def ExplodeArray (codec : Codec) (code tmp : Bytes) :
    Exec (Option (List Bytes) × Option Error) :=
  if codec.arrayLenPrefix then .ret (none, some .ErrLenPrefixUnsupported)
  else
    match code with
    | [] => .panic
    | c :: rest =>
      if c ≠ TypeArray then .ret (none, some .ErrNotAnArray)
      else ExplodeArray.loop codec tmp rest.length rest rest []

/-! ## `ExplodeArray2` -/

/-- State of the loop of `ExplodeArray2`: the caller's `cktmp` and `dktmp` (written in
place), what is left of `decbuf`, and `pos`. -/
structure Explode2State where
  cktmp : List Bytes
  dktmp : Option (List Bytes)
  decbuf : Bytes
  pos : Nat
  deriving Repr, DecidableEq

/-- Lines 62-66 of `ExplodeArray2`: `copy(decbuf, text)`, `dktmp[pos] = decbuf[:len(text)]`,
`decbuf = decbuf[len(text):]`. The index panics when `pos` is out of range and one of the
two slice expressions panics when `text` is longer than `decbuf`; otherwise `dktmp[pos]`
holds `text`. -/
def ExplodeArray2.storeDecoded (s : Explode2State) (text : Bytes) : Exec Explode2State :=
  match s.dktmp with
  | none => .ret s
  | some dk =>
    if s.pos < dk.length ∧ text.length ≤ s.decbuf.length then
      .ret { s with dktmp := some (dk.set s.pos text), decbuf := s.decbuf.drop text.length }
    else .panic

/-- The loop of `ExplodeArray2` (lines 56-73). An iteration that consumes nothing
repeats itself with a larger `pos`: without `dktmp` forever, with `dktmp` until the
index `dktmp[pos]` panics; `fuel` covers both. -/
def ExplodeArray2.loop (codec : Codec) (tmp : Bytes) :
    Nat → Bytes → Bytes → Explode2State →
      Exec (Option (List Bytes) × Option (List Bytes) × Option Error)
  | _, [], _, _ => .panic
  | fuel, c :: cs, elemBuf, s =>
    if c = Terminator then .ret (some s.cktmp, s.dktmp, none)
    else
      match fuel with
      | 0 => .diverge
      | fuel + 1 =>
        (codec.code2json (c :: cs) tmp).bind fun r =>
          match r.2.2 with
          | some e => .ret (some s.cktmp, s.dktmp, some e)
          | none =>
            (ExplodeArray2.storeDecoded s r.1).bind fun s1 =>
              let code := (c :: cs).drop r.2.1
              if code.length < elemBuf.length then
                if s1.pos < s1.cktmp.length then
                  ExplodeArray2.loop codec tmp fuel code code
                    { s1 with
                      cktmp := s1.cktmp.set s1.pos (elemBuf.take (elemBuf.length - code.length)),
                      pos := s1.pos + 1 }
                else .panic
              else if r.2.1 = 0 ∧ s.dktmp = none then .diverge
              else
                ExplodeArray2.loop codec tmp fuel code elemBuf { s1 with pos := s1.pos + 1 }

/-- `Codec.ExplodeArray2` (array.go lines 40-76). `cktmp` is the caller's scratch slice
(the pipeline allocates it with `make`, so it is never `nil`); `dktmp` may be `nil`. -/
def ExplodeArray2 (codec : Codec) (code tmp decbuf : Bytes) (cktmp : List Bytes)
    (dktmp : Option (List Bytes)) :
    Exec (Option (List Bytes) × Option (List Bytes) × Option Error) :=
  if codec.arrayLenPrefix then .ret (none, none, some .ErrLenPrefixUnsupported)
  else
    match code with
    | [] => .panic
    | c :: rest =>
      if c ≠ TypeArray then .ret (none, none, some .ErrNotAnArray)
      else
        ExplodeArray2.loop codec tmp (rest.length + (dktmp.elim 0 List.length) + 1) rest rest
          { cktmp := cktmp, dktmp := dktmp, decbuf := decbuf, pos := 0 }

/-! ## `JoinArray` -/

/-- `Codec.JoinArray` (array.go lines 78-90): Go's `append` never panics. -/
def JoinArray (codec : Codec) (vals : List Bytes) (code : Bytes) :
    Exec (Option Bytes × Option Error) :=
  if codec.arrayLenPrefix then .ret (none, some .ErrLenPrefixUnsupported)
  else
    let code1 := code ++ [TypeArray]
    let code2 := vals.foldl (fun acc val => acc ++ val) code1
    .ret (some (code2 ++ [Terminator]), none)

/-! ## Composite filters -/

/-- Identity of an index key with the two sentinel keys `MinIndexKey` and `MaxIndexKey`
(the source compares interface values with `!=`). -/
inductive KeyKind where
  | MinIndexKey
  | MaxIndexKey
  | ordinary
  deriving Repr, DecidableEq

/-- Modelled from the spec: the `IndexKey` interface is declared outside this excerpt.
`applyFilter` uses of a key only whether it is one of the sentinels and what `Bytes()`
returns. -/
structure IndexKey where
  kind : KeyKind
  Bytes : Bytes
  deriving Repr, DecidableEq

/-- Modelled from the spec: the inclusion variants `{Neither, Low, High, Both}`; the type
is declared outside this excerpt. -/
inductive Inclusion where
  | Neither
  | Low
  | High
  | Both
  deriving Repr, DecidableEq

/-- Modelled from the spec: low and high encoded bounds plus the inclusion variant. -/
structure CompositeElementFilter where
  Low : IndexKey
  High : IndexKey
  Inclusion : Inclusion
  deriving Repr, DecidableEq

/-- Go's `bytes.Compare`: lexicographic comparison of byte slices, result -1, 0 or 1. -/
def bytesCompare : Bytes → Bytes → Int
  | [], [] => 0
  | [], _ :: _ => -1
  | _ :: _, [] => 1
  | a :: as, b :: bs =>
    if a < b then -1 else if b < a then 1 else bytesCompare as bs

/-- The body of the loop of `applyFilter` for one component (lines 562-615): `false`
stands for the `return false` statements, `true` for reaching the end of the body. -/
def applyFilter.body (ck : Bytes) (filter : CompositeElementFilter) : Bool :=
  let checkLow := decide (filter.Low.kind ≠ KeyKind.MinIndexKey)
  let checkHigh := decide (filter.High.kind ≠ KeyKind.MaxIndexKey)
  match filter.Inclusion with
  | .Neither =>
    if checkLow ∧ ¬ (bytesCompare ck filter.Low.Bytes > 0) then false
    else if checkHigh ∧ ¬ (bytesCompare ck filter.High.Bytes < 0) then false
    else true
  | .Low =>
    if checkLow ∧ ¬ (bytesCompare ck filter.Low.Bytes ≥ 0) then false
    else if checkHigh ∧ ¬ (bytesCompare ck filter.High.Bytes < 0) then false
    else true
  | .High =>
    if checkLow ∧ ¬ (bytesCompare ck filter.Low.Bytes > 0) then false
    else if checkHigh ∧ ¬ (bytesCompare ck filter.High.Bytes ≤ 0) then false
    else true
  | .Both =>
    if checkLow ∧ ¬ (bytesCompare ck filter.Low.Bytes ≥ 0) then false
    else if checkHigh ∧ ¬ (bytesCompare ck filter.High.Bytes ≤ 0) then false
    else true

/-- The loop of `applyFilter` from index `i` on: `compositekeys[i]` panics when `i` is out
of range. -/
def applyFilter.loop (compositekeys : List Bytes) :
    Nat → List CompositeElementFilter → Exec Bool
  | _, [] => .ret true
  | i, filter :: rest =>
    match compositekeys[i]? with
    | none => .panic
    | some ck =>
      if applyFilter.body ck filter then applyFilter.loop compositekeys (i + 1) rest
      else .ret false

/-- `applyFilter` (scan_pipeline.go lines 559-619). -/
def applyFilter (compositekeys : List Bytes) (compositefilters : List CompositeElementFilter) :
    Exec Bool :=
  applyFilter.loop compositekeys 0 compositefilters

/-- The low-bound requirement in the words of the spec: skipped for the `MinIndexKey`
sentinel, otherwise `ck > Low` (inclusion Neither or High) or `ck >= Low` (Low or Both). -/
def lowBoundHolds (ck : Bytes) (f : CompositeElementFilter) : Prop :=
  f.Low.kind = KeyKind.MinIndexKey ∨
    ((f.Inclusion = .Neither ∨ f.Inclusion = .High) ∧ 0 < bytesCompare ck f.Low.Bytes) ∨
    ((f.Inclusion = .Low ∨ f.Inclusion = .Both) ∧ 0 ≤ bytesCompare ck f.Low.Bytes)

/-- The high-bound requirement in the words of the spec: skipped for the `MaxIndexKey`
sentinel, otherwise `ck < High` (inclusion Neither or Low) or `ck <= High` (High or Both). -/
def highBoundHolds (ck : Bytes) (f : CompositeElementFilter) : Prop :=
  f.High.kind = KeyKind.MaxIndexKey ∨
    ((f.Inclusion = .Neither ∨ f.Inclusion = .Low) ∧ bytesCompare ck f.High.Bytes < 0) ∨
    ((f.Inclusion = .High ∨ f.Inclusion = .Both) ∧ bytesCompare ck f.High.Bytes ≤ 0)

/-- Every filter position `i` has a component that meets both of its bounds. -/
def allBoundsHold (cks : List Bytes) (filters : List CompositeElementFilter) : Prop :=
  ∀ (i : Nat) (ck : Bytes) (f : CompositeElementFilter),
    cks[i]? = some ck → filters[i]? = some f → lowBoundHolds ck f ∧ highBoundHolds ck f

/-! ## Well-formed encoded arrays -/

/-- The bytes `e` are a complete, non-empty element encoding for the decoder: `e` does not
start with the terminator and, whatever follows it, the decoder consumes exactly `e`
without error. -/
def CompleteElem (codec : Codec) (tmp : Bytes) (e : Bytes) : Prop :=
  e ≠ [] ∧ e.head? ≠ some Terminator ∧
    ∀ rest, ∃ text, codec.code2json (e ++ rest) tmp = .ret (text, e.length, none)

/-- As `CompleteElem`, and the decoder's text for `e` is `text`. -/
def DecodesTo (codec : Codec) (tmp : Bytes) (e text : Bytes) : Prop :=
  e ≠ [] ∧ e.head? ≠ some Terminator ∧
    ∀ rest, codec.code2json (e ++ rest) tmp = .ret (text, e.length, none)

/-- The encoded array with element encodings `elems`, followed by `tail`. -/
def encodedArray (elems : List Bytes) (tail : Bytes) : Bytes :=
  TypeArray :: (elems.flatten ++ Terminator :: tail)

/-- Number of bytes up to and including the first terminator. -/
def sampleScan : Bytes → Nat
  | [] => 0
  | b :: bs => if b = Terminator then 1 else sampleScan bs + 1

/-- A small element decoder for concrete evaluations: an element runs up to and
including its first terminator byte, and its text is appended to `text`. -/
def sampleCodec : Codec where
  arrayLenPrefix := false
  code2json := fun code text =>
    .ret (text ++ code.take (sampleScan code - 1), sampleScan code, none)

/-- The sample decoder with length-prefixed arrays configured. -/
def sampleLenPrefixCodec : Codec := { sampleCodec with arrayLenPrefix := true }

/-! ## Collaborators of `scan_pipeline.go` -/

/-- Length and capacity of a Go byte slice that serves as a backing store. Of such a
buffer the source uses only `len` and `cap`, and overwrites the contents before reading. -/
structure BufShape where
  len : Nat
  cap : Nat
  deriving Repr, DecidableEq

/-- Modelled from the spec: a JSON value, as the decoded form of a key component (a Go
`interface{}` filled by `json.Unmarshal`) and as a scalar of the expression evaluator (a
`value.Value`); the types are declared outside this excerpt and the source only stores
and passes such values on. Numbers are integers here (floating point is outside the
embedding) and `other` stands for any further value. A Go `nil` is `none` of
`Option Value`. -/
inductive Value where
  | null
  | bool (b : Bool)
  | number (n : Int)
  | string (s : Bytes)
  | other (id : Nat)
  deriving Repr, DecidableEq

/-- What the embedded part of `scan_pipeline.go` calls but does not define in this
excerpt: `jsonEncoder` (the package-level codec), `secondaryIndexEntry.lenKey`, the shape
of the buffers that `secKeyBufPool.Get` hands out, `WriteItem` (given the rows written
so far and the row, it returns an error or nil), `json.Unmarshal` into an `interface{}`
(the value, `nil` for JSON null, and an error), and `Expression.EvaluateForIndex` (given
the expression and the covers set on the annotated value, the scalar and an error). -/
structure Env where
  jsonEncoder : Codec
  lenKey : Bytes → Int
  poolBuf : BufShape
  WriteItem : List Bytes → Bytes → Option Error
  jsonUnmarshal : Bytes → Option Value × Option Error
  EvaluateForIndex : Nat → List (Nat × Value) → Option Value × Option Error

/-- The slice expression `b[:n]`: it panics for a negative `n` and for an `n` beyond the
capacity. Entries are taken to have no spare capacity, so `n > len(b)` panics (with spare
capacity the source would read bytes beyond the length instead). -/
def sliceTo (b : Bytes) (n : Int) : Exec Bytes :=
  if 0 ≤ n ∧ n ≤ b.length then .ret (b.take n.toNat) else .panic

/-- The slice expression `b[n:]`, which panics unless `0 <= n <= len(b)`. -/
def sliceFrom (b : Bytes) (n : Int) : Exec Bytes :=
  if 0 ≤ n ∧ n ≤ b.length then .ret (b.drop n.toNat) else .panic

/-- `distinctCompare` (scan_pipeline.go lines 623-630): the secondary-key prefixes of two
entries are byte-equal. -/
def distinctCompare (env : Env) (entryBytes1 entryBytes2 : Bytes) : Exec Bool :=
  (sliceTo entryBytes1 (env.lenKey entryBytes1)).bind fun k1 =>
    (sliceTo entryBytes2 (env.lenKey entryBytes2)).bind fun k2 =>
      .ret (decide (bytesCompare k1 k2 = 0))

/-! ## Scans and requests -/

/-- Modelled from the spec: the scan-type discriminant (`FullRange`, `PointRange`,
`FilterRange`); the source compares it with `FilterRangeReq` only. -/
inductive ScanType where
  | FullRangeReq
  | PointRangeReq
  | FilterRangeReq
  deriving Repr, DecidableEq

/-- One filter collection of a scan: the composite filters of one range. -/
structure Filter where
  CompositeFilters : List CompositeElementFilter
  deriving Repr, DecidableEq

/-- Modelled from the spec: a scan is a list of filter collections plus the scan type. -/
structure Scan where
  ScanType : ScanType
  Filters : List Filter
  deriving Repr, DecidableEq

/-- The fields of `ScanRequest` read by the filter and by the emission code. -/
structure ScanRequest where
  Offset : Int
  Limit : Int
  Distinct : Bool
  isPrimary : Bool
  deriving Repr, DecidableEq

/-! ## Entry cache -/

/-- The struct `entryCache` (lines 1206-1218). `compkeybuf` and `deckeybuf` are `nil` or a
backing store of some length and capacity. -/
structure entryCache where
  entry : Bytes
  compkeys : Option (List Bytes)
  decodedkeys : Option (List Bytes)
  decodedvalues : List (Option Value)
  compkeybuf : Option BufShape
  deckeybuf : Option BufShape
  valid : Bool
  hit : Int
  miss : Int
  deriving Repr, DecidableEq

/-- The zero value `var cachedEntry entryCache` of line 141. -/
def entryCache.zero : entryCache :=
  { entry := [], compkeys := none, decodedkeys := none, decodedvalues := [],
    compkeybuf := none, deckeybuf := none, valid := false, hit := 0, miss := 0 }

/-- Wrap-around of `int64` arithmetic. -/
def wrapInt64 (x : Int) : Int := (x + 2 ^ 63) % 2 ^ 64 - 2 ^ 63

/-- `entryCache.Init` (lines 1220-1237); the bookkeeping of `r.keyBufList` is left out. -/
def entryCache.Init (env : Env) (e : entryCache) (needDecode : Bool) : entryCache :=
  { e with
    entry := []
    compkeybuf := some env.poolBuf
    deckeybuf := if needDecode then some env.poolBuf else e.deckeybuf }

/-- `entryCache.EqualsEntry` (lines 1239-1241). -/
def entryCache.EqualsEntry (env : Env) (e : entryCache) (other : Bytes) : Exec Bool :=
  distinctCompare env e.entry other

/-- `entryCache.Get` (lines 1243-1247). -/
def entryCache.Get (e : entryCache) : Option (List Bytes) × Option (List Bytes) :=
  (e.compkeys, e.decodedkeys)

/-- `entryCache.SetValid` (lines 1287-1294). -/
def entryCache.SetValid (e : entryCache) (valid : Bool) : entryCache :=
  if valid then { e with hit := wrapInt64 (e.hit + 1), valid := valid }
  else { e with miss := wrapInt64 (e.miss + 1), valid := valid }

/-- `entryCache.Exists` (lines 1296-1298). -/
def entryCache.Exists (e : entryCache) : Bool := e.compkeybuf.isSome

/-- `entryCache.Valid` (lines 1300-1302). -/
def entryCache.Valid (e : entryCache) : Bool := e.valid

/-- The copy loops of `Update` (lines 1264-1269 and 1275-1280), from index `i` on:
`copy(tmpbuf, k)`, `target[i] = tmpbuf[:len(k)]`, `tmpbuf = tmpbuf[len(k):]`. The index
panics when `i` is out of range, `tmpbuf[:len(k)]` panics when `k` is longer than the
capacity and `tmpbuf[len(k):]` panics when `k` is longer than the length of `tmpbuf`;
otherwise `target[i]` holds the bytes of `k`. -/
def entryCache.copyKeys : BufShape → List Bytes → Nat → List Bytes → Exec (List Bytes)
  | _, target, _, [] => .ret target
  | tmpbuf, target, i, k :: ks =>
    if i < target.length ∧ k.length ≤ tmpbuf.cap ∧ k.length ≤ tmpbuf.len then
      entryCache.copyKeys ⟨tmpbuf.len - k.length, tmpbuf.cap - k.length⟩ (target.set i k)
        (i + 1) ks
    else .panic

/-- The shape of a possibly `nil` slice: `len` and `cap` of `nil` are 0. -/
def shapeOf (b : Option BufShape) : BufShape := b.getD ⟨0, 0⟩

/-- `entryCache.Update` (lines 1249-1285). `make([]byte, 0, len(entry)+1024)` has length 0
and capacity `len(entry)+1024`; the last statement resets `decodedvalues`. -/
def entryCache.Update (e : entryCache) (entry : Bytes) (compositekeys : List Bytes)
    (decodedkeys : Option (List Bytes)) : Exec entryCache :=
  let e1 := { e with entry := entry }
  let e2 :=
    if entry.length > (shapeOf e1.compkeybuf).cap then
      { e1 with
        compkeybuf := some ⟨0, entry.length + 1024⟩
        deckeybuf :=
          if decodedkeys.isSome then some ⟨0, entry.length + 1024⟩ else e1.deckeybuf }
    else e1
  let target := e2.compkeys.getD (List.replicate compositekeys.length [])
  (entryCache.copyKeys (shapeOf e2.compkeybuf) target 0 compositekeys).bind fun ck =>
    let e3 := { e2 with compkeys := some ck }
    let decodedvalues : List (Option Value) := List.replicate compositekeys.length none
    match decodedkeys with
    | none => .ret { e3 with decodedvalues := decodedvalues }
    | some dks =>
      let dtarget := e3.decodedkeys.getD (List.replicate dks.length [])
      (entryCache.copyKeys (shapeOf e3.deckeybuf) dtarget 0 dks).bind fun dk =>
        .ret { e3 with decodedkeys := some dk, decodedvalues := decodedvalues }

/-- `entryCache.CacheHitRatio` (lines 1309-1317): `int64` arithmetic with wrap-around and
Go's division, which truncates towards zero; the conversion `int(...)` keeps the value
(64-bit `int`). -/
def entryCache.CacheHitRatio (e : entryCache) : Int :=
  if wrapInt64 (e.hit + e.miss) ≠ 0 then
    wrapInt64 (Int.tdiv (wrapInt64 (e.hit * 100)) (wrapInt64 (e.miss + e.hit)))
  else 0

/-- A sequence of `SetValid` calls on a cache, the first call first. -/
def entryCache.setValidCalls (e : entryCache) (calls : List Bool) : entryCache :=
  calls.foldl entryCache.SetValid e

/-! ## `filterScanRow` and `filterScanRow2` -/

/-- The loop over the filter collections (lines 497-509 and 543-555): the result is the
error of an over-long collection, or whether the row is to be skipped. -/
def filterLoop (compositekeys : List Bytes) : List Filter → Exec (Bool × Option Error)
  | [] => .ret (true, none)
  | filtercollection :: rest =>
    if filtercollection.CompositeFilters.length > compositekeys.length then
      .ret (false, some .ErrMoreRanges)
    else
      (applyFilter compositekeys filtercollection.CompositeFilters).bind fun filtermatch =>
        if filtermatch then .ret (false, none) else filterLoop compositekeys rest

/-- Results of `filterScanRow`. -/
structure FilterResult where
  skip : Bool
  compositekeys : Option (List Bytes)
  err : Option Error
  deriving Repr, DecidableEq

/-- `filterScanRow` (lines 487-510). -/
def filterScanRow (env : Env) (key : Bytes) (scan : Scan) (buf : Bytes) : Exec FilterResult :=
  (ExplodeArray env.jsonEncoder key buf).bind fun r =>
    match r.2 with
    | some e => .ret { skip := false, compositekeys := none, err := some e }
    | none =>
      let compositekeys := r.1
      (filterLoop (compositekeys.getD []) scan.Filters).bind fun m =>
        match m.2 with
        | some e => .ret { skip := false, compositekeys := none, err := some e }
        | none => .ret { skip := m.1, compositekeys := compositekeys, err := none }

/-- Results of `filterScanRow2`, and what the call leaves in the cache and in the
caller's `cktmp` and `dktmp`, which `ExplodeArray2` writes in place. -/
structure FilterResult2 where
  skip : Bool
  compositekeys : Option (List Bytes)
  decodedkeys : Option (List Bytes)
  err : Option Error
  cachedEntry : entryCache
  cktmp : List Bytes
  dktmp : Option (List Bytes)
  deriving Repr, DecidableEq

/-- Lines 519-526 of `filterScanRow2`: the cache lookup. -/
def filterScanRow2.lookup (env : Env) (key : Bytes) (r : ScanRequest)
    (cachedEntry : entryCache) :
    Exec (Option (List Bytes) × Option (List Bytes) × entryCache) :=
  if !r.isPrimary && cachedEntry.Exists then
    (cachedEntry.EqualsEntry env key).bind fun eq =>
      if eq then .ret (cachedEntry.Get.1, cachedEntry.Get.2, cachedEntry.SetValid true)
      else .ret (none, none, cachedEntry.SetValid false)
  else .ret (none, none, cachedEntry)

/-- `filterScanRow2` (lines 513-556). -/
def filterScanRow2 (env : Env) (key : Bytes) (scan : Scan) (buf decbuf : Bytes)
    (getDecoded : Bool) (cktmp : List Bytes) (dktmp : Option (List Bytes))
    (r : ScanRequest) (cachedEntry : entryCache) : Exec FilterResult2 :=
  (filterScanRow2.lookup env key r cachedEntry).bind fun l =>
    let cache1 := l.2.2
    let exploded : Exec (Option (List Bytes) × Option (List Bytes) × Option Error
        × List Bytes × Option (List Bytes)) :=
      match l.1 with
      | some ck => .ret (some ck, l.2.1, none, cktmp, dktmp)
      | none =>
        (ExplodeArray2 env.jsonEncoder key buf decbuf cktmp dktmp).bind fun x =>
          .ret (x.1, x.2.1, x.2.2, x.1.getD cktmp, if x.1.isSome then x.2.1 else dktmp)
    exploded.bind fun x =>
      match x.2.2.1 with
      | some e =>
        .ret { skip := false, compositekeys := none, decodedkeys := none, err := some e,
               cachedEntry := cache1, cktmp := x.2.2.2.1, dktmp := x.2.2.2.2 }
      | none =>
        let compositekeys := x.1
        let decodedkeys := x.2.1
        let cache2 := if !cache1.Exists then cache1.Init env getDecoded else cache1
        let cache3 : Exec entryCache :=
          if !cache2.Valid then cache2.Update key (compositekeys.getD []) decodedkeys
          else .ret cache2
        cache3.bind fun cache =>
          (filterLoop (compositekeys.getD []) scan.Filters).bind fun m =>
            match m.2 with
            | some e =>
              .ret { skip := false, compositekeys := none, decodedkeys := none, err := some e,
                     cachedEntry := cache, cktmp := x.2.2.2.1, dktmp := x.2.2.2.2 }
            | none =>
              .ret { skip := m.1, compositekeys := compositekeys, decodedkeys := decodedkeys,
                     err := none, cachedEntry := cache, cktmp := x.2.2.2.1,
                     dktmp := x.2.2.2.2 }

/-! ## The emission part of the source callback -/

/-- The conversion `uint64(x)` of an `int64`. -/
def toUint64 (x : Int) : Nat := (x % 2 ^ 64).toNat

/-- The variables of `IndexScanSource.Routine` that the emission code of the callback
reads and writes: `currOffset` (an `int64` that is only incremented while it is below
`r.Offset`), `s.p.rowsReturned` (a `uint64`), `previousRow`, and the rows handed to
`WriteItem` so far. -/
structure EmitState where
  currOffset : Int
  rowsReturned : Nat
  previousRow : Bytes
  written : List Bytes
  deriving Repr, DecidableEq

/-- The state at the start of `Routine` (lines 123 and 131, `rowsReturned` zero). -/
def EmitState.init : EmitState :=
  { currOffset := 0, rowsReturned := 0, previousRow := [], written := [] }

/-- The emission loop (lines 252-268) with `n` iterations left and loop variable `i`;
the result is the state and the error the callback returns from inside the loop (nil when
the loop ends or breaks). -/
def emitLoop (env : Env) (r : ScanRequest) (entry : Bytes) :
    Nat → Nat → EmitState → EmitState × Option Error
  | 0, _, st => (st, none)
  | n + 1, i, st =>
    if r.Distinct ∧ i > 0 then (st, none)
    else if st.currOffset ≥ r.Offset then
      let st1 := { st with rowsReturned := (st.rowsReturned + 1) % 2 ^ 64 }
      match env.WriteItem st1.written entry with
      | some wrErr => (st1, some wrErr)
      | none =>
        let st2 := { st1 with written := st1.written ++ [entry] }
        if st2.rowsReturned = toUint64 r.Limit then (st2, some .ErrLimitReached)
        else emitLoop env r entry n (i + 1) st2
    else emitLoop env r entry n (i + 1) { st with currOffset := st.currOffset + 1 }

/-- Lines 246-274 of the callback: the distinct check, the emission loop for `count`
duplicates, and the update of `previousRow`. `entry` is the row that reaches line 246
(the entry after filtering and projection) and `count` the value of the variable
`count` there. -/
def emitEntry (env : Env) (r : ScanRequest) (entry : Bytes) (count : Int) (st : EmitState) :
    Exec (EmitState × Option Error) :=
  let checkDistinct := r.Distinct && !r.isPrimary
  let duplicate : Exec Bool :=
    if checkDistinct ∧ st.previousRow.length ≠ 0 then distinctCompare env entry st.previousRow
    else .ret false
  duplicate.bind fun dup =>
    if dup then .ret (st, none)
    else
      let res := emitLoop env r entry count.toNat 0 st
      match res.2 with
      | some e => .ret (res.1, some e)
      | none =>
        if checkDistinct then .ret ({ res.1 with previousRow := entry }, none)
        else .ret (res.1, none)

/-- Modelled from the spec: `scatter` calls the callback once per entry in scan order and
stops at the first call that returns a non-nil error. Here the callback is the emission
part, run over the rows that reach it, each with its count. -/
def emitAll (env : Env) (r : ScanRequest) :
    EmitState → List (Bytes × Int) → Exec (EmitState × Option Error)
  | st, [] => .ret (st, none)
  | st, row :: rest =>
    (emitEntry env r row.1 row.2 st).bind fun x =>
      match x.2 with
      | some e => .ret (x.1, some e)
      | none => emitAll env r x.1 rest

/-- The stream obtained by repeating each row as often as its count says. -/
def expandCounts (rows : List (Bytes × Int)) : List Bytes :=
  (rows.map fun row => List.replicate row.2.toNat row.1).flatten

/-- The secondary-key prefix `e[:lenKey(e)]` of an entry. -/
def keyOf (env : Env) (e : Bytes) : Bytes := e.take (env.lenKey e).toNat

/-- A row whose secondary-key prefix can be cut out: the row is not empty and `lenKey`
lies within it. -/
def RowOk (env : Env) (e : Bytes) : Prop :=
  e ≠ [] ∧ 0 ≤ env.lenKey e ∧ env.lenKey e ≤ e.length

/-- Two rows differ in their secondary-key prefixes. -/
def KeysDiffer (env : Env) (a b : Bytes) : Prop := keyOf env a ≠ keyOf env b

/-- What the emission code of a distinct secondary scan keeps true between calls: no two
neighbours among the written rows have equal key prefixes; once a row is written the
offset has been reached and `previousRow` is the last written row; and `previousRow` is
empty or a row whose key prefix can be cut out. -/
def DistinctInv (env : Env) (r : ScanRequest) (st : EmitState) : Prop :=
  List.Chain' (KeysDiffer env) st.written ∧
    (st.previousRow = [] ∨ RowOk env st.previousRow) ∧
    (∀ last, st.written.getLast? = some last →
      st.previousRow = last ∧ last ≠ [] ∧ st.currOffset ≥ r.Offset)

/-! ## Group/aggregate: rows and accumulators -/

/-- Modelled from the spec: the aggregate function types `{SUM, COUNT, COUNTN, MIN, MAX}`
(`c.AggrFuncType`, declared outside this excerpt). -/
inductive AggrFuncType where
  | AGG_MIN
  | AGG_MAX
  | AGG_SUM
  | AGG_COUNT
  | AGG_COUNTN
  deriving Repr, DecidableEq

/-- One input of an accumulator together with the channel it arrives on: raw encoded
bytes (`AddDeltaRaw`), a decoded value (`AddDelta`) or an expression value
(`AddDeltaObj`). -/
inductive Delta where
  | raw (b : Bytes)
  | decoded (v : Option Value)
  | obj (v : Option Value)
  deriving Repr, DecidableEq

/-- Modelled from the spec: an accumulator (`c.AggrFunc`, implemented outside this
excerpt) binds a function type with a distinct flag and a running state. The running
state is represented by the inputs received so far, in order, the first being the value
given to `NewAggrFunc`: the state of an implementation is a function of these. -/
structure AggrFunc where
  typ : AggrFuncType
  distinct : Bool
  n1qlValue : Bool
  deltas : List Delta
  deriving Repr, DecidableEq

/-- `c.NewAggrFunc(typ, val, distinct, n1qlValue)`: a new accumulator seeded with `val`. -/
def NewAggrFunc (typ : AggrFuncType) (val : Delta) (distinct n1qlValue : Bool) : AggrFunc :=
  { typ := typ, distinct := distinct, n1qlValue := n1qlValue, deltas := [val] }

/-- `AggrFunc.AddDeltaObj`. -/
def AggrFunc.AddDeltaObj (fn : AggrFunc) (v : Option Value) : AggrFunc :=
  { fn with deltas := fn.deltas ++ [.obj v] }

/-- `AggrFunc.AddDelta`. -/
def AggrFunc.AddDelta (fn : AggrFunc) (v : Option Value) : AggrFunc :=
  { fn with deltas := fn.deltas ++ [.decoded v] }

/-- `AggrFunc.AddDeltaRaw`. -/
def AggrFunc.AddDeltaRaw (fn : AggrFunc) (b : Bytes) : AggrFunc :=
  { fn with deltas := fn.deltas ++ [.raw b] }

/-- The struct `groupKey` (lines 696-702). -/
structure groupKey where
  raw : Bytes
  obj : Option Value
  n1qlValue : Bool
  projectId : Int
  deriving Repr, DecidableEq

/-- The struct `aggrVal` (lines 704-716) as the request's scratch values carry it:
`computeAggrVal` fills these fields and `AddAggregate` reads them; `fn` is never set in a
scratch value. -/
structure aggrVal where
  raw : Bytes
  obj : Option Value
  decoded : Option Value
  typ : AggrFuncType
  projectId : Int
  distinct : Bool
  count : Int
  n1qlValue : Bool
  deriving Repr, DecidableEq

/-- The struct `aggrVal` as an entry of a row: `AddAggregate` creates it with `fn` and
`projectId` only, and reads nothing else of it. -/
structure rowAggr where
  fn : AggrFunc
  projectId : Int
  deriving Repr, DecidableEq

/-- The struct `aggrRow` (lines 718-722); an entry of `aggrs` is `nil` until
`AddAggregate` fills it. -/
structure aggrRow where
  groups : List groupKey
  aggrs : List (Option rowAggr)
  flush : Bool
  deriving Repr, DecidableEq

/-- The struct `aggrResult` (lines 724-728), without its unused boolean flag. -/
structure aggrResult where
  rows : List aggrRow
  maxRows : Int
  deriving Repr, DecidableEq

/-- `groupKey.Equals` (lines 1031-1037). For a scalar key the query library's
`EquivalentTo` decides; it is taken to be equality of the modelled values, and a `nil`
value, which the source never stores in a scalar key, panics. -/
def groupKey.Equals (gk ok : groupKey) : Exec Bool :=
  if gk.n1qlValue then
    match gk.obj, ok.obj with
    | some a, some b => .ret (decide (a = b))
    | _, _ => .panic
  else .ret (decide (gk.raw = ok.raw))

/-- The loop of `aggrRow.CheckEqualGroup` (lines 970-976) from index `i` on. -/
def aggrRow.CheckEqualGroup.loop (groups : List groupKey) : Nat → List groupKey → Exec Bool
  | _, [] => .ret true
  | i, gk :: rest =>
    match groups[i]? with
    | none => .panic
    | some ok =>
      (gk.Equals ok).bind fun eq =>
        if eq then aggrRow.CheckEqualGroup.loop groups (i + 1) rest else .ret false

/-- `aggrRow.CheckEqualGroup` (lines 968-977). -/
def aggrRow.CheckEqualGroup (ar : aggrRow) (groups : List groupKey) : Exec Bool :=
  aggrRow.CheckEqualGroup.loop groups 0 ar.groups

/-- The three-way choice of the channel that `AddAggregate` makes at each of its call
sites: the expression value, the decoded value for SUM, the raw bytes otherwise. -/
def aggrVal.delta (agg : aggrVal) : Delta :=
  if agg.n1qlValue then .obj agg.obj
  else if agg.typ = .AGG_SUM then .decoded agg.decoded
  else .raw agg.raw

/-- One call of `AddDeltaObj`, `AddDelta` or `AddDeltaRaw` with the input of `agg`
(lines 996-1004 and 1009-1015). -/
def AggrFunc.addInput (fn : AggrFunc) (agg : aggrVal) : AggrFunc :=
  if agg.n1qlValue then fn.AddDeltaObj agg.obj
  else if agg.typ = .AGG_SUM then fn.AddDelta agg.decoded
  else fn.AddDeltaRaw agg.raw

/-- The inner loop of `AddAggregate` (lines 1008-1016): `n` further inputs. -/
def AggrFunc.addInputs (agg : aggrVal) : Nat → AggrFunc → AggrFunc
  | 0, fn => fn
  | n + 1, fn => AggrFunc.addInputs agg n (fn.addInput agg)

/-- The body of the loop of `AddAggregate` for one input (lines 982-1017). -/
def aggrRow.AddAggregate.body (slot : Option rowAggr) (agg : aggrVal) : rowAggr :=
  let first : rowAggr :=
    match slot with
    | none =>
      if agg.n1qlValue then
        { fn := NewAggrFunc agg.typ (.obj agg.obj) agg.distinct true,
          projectId := agg.projectId }
      else if agg.typ = .AGG_SUM then
        { fn := NewAggrFunc agg.typ (.decoded agg.decoded) agg.distinct false,
          projectId := agg.projectId }
      else
        { fn := NewAggrFunc agg.typ (.raw agg.raw) agg.distinct false,
          projectId := agg.projectId }
    | some a => { a with fn := a.fn.addInput agg }
  if agg.count > 1 ∧
      (agg.typ = .AGG_SUM ∨ agg.typ = .AGG_COUNT ∨ agg.typ = .AGG_COUNTN) then
    { first with fn := AggrFunc.addInputs agg (agg.count - 1).toNat first.fn }
  else first

/-- The loop of `AddAggregate` from index `i` on: `ar.aggrs[i]` panics when the row has
no slot `i`. -/
def aggrRow.AddAggregate.loop :
    Nat → List aggrVal → List (Option rowAggr) → Exec (List (Option rowAggr))
  | _, [], slots => .ret slots
  | i, agg :: rest, slots =>
    match slots[i]? with
    | none => .panic
    | some slot =>
      aggrRow.AddAggregate.loop (i + 1) rest
        (slots.set i (some (aggrRow.AddAggregate.body slot agg)))

/-- `aggrRow.AddAggregate` (lines 979-1020); its error result is always nil. -/
def aggrRow.AddAggregate (ar : aggrRow) (aggrs : List aggrVal) : Exec aggrRow :=
  (aggrRow.AddAggregate.loop 0 aggrs ar.aggrs).bind fun slots =>
    .ret { ar with aggrs := slots }

/-- The number of inputs that the spec lets an aggregate input with count `n` stand for:
`n` for SUM, COUNT and COUNTN when `n > 1`, and one otherwise. -/
def aggrVal.deltaCount (agg : aggrVal) : Nat :=
  if agg.count > 1 ∧
      (agg.typ = .AGG_SUM ∨ agg.typ = .AGG_COUNT ∨ agg.typ = .AGG_COUNTN) then
    agg.count.toNat
  else 1

/-- The inputs that the accumulator of a slot has received: none for an empty slot. -/
def slotDeltas : Option rowAggr → List Delta
  | none => []
  | some a => a.fn.deltas

/-- `aggrRow.SetFlush` (lines 1022-1025). -/
def aggrRow.SetFlush (ar : aggrRow) (f : Bool) : aggrRow := { ar with flush := f }

/-- `aggrRow.Flush` (lines 1027-1029). -/
def aggrRow.Flush (ar : aggrRow) : Bool := ar.flush

/-- `aggrResult.SetMaxRows` (lines 964-966). -/
def aggrResult.SetMaxRows (a : aggrResult) (n : Int) : aggrResult := { a with maxRows := n }

/-- The search loop of `AddNewGroup` (lines 926-935): the rows with the incoming
aggregates added to the first row whose groups are equal, or `none` when no row
matches. -/
def aggrResult.AddNewGroup.find (groups : List groupKey) (aggrs : List aggrVal) :
    List aggrRow → Exec (Option (List aggrRow))
  | [] => .ret none
  | row :: rest =>
    (row.CheckEqualGroup groups).bind fun eq =>
      if eq then (row.AddAggregate aggrs).bind fun row2 => .ret (some (row2 :: rest))
      else
        (aggrResult.AddNewGroup.find groups aggrs rest).bind fun found =>
          .ret (found.map fun rows => row :: rows)

/-- The copy of an incoming group key that a new row holds (lines 941-949). -/
def groupKey.copy (g : groupKey) : groupKey :=
  if g.n1qlValue then { raw := [], obj := g.obj, n1qlValue := true, projectId := g.projectId }
  else { raw := g.raw, obj := none, n1qlValue := false, projectId := g.projectId }

/-- `aggrResult.AddNewGroup` (lines 913-962); its error result is always nil.
`ar.rows[0]` panics when a new row meets `len(ar.rows) >= ar.maxRows` with no row
buffered. -/
def aggrResult.AddNewGroup (ar : aggrResult) (groups : List groupKey) (aggrs : List aggrVal)
    (cacheValid : Bool) : Exec aggrResult :=
  match cacheValid, ar.rows with
  | true, [row] => (row.AddAggregate aggrs).bind fun row2 => .ret { ar with rows := [row2] }
  | _, _ =>
    (aggrResult.AddNewGroup.find groups aggrs ar.rows).bind fun found =>
      match found with
      | some rows => .ret { ar with rows := rows }
      | none =>
        let newRow : aggrRow :=
          { groups := groups.map groupKey.copy,
            aggrs := List.replicate aggrs.length none, flush := false }
        (newRow.AddAggregate aggrs).bind fun newRow2 =>
          if (ar.rows.length : Int) ≥ ar.maxRows then
            match ar.rows with
            | [] => .panic
            | first :: rest =>
              .ret { ar with rows := (first.SetFlush true :: rest) ++ [newRow2] }
          else .ret { ar with rows := ar.rows ++ [newRow2] }

/-- Lines 1084-1095 of `projectGroupAggr`: the first flushed row, removed from the rows,
or `none` when no row is flushed. The rest of the function encodes the row that was
taken and does not touch the result. -/
def projectGroupAggr.takeRow : List aggrRow → Option (aggrRow × List aggrRow)
  | [] => none
  | row :: rest =>
    if row.Flush then some (row, rest)
    else (projectGroupAggr.takeRow rest).map fun x => (x.1, row :: x.2)

/-- The per-entry step of the callback on the rows of the result (lines 221 and 230):
`AddNewGroup`, then `projectGroupAggr`; the second component is the row that is
projected and emitted, if any. -/
def aggrStep (ar : aggrResult) (groups : List groupKey) (aggrs : List aggrVal)
    (cacheValid : Bool) : Exec (aggrResult × Option aggrRow) :=
  (ar.AddNewGroup groups aggrs cacheValid).bind fun ar2 =>
    match projectGroupAggr.takeRow ar2.rows with
    | none => .ret (ar2, none)
    | some x => .ret ({ ar2 with rows := x.2 }, some x.1)

/-- One incoming entry of the aggregate code: its group keys, its aggregate inputs and
whether the entry cache was valid for it. -/
structure AggrInput where
  groups : List groupKey
  aggrs : List aggrVal
  cacheValid : Bool
  deriving Repr, DecidableEq

/-- The per-entry steps over a sequence of entries: the result and the rows emitted, in
order. -/
def aggrSteps : aggrResult → List AggrInput → Exec (aggrResult × List aggrRow)
  | ar, [] => .ret (ar, [])
  | ar, x :: rest =>
    (aggrStep ar x.groups x.aggrs x.cacheValid).bind fun s =>
      (aggrSteps s.1 rest).bind fun t => .ret (t.1, s.2.toList ++ t.2)

/-- Lines 308-310 of the flush tail: every buffered row is flagged. -/
def aggrResult.flushAll (ar : aggrResult) : aggrResult :=
  { ar with rows := ar.rows.map fun row => row.SetFlush true }

/-- The rows that repeated calls of `projectGroupAggr.takeRow` take out of a list of
rows, in order, until no flagged row is left or `fuel` calls are made. The flush tail
itself, with the encoding of the rows, the writes and the tests of offset and limit, is
`flushTail`. -/
def drainRows : Nat → List aggrRow → List aggrRow
  | 0, _ => []
  | fuel + 1, rows =>
    match projectGroupAggr.takeRow rows with
    | none => []
    | some x => x.1 :: drainRows fuel x.2

/-! ## Group/aggregate: computing the inputs of an entry -/

/-- Modelled from the spec: the request's description of one group key (`GroupKey`,
declared outside this excerpt): a composite position `KeyPos`, or (for a negative
`KeyPos`) an expression with an optional precomputed constant. -/
structure GroupKey where
  EntryKeyId : Int
  KeyPos : Int
  Expr : Nat
  ExprValue : Option Value
  deriving Repr, DecidableEq

/-- Modelled from the spec: the request's description of one aggregate (`Aggregate`,
declared outside this excerpt). -/
structure Aggregate where
  AggrFunc : AggrFuncType
  EntryKeyId : Int
  KeyPos : Int
  Expr : Nat
  ExprValue : Option Value
  Distinct : Bool
  deriving Repr, DecidableEq

/-- Modelled from the spec: the fields of `GroupAggr` (declared outside this excerpt) that
the embedded code reads, the scratch slices `groups` and `aggrs` that it writes, and
`covers`, the covers set on the annotated value `av`, each under the name of its index
key. -/
structure GroupAggr where
  Group : List GroupKey
  Aggrs : List Aggregate
  DependsOnIndexKeys : List Int
  IndexKeyNames : List Nat
  IsLeadingGroup : Bool
  IsPrimary : Bool
  NeedDecode : Bool
  NeedExplode : Bool
  DependsOnPrimaryKey : Bool
  groups : List groupKey
  aggrs : List aggrVal
  covers : List (Nat × Value)
  deriving Repr, DecidableEq

/-- The index expression `l[i]` for an `int` index: `none` stands for the panic. -/
def getAt {α : Type} (l : List α) (i : Int) : Option α :=
  if 0 ≤ i then l[i.toNat]? else none

/-- `value.NewValue` of an `interface{}`: `nil` becomes the JSON null. -/
def NewValue : Option Value → Value
  | none => .null
  | some v => v

/-- `av.SetCover(name, v)`: the cover of `name` is replaced. -/
def setCover (covers : List (Nat × Value)) (name : Nat) (v : Value) : List (Nat × Value) :=
  (name, v) :: covers.filter fun c => c.1 ≠ name

/-- Lines 888-894 of `evaluateN1QLExpresssion` and 840-846 of `computeAggrVal`: the
decoded value of component `pos`, unmarshalled and stored in `decodedvalues` when the
slot is `nil`. The result is the error of `unmarshalValue` or the value, with the
updated `decodedvalues`. -/
def decodedValueAt (env : Env) (decodedkeys : Option (List Bytes))
    (decodedvalues : List (Option Value)) (pos : Int) :
    Exec (Option Error × Option Value × List (Option Value)) :=
  match getAt decodedvalues pos with
  | none => .panic
  | some (some v) => .ret (none, some v, decodedvalues)
  | some none =>
    match getAt (decodedkeys.getD []) pos with
    | none => .panic
    | some text =>
      match env.jsonUnmarshal text with
      | (_, some e) => .ret (some e, none, decodedvalues)
      | (actualVal, none) => .ret (none, actualVal, decodedvalues.set pos.toNat actualVal)

/-- The loops over `DependsOnIndexKeys` of `evaluateN1QLExpresssion` (lines 879-898). -/
def evaluateN1QLExpresssion.covers (env : Env) (groupAggr : GroupAggr)
    (decodedkeys : Option (List Bytes)) (docid : Bytes) :
    List Int → List (Option Value) → List (Nat × Value) →
      Exec (Option Error × List (Option Value) × List (Nat × Value))
  | [], decodedvalues, covers => .ret (none, decodedvalues, covers)
  | ik :: rest, decodedvalues, covers =>
    if groupAggr.IsPrimary ∨ ik = ((decodedkeys.getD []).length : Int) then
      match getAt groupAggr.IndexKeyNames ik with
      | none => .panic
      | some name =>
        evaluateN1QLExpresssion.covers env groupAggr decodedkeys docid rest decodedvalues
          (setCover covers name (.string docid))
    else
      (decodedValueAt env decodedkeys decodedvalues ik).bind fun d =>
        match d.1 with
        | some e => .ret (some e, d.2.2, covers)
        | none =>
          match getAt groupAggr.IndexKeyNames ik with
          | none => .panic
          | some name =>
            evaluateN1QLExpresssion.covers env groupAggr decodedkeys docid rest d.2.2
              (setCover covers name (NewValue d.2.1))

/-- `evaluateN1QLExpresssion` (lines 876-911), without the timing statistics: the scalar,
the error, and the updated `decodedvalues` and covers. -/
def evaluateN1QLExpresssion (env : Env) (groupAggr : GroupAggr) (expr : Nat)
    (decodedkeys : Option (List Bytes)) (decodedvalues : List (Option Value))
    (docid : Bytes) :
    Exec (Option Value × Option Error × List (Option Value) × List (Nat × Value)) :=
  (evaluateN1QLExpresssion.covers env groupAggr decodedkeys docid
      groupAggr.DependsOnIndexKeys decodedvalues groupAggr.covers).bind fun c =>
    match c.1 with
    | some e => .ret (none, some e, c.2.1, c.2.2)
    | none =>
      match env.EvaluateForIndex expr c.2.2 with
      | (_, some e) => .ret (none, some e, c.2.1, c.2.2)
      | (scalar, none) => .ret (scalar, none, c.2.1, c.2.2)

/-- What `computeGroupKey` and `computeAggrVal` return and leave behind: the error, the
request's `GroupAggr` with its scratch values, and the cache's `decodedvalues`. -/
structure ComputeResult where
  err : Option Error
  groupAggr : GroupAggr
  decodedvalues : List (Option Value)
  deriving Repr, DecidableEq

/-- `computeGroupKey` (lines 806-831). -/
def computeGroupKey (env : Env) (groupAggr : GroupAggr) (gk : GroupKey)
    (compositekeys decodedkeys : Option (List Bytes)) (decodedvalues : List (Option Value))
    (docid : Bytes) (pos : Nat) : Exec ComputeResult :=
  match groupAggr.groups[pos]? with
  | none => .panic
  | some g =>
    if gk.KeyPos ≥ 0 then
      match getAt (compositekeys.getD []) gk.KeyPos with
      | none => .panic
      | some ck =>
        .ret { err := none,
               groupAggr := { groupAggr with
                 groups := groupAggr.groups.set pos
                   { g with raw := ck, projectId := gk.EntryKeyId } },
               decodedvalues := decodedvalues }
    else
      let scalar : Exec (Option Value × Option Error × List (Option Value)
          × List (Nat × Value)) :=
        match gk.ExprValue with
        | some v => .ret (some v, none, decodedvalues, groupAggr.covers)
        | none => evaluateN1QLExpresssion env groupAggr gk.Expr decodedkeys decodedvalues docid
      scalar.bind fun x =>
        match x.2.1 with
        | some e =>
          .ret { err := some e, groupAggr := { groupAggr with covers := x.2.2.2 },
                 decodedvalues := x.2.2.1 }
        | none =>
          .ret { err := none,
                 groupAggr := { groupAggr with
                   covers := x.2.2.2
                   groups := groupAggr.groups.set pos
                     { g with obj := x.1, projectId := gk.EntryKeyId, n1qlValue := true } },
                 decodedvalues := x.2.2.1 }

/-- `computeAggrVal` (lines 833-874). -/
def computeAggrVal (env : Env) (groupAggr : GroupAggr) (ak : Aggregate)
    (compositekeys decodedkeys : Option (List Bytes)) (decodedvalues : List (Option Value))
    (docid : Bytes) (count : Int) (pos : Nat) : Exec ComputeResult :=
  match groupAggr.aggrs[pos]? with
  | none => .panic
  | some a =>
    let finish (a2 : aggrVal) (covers : List (Nat × Value)) (dv : List (Option Value)) :
        ComputeResult :=
      { err := none,
        groupAggr := { groupAggr with
          covers := covers
          aggrs := groupAggr.aggrs.set pos
            { a2 with typ := ak.AggrFunc, projectId := ak.EntryKeyId,
                      distinct := ak.Distinct, count := count } },
        decodedvalues := dv }
    if ak.KeyPos ≥ 0 then
      if ak.AggrFunc = .AGG_SUM ∧ ¬ groupAggr.IsPrimary then
        (decodedValueAt env decodedkeys decodedvalues ak.KeyPos).bind fun d =>
          match d.1 with
          | some e => .ret { err := some e, groupAggr := groupAggr, decodedvalues := d.2.2 }
          | none => .ret (finish { a with decoded := d.2.1 } groupAggr.covers d.2.2)
      else
        match getAt (compositekeys.getD []) ak.KeyPos with
        | none => .panic
        | some ck => .ret (finish { a with raw := ck } groupAggr.covers decodedvalues)
    else
      let scalar : Exec (Option Value × Option Error × List (Option Value)
          × List (Nat × Value)) :=
        match ak.ExprValue with
        | some v => .ret (some v, none, decodedvalues, groupAggr.covers)
        | none => evaluateN1QLExpresssion env groupAggr ak.Expr decodedkeys decodedvalues docid
      scalar.bind fun x =>
        match x.2.1 with
        | some e =>
          .ret { err := some e, groupAggr := { groupAggr with covers := x.2.2.2 },
                 decodedvalues := x.2.2.1 }
        | none => .ret (finish { a with obj := x.1, n1qlValue := true } x.2.2.2 x.2.2.1)

/-- The loop over `groupAggr.Group` of `computeGroupAggr` (lines 786-791), from position
`i` on. -/
def computeGroupAggr.groupLoop (env : Env) (compositekeys decodedkeys : Option (List Bytes))
    (docid : Bytes) : Nat → List GroupKey → GroupAggr → List (Option Value) → Exec ComputeResult
  | _, [], groupAggr, dv => .ret { err := none, groupAggr := groupAggr, decodedvalues := dv }
  | i, gk :: rest, groupAggr, dv =>
    (computeGroupKey env groupAggr gk compositekeys decodedkeys dv docid i).bind fun c =>
      match c.err with
      | some e => .ret { c with err := some e }
      | none =>
        computeGroupAggr.groupLoop env compositekeys decodedkeys docid (i + 1) rest
          c.groupAggr c.decodedvalues

/-- The loop over `groupAggr.Aggrs` of `computeGroupAggr` (lines 793-798), from position
`i` on. -/
def computeGroupAggr.aggrLoop (env : Env) (compositekeys decodedkeys : Option (List Bytes))
    (docid : Bytes) (count : Int) :
    Nat → List Aggregate → GroupAggr → List (Option Value) → Exec ComputeResult
  | _, [], groupAggr, dv => .ret { err := none, groupAggr := groupAggr, decodedvalues := dv }
  | i, ak :: rest, groupAggr, dv =>
    (computeAggrVal env groupAggr ak compositekeys decodedkeys dv docid count i).bind fun c =>
      match c.err with
      | some e => .ret { c with err := some e }
      | none =>
        computeGroupAggr.aggrLoop env compositekeys decodedkeys docid count (i + 1) rest
          c.groupAggr c.decodedvalues

/-- What `computeGroupAggr` returns and leaves behind. -/
structure GroupAggrResult where
  err : Option Error
  aggrRes : aggrResult
  groupAggr : GroupAggr
  cachedEntry : entryCache
  cktmp : List Bytes
  dktmp : Option (List Bytes)
  deriving Repr, DecidableEq

/-- Lines 759-783 of `computeGroupAggr`: the composite and decoded keys of the entry,
from the caller, from the cache or from `ExplodeArray2`. -/
def computeGroupAggr.keys (env : Env) (compositekeys decodedkeys : Option (List Bytes))
    (key buf decbuf : Bytes) (groupAggr : GroupAggr) (cktmp : List Bytes)
    (dktmp : Option (List Bytes)) (cachedEntry : entryCache) :
    Exec (Option Error × Option (List Bytes) × Option (List Bytes) × entryCache
      × List Bytes × Option (List Bytes)) :=
  if groupAggr.IsPrimary then
    .ret (none, some [key], decodedkeys, cachedEntry, cktmp, dktmp)
  else if compositekeys.isNone ∧ groupAggr.NeedExplode then
    let looked : Exec (Option (List Bytes) × Option (List Bytes) × entryCache) :=
      if cachedEntry.Exists then
        (cachedEntry.EqualsEntry env key).bind fun eq =>
          if eq then .ret (cachedEntry.Get.1, cachedEntry.Get.2, cachedEntry.SetValid true)
          else .ret (compositekeys, decodedkeys, cachedEntry.SetValid false)
      else .ret (compositekeys, decodedkeys, cachedEntry.Init env groupAggr.NeedDecode)
    looked.bind fun l =>
      if !l.2.2.Valid then
        (ExplodeArray2 env.jsonEncoder key buf decbuf cktmp dktmp).bind fun x =>
          let cktmp2 := x.1.getD cktmp
          let dktmp2 := if x.1.isSome then x.2.1 else dktmp
          match x.2.2 with
          | some e => .ret (some e, x.1, x.2.1, l.2.2, cktmp2, dktmp2)
          | none =>
            (l.2.2.Update key (x.1.getD []) x.2.1).bind fun cache =>
              .ret (none, x.1, x.2.1, cache, cktmp2, dktmp2)
      else .ret (none, l.1, l.2.1, l.2.2, cktmp, dktmp)
  else .ret (none, compositekeys, decodedkeys, cachedEntry, cktmp, dktmp)

/-- `computeGroupAggr` (lines 754-804). -/
def computeGroupAggr (env : Env) (compositekeys decodedkeys : Option (List Bytes))
    (count : Int) (docid key buf decbuf : Bytes) (aggrRes : aggrResult)
    (groupAggr : GroupAggr) (cktmp : List Bytes) (dktmp : Option (List Bytes))
    (cachedEntry : entryCache) : Exec GroupAggrResult :=
  (computeGroupAggr.keys env compositekeys decodedkeys key buf decbuf groupAggr cktmp dktmp
      cachedEntry).bind fun k =>
    let cache := k.2.2.2.1
    let stop (e : Error) (ga : GroupAggr) (c : entryCache) : GroupAggrResult :=
      { err := some e, aggrRes := aggrRes, groupAggr := ga, cachedEntry := c,
        cktmp := k.2.2.2.2.1, dktmp := k.2.2.2.2.2 }
    match k.1 with
    | some e => .ret (stop e groupAggr cache)
    | none =>
      let computed : Exec ComputeResult :=
        if !cache.Valid || groupAggr.DependsOnPrimaryKey then
          (computeGroupAggr.groupLoop env k.2.1 k.2.2.1 docid 0 groupAggr.Group groupAggr
              cache.decodedvalues).bind fun g =>
            match g.err with
            | some e => .ret { g with err := some e }
            | none =>
              computeGroupAggr.aggrLoop env k.2.1 k.2.2.1 docid count 0 groupAggr.Aggrs
                g.groupAggr g.decodedvalues
        else .ret { err := none, groupAggr := groupAggr, decodedvalues := cache.decodedvalues }
      computed.bind fun c =>
        let cache2 := { cache with decodedvalues := c.decodedvalues }
        match c.err with
        | some e => .ret (stop e c.groupAggr cache2)
        | none =>
          (aggrRes.AddNewGroup c.groupAggr.groups c.groupAggr.aggrs cache2.Valid).bind
            fun ar =>
              .ret { err := none, aggrRes := ar, groupAggr := c.groupAggr,
                     cachedEntry := cache2, cktmp := k.2.2.2.2.1, dktmp := k.2.2.2.2.2 }

/-! ## `encodeString` (js_evaluate.go) -/

/-- `encodeString` (js_evaluate.go lines 132-142): every byte of `s` is appended to
`code`, a zero byte is followed by a byte 1, and a zero byte ends the string. -/
def encodeString (s code : Bytes) : Bytes :=
  (s.foldl (fun code x => if x = 0 then (code ++ [x]) ++ [1] else code ++ [x]) code) ++ [0]

/-- The bytes of `s` with a byte 1 inserted after every zero byte, as the spec words the
escaping. -/
def escapeZeros : Bytes → Bytes
  | [] => []
  | x :: xs => if x = 0 then 0 :: 1 :: escapeZeros xs else x :: escapeZeros xs

/-! ## The writer stage -/

/-- What `IndexScanWriter.Routine` calls but does not define in this excerpt: the
pipeline's `ErrNoMoreItem`, the test `err.Error() == c.ErrClientCancel.Error()` on the
text of an error, and the response writer's `Row`, which is given the calls made so far,
the primary key and the secondary key and returns an error or nil. -/
structure WriterEnv where
  ErrNoMoreItem : Error
  isClientCancel : Error → Bool
  Row : List (Bytes × Bytes) → Bytes → Bytes → Option Error

/-- The loop of `IndexScanWriter.Routine` (lines 427-462) over the results of the
successive `ReadItem` calls, with the calls of `Row` made so far: the final value of the
variable `err` and the calls of `Row`, each as (primary key, secondary key). A read beyond
the results supplied does not return. -/
def IndexScanWriter.loop (w : WriterEnv) :
    List (Bytes × Option Error) → List (Bytes × Bytes) →
      Exec (Option Error × List (Bytes × Bytes))
  | [], _ => .diverge
  | (_, some e) :: _, rows =>
    if e = w.ErrNoMoreItem then .ret (none, rows) else .ret (some e, rows)
  | [(_, none)], _ => .diverge
  | (_, none) :: (_, some e) :: _, rows => .ret (some e, rows)
  | (sk, none) :: (pk, none) :: rest, rows =>
    match w.Row rows pk sk with
    | some e => .ret (some e, rows ++ [(pk, sk)])
    | none => IndexScanWriter.loop w rest (rows ++ [(pk, sk)])

/-- What a run of the writer stage has done: the calls of `Row`, the calls of `Error` and
the error returned. -/
structure WriterRun where
  rows : List (Bytes × Bytes)
  errors : List Error
  err : Option Error
  deriving Repr, DecidableEq

/-- `IndexScanWriter.Routine` (lines 416-466): the loop, then the deferred function, which
reads the variable `err`. -/
def IndexScanWriter.Routine (w : WriterEnv) (reads : List (Bytes × Option Error)) :
    Exec WriterRun :=
  (IndexScanWriter.loop w reads []).bind fun x =>
    .ret { rows := x.2
           errors :=
             match x.1 with
             | some e => if w.isClientCancel e then [] else [e]
             | none => []
           err := x.1 }

/-- The read results of complete pairs: for each pair first the secondary key, then the
document id, both read without error. -/
def pairReads (pairs : List (Bytes × Bytes)) : List (Bytes × Option Error) :=
  (pairs.map fun p => [(p.1, none), (p.2, none)]).flatten

/-- The calls of `Row` for the pairs, each as (document id, secondary key). -/
def rowCalls (pairs : List (Bytes × Bytes)) : List (Bytes × Bytes) :=
  pairs.map fun p => (p.2, p.1)

/-- The response writer accepts the pairs one after the other, after the calls `done`. -/
def rowsAccepted (w : WriterEnv) : List (Bytes × Bytes) → List (Bytes × Bytes) → Bool
  | _, [] => true
  | done, p :: rest =>
    (w.Row done p.2 p.1).isNone && rowsAccepted w (done ++ [(p.2, p.1)]) rest

/-- A sample writer environment: `ErrNoMoreItem` is `other 0`, the text of `other 9` is
that of the client-cancel error, and `Row` accepts every row. -/
def sampleWriterEnv : WriterEnv :=
  { ErrNoMoreItem := .other 0
    isClientCancel := fun e => decide (e = .other 9)
    Row := fun _ _ _ => none }

/-! ## Projection -/

/-- Modelled from the spec: one slot of a group/aggregate projection (declared outside
this excerpt): a position among the group keys (`grpKey`) or among the aggregates. -/
structure projGroup where
  pos : Int
  grpKey : Bool
  deriving Repr, DecidableEq

/-- Modelled from the spec: the fields of `Projection` (declared outside this excerpt)
that the embedded code reads. -/
structure Projection where
  projectSecKeys : Bool
  projectionKeys : List Bool
  entryKeysEmpty : Bool
  projectGroupKeys : List projGroup
  deriving Repr, DecidableEq

/-- The package variable `encodedNull` (line 30). -/
def encodedNull : Bytes := [2, 0]

/-- The package variable `encodedZero` (line 31). -/
def encodedZero : Bytes := [5, 48, 0]

/-- The loop over the projection slots of `projectEmptyResult` (lines 1056-1059):
`aggrs[projGroup.pos]` panics when the position is out of range. -/
def projectEmptyResult.collect (aggrs : List Bytes) :
    List projGroup → List Bytes → Exec (List Bytes)
  | [], keysToJoin => .ret keysToJoin
  | pg :: rest, keysToJoin =>
    match getAt aggrs pg.pos with
    | none => .panic
    | some a => projectEmptyResult.collect aggrs rest (keysToJoin ++ [a])

/-- `projectEmptyResult` (lines 1039-1076); the read of a field of a `nil` projection
panics. -/
def projectEmptyResult (env : Env) (buf : Bytes) (projection : Option Projection)
    (groupAggr : GroupAggr) : Exec (Option Bytes × Option Error) :=
  if groupAggr.Group.length = 0 then
    let aggrs := groupAggr.Aggrs.map fun ak =>
      if ak.AggrFunc = .AGG_COUNT ∨ ak.AggrFunc = .AGG_COUNTN then encodedZero
      else encodedNull
    match projection with
    | none => .panic
    | some proj =>
      (projectEmptyResult.collect aggrs proj.projectGroupKeys []).bind fun keysToJoin =>
        (JoinArray env.jsonEncoder keysToJoin buf).bind fun j =>
          match j.2 with
          | some e => .ret (none, some e)
          | none => .ret (j.1, none)
  else .ret (none, none)

/-- The loop over `projection.projectionKeys` of `projectKeys` (lines 648-653) from index
`i` on: `compositekeys[i]` panics when the index is out of range. -/
def projectKeys.collect (compositekeys : List Bytes) :
    Nat → List Bool → List Bytes → Exec (List Bytes)
  | _, [], keysToJoin => .ret keysToJoin
  | i, projectKey :: rest, keysToJoin =>
    if projectKey then
      match compositekeys[i]? with
      | none => .panic
      | some ck => projectKeys.collect compositekeys (i + 1) rest (keysToJoin ++ [ck])
    else projectKeys.collect compositekeys (i + 1) rest keysToJoin

/-- `projectKeys` (lines 632-664): the projected entry, the error, and the caller's
`cktmp`, which `ExplodeArray2` writes in place. -/
def projectKeys (env : Env) (compositekeys : Option (List Bytes)) (key buf : Bytes)
    (projection : Projection) (cktmp : List Bytes) :
    Exec (Option Bytes × Option Error × List Bytes) :=
  if projection.entryKeysEmpty then
    (sliceFrom key (env.lenKey key)).bind fun tail => .ret (some (buf ++ tail), none, cktmp)
  else
    let exploded : Exec (Option (List Bytes) × Option Error × List Bytes) :=
      match compositekeys with
      | some ck => .ret (some ck, none, cktmp)
      | none =>
        (ExplodeArray2 env.jsonEncoder key buf [] cktmp none).bind fun x =>
          .ret (x.1, x.2.2, x.1.getD cktmp)
    exploded.bind fun x =>
      match x.2.1 with
      | some e => .ret (none, some e, x.2.2)
      | none =>
        (projectKeys.collect (x.1.getD []) 0 projection.projectionKeys []).bind
          fun keysToJoin =>
            (JoinArray env.jsonEncoder keysToJoin buf).bind fun j =>
              match j.2 with
              | some e => .ret (none, some e, x.2.2)
              | none =>
                (sliceFrom key (env.lenKey key)).bind fun tail =>
                  .ret (some (j.1.getD [] ++ tail), none, x.2.2)

/-- `projectLeadingKey` (lines 666-688). The buffer `*buf` is passed on with length 0,
so only its capacity is read, and the function leaves its result in it; the result and
the error are embedded. -/
def projectLeadingKey (env : Env) (compositekeys : Option (List Bytes)) (key : Bytes) :
    Exec (Option Bytes × Option Error) :=
  let exploded : Exec (Option (List Bytes) × Option Error) :=
    match compositekeys with
    | some ck => .ret (some ck, none)
    | none => ExplodeArray env.jsonEncoder key []
  exploded.bind fun x =>
    match x.2 with
    | some e => .ret (none, some e)
    | none =>
      match (x.1.getD [])[0]? with
      | none => .panic
      | some c0 =>
        (JoinArray env.jsonEncoder [c0] []).bind fun j =>
          match j.2 with
          | some e => .ret (none, some e)
          | none =>
            (sliceFrom key (env.lenKey key)).bind fun tail =>
              .ret (some (j.1.getD [] ++ tail), none)

/-- The components with a set projection flag, in index order, as the spec words the
selection. -/
def selectKeys (elems : List Bytes) (flags : List Bool) : List Bytes :=
  ((elems.zip flags).filter fun p => p.2).map fun p => p.1

/-- The result of `fn.Value()` of an accumulator, an `interface{}`: bytes, a
`value.Value`, or a value of another type. -/
inductive AggrValue where
  | bytes (b : Bytes)
  | value (v : Value)
  | other
  deriving Repr, DecidableEq

/-- The argument of `encodeValue`, an `interface{}`: `string(raw)`, the value of an
accumulator, or `v.ActualForIndex()`. -/
inductive EncodeArg where
  | str (s : Bytes)
  | aggr (v : AggrValue)
  | actual (v : Value)
  deriving Repr, DecidableEq

/-- What `projectGroupAggr` calls but does not define in this excerpt:
`jsonEncoder.EncodeN1QLValue` into a fresh buffer, `encodeValue`, `fn.Value()` and
`isEncodedNull`. -/
structure AggrEnv where
  EncodeN1QLValue : Option Value → Bytes × Option Error
  encodeValue : EncodeArg → Bytes × Option Error
  fnValue : AggrFunc → AggrValue
  isEncodedNull : Bytes → Bool

/-- The loop over the projection slots of `projectGroupAggr` (lines 1097-1158): the keys
to join, or the error of an encoder. An index out of range and an empty aggregate slot
panic. -/
def projectGroupAggr.encode (aenv : AggrEnv) (row : aggrRow) (isPrimary : Bool) :
    List projGroup → List Bytes → Exec (Option Error × List Bytes)
  | [], keysToJoin => .ret (none, keysToJoin)
  | pg :: rest, keysToJoin =>
    if pg.grpKey then
      match getAt row.groups pg.pos with
      | none => .panic
      | some gk =>
        if gk.n1qlValue then
          match aenv.EncodeN1QLValue gk.obj with
          | (_, some e) => .ret (some e, keysToJoin)
          | (newKey, none) =>
            projectGroupAggr.encode aenv row isPrimary rest (keysToJoin ++ [newKey])
        else if isPrimary then
          match aenv.encodeValue (.str gk.raw) with
          | (_, some e) => .ret (some e, keysToJoin)
          | (val, none) =>
            projectGroupAggr.encode aenv row isPrimary rest (keysToJoin ++ [val])
        else projectGroupAggr.encode aenv row isPrimary rest (keysToJoin ++ [gk.raw])
    else
      match getAt row.aggrs pg.pos with
      | none => .panic
      | some none => .panic
      | some (some a) =>
        if a.fn.typ = .AGG_SUM ∨ a.fn.typ = .AGG_COUNT ∨ a.fn.typ = .AGG_COUNTN then
          match aenv.encodeValue (.aggr (aenv.fnValue a.fn)) with
          | (_, some e) => .ret (some e, keysToJoin)
          | (val, none) =>
            projectGroupAggr.encode aenv row isPrimary rest (keysToJoin ++ [val])
        else
          match aenv.fnValue a.fn with
          | .bytes v =>
            if isPrimary ∧ ¬ aenv.isEncodedNull v then
              match aenv.encodeValue (.str v) with
              | (_, some e) => .ret (some e, keysToJoin)
              | (val, none) =>
                projectGroupAggr.encode aenv row isPrimary rest (keysToJoin ++ [val])
            else projectGroupAggr.encode aenv row isPrimary rest (keysToJoin ++ [v])
          | .value v =>
            match aenv.encodeValue (.actual v) with
            | (_, some e) => .ret (some e, keysToJoin)
            | (eval, none) =>
              projectGroupAggr.encode aenv row isPrimary rest (keysToJoin ++ [eval])
          | .other => projectGroupAggr.encode aenv row isPrimary rest keysToJoin

/-- What `projectGroupAggr` returns and leaves in the result. -/
structure ProjectAggrResult where
  entry : Option Bytes
  err : Option Error
  aggrRes : aggrResult
  deriving Repr, DecidableEq

/-- `projectGroupAggr` (lines 1078-1166); the read of a field of a `nil` projection
panics. -/
def projectGroupAggr (env : Env) (aenv : AggrEnv) (buf : Bytes)
    (projection : Option Projection) (aggrRes : aggrResult) (isPrimary : Bool) :
    Exec ProjectAggrResult :=
  match projectGroupAggr.takeRow aggrRes.rows with
  | none => .ret { entry := none, err := none, aggrRes := aggrRes }
  | some x =>
    let aggrRes2 : aggrResult := { aggrRes with rows := x.2 }
    match projection with
    | none => .panic
    | some proj =>
      (projectGroupAggr.encode aenv x.1 isPrimary proj.projectGroupKeys []).bind fun k =>
        match k.1 with
        | some e => .ret { entry := none, err := some e, aggrRes := aggrRes2 }
        | none =>
          (JoinArray env.jsonEncoder k.2 buf).bind fun j =>
            match j.2 with
            | some e => .ret { entry := none, err := some e, aggrRes := aggrRes2 }
            | none => .ret { entry := j.1, err := none, aggrRes := aggrRes2 }

/-- What the flush tail leaves behind: the emission state, the result, and the error
handed to `CloseWithError`, if any. -/
structure TailResult where
  emit : EmitState
  aggrRes : aggrResult
  closed : Option Error
  deriving Repr, DecidableEq

/-- The loop of the flush tail (lines 312-362). Every iteration that goes on has taken a
row out of the result, so `fuel` beyond the number of rows is never used up. -/
def flushTail.loop (env : Env) (aenv : AggrEnv) (r : ScanRequest)
    (projection : Option Projection) (groupAggr : GroupAggr) :
    Nat → aggrResult → EmitState → Exec TailResult
  | 0, _, _ => .diverge
  | fuel + 1, ar, st =>
    (projectGroupAggr env aenv [] projection ar r.isPrimary).bind fun p =>
      match p.err with
      | some e => .ret { emit := st, aggrRes := p.aggrRes, closed := some e }
      | none =>
        match p.entry with
        | none =>
          if st.rowsReturned = 0 then
            (projectEmptyResult env [] projection groupAggr).bind fun q =>
              match q.2 with
              | some e => .ret { emit := st, aggrRes := p.aggrRes, closed := some e }
              | none =>
                match q.1 with
                | none => .ret { emit := st, aggrRes := p.aggrRes, closed := none }
                | some entry =>
                  let st1 := { st with rowsReturned := (st.rowsReturned + 1) % 2 ^ 64 }
                  match env.WriteItem st1.written entry with
                  | some wrErr =>
                    .ret { emit := st1, aggrRes := p.aggrRes, closed := some wrErr }
                  | none =>
                    .ret { emit := { st1 with written := st1.written ++ [entry] },
                           aggrRes := p.aggrRes, closed := none }
          else .ret { emit := st, aggrRes := p.aggrRes, closed := none }
        | some entry =>
          if st.currOffset ≥ r.Offset then
            let st1 := { st with rowsReturned := (st.rowsReturned + 1) % 2 ^ 64 }
            match env.WriteItem st1.written entry with
            | some wrErr => .ret { emit := st1, aggrRes := p.aggrRes, closed := some wrErr }
            | none =>
              let st2 := { st1 with written := st1.written ++ [entry] }
              if st2.rowsReturned = toUint64 r.Limit then
                .ret { emit := st2, aggrRes := p.aggrRes, closed := none }
              else flushTail.loop env aenv r projection groupAggr fuel p.aggrRes st2
          else
            flushTail.loop env aenv r projection groupAggr fuel p.aggrRes
              { st with currOffset := st.currOffset + 1 }

/-- The flush tail of `IndexScanSource.Routine` (lines 306-363), entered when
group/aggregate was requested and the scans ended without error: every buffered row is
flagged, then the loop runs. -/
def flushTail (env : Env) (aenv : AggrEnv) (r : ScanRequest)
    (projection : Option Projection) (groupAggr : GroupAggr) (ar : aggrResult)
    (st : EmitState) : Exec TailResult :=
  flushTail.loop env aenv r projection groupAggr (ar.rows.length + 1) ar.flushAll st

/-! ## The per-entry callback of the source -/

/-- What the callback calls but does not define in this excerpt:
`jsonEncoder.ReverseCollate` with the index's `Desc`, `secondaryIndexEntry.Count`,
`secondaryIndexEntry.ReadDocId`, and the constant `SCAN_ROLLBACK_ERROR_BATCHSIZE`. -/
structure SourceEnv where
  ReverseCollate : Bytes → Bytes
  Count : Bytes → Int
  ReadDocId : Bytes → Bytes × Option Error
  batchSize : Nat

/-- The fields of the request, beyond those of `ScanRequest`, that the callback reads and
never writes: `Indexprojection` and `IndexInst.Defn.HasDescending()`. -/
structure SourceConfig where
  r : ScanRequest
  Indexprojection : Option Projection
  hasDesc : Bool
  deriving Repr, DecidableEq

/-- The variables of `Routine` and the fields of the request and of the pipeline that the
body of the callback reads and writes, the two counters apart: `count`, the capacity of
`*buf`, `*buf3`, `cktmp`, `dktmp`, `cachedEntry`, `r.GroupAggr` with its scratch values,
`s.p.aggrRes`, and the variables of the emission code. -/
structure ScanVars where
  count : Int
  bufCap : Nat
  buf3 : Bytes
  cktmp : List Bytes
  dktmp : Option (List Bytes)
  cachedEntry : entryCache
  groupAggr : Option GroupAggr
  aggrRes : aggrResult
  emit : EmitState
  deriving Repr, DecidableEq

/-- The state of the callback: `iterCount` (an `int`, 64 bits wide, whose increment wraps
around), `s.p.rowsScanned` (a `uint64`) and the other variables. -/
structure SourceState where
  iterCount : Int
  rowsScanned : Nat
  vars : ScanVars
  deriving Repr, DecidableEq

/-- Lines 183-194 of the callback: the filter of a `FilterRangeReq` scan. The results are
the variables, `skipRow`, `ck`, `dk` and `err`. -/
def IndexScanSource.filter (env : Env) (cfg : SourceConfig) (currentScan : Scan)
    (entry : Bytes) (v : ScanVars) :
    Exec (ScanVars × Bool × Option (List Bytes) × Option (List Bytes) × Option Error) :=
  if currentScan.ScanType = .FilterRangeReq then
    let v1 : ScanVars :=
      if entry.length > v.bufCap then
        { v with bufCap := entry.length + 1024,
                 buf3 := List.replicate (entry.length + 1024) 0 }
      else v
    let getDecoded : Bool :=
      match v1.groupAggr with
      | some ga => ga.NeedDecode
      | none => false
    (filterScanRow2 env entry currentScan [] v1.buf3 getDecoded v1.cktmp v1.dktmp cfg.r
        v1.cachedEntry).bind fun f =>
      .ret ({ v1 with cktmp := f.cktmp, dktmp := f.dktmp, cachedEntry := f.cachedEntry },
        f.skip, f.compositekeys, f.decodedkeys, f.err)
  else .ret (v, false, none, none, none)

/-- Lines 205-226 of the callback: the group/aggregate computation of the entry. -/
def IndexScanSource.group (env : Env) (senv : SourceEnv) (cfg : SourceConfig)
    (entry : Bytes) (ck dk : Option (List Bytes)) (v : ScanVars) :
    Exec (ScanVars × Option Error) :=
  match v.groupAggr with
  | none => .ret (v, none)
  | some ga =>
    let v1 : ScanVars :=
      if ck.isNone ∧ entry.length > v.bufCap then { v with bufCap := entry.length + 1024 }
      else v
    let docid : Bytes × Option Error :=
      if cfg.r.isPrimary then (entry, none)
      else if ga.DependsOnPrimaryKey then senv.ReadDocId entry
      else ([], none)
    match docid.2 with
    | some e => .ret (v1, some e)
    | none =>
      (computeGroupAggr env ck dk v1.count docid.1 entry [] v1.buf3 v1.aggrRes ga v1.cktmp
          v1.dktmp v1.cachedEntry).bind fun g =>
        let v2 : ScanVars :=
          { v1 with aggrRes := g.aggrRes, groupAggr := some g.groupAggr,
                    cachedEntry := g.cachedEntry, cktmp := g.cktmp, dktmp := g.dktmp }
        match g.err with
        | some e => .ret (v2, some e)
        | none => .ret ({ v2 with count := 1 }, none)

/-- Lines 228-244 of the callback: the projection. The results are the variables, the
entry to emit, and, when the callback returns here, the error it returns. -/
def IndexScanSource.project (env : Env) (aenv : AggrEnv) (cfg : SourceConfig)
    (entry : Bytes) (ck : Option (List Bytes)) (v : ScanVars) :
    Exec (ScanVars × Bytes × Option (Option Error)) :=
  match cfg.Indexprojection with
  | none => .ret (v, entry, none)
  | some proj =>
    if proj.projectSecKeys then
      if v.groupAggr.isSome then
        (projectGroupAggr env aenv [] cfg.Indexprojection v.aggrRes cfg.r.isPrimary).bind
          fun p =>
            let v1 : ScanVars := { v with aggrRes := p.aggrRes }
            match p.entry with
            | none => .ret (v1, entry, some p.err)
            | some e2 =>
              match p.err with
              | some e => .ret (v1, e2, some (some e))
              | none => .ret (v1, e2, none)
      else if !cfg.r.isPrimary then
        let v1 : ScanVars :=
          if ck.isNone ∧ entry.length > v.bufCap then { v with bufCap := entry.length + 1024 }
          else v
        (projectKeys env ck entry [] proj v1.cktmp).bind fun p =>
          let v2 : ScanVars := { v1 with cktmp := p.2.2 }
          match p.2.1 with
          | some e => .ret (v2, p.1.getD [], some (some e))
          | none => .ret (v2, p.1.getD [], none)
      else .ret (v, entry, none)
    else .ret (v, entry, none)

/-- Lines 169-275 of the callback, after the two counters have been incremented. -/
def IndexScanSource.fnBody (env : Env) (aenv : AggrEnv) (senv : SourceEnv)
    (cfg : SourceConfig) (currentScan : Scan) (entry0 : Bytes) (v : ScanVars) :
    Exec (ScanVars × Option Error) :=
  let entry := if cfg.hasDesc then senv.ReverseCollate entry0 else entry0
  (IndexScanSource.filter env cfg currentScan entry v).bind fun f =>
    match f.2.2.2.2 with
    | some e => .ret (f.1, some e)
    | none =>
      if f.2.1 then .ret (f.1, none)
      else
        let v1 : ScanVars :=
          if !cfg.r.isPrimary then { f.1 with count := senv.Count entry } else f.1
        (IndexScanSource.group env senv cfg entry f.2.2.1 f.2.2.2.1 v1).bind fun g =>
          match g.2 with
          | some e => .ret (g.1, some e)
          | none =>
            (IndexScanSource.project env aenv cfg entry f.2.2.1 g.1).bind fun p =>
              match p.2.2 with
              | some ret => .ret (p.1, ret)
              | none =>
                (emitEntry env cfg.r p.2.1 p.1.count p.1.emit).bind fun e =>
                  .ret ({ p.1 with emit := e.1 }, e.2)

/-- The callback `fn` (lines 163-275). `rollback` is what `r.hasRollback` holds when the
callback is called: `none` for a `nil` pointer, else the value that `Load` returns. The
remainder `%` of Go truncates towards zero (`Int.tmod`), and `iterCount++` wraps around
in 64 bits. -/
def IndexScanSource.fn (env : Env) (aenv : AggrEnv) (senv : SourceEnv)
    (cfg : SourceConfig) (currentScan : Scan) (rollback : Option Bool) (entry : Bytes)
    (st : SourceState) : Exec (SourceState × Option Error) :=
  if Int.tmod st.iterCount senv.batchSize = 0 ∧ rollback = some true then
    .ret (st, some .ErrIndexRollback)
  else
    (IndexScanSource.fnBody env aenv senv cfg currentScan entry st.vars).bind fun x =>
      .ret ({ iterCount := wrapInt64 (st.iterCount + 1),
              rowsScanned := (st.rowsScanned + 1) % 2 ^ 64, vars := x.1 }, x.2)

/-- Modelled from the spec: `scatter` calls the callback once per entry of the scan, in
order, and stops at the first call that returns a non-nil error. Each entry comes with
the value of the rollback flag at the time of its call. -/
def scatter (env : Env) (aenv : AggrEnv) (senv : SourceEnv) (cfg : SourceConfig)
    (currentScan : Scan) :
    SourceState → List (Bytes × Option Bool) → Exec (SourceState × Option Error)
  | st, [] => .ret (st, none)
  | st, x :: rest =>
    (IndexScanSource.fn env aenv senv cfg currentScan x.2 x.1 st).bind fun y =>
      match y.2 with
      | some e => .ret (y.1, some e)
      | none => scatter env aenv senv cfg currentScan y.1 rest

/-! ## The run of the source -/

/-- The zero value of `groupKey`, as `new(groupKey)` gives it. -/
def groupKey.zero : groupKey := { raw := [], obj := none, n1qlValue := false, projectId := 0 }

/-- The zero value of `aggrVal`, as `new(aggrVal)` gives it; the type of a scratch value is
set by `computeAggrVal` before `AddAggregate` reads it, and the zero value of the type,
declared outside this excerpt, is taken to be `AGG_MIN`. -/
def aggrVal.zero : aggrVal :=
  { raw := [], obj := none, decoded := none, typ := .AGG_MIN, projectId := 0,
    distinct := false, count := 0, n1qlValue := false }

/-- The state in which `Routine` starts its scans (lines 118-158 and 282-288): `ncomp` is
the number of secondary expressions of the index and `bufferSize` the configured
`scan.partial_group_buffer_size`. -/
def SourceState.init (env : Env) (groupAggr : Option GroupAggr) (ncomp : Nat)
    (bufferSize : Int) : SourceState :=
  { iterCount := 0
    rowsScanned := 0
    vars :=
      { count := 1
        bufCap := env.poolBuf.cap
        buf3 := List.replicate env.poolBuf.len 0
        cktmp := List.replicate ncomp []
        dktmp :=
          match groupAggr with
          | some ga => if ga.NeedDecode then some (List.replicate ncomp []) else none
          | none => none
        cachedEntry := entryCache.zero
        groupAggr := groupAggr.map fun ga =>
          { ga with groups := List.replicate ga.Group.length groupKey.zero,
                    aggrs := List.replicate ga.Aggrs.length aggrVal.zero }
        aggrRes :=
          { rows := []
            maxRows :=
              match groupAggr with
              | some ga => if ga.IsLeadingGroup then 1 else bufferSize
              | none => 0 }
        emit := EmitState.init } }

/-- The loop over the scans of the request (lines 290-303): each scan comes with the
entries that the storage delivers for it; the loop ends at the first scan that ends with
an error. -/
def IndexScanSource.scans (env : Env) (aenv : AggrEnv) (senv : SourceEnv)
    (cfg : SourceConfig) :
    SourceState → List (Scan × List (Bytes × Option Bool)) →
      Exec (SourceState × Option Error)
  | st, [] => .ret (st, none)
  | st, x :: rest =>
    (scatter env aenv senv cfg x.1 st x.2).bind fun y =>
      match y.2 with
      | some e => .ret (y.1, some e)
      | none => IndexScanSource.scans env aenv senv cfg y.1 rest

/-- What a run of the source leaves behind: the state, the variable `err` after the
scans, and the error handed to `CloseWithError`, if any. -/
structure RoutineResult where
  st : SourceState
  err : Option Error
  closed : Option Error
  deriving Repr, DecidableEq

/-- `IndexScanSource.Routine` from the loop over the scans on (lines 290-365), with
snapshots that were obtained without error. -/
def IndexScanSource.Routine (env : Env) (aenv : AggrEnv) (senv : SourceEnv)
    (cfg : SourceConfig) (scans : List (Scan × List (Bytes × Option Bool)))
    (st : SourceState) : Exec RoutineResult :=
  (IndexScanSource.scans env aenv senv cfg st scans).bind fun x =>
    match x.1.vars.groupAggr, x.2 with
    | some ga, none =>
      (flushTail env aenv cfg.r cfg.Indexprojection ga x.1.vars.aggrRes x.1.vars.emit).bind
        fun t =>
          .ret { st := { x.1 with vars := { x.1.vars with aggrRes := t.aggrRes,
                                                          emit := t.emit } },
                 err := none, closed := t.closed }
    | _, _ =>
      .ret { st := x.1, err := x.2
             closed :=
               match x.2 with
               | none => none
               | some e =>
                 if e = .ErrSupervisorKill ∨ e = .ErrLimitReached then none else some e }

/-! ## Calls that share the entry cache -/

/-- One call of `filterScanRow2` or of `computeGroupAggr` with its arguments, the request
and the entry cache apart. -/
inductive CacheCall where
  | filter (key : Bytes) (scan : Scan) (buf decbuf : Bytes) (getDecoded : Bool)
      (cktmp : List Bytes) (dktmp : Option (List Bytes))
  | group (compositekeys decodedkeys : Option (List Bytes)) (count : Int)
      (docid key buf decbuf : Bytes) (aggrRes : aggrResult) (groupAggr : GroupAggr)
      (cktmp : List Bytes) (dktmp : Option (List Bytes))

/-- A sequence of calls of `filterScanRow2` and `computeGroupAggr` for the request `r`,
each on the entry cache that the call before has left. -/
def runCacheCalls (env : Env) (r : ScanRequest) : entryCache → List CacheCall → Exec entryCache
  | c, [] => .ret c
  | c, .filter key scan buf decbuf getDecoded cktmp dktmp :: rest =>
    (filterScanRow2 env key scan buf decbuf getDecoded cktmp dktmp r c).bind fun f =>
      runCacheCalls env r f.cachedEntry rest
  | c, .group compositekeys decodedkeys count docid key buf decbuf aggrRes groupAggr cktmp
      dktmp :: rest =>
    (computeGroupAggr env compositekeys decodedkeys count docid key buf decbuf aggrRes
        groupAggr cktmp dktmp c).bind fun g =>
      runCacheCalls env r g.cachedEntry rest

/-- The group/aggregate spec of a call of `computeGroupAggr` is for the primary index;
the condition is empty for a call of `filterScanRow2`. -/
def CacheCall.groupIsPrimary : CacheCall → Bool
  | .filter _ _ _ _ _ _ _ => true
  | .group _ _ _ _ _ _ _ _ groupAggr _ _ => groupAggr.IsPrimary

/-! ## The aggregate step of the callback -/

/-- What one aggregate step leaves behind: the result as `AddNewGroup` left it, and what
`projectGroupAggr` returned and left in the result. -/
structure GroupStep where
  added : aggrResult
  projected : ProjectAggrResult
  deriving Repr, DecidableEq

/-- The aggregate step of the callback on the result (lines 221-233), for a request that
projects secondary keys: `AddNewGroup`, the last statement of `computeGroupAggr` (line
221), then one `projectGroupAggr` into the emptied buffer (line 230). -/
def IndexScanSource.groupStep (env : Env) (aenv : AggrEnv) (projection : Option Projection)
    (isPrimary : Bool) (ar : aggrResult) (x : AggrInput) : Exec GroupStep :=
  (ar.AddNewGroup x.groups x.aggrs x.cacheValid).bind fun ar2 =>
    (projectGroupAggr env aenv [] projection ar2 isPrimary).bind fun p =>
      .ret { added := ar2, projected := p }

/-- The aggregate steps of the entries of a scan, in order: the callback hands the error
of `projectGroupAggr` back (line 232), which ends the scan. -/
def IndexScanSource.groupSteps (env : Env) (aenv : AggrEnv) (projection : Option Projection)
    (isPrimary : Bool) : aggrResult → List AggrInput → Exec (List GroupStep)
  | _, [] => .ret []
  | ar, x :: rest =>
    (IndexScanSource.groupStep env aenv projection isPrimary ar x).bind fun s =>
      match s.projected.err with
      | some _ => .ret [s]
      | none =>
        (IndexScanSource.groupSteps env aenv projection isPrimary s.projected.aggrRes
            rest).bind fun t => .ret (s :: t)

/-! ## Calls of `filterScanRow2` that share the entry cache -/

/-- The calls of `filterScanRow2` for a sequence of entries of one scan, as the callback
makes them (lines 183-194): the calls share the cache and the scratch slices `cktmp` and
`dktmp`; the results of the calls, in order. A call that returns an error does not end
the sequence here (the callback hands the error back, which ends the scan). -/
def filterScanRow2.calls (env : Env) (scan : Scan) (buf decbuf : Bytes) (getDecoded : Bool)
    (r : ScanRequest) :
    List Bytes → Option (List Bytes) → entryCache → List Bytes → Exec (List FilterResult2)
  | _, _, _, [] => .ret []
  | cktmp, dktmp, cachedEntry, key :: rest =>
    (filterScanRow2 env key scan buf decbuf getDecoded cktmp dktmp r cachedEntry).bind fun f =>
      (filterScanRow2.calls env scan buf decbuf getDecoded r f.cktmp f.dktmp f.cachedEntry
          rest).bind fun t => .ret (f :: t)

/-- The three results of `filterScanRow2` that `filterScanRow` has too. -/
def FilterResult2.outcome (f : FilterResult2) : FilterResult :=
  { skip := f.skip, compositekeys := f.compositekeys, err := f.err }

/-- A well-formed secondary entry with `n` key components that fits the buffers of the
scan: an encoded array of `n` complete element encodings for the decoder with scratch
`buf`, followed by a tail that `lenKey` leaves out, no longer than the buffers of the pool
and, when the keys are decoded too, with decoded texts that fit `decbuf` and a buffer of
the pool. -/
def EntryFits (env : Env) (buf decbuf : Bytes) (n : Nat) (getDecoded : Bool) (e : Bytes) :
    Prop :=
  ∃ elems texts tail, e = encodedArray elems tail ∧
    List.Forall₂ (DecodesTo env.jsonEncoder buf) elems texts ∧ elems.length = n ∧
    env.lenKey e = ((encodedArray elems []).length : Int) ∧
    e.length ≤ env.poolBuf.len ∧
    (getDecoded = true → (texts.map List.length).sum ≤ decbuf.length ∧
      (texts.map List.length).sum ≤ env.poolBuf.len)

/-- The cache between two calls of such a sequence: it is initialised with the buffers of
the pool and holds a well-formed entry with `n` key components and these components. -/
def CacheHolds (env : Env) (buf : Bytes) (n : Nat) (getDecoded : Bool) (c : entryCache) :
    Prop :=
  c.compkeybuf = some env.poolBuf ∧ (getDecoded = true → c.deckeybuf = some env.poolBuf) ∧
  (∀ t, c.decodedkeys = some t → t.length = n) ∧
  ∃ elems texts tail, c.entry = encodedArray elems tail ∧
    List.Forall₂ (DecodesTo env.jsonEncoder buf) elems texts ∧ elems.length = n ∧
    env.lenKey c.entry = ((encodedArray elems []).length : Int) ∧ c.compkeys = some elems

/-- No collaborator of the callback hands back `ErrIndexRollback`: the element decoder,
`json.Unmarshal`, `EvaluateForIndex`, `WriteItem`, `ReadDocId`, `EncodeN1QLValue` and
`encodeValue` return other errors or none. -/
def NoRollbackFromCollaborators (env : Env) (aenv : AggrEnv) (senv : SourceEnv) : Prop :=
  (∀ code text r, env.jsonEncoder.code2json code text = .ret r →
    r.2.2 ≠ some .ErrIndexRollback) ∧
  (∀ t, (env.jsonUnmarshal t).2 ≠ some .ErrIndexRollback) ∧
  (∀ x c, (env.EvaluateForIndex x c).2 ≠ some .ErrIndexRollback) ∧
  (∀ log row, env.WriteItem log row ≠ some .ErrIndexRollback) ∧
  (∀ b, (senv.ReadDocId b).2 ≠ some .ErrIndexRollback) ∧
  (∀ v, (aenv.EncodeN1QLValue v).2 ≠ some .ErrIndexRollback) ∧
  (∀ a, (aenv.encodeValue a).2 ≠ some .ErrIndexRollback)

/-! ## Group/aggregate: the value of a SUM accumulator -/

/-- The number that an input carries, 0 for any other input. -/
def Delta.number : Delta → Int
  | .decoded (some (.number n)) => n
  | .obj (some (.number n)) => n
  | _ => 0

/-- Modelled from the spec: the value of a SUM accumulator (`fn.Value()`, implemented
outside this excerpt) is the sum of the numbers it has received. -/
def sumValue (ds : List Delta) : Int := (ds.map Delta.number).sum

/-! ## A sample environment for concrete evaluations -/

/-- Little-endian value of the two bytes of `e` at offset `i`. -/
def sampleUint16 (e : Bytes) (i : Nat) : Nat := e.getD i 0 + 256 * e.getD (i + 1) 0

/-- Sample `lenKey`, following the entry layout of the spec: the key is what precedes the
doc id, the 2-byte doc id length and the 4-byte count. -/
def sampleLenKey (e : Bytes) : Int :=
  (e.length : Int) - 6 - (sampleUint16 e (e.length - 6) : Int)

/-- Value of a string of decimal digits. -/
def sampleDigits : Bytes → Int → Int
  | [], acc => acc
  | d :: ds, acc => sampleDigits ds (10 * acc + ((d : Int) - 48))

/-- Sample `json.Unmarshal` for the texts of the sample decoder: a text that starts with
the number type byte 5 is the number written by the digits that follow, every other text
is a string. -/
def sampleUnmarshal : Bytes → Option Value × Option Error
  | [] => (none, some (.other 1))
  | 5 :: digits => (some (.number (sampleDigits digits 0)), none)
  | b :: bs => (some (.string (b :: bs)), none)

/-- A sample environment: pool buffers of 16 bytes, a write that never fails. -/
def sampleEnv : Env where
  jsonEncoder := sampleCodec
  lenKey := sampleLenKey
  poolBuf := ⟨16, 16⟩
  WriteItem := fun _ _ => none
  jsonUnmarshal := sampleUnmarshal
  EvaluateForIndex := fun _ _ => (some .null, none)

/-- The sample environment with pool buffers of 64 bytes. -/
def sampleEnvLarge : Env := { sampleEnv with poolBuf := ⟨64, 64⟩ }

/-- A secondary entry of 19 bytes: key `[0, "abc"]` (10 bytes), doc id `def`, doc id
length 3, count 1. -/
def sampleEntry : Bytes :=
  [7, 5, 48, 0, 6, 97, 98, 99, 0, 0, 100, 101, 102, 3, 0, 1, 0, 0, 0]

/-- A scan with one filter collection that has no component filters: it matches every
key. -/
def sampleScanAll : Scan := { ScanType := .FilterRangeReq, Filters := [⟨[]⟩] }

/-- A secondary, non-distinct request without offset and with limit 10. -/
def sampleRequest : ScanRequest :=
  { Offset := 0, Limit := 10, Distinct := false, isPrimary := false }

/-- A second entry with the key of `sampleEntry` and the doc id `xyz`. -/
def sampleEntrySameKey : Bytes :=
  [7, 5, 48, 0, 6, 97, 98, 99, 0, 0, 120, 121, 122, 3, 0, 1, 0, 0, 0]

/-- The cache as a scan with buffers of 64 bytes leaves it after `sampleEntry`. -/
def sampleCache : entryCache :=
  { entryCache.zero.Init sampleEnvLarge false with
    entry := sampleEntry
    compkeys := some [[5, 48, 0], [6, 97, 98, 99, 0]]
    decodedvalues := [none, none] }

/-- The entry `sampleEntry` with the stored count 2. -/
def sampleEntryCount2 : Bytes :=
  [7, 5, 48, 0, 6, 97, 98, 99, 0, 0, 100, 101, 102, 3, 0, 2, 0, 0, 0]

/-- A grouping by the first key component with COUNT over the second, nothing depending
on the primary key; the scratch values are the zero values of their structs. -/
def sampleGroupAggr : GroupAggr :=
  { Group := [{ EntryKeyId := 0, KeyPos := 0, Expr := 0, ExprValue := none }]
    Aggrs := [{ AggrFunc := .AGG_COUNT, EntryKeyId := 1, KeyPos := 1, Expr := 0,
                ExprValue := none, Distinct := false }]
    DependsOnIndexKeys := []
    IndexKeyNames := []
    IsLeadingGroup := true
    IsPrimary := false
    NeedDecode := false
    NeedExplode := true
    DependsOnPrimaryKey := false
    groups := [{ raw := [], obj := none, n1qlValue := false, projectId := 0 }]
    aggrs := [{ raw := [], obj := none, decoded := none, typ := .AGG_MIN, projectId := 0,
                distinct := false, count := 0, n1qlValue := false }]
    covers := [] }

/-- The aggregate input of an entry with raw group key `dept` and SUM over the decoded
number `salary`, stored once, whose secondary key differs from the preceding entry's. -/
def sampleInput (dept : Bytes) (salary : Int) : AggrInput :=
  { groups := [{ raw := dept, obj := none, n1qlValue := false, projectId := 0 }]
    aggrs := [{ raw := [], obj := none, decoded := some (.number salary), typ := .AGG_SUM,
                projectId := 1, distinct := false, count := 1, n1qlValue := false }]
    cacheValid := false }

/-- A row with an empty slot and a slot holding a MAX accumulator seeded with `[1]`. -/
def sampleRow : aggrRow :=
  { groups := []
    aggrs := [none, some { fn := NewAggrFunc .AGG_MAX (.raw [1]) false false, projectId := 1 }]
    flush := false }

/-- Two aggregate inputs with stored count 3: a SUM over the decoded number 1 and a MAX
over raw bytes. -/
def sampleAggrs : List aggrVal :=
  [{ raw := [5, 49, 0], obj := none, decoded := some (.number 1), typ := .AGG_SUM,
     projectId := 0, distinct := false, count := 3, n1qlValue := false },
   { raw := [5, 50, 0], obj := none, decoded := none, typ := .AGG_MAX,
     projectId := 1, distinct := false, count := 3, n1qlValue := false }]

/-- A filter collection with three unbounded component filters. -/
def sampleFilter3 : Filter :=
  ⟨List.replicate 3
    { Low := ⟨.MinIndexKey, []⟩, High := ⟨.MaxIndexKey, []⟩, Inclusion := .Both }⟩

/-- A scan with two filter collections: the first has no component filters and matches
every key, the second has three unbounded component filters. -/
def sampleScanLong : Scan := { ScanType := .FilterRangeReq, Filters := [⟨[]⟩, sampleFilter3] }

/-- The aggregates `[COUNT(*), SUM(x)]` without group-by columns; the scratch values are
the zero values of their structs. -/
def sampleCountSum : GroupAggr :=
  { Group := []
    Aggrs := [{ AggrFunc := .AGG_COUNT, EntryKeyId := 0, KeyPos := 0, Expr := 0,
                ExprValue := none, Distinct := false },
              { AggrFunc := .AGG_SUM, EntryKeyId := 1, KeyPos := 0, Expr := 0,
                ExprValue := none, Distinct := false }]
    DependsOnIndexKeys := []
    IndexKeyNames := []
    IsLeadingGroup := false
    IsPrimary := false
    NeedDecode := false
    NeedExplode := true
    DependsOnPrimaryKey := false
    groups := []
    aggrs := [{ raw := [], obj := none, decoded := none, typ := .AGG_MIN, projectId := 0,
                distinct := false, count := 0, n1qlValue := false },
              { raw := [], obj := none, decoded := none, typ := .AGG_MIN, projectId := 0,
                distinct := false, count := 0, n1qlValue := false }]
    covers := [] }

/-- A projection of the two aggregates, in order. -/
def sampleAggrProjection : Projection :=
  { projectSecKeys := true, projectionKeys := [], entryKeysEmpty := false,
    projectGroupKeys := [⟨0, false⟩, ⟨1, false⟩] }

/-- The entry with key `["US","NYC"]`, doc id `d` and count 1. -/
def sampleEntryUsNyc : Bytes :=
  encodedArray [[6, 85, 83, 0], [6, 78, 89, 67, 0]] [100, 1, 0, 1, 0, 0, 0]

/-- A projection of the second key component only. -/
def sampleProjectSecond : Projection :=
  { projectSecKeys := true, projectionKeys := [false, true], entryKeysEmpty := false,
    projectGroupKeys := [] }

/-- Sample encoders of aggregate rows: a number is encoded by the type byte 5, its last
decimal digit and the terminator, every other value as the encoded null; the value of an
accumulator is the number of inputs it has received for COUNT and COUNTN, the sum of the
numbers for SUM, and the encoded null otherwise. -/
def sampleAggrEnv : AggrEnv :=
  { EncodeN1QLValue := fun _ => ([2, 0], none)
    encodeValue := fun a =>
      match a with
      | .aggr (.value (.number n)) => ([5, 48 + n.toNat % 10, 0], none)
      | _ => ([2, 0], none)
    fnValue := fun fn =>
      if fn.typ = .AGG_COUNT ∨ fn.typ = .AGG_COUNTN then .value (.number fn.deltas.length)
      else if fn.typ = .AGG_SUM then .value (.number (sumValue fn.deltas))
      else .bytes [2, 0]
    isEncodedNull := fun b => decide (b = [2, 0]) }

/-- Sample collaborators of the callback, following the entry layout of the spec: the
count is the 4-byte field at the end of the entry (its lowest byte is read), the doc id
what lies between the key and the 2-byte length; 1000 entries between rollback polls. -/
def sampleSourceEnv : SourceEnv :=
  { ReverseCollate := fun e => e
    Count := fun e => (e.getD (e.length - 4) 0 : Nat)
    ReadDocId := fun e => ((e.drop (sampleLenKey e).toNat).take
      (e.length - 6 - (sampleLenKey e).toNat), none)
    batchSize := 1000 }

/-- The aggregate `COUNT` over the first key component, without group-by columns. -/
def sampleCountOnly : GroupAggr :=
  { Group := []
    Aggrs := [{ AggrFunc := .AGG_COUNT, EntryKeyId := 0, KeyPos := 0, Expr := 0,
                ExprValue := none, Distinct := false }]
    DependsOnIndexKeys := []
    IndexKeyNames := []
    IsLeadingGroup := false
    IsPrimary := false
    NeedDecode := false
    NeedExplode := true
    DependsOnPrimaryKey := false
    groups := []
    aggrs := []
    covers := [] }

/-- A projection of the first aggregate. -/
def sampleCountProjection : Projection :=
  { projectSecKeys := true, projectionKeys := [], entryKeysEmpty := false,
    projectGroupKeys := [⟨0, false⟩] }

/-- A range scan: its entries are not filtered by the callback. -/
def sampleRangeScan : Scan := { ScanType := .FullRangeReq, Filters := [] }

/-- A group/aggregate request on a secondary index with the given offset and limit 10. -/
def sampleAggrConfig (offset : Int) : SourceConfig :=
  { r := { Offset := offset, Limit := 10, Distinct := false, isPrimary := false }
    Indexprojection := some sampleCountProjection
    hasDesc := false }

/-- A buffered row without group keys whose COUNT accumulator has received `n` inputs. -/
def sampleCountRow (n : Nat) : aggrRow :=
  { groups := []
    aggrs := [some { fn := { typ := .AGG_COUNT, distinct := false, n1qlValue := false,
                             deltas := List.replicate n (.raw []) },
                     projectId := 0 }]
    flush := false }

/-- The entry with key `[age]` (one decimal digit), a doc id of one byte and count 1. -/
def sampleAgeEntry (age : Nat) : Bytes :=
  encodedArray [[5, 48 + age, 0]] [100 + age, 1, 0, 1, 0, 0, 0]

/-- A non-distinct, non-aggregate request on a secondary index with offset 1 and limit 3,
without projection. -/
def sampleWindowConfig : SourceConfig :=
  { r := { Offset := 1, Limit := 3, Distinct := false, isPrimary := false }
    Indexprojection := none
    hasDesc := false }

/-- A primary-index request without offset and with limit 10. -/
def samplePrimaryRequest : ScanRequest :=
  { Offset := 0, Limit := 10, Distinct := false, isPrimary := true }

/-- A grouping by the key of the primary index with COUNT over it. -/
def samplePrimaryGroupAggr : GroupAggr :=
  { sampleGroupAggr with
    Aggrs := [{ AggrFunc := .AGG_COUNT, EntryKeyId := 1, KeyPos := 0, Expr := 0,
                ExprValue := none, Distinct := false }]
    IsPrimary := true }

/-- A call of `filterScanRow2` and two calls of `computeGroupAggr` on the same key. -/
def samplePrimaryCalls : List CacheCall :=
  [.filter sampleEntry sampleScanAll [] [] false [[], []] none,
   .group none none 1 sampleEntry sampleEntry [] [] { rows := [], maxRows := 1 }
     samplePrimaryGroupAggr [[], []] none,
   .group none none 1 sampleEntry sampleEntry [] [] { rows := [], maxRows := 1 }
     samplePrimaryGroupAggr [[], []] none]

/-- A secondary, non-distinct request without offset and with limit 1. -/
def sampleLimitOneRequest : ScanRequest :=
  { Offset := 0, Limit := 1, Distinct := false, isPrimary := false }

/-- A projection of the first group key and the first aggregate. -/
def sampleGroupProjection : Projection :=
  { projectSecKeys := true, projectionKeys := [], entryKeysEmpty := false,
    projectGroupKeys := [⟨0, true⟩, ⟨0, false⟩] }

/-- A secondary entry of 14 bytes: key `[null, 0]` (7 bytes), doc id `d`, count 1. -/
def sampleEntryShort : Bytes :=
  encodedArray [[2, 0], [5, 48, 0]] [100, 1, 0, 1, 0, 0, 0]

/-- The cache as a scan with buffers of 16 bytes leaves it after `sampleEntryShort`. -/
def sampleCacheShort : entryCache :=
  { entryCache.zero.Init sampleEnv false with
    entry := sampleEntryShort
    compkeys := some [[2, 0], [5, 48, 0]]
    decodedvalues := [none, none] }

/-- A group/aggregate request on a secondary index that projects the group key and the
aggregate, without offset and with limit 10. -/
def sampleLeadingConfig : SourceConfig :=
  { r := { Offset := 0, Limit := 10, Distinct := false, isPrimary := false }
    Indexprojection := some sampleGroupProjection
    hasDesc := false }

/-- The entry with key `[1, "abc"]`, doc id `def` and count 1. -/
def sampleEntryOtherKey : Bytes :=
  [7, 5, 49, 0, 6, 97, 98, 99, 0, 0, 100, 101, 102, 3, 0, 1, 0, 0, 0]

/-- A state of the run of `sampleLeadingConfig` with `sampleGroupAggr` and buffers of 64
bytes over entries with the second key component `"abc"`, after `n` calls of the
callback: the cache holds `entry`, whose first key component is `key0`, the scratch
aggregate holds `count`, the one buffered row is that of the group `key0`, whose COUNT
has received `deltas` inputs, and the rows in `written` have been written. -/
def sampleLeadingState (n : Nat) (key0 entry : Bytes) (valid : Bool) (hit miss count : Int)
    (deltas : Nat) (written : List Bytes) : SourceState :=
  { iterCount := n
    rowsScanned := n
    vars :=
      { count := 1
        bufCap := 64
        buf3 := List.replicate 64 0
        cktmp := [key0, [6, 97, 98, 99, 0]]
        dktmp := none
        cachedEntry :=
          { entry := entry, compkeys := some [key0, [6, 97, 98, 99, 0]], decodedkeys := none,
            decodedvalues := [none, none], compkeybuf := some ⟨64, 64⟩, deckeybuf := none,
            valid := valid, hit := hit, miss := miss }
        groupAggr := some
          { sampleGroupAggr with
            groups := [{ raw := key0, obj := none, n1qlValue := false, projectId := 0 }]
            aggrs := [{ raw := [6, 97, 98, 99, 0], obj := none, decoded := none,
                        typ := .AGG_COUNT, projectId := 1, distinct := false, count := count,
                        n1qlValue := false }] }
        aggrRes :=
          { rows := [{ groups := [{ raw := key0, obj := none, n1qlValue := false,
                                    projectId := 0 }]
                       aggrs := [some { fn := { typ := .AGG_COUNT, distinct := false,
                                                n1qlValue := false,
                                                deltas := List.replicate deltas
                                                  (.raw [6, 97, 98, 99, 0]) },
                                        projectId := 1 }]
                       flush := false }]
            maxRows := 1 }
        emit := { currOffset := 0, rowsReturned := written.length, previousRow := [],
                  written := written } } }

/-- A distinct secondary request without offset and with limit 10. -/
def sampleDistinctRequest : ScanRequest :=
  { Offset := 0, Limit := 10, Distinct := true, isPrimary := false }

/-- A secondary, non-distinct request with limit 0. -/
def sampleLimitZeroRequest : ScanRequest :=
  { Offset := 0, Limit := 0, Distinct := false, isPrimary := false }

/-- The list `l` with the positions from `p` on overwritten by `xs`: what an in-place
loop that stores `xs` at `l[p], l[p+1], ...` leaves in the caller's slice. -/
def overwrite {α : Type} (l : List α) (p : Nat) (xs : List α) : List α :=
  l.take p ++ xs ++ l.drop (p + xs.length)

/-! # Theorems -/

/-! ## Codec: general lemmas -/

@[simp] theorem Exec_bind_ret {α β : Type} (a : α) (f : α → Exec β) :
    (Exec.ret a).bind f = f a := rfl

@[simp] theorem Exec_bind_panic {α β : Type} (f : α → Exec β) :
    (Exec.panic : Exec α).bind f = Exec.panic := rfl

@[simp] theorem Exec_bind_diverge {α β : Type} (f : α → Exec β) :
    (Exec.diverge : Exec α).bind f = Exec.diverge := rfl

theorem DecodesTo_complete {codec : Codec} {tmp e text : Bytes}
    (h : DecodesTo codec tmp e text) : CompleteElem codec tmp e :=
  ⟨h.1, h.2.1, fun rest => ⟨text, h.2.2 rest⟩⟩

theorem forall₂_decodes_complete {codec : Codec} {tmp : Bytes} {elems texts : List Bytes}
    (h : List.Forall₂ (DecodesTo codec tmp) elems texts) :
    ∀ e ∈ elems, CompleteElem codec tmp e := by
  induction h with
  | nil => intro e he; simp at he
  | cons hd _ ih =>
    intro e he
    rcases List.mem_cons.mp he with rfl | hmem
    · exact DecodesTo_complete hd
    · exact ih e hmem

theorem foldl_append_eq_flatten (vals : List Bytes) (init : Bytes) :
    vals.foldl (fun acc val => acc ++ val) init = init ++ vals.flatten := by
  induction vals generalizing init with
  | nil => simp
  | cons v vs ih => simp [List.foldl_cons, ih, List.append_assoc]

/-- On elements that are complete encodings followed by the terminator, the loop of
`ExplodeArray` appends the elements in order and stops without error. -/
theorem ExplodeArray_loop_complete (codec : Codec) (tmp tail : Bytes) (elems : List Bytes)
    (h : ∀ e ∈ elems, CompleteElem codec tmp e) :
    ∀ (fuel : Nat) (array : List Bytes),
      (elems.flatten ++ Terminator :: tail).length ≤ fuel →
      ExplodeArray.loop codec tmp fuel (elems.flatten ++ Terminator :: tail)
          (elems.flatten ++ Terminator :: tail) array
        = .ret (some (array ++ elems), none) := by
  induction elems with
  | nil =>
    intro fuel array _
    rw [List.flatten_nil, List.nil_append, ExplodeArray.loop.eq_def]
    simp
  | cons e es ih =>
    intro fuel array hfuel
    obtain ⟨hne, hhead, hdec⟩ := h e (List.mem_cons_self _ _)
    have ih2 := ih (fun x hx => h x (List.mem_cons_of_mem _ hx))
    cases e with
    | nil => exact absurd rfl hne
    | cons c cs =>
      have hc : c ≠ Terminator := by
        intro hEq
        apply hhead
        simp [hEq]
      obtain ⟨text, htext⟩ := hdec (es.flatten ++ Terminator :: tail)
      have hlen : 1 ≤ fuel := by
        simp only [List.flatten_cons, List.length_append, List.length_cons] at hfuel
        omega
      obtain ⟨f, rfl⟩ : ∃ f, fuel = f + 1 := ⟨fuel - 1, by omega⟩
      have hcode : ((c :: cs) :: es).flatten ++ Terminator :: tail
          = c :: (cs ++ (es.flatten ++ Terminator :: tail)) := by
        simp [List.flatten_cons, List.append_assoc]
      have htext2 : codec.code2json (c :: (cs ++ (es.flatten ++ Terminator :: tail))) tmp
          = .ret (text, cs.length + 1, none) := by
        simpa using htext
      have hf : (es.flatten ++ Terminator :: tail).length ≤ f := by
        simp only [List.flatten_cons, List.length_append, List.length_cons] at hfuel ⊢
        omega
      rw [hcode, ExplodeArray.loop]
      simp only [hc, if_false, htext2, Exec_bind_ret]
      have hdrop : List.drop (cs.length + 1) (c :: (cs ++ (es.flatten ++ Terminator :: tail)))
          = es.flatten ++ Terminator :: tail := by
        simp
      have htake : List.take
          ((c :: (cs ++ (es.flatten ++ Terminator :: tail))).length
            - (es.flatten ++ Terminator :: tail).length)
          (c :: (cs ++ (es.flatten ++ Terminator :: tail))) = c :: cs := by
        have : (c :: (cs ++ (es.flatten ++ Terminator :: tail))).length
            - (es.flatten ++ Terminator :: tail).length = cs.length + 1 := by
          simp only [List.length_cons, List.length_append]
          omega
        rw [this]
        simp
      have hlt : (es.flatten ++ Terminator :: tail).length
          < (c :: (cs ++ (es.flatten ++ Terminator :: tail))).length := by
        simp only [List.length_cons, List.length_append]
        omega
      simp only [Nat.succ_ne_zero, if_false, hdrop, hlt, if_true, htake]
      rw [ih2 f _ hf]
      simp

/-- On a well-formed encoded array, possibly followed by more bytes, `ExplodeArray`
returns the element encodings in order. -/
theorem ExplodeArray_encodedArray (codec : Codec) (tmp tail : Bytes) (elems : List Bytes)
    (hp : codec.arrayLenPrefix = false) (h : ∀ e ∈ elems, CompleteElem codec tmp e) :
    ExplodeArray codec (encodedArray elems tail) tmp = .ret (some elems, none) := by
  unfold ExplodeArray encodedArray
  simp only [hp, Bool.false_eq_true, if_false, ne_eq, not_true_eq_false]
  have := ExplodeArray_loop_complete codec tmp tail elems h
    (elems.flatten ++ Terminator :: tail).length [] (le_refl _)
  simpa using this

/-- The `i`-th element of a well-formed encoded array is the section of the array that
starts after the type byte and the earlier elements. -/
theorem encodedArray_section (elems : List Bytes) (tail : Bytes) (i : Nat)
    (hi : i < elems.length) :
    ((encodedArray elems tail).drop (1 + (elems.take i).flatten.length)).take
      (elems[i]).length = elems[i] := by
  unfold encodedArray
  rw [Nat.add_comm, List.drop_succ_cons]
  have hsplit : elems = elems.take i ++ elems[i] :: elems.drop (i + 1) := by
    rw [← List.drop_eq_getElem_cons hi, List.take_append_drop]
  have : elems.flatten ++ Terminator :: tail
      = (elems.take i).flatten ++ (elems[i] ++ ((elems.drop (i + 1)).flatten
          ++ Terminator :: tail)) := by
    have hflat := congrArg List.flatten hsplit
    simp only [List.flatten_append, List.flatten_cons] at hflat
    conv_lhs => rw [hflat]
    simp only [List.append_assoc]
  rw [this, List.drop_left, List.take_left]

/-- `JoinArray` without length prefix: the buffer, the type byte, the values, the
terminator. -/
theorem JoinArray_eq (codec : Codec) (vals : List Bytes) (code : Bytes)
    (hp : codec.arrayLenPrefix = false) :
    JoinArray codec vals code
      = .ret (some (code ++ [TypeArray] ++ vals.flatten ++ [Terminator]), none) := by
  simp [JoinArray, hp, foldl_append_eq_flatten]

theorem overwrite_set {α : Type} (l : List α) (p : Nat) (x : α) (xs : List α)
    (h : p < l.length) :
    overwrite (l.set p x) (p + 1) xs = overwrite l p (x :: xs) := by
  unfold overwrite
  have h1 : (l.set p x).take (p + 1) = l.take p ++ [x] := by
    rw [List.set_eq_take_append_cons_drop, if_pos h]
    rw [List.take_append_eq_append_take]
    simp [List.length_take, Nat.min_eq_left (Nat.le_of_lt h)]
  have h2 : (l.set p x).drop (p + 1 + xs.length) = l.drop (p + (x :: xs).length) := by
    rw [List.drop_set_of_lt _ _ (by omega)]
    congr 1
    simp only [List.length_cons]
    omega
  rw [h1, h2]
  simp

theorem overwrite_nil {α : Type} (l : List α) (p : Nat) : overwrite l p [] = l := by
  simp [overwrite]

theorem overwrite_zero_take {α : Type} (l xs : List α) :
    (overwrite l 0 xs).take xs.length = xs := by
  simp [overwrite]

theorem overwrite_length {α : Type} (l : List α) (p : Nat) (xs : List α)
    (h : p + xs.length ≤ l.length) : (overwrite l p xs).length = l.length := by
  simp only [overwrite, List.length_append, List.length_take, List.length_drop]
  omega

theorem overwrite_zero_getElem? {α : Type} (l xs : List α) (i : Nat) (hi : i < xs.length) :
    (overwrite l 0 xs)[i]? = xs[i]? := by
  simp only [overwrite, List.take_zero, List.nil_append, Nat.zero_add]
  rw [List.getElem?_append_left hi]

/-- On elements that are complete encodings followed by the terminator, the loop of
`ExplodeArray2` stores the elements in `cktmp` and their texts in `dktmp` from `pos` on. -/
theorem ExplodeArray2_loop_complete (codec : Codec) (tmp tail : Bytes) :
    ∀ (elems texts : List Bytes), List.Forall₂ (DecodesTo codec tmp) elems texts →
    ∀ (fuel : Nat) (s : Explode2State),
      (elems.flatten ++ Terminator :: tail).length ≤ fuel →
      s.pos + elems.length ≤ s.cktmp.length →
      (∀ d, s.dktmp = some d →
        s.pos + elems.length ≤ d.length ∧ (texts.map List.length).sum ≤ s.decbuf.length) →
      ExplodeArray2.loop codec tmp fuel (elems.flatten ++ Terminator :: tail)
          (elems.flatten ++ Terminator :: tail) s
        = .ret (some (overwrite s.cktmp s.pos elems),
            s.dktmp.map (fun d => overwrite d s.pos texts), none) := by
  intro elems texts h
  induction h with
  | nil =>
    intro fuel s _ _ _
    rw [List.flatten_nil, List.nil_append, ExplodeArray2.loop.eq_def]
    cases hd : s.dktmp <;> simp [overwrite_nil, hd]
  | @cons e text es ts hd _ ih =>
    intro fuel s hfuel hck hdk
    obtain ⟨hne, hhead, hdec⟩ := hd
    cases e with
    | nil => exact absurd rfl hne
    | cons c cs =>
      have hc : c ≠ Terminator := by
        intro hEq
        apply hhead
        simp [hEq]
      have htext := hdec (es.flatten ++ Terminator :: tail)
      have hlen : 1 ≤ fuel := by
        simp only [List.flatten_cons, List.length_append, List.length_cons] at hfuel
        omega
      obtain ⟨f, rfl⟩ : ∃ f, fuel = f + 1 := ⟨fuel - 1, by omega⟩
      have hcode : ((c :: cs) :: es).flatten ++ Terminator :: tail
          = c :: (cs ++ (es.flatten ++ Terminator :: tail)) := by
        simp [List.flatten_cons, List.append_assoc]
      have htext2 : codec.code2json (c :: (cs ++ (es.flatten ++ Terminator :: tail))) tmp
          = .ret (text, cs.length + 1, none) := by
        simpa using htext
      have hf : (es.flatten ++ Terminator :: tail).length ≤ f := by
        simp only [List.flatten_cons, List.length_append, List.length_cons] at hfuel ⊢
        omega
      have hdrop : List.drop (cs.length + 1) (c :: (cs ++ (es.flatten ++ Terminator :: tail)))
          = es.flatten ++ Terminator :: tail := by
        simp
      have htake : List.take
          ((c :: (cs ++ (es.flatten ++ Terminator :: tail))).length
            - (es.flatten ++ Terminator :: tail).length)
          (c :: (cs ++ (es.flatten ++ Terminator :: tail))) = c :: cs := by
        have : (c :: (cs ++ (es.flatten ++ Terminator :: tail))).length
            - (es.flatten ++ Terminator :: tail).length = cs.length + 1 := by
          simp only [List.length_cons, List.length_append]
          omega
        rw [this]
        simp
      have hlt : (es.flatten ++ Terminator :: tail).length
          < (c :: (cs ++ (es.flatten ++ Terminator :: tail))).length := by
        simp only [List.length_cons, List.length_append]
        omega
      have hpos : s.pos < s.cktmp.length := by
        simp only [List.length_cons] at hck
        omega
      rw [hcode, ExplodeArray2.loop]
      simp only [hc, if_false, htext2, Exec_bind_ret]
      cases hdkEq : s.dktmp with
      | none =>
        simp only [ExplodeArray2.storeDecoded, hdkEq, Exec_bind_ret, hdrop, hlt, if_true, hpos,
          htake]
        rw [ih f _ hf (by simp only [List.length_set, List.length_cons] at hck ⊢; omega)
          (by intro d hd2; simp [hdkEq] at hd2)]
        simp [overwrite_set _ _ _ _ hpos, hdkEq]
      | some d =>
        obtain ⟨hd1, hd2⟩ := hdk d hdkEq
        have hposd : s.pos < d.length := by
          simp only [List.length_cons] at hd1
          omega
        have htl : text.length ≤ s.decbuf.length := by
          simp only [List.map_cons, List.sum_cons] at hd2
          omega
        simp only [ExplodeArray2.storeDecoded, hdkEq, hposd, htl, and_self, if_true,
          Exec_bind_ret, hdrop, hlt, hpos, htake]
        rw [ih f _ hf (by simp only [List.length_set, List.length_cons] at hck ⊢; omega)
          (by
            intro d2 hd3
            simp only [Option.some.injEq] at hd3
            subst hd3
            simp only [List.length_set, List.length_drop, List.length_cons, List.map_cons,
              List.sum_cons] at hd1 hd2 ⊢
            omega)]
        simp [overwrite_set _ _ _ _ hpos, overwrite_set _ _ _ _ hposd]

/-- On a well-formed encoded array, possibly followed by more bytes, `ExplodeArray2`
stores the element encodings at the front of `cktmp` and, when `dktmp` is supplied, the
decoded texts at the front of `dktmp`. -/
theorem ExplodeArray2_encodedArray (codec : Codec) (tmp tail decbuf : Bytes)
    (elems texts cktmp : List Bytes) (dktmp : Option (List Bytes))
    (hp : codec.arrayLenPrefix = false)
    (h : List.Forall₂ (DecodesTo codec tmp) elems texts)
    (hck : elems.length ≤ cktmp.length)
    (hdk : ∀ d, dktmp = some d →
      elems.length ≤ d.length ∧ (texts.map List.length).sum ≤ decbuf.length) :
    ExplodeArray2 codec (encodedArray elems tail) tmp decbuf cktmp dktmp
      = .ret (some (overwrite cktmp 0 elems), dktmp.map (fun d => overwrite d 0 texts),
          none) := by
  unfold ExplodeArray2 encodedArray
  simp only [hp, Bool.false_eq_true, if_false, ne_eq, not_true_eq_false]
  have := ExplodeArray2_loop_complete codec tmp tail elems texts h
    ((elems.flatten ++ Terminator :: tail).length + (dktmp.elim 0 List.length) + 1)
    { cktmp := cktmp, dktmp := dktmp, decbuf := decbuf, pos := 0 }
    (by omega) (by simpa using hck) (by simpa using hdk)
  simpa using this

/-! ## Codec: the sample decoder -/

theorem sampleCodec_decodes_null :
    DecodesTo sampleCodec [] [2, 0] [2] := by
  refine ⟨by simp, by simp [Terminator], ?_⟩
  intro rest
  simp [sampleCodec, sampleScan, Terminator]

theorem sampleCodec_decodes_zero :
    DecodesTo sampleCodec [] [5, 48, 0] [5, 48] := by
  refine ⟨by simp, by simp [Terminator], ?_⟩
  intro rest
  simp [sampleCodec, sampleScan, Terminator]

theorem sampleCodec_forall₂ :
    List.Forall₂ (DecodesTo sampleCodec []) [[2, 0], [5, 48, 0]] [[2], [5, 48]] :=
  List.Forall₂.cons sampleCodec_decodes_null
    (List.Forall₂.cons sampleCodec_decodes_zero List.Forall₂.nil)

theorem sampleCodec_complete :
    ∀ e ∈ [[2, 0], [5, 48, 0]], CompleteElem sampleCodec [] e := by
  intro e he
  simp only [List.mem_cons, List.mem_singleton, List.not_mem_nil, or_false] at he
  rcases he with rfl | rfl
  · exact DecodesTo_complete sampleCodec_decodes_null
  · exact DecodesTo_complete sampleCodec_decodes_zero

/-! ## Codec: the claims -/

/-- Claim C6: on an input `TypeArray ++ e0 ++ ... ++ en ++ Terminator` whose elements are
complete non-empty element encodings, `ExplodeArray` returns exactly `[e0, ..., en]`, and
each returned slice is the section of the input that starts after the type byte and the
earlier elements. The same holds when further bytes follow the terminator. -/
theorem ExplodeArray_returns_elements (codec : Codec) (tmp tail : Bytes)
    (elems : List Bytes) (hp : codec.arrayLenPrefix = false)
    (h : ∀ e ∈ elems, CompleteElem codec tmp e) :
    ExplodeArray codec (encodedArray elems tail) tmp = .ret (some elems, none) ∧
      ∀ (i : Nat) (hi : i < elems.length),
        ((encodedArray elems tail).drop (1 + (elems.take i).flatten.length)).take
          (elems[i]).length = elems[i] :=
  ⟨ExplodeArray_encodedArray codec tmp tail elems hp h,
    fun i hi => encodedArray_section elems tail i hi⟩

theorem ExplodeArray_returns_elements_witness :
    (sampleCodec.arrayLenPrefix = false ∧
      ∀ e ∈ [[2, 0], [5, 48, 0]], CompleteElem sampleCodec [] e) ∧
    ExplodeArray sampleCodec [7, 2, 0, 5, 48, 0, 0] [] = .ret (some [[2, 0], [5, 48, 0]], none) :=
  ⟨⟨rfl, sampleCodec_complete⟩,
    (ExplodeArray_returns_elements sampleCodec [] [] [[2, 0], [5, 48, 0]] rfl
      sampleCodec_complete).1⟩

/-- Claim C7: for a well-formed encoded array `a`, joining the slices returned by
`ExplodeArray a` with `JoinArray` into an empty buffer gives back `a`; and for every list
`vals` of complete element encodings, `ExplodeArray (JoinArray vals [])` returns `vals`. -/
theorem JoinArray_ExplodeArray_inverse (codec : Codec) (tmp : Bytes) (vals : List Bytes)
    (hp : codec.arrayLenPrefix = false) (h : ∀ e ∈ vals, CompleteElem codec tmp e) :
    (∃ parts, ExplodeArray codec (encodedArray vals []) tmp = .ret (some parts, none) ∧
        JoinArray codec parts [] = .ret (some (encodedArray vals []), none)) ∧
      (∃ joined, JoinArray codec vals [] = .ret (some joined, none) ∧
        ExplodeArray codec joined tmp = .ret (some vals, none)) := by
  have hjoin : JoinArray codec vals [] = .ret (some (encodedArray vals []), none) := by
    rw [JoinArray_eq codec vals [] hp]
    simp [encodedArray]
  exact ⟨⟨vals, ExplodeArray_encodedArray codec tmp [] vals hp h, hjoin⟩,
    ⟨encodedArray vals [], hjoin, ExplodeArray_encodedArray codec tmp [] vals hp h⟩⟩

theorem JoinArray_ExplodeArray_inverse_witness :
    (sampleCodec.arrayLenPrefix = false ∧
      ∀ e ∈ [[2, 0], [5, 48, 0]], CompleteElem sampleCodec [] e) ∧
    (∃ joined, JoinArray sampleCodec [[2, 0], [5, 48, 0]] [] = .ret (some joined, none) ∧
      ExplodeArray sampleCodec joined [] = .ret (some [[2, 0], [5, 48, 0]], none)) :=
  ⟨⟨rfl, sampleCodec_complete⟩,
    (JoinArray_ExplodeArray_inverse sampleCodec [] [[2, 0], [5, 48, 0]] rfl
      sampleCodec_complete).2⟩

/-- Claim C8: on a well-formed encoded array with `n` elements and a `cktmp` of length at
least `n`, the first `n` entries of the `cktmp` returned by `ExplodeArray2` are the list
returned by `ExplodeArray` on the same input; and when `dktmp` is supplied with length at
least `n` and `decbuf` is at least as long as the decoded texts together, `dktmp[i]` holds
the decoder's text of element `i` for every `i < n`. -/
theorem ExplodeArray2_refines_ExplodeArray (codec : Codec) (tmp tail decbuf : Bytes)
    (elems texts cktmp : List Bytes) (dktmp : Option (List Bytes))
    (hp : codec.arrayLenPrefix = false)
    (h : List.Forall₂ (DecodesTo codec tmp) elems texts)
    (hck : elems.length ≤ cktmp.length)
    (hdk : ∀ d, dktmp = some d →
      elems.length ≤ d.length ∧ (texts.map List.length).sum ≤ decbuf.length) :
    ∃ ck dk,
      ExplodeArray2 codec (encodedArray elems tail) tmp decbuf cktmp dktmp
        = .ret (some ck, dk, none) ∧
      ExplodeArray codec (encodedArray elems tail) tmp
        = .ret (some (ck.take elems.length), none) ∧
      ck.length = cktmp.length ∧
      (dktmp = none → dk = none) ∧
      (∀ d, dktmp = some d → ∃ d2, dk = some d2 ∧ d2.length = d.length ∧
        ∀ (i : Nat) (hi : i < texts.length), d2[i]? = some texts[i]) := by
  refine ⟨overwrite cktmp 0 elems, dktmp.map (fun d => overwrite d 0 texts),
    ExplodeArray2_encodedArray codec tmp tail decbuf elems texts cktmp dktmp hp h hck hdk,
    ?_, ?_, ?_, ?_⟩
  · rw [overwrite_zero_take]
    exact ExplodeArray_encodedArray codec tmp tail elems hp
      (forall₂_decodes_complete h)
  · exact overwrite_length cktmp 0 elems (by simpa using hck)
  · intro hd
    simp [hd]
  · intro d hd
    have hlen : elems.length = texts.length := h.length_eq
    refine ⟨overwrite d 0 texts, by simp [hd], ?_, ?_⟩
    · exact overwrite_length d 0 texts (by have := (hdk d hd).1; omega)
    · intro i hi
      rw [overwrite_zero_getElem? d texts i hi, List.getElem?_eq_getElem hi]


theorem ExplodeArray2_refines_ExplodeArray_witness :
    (sampleCodec.arrayLenPrefix = false ∧
      List.Forall₂ (DecodesTo sampleCodec []) [[2, 0], [5, 48, 0]] [[2], [5, 48]] ∧
      [[2, 0], [5, 48, 0]].length ≤ [([] : Bytes), [], [9]].length ∧
      (∀ d, some [([] : Bytes), [], [9]] = some d →
        [[2, 0], [5, 48, 0]].length ≤ d.length ∧
          ([[2], [5, 48]].map List.length).sum ≤ [0, 0, 0, 0].length)) ∧
    ∃ ck dk,
      ExplodeArray2 sampleCodec (encodedArray [[2, 0], [5, 48, 0]] [1, 2]) [] [0, 0, 0, 0]
          [[], [], [9]] (some [[], [], [9]]) = .ret (some ck, dk, none) ∧
      ExplodeArray sampleCodec (encodedArray [[2, 0], [5, 48, 0]] [1, 2]) []
        = .ret (some (ck.take 2), none) := by
  have hdk : ∀ d, some [([] : Bytes), [], [9]] = some d →
      [[2, 0], [5, 48, 0]].length ≤ d.length ∧
        ([[2], [5, 48]].map List.length).sum ≤ [0, 0, 0, 0].length := by
    intro d hd
    cases hd
    decide
  obtain ⟨ck, dk, h1, h2, _⟩ :=
    ExplodeArray2_refines_ExplodeArray sampleCodec [] [1, 2] [0, 0, 0, 0]
      [[2, 0], [5, 48, 0]] [[2], [5, 48]] [[], [], [9]] (some [[], [], [9]]) rfl
      sampleCodec_forall₂ (by decide) hdk
  exact ⟨⟨rfl, sampleCodec_forall₂, by decide, hdk⟩, ck, dk, h1, h2⟩

/-- Claim C9: without length-prefixed arrays `JoinArray` returns the buffer it was given,
then `TypeArray`, then the values in order, then `Terminator`, with no error, so the result
is `len(code) + 2 + sum of len(vals[i])` bytes long; with length-prefixed arrays configured
it returns no bytes and `ErrLenPrefixUnsupported`. -/
theorem JoinArray_result (codec : Codec) (vals : List Bytes) (code : Bytes) :
    (codec.arrayLenPrefix = false →
      ∃ out, JoinArray codec vals code = .ret (some out, none) ∧
        out = code ++ [TypeArray] ++ vals.flatten ++ [Terminator] ∧
        out.length = code.length + 2 + (vals.map List.length).sum) ∧
    (codec.arrayLenPrefix = true →
      JoinArray codec vals code = .ret (none, some .ErrLenPrefixUnsupported)) := by
  constructor
  · intro hp
    refine ⟨_, JoinArray_eq codec vals code hp, rfl, ?_⟩
    simp only [List.length_append, List.length_flatten, List.length_singleton]
    omega
  · intro hp
    simp [JoinArray, hp]

theorem JoinArray_result_witness :
    (sampleCodec.arrayLenPrefix = false ∧ sampleLenPrefixCodec.arrayLenPrefix = true) ∧
    (∃ out, JoinArray sampleCodec [[2, 0], [5, 48, 0]] [9] = .ret (some out, none) ∧
      out = [9] ++ [TypeArray] ++ [[2, 0], [5, 48, 0]].flatten ++ [Terminator] ∧
      out.length = [9].length + 2 + ([[2, 0], [5, 48, 0]].map List.length).sum) ∧
    JoinArray sampleLenPrefixCodec [[2, 0], [5, 48, 0]] [9]
      = .ret (none, some .ErrLenPrefixUnsupported) :=
  ⟨⟨rfl, rfl⟩, (JoinArray_result sampleCodec [[2, 0], [5, 48, 0]] [9]).1 rfl,
    (JoinArray_result sampleLenPrefixCodec [[2, 0], [5, 48, 0]] [9]).2 rfl⟩

/-- Claim C10: on a non-empty input whose leading byte is not `TypeArray`, `ExplodeArray`
and `ExplodeArray2` return `ErrNotAnArray` and no slices when length-prefixed arrays are
not configured; when they are configured both return `ErrLenPrefixUnsupported` and no
slices on every input, whatever its leading byte. -/
theorem Explode_error_results (codec : Codec) (c : Byte) (cs tmp decbuf : Bytes)
    (cktmp : List Bytes) (dktmp : Option (List Bytes)) :
    (codec.arrayLenPrefix = false → c ≠ TypeArray →
      ExplodeArray codec (c :: cs) tmp = .ret (none, some .ErrNotAnArray) ∧
      ExplodeArray2 codec (c :: cs) tmp decbuf cktmp dktmp
        = .ret (none, none, some .ErrNotAnArray)) ∧
    (codec.arrayLenPrefix = true → ∀ code : Bytes,
      ExplodeArray codec code tmp = .ret (none, some .ErrLenPrefixUnsupported) ∧
      ExplodeArray2 codec code tmp decbuf cktmp dktmp
        = .ret (none, none, some .ErrLenPrefixUnsupported)) := by
  constructor
  · intro hp hc
    simp [ExplodeArray, ExplodeArray2, hp, hc]
  · intro hp code
    simp [ExplodeArray, ExplodeArray2, hp]

theorem Explode_error_results_witness :
    (sampleCodec.arrayLenPrefix = false ∧ (5 : Byte) ≠ TypeArray ∧
      sampleLenPrefixCodec.arrayLenPrefix = true) ∧
    (ExplodeArray sampleCodec [5, 48, 0] [] = .ret (none, some .ErrNotAnArray) ∧
      ExplodeArray2 sampleCodec [5, 48, 0] [] [0, 0] [[]] none
        = .ret (none, none, some .ErrNotAnArray)) ∧
    (ExplodeArray sampleLenPrefixCodec [5, 48, 0] [] = .ret (none, some .ErrLenPrefixUnsupported) ∧
      ExplodeArray2 sampleLenPrefixCodec [5, 48, 0] [] [0, 0] [[]] none
        = .ret (none, none, some .ErrLenPrefixUnsupported)) :=
  ⟨⟨rfl, by decide, rfl⟩,
    (Explode_error_results sampleCodec 5 [48, 0] [] [0, 0] [[]] none).1 rfl (by decide),
    (Explode_error_results sampleLenPrefixCodec 5 [48, 0] [] [0, 0] [[]] none).2 rfl [5, 48, 0]⟩

/-! ## Composite filters -/

/-- The body of the loop of `applyFilter` lets a component pass exactly when the component
meets the low and the high bound as the spec words them. -/
theorem applyFilter_body_iff (ck : Bytes) (f : CompositeElementFilter) :
    applyFilter.body ck f = true ↔ lowBoundHolds ck f ∧ highBoundHolds ck f := by
  unfold applyFilter.body lowBoundHolds highBoundHolds
  cases hI : f.Inclusion <;>
    by_cases hl : f.Low.kind = KeyKind.MinIndexKey <;>
    by_cases hh : f.High.kind = KeyKind.MaxIndexKey <;>
    simp [hl, hh]

theorem applyFilter_loop_spec (cks : List Bytes) :
    ∀ (filters : List CompositeElementFilter) (i : Nat), i + filters.length ≤ cks.length →
      ∃ b, applyFilter.loop cks i filters = .ret b ∧
        (b = true ↔ ∀ (j : Nat) (ck : Bytes) (f : CompositeElementFilter),
          cks[i + j]? = some ck → filters[j]? = some f →
            lowBoundHolds ck f ∧ highBoundHolds ck f) := by
  intro filters
  induction filters with
  | nil =>
    intro i _
    exact ⟨true, rfl, by simp⟩
  | cons f fs ih =>
    intro i hlen
    simp only [List.length_cons] at hlen
    have hi : i < cks.length := by omega
    obtain ⟨b, hb, hiff⟩ := ih (i + 1) (by omega)
    by_cases hbody : applyFilter.body cks[i] f = true
    · refine ⟨b, ?_, ?_⟩
      · simp [applyFilter.loop, List.getElem?_eq_getElem hi, hbody, hb]
      · rw [hiff]
        constructor
        · intro hall j ck g hck hg
          cases j with
          | zero =>
            simp only [Nat.add_zero, List.getElem?_eq_getElem hi, Option.some.injEq,
              List.getElem?_cons_zero] at hck hg
            subst hck hg
            exact (applyFilter_body_iff _ _).mp hbody
          | succ j =>
            simp only [List.getElem?_cons_succ] at hg
            exact hall j ck g (by rw [← hck]; congr 1; omega) hg
        · intro hall j ck g hck hg
          exact hall (j + 1) ck g (by rw [← hck]; congr 1; omega)
            (by simpa using hg)
    · refine ⟨false, ?_, ?_⟩
      · simp [applyFilter.loop, List.getElem?_eq_getElem hi, hbody]
      · constructor
        · intro h
          cases h
        · intro hall
          exact absurd ((applyFilter_body_iff _ _).mpr
            (hall 0 cks[i] f (by simp [List.getElem?_eq_getElem hi]) (by simp))) hbody

/-- When there are no more component filters than components, `applyFilter` returns, and
it returns true exactly when every filter position has a component within both bounds. -/
theorem applyFilter_spec (cks : List Bytes) (filters : List CompositeElementFilter)
    (hlen : filters.length ≤ cks.length) :
    ∃ b, applyFilter cks filters = .ret b ∧ (b = true ↔ allBoundsHold cks filters) := by
  obtain ⟨b, hb, hiff⟩ := applyFilter_loop_spec cks filters 0 (by omega)
  refine ⟨b, hb, ?_⟩
  rw [hiff]
  unfold allBoundsHold
  simp only [Nat.zero_add]

/-- Claim C1: when there are no more component filters than components, `applyFilter`
returns, and it returns true if and only if at every filter position the component meets
both bounds under byte-wise comparison: the low bound is skipped for the `MinIndexKey`
sentinel and otherwise asks `ck > Low` (Neither, High) or `ck >= Low` (Low, Both); the high
bound is skipped for the `MaxIndexKey` sentinel and otherwise asks `ck < High` (Neither,
Low) or `ck <= High` (High, Both). -/
theorem applyFilter_iff_bounds (cks : List Bytes) (filters : List CompositeElementFilter)
    (hlen : filters.length ≤ cks.length) :
    ∃ b, applyFilter cks filters = .ret b ∧
      (b = true ↔ ∀ (i : Nat) (ck : Bytes) (f : CompositeElementFilter),
        cks[i]? = some ck → filters[i]? = some f →
          (f.Low.kind = KeyKind.MinIndexKey ∨
            ((f.Inclusion = .Neither ∨ f.Inclusion = .High) ∧ 0 < bytesCompare ck f.Low.Bytes) ∨
            ((f.Inclusion = .Low ∨ f.Inclusion = .Both) ∧ 0 ≤ bytesCompare ck f.Low.Bytes)) ∧
          (f.High.kind = KeyKind.MaxIndexKey ∨
            ((f.Inclusion = .Neither ∨ f.Inclusion = .Low) ∧ bytesCompare ck f.High.Bytes < 0) ∨
            ((f.Inclusion = .High ∨ f.Inclusion = .Both) ∧
              bytesCompare ck f.High.Bytes ≤ 0))) :=
  applyFilter_spec cks filters hlen

theorem applyFilter_iff_bounds_witness :
    [({ Low := ⟨.ordinary, [5, 47, 0]⟩, High := ⟨.MaxIndexKey, []⟩, Inclusion := .Low } :
        CompositeElementFilter)].length ≤ [[5, 48, 0], [2, 0]].length ∧
    ∃ b, applyFilter [[5, 48, 0], [2, 0]]
        [{ Low := ⟨.ordinary, [5, 47, 0]⟩, High := ⟨.MaxIndexKey, []⟩, Inclusion := .Low }]
          = .ret b ∧
      (b = true ↔ allBoundsHold [[5, 48, 0], [2, 0]]
        [{ Low := ⟨.ordinary, [5, 47, 0]⟩, High := ⟨.MaxIndexKey, []⟩, Inclusion := .Low }]) :=
  ⟨by decide, applyFilter_iff_bounds [[5, 48, 0], [2, 0]]
    [{ Low := ⟨.ordinary, [5, 47, 0]⟩, High := ⟨.MaxIndexKey, []⟩, Inclusion := .Low }]
    (by decide)⟩


/-! ## Emission: offset and limit -/

theorem toUint64_lt (x : Int) : toUint64 x < 2 ^ 64 := by
  unfold toUint64
  have h1 : 0 ≤ x % 2 ^ 64 := Int.emod_nonneg _ (by norm_num)
  have h2 : x % 2 ^ 64 < 2 ^ 64 := Int.emod_lt_of_pos _ (by norm_num)
  omega

theorem toUint64_of_nonneg (x : Int) (h0 : 0 ≤ x) (h1 : x < 2 ^ 63) :
    toUint64 x = x.toNat := by
  unfold toUint64
  rw [Int.emod_eq_of_lt h0 (by omega)]

theorem emitLoop_succ_write (env : Env) (r : ScanRequest) (entry : Bytes)
    (hD : r.Distinct = false) (hW : ∀ log row, env.WriteItem log row = none)
    (n i : Nat) (st : EmitState) (hoff : st.currOffset ≥ r.Offset)
    (hmod : st.rowsReturned + 1 < 2 ^ 64) :
    emitLoop env r entry (n + 1) i st
      = if st.rowsReturned + 1 = toUint64 r.Limit then
          (⟨st.currOffset, st.rowsReturned + 1, st.previousRow, st.written ++ [entry]⟩,
            some .ErrLimitReached)
        else
          emitLoop env r entry n (i + 1)
            ⟨st.currOffset, st.rowsReturned + 1, st.previousRow, st.written ++ [entry]⟩ := by
  rw [emitLoop]
  simp only [hD, Bool.false_eq_true, false_and, if_false, hoff, if_true, hW,
    Nat.mod_eq_of_lt hmod]

theorem emitLoop_succ_skip (env : Env) (r : ScanRequest) (entry : Bytes)
    (hD : r.Distinct = false) (n i : Nat) (st : EmitState)
    (hoff : ¬ st.currOffset ≥ r.Offset) :
    emitLoop env r entry (n + 1) i st
      = emitLoop env r entry n (i + 1)
          ⟨st.currOffset + 1, st.rowsReturned, st.previousRow, st.written⟩ := by
  rw [emitLoop]
  simp only [hD, Bool.false_eq_true, false_and, if_false, hoff]

/-- The emission loop of a non-distinct request whose writes succeed: it skips what is
left of the offset, then writes until the limit is reached. -/
theorem emitLoop_offset_limit (env : Env) (r : ScanRequest) (entry : Bytes)
    (hD : r.Distinct = false) (hW : ∀ log row, env.WriteItem log row = none) :
    ∀ (n i : Nat) (st : EmitState),
      st.rowsReturned = st.written.length → st.written.length < toUint64 r.Limit →
      (emitLoop env r entry n i st).1.written
          = st.written ++
            ((List.replicate n entry).drop (r.Offset - st.currOffset).toNat).take
              (toUint64 r.Limit - st.written.length) ∧
        (emitLoop env r entry n i st).1.previousRow = st.previousRow ∧
        (emitLoop env r entry n i st).1.rowsReturned
          = (emitLoop env r entry n i st).1.written.length ∧
        (((emitLoop env r entry n i st).2 = none ∧
            (emitLoop env r entry n i st).1.written.length < toUint64 r.Limit ∧
            (r.Offset - (emitLoop env r entry n i st).1.currOffset).toNat
              = (r.Offset - st.currOffset).toNat - n) ∨
          ((emitLoop env r entry n i st).2 = some .ErrLimitReached ∧
            (emitLoop env r entry n i st).1.written.length = toUint64 r.Limit)) := by
  intro n
  induction n with
  | zero =>
    intro i st h1 h2
    simp [emitLoop, h1, h2]
  | succ n ih =>
    intro i st h1 h2
    have hlim := toUint64_lt r.Limit
    by_cases hoff : st.currOffset ≥ r.Offset
    · have ho : (r.Offset - st.currOffset).toNat = 0 := by omega
      rw [emitLoop_succ_write env r entry hD hW n i st hoff (by omega)]
      by_cases hreach : st.rowsReturned + 1 = toUint64 r.Limit
      · rw [if_pos hreach]
        have htake : toUint64 r.Limit - st.written.length = 1 := by omega
        refine ⟨?_, rfl, ?_, Or.inr ⟨rfl, ?_⟩⟩
        · simp only [ho, htake, List.replicate_succ, List.drop_zero, List.take_succ_cons,
            List.take_zero]
        · simp only [List.length_append, List.length_singleton]
          omega
        · simp only [List.length_append, List.length_singleton]
          omega
      · rw [if_neg hreach]
        have := ih (i + 1)
          ⟨st.currOffset, st.rowsReturned + 1, st.previousRow, st.written ++ [entry]⟩
          (by simp [h1]) (by simp only [List.length_append, List.length_singleton]; omega)
        simp only [List.length_append, List.length_singleton] at this
        obtain ⟨hw, hp, hr, hcase⟩ := this
        refine ⟨?_, hp, hr, ?_⟩
        · rw [hw, ho]
          simp only [List.drop_zero, List.append_assoc]
          congr 1
          have : toUint64 r.Limit - st.written.length
              = (toUint64 r.Limit - (st.written.length + 1)) + 1 := by omega
          rw [this, List.replicate_succ, List.take_succ_cons]
          rfl
        · rcases hcase with ⟨ha, hb, hc⟩ | ⟨ha, hb⟩
          · left
            refine ⟨ha, hb, ?_⟩
            rw [hc]
            omega
          · right
            exact ⟨ha, hb⟩
    · have ho : 1 ≤ (r.Offset - st.currOffset).toNat := by omega
      rw [emitLoop_succ_skip env r entry hD n i st hoff]
      have := ih (i + 1) ⟨st.currOffset + 1, st.rowsReturned, st.previousRow, st.written⟩ h1 h2
      obtain ⟨hw, hp, hr, hcase⟩ := this
      have hsk : (r.Offset - (st.currOffset + 1)).toNat + 1
          = (r.Offset - st.currOffset).toNat := by omega
      refine ⟨?_, hp, hr, ?_⟩
      · rw [hw, ← hsk, List.replicate_succ, List.drop_succ_cons]
      · rcases hcase with ⟨ha, hb, hc⟩ | ⟨ha, hb⟩
        · left
          refine ⟨ha, hb, ?_⟩
          dsimp only at hc
          rw [hc]
          omega
        · right
          exact ⟨ha, hb⟩

theorem emitEntry_nondistinct (env : Env) (r : ScanRequest) (entry : Bytes) (count : Int)
    (st : EmitState) (hD : r.Distinct = false) :
    emitEntry env r entry count st = .ret (emitLoop env r entry count.toNat 0 st) := by
  unfold emitEntry
  simp only [hD, Bool.false_and, Bool.false_eq_true, false_and, if_false, Exec_bind_ret]
  cases h : (emitLoop env r entry count.toNat 0 st).2 with
  | none =>
    simp only
    congr 1
    rw [← h]
  | some e =>
    simp only
    congr 1
    rw [← h]

theorem take_drop_append {α : Type} (xs ys : List α) (o l : Nat) :
    ((xs ++ ys).drop o).take l
      = (xs.drop o).take l
        ++ (ys.drop (o - xs.length)).take (l - ((xs.drop o).take l).length) := by
  rw [List.drop_append_eq_append_drop, List.take_append_eq_append_take]
  congr 1
  by_cases h : (xs.drop o).length ≤ l
  · rw [List.take_of_length_le h]
  · have h1 : l - (xs.drop o).length = 0 := by omega
    have h2 : l - ((xs.drop o).take l).length = 0 := by
      rw [List.length_take]
      omega
    rw [h1, h2]

/-- A run of the emission code of a non-distinct request whose writes succeed: it writes
the window of the expanded stream that starts after the rest of the offset and holds what
is left of the limit, and it ends with `ErrLimitReached` exactly when the limit is met. -/
theorem emitAll_offset_limit (env : Env) (r : ScanRequest)
    (hD : r.Distinct = false) (hW : ∀ log row, env.WriteItem log row = none) :
    ∀ (rows : List (Bytes × Int)) (st : EmitState),
      st.rowsReturned = st.written.length → st.written.length < toUint64 r.Limit →
      ∃ st2 err, emitAll env r st rows = .ret (st2, err) ∧
        st2.written = st.written ++
          ((expandCounts rows).drop (r.Offset - st.currOffset).toNat).take
            (toUint64 r.Limit - st.written.length) ∧
        st2.rowsReturned = st2.written.length ∧
        ((err = none ∧ st2.written.length < toUint64 r.Limit) ∨
          (err = some .ErrLimitReached ∧ st2.written.length = toUint64 r.Limit)) := by
  intro rows
  induction rows with
  | nil =>
    intro st h1 h2
    exact ⟨st, none, rfl, by simp [expandCounts], h1, Or.inl ⟨rfl, h2⟩⟩
  | cons row rest ih =>
    intro st h1 h2
    obtain ⟨hw, _, hr, hcase⟩ :=
      emitLoop_offset_limit env r row.1 hD hW row.2.toNat 0 st h1 h2
    have hexp : expandCounts (row :: rest)
        = List.replicate row.2.toNat row.1 ++ expandCounts rest := by
      simp [expandCounts]
    rw [emitAll, emitEntry_nondistinct env r row.1 row.2 st hD, Exec_bind_ret, hexp,
      take_drop_append]
    rcases hcase with ⟨ha, hb, hc⟩ | ⟨ha, hb⟩
    · rw [ha]
      obtain ⟨st2, err, he, hw2, hr2, hcase2⟩ :=
        ih (emitLoop env r row.1 row.2.toNat 0 st).1 hr hb
      refine ⟨st2, err, he, ?_, hr2, hcase2⟩
      rw [hw2, hw, hc, List.append_assoc, List.length_append, List.length_replicate]
      congr 2
      congr 1
      omega
    · rw [ha]
      refine ⟨(emitLoop env r row.1 row.2.toNat 0 st).1, some .ErrLimitReached, rfl, ?_, hr,
        Or.inr ⟨rfl, hb⟩⟩
      have hlen : (((List.replicate row.2.toNat row.1).drop
          (r.Offset - st.currOffset).toNat).take
            (toUint64 r.Limit - st.written.length)).length
          = toUint64 r.Limit - st.written.length := by
        have := congrArg List.length hw
        rw [List.length_append] at this
        omega
      rw [hw, hlen, Nat.sub_self, List.take_zero, List.append_nil]

/-- Claim C3: for a non-distinct request with offset `O` and limit `L >= 1` whose writes
succeed, and for every sequence of rows that reach the emission code (entries that passed
the filter) with their counts, the rows written with `WriteItem` are the rows at indexes
`[O, O+L)` of the stream that repeats each row as often as its count, and the run ends
with `ErrLimitReached` exactly when `rowsReturned` has become `L`. The statement needs
neither `O >= 0` nor counts of at least 1: a negative offset skips nothing and a count
below 1 repeats the row zero times. -/
theorem emit_offset_limit_window (env : Env) (r : ScanRequest) (rows : List (Bytes × Int))
    (hD : r.Distinct = false) (hW : ∀ log row, env.WriteItem log row = none)
    (hL1 : 1 ≤ r.Limit) (hL2 : r.Limit < 2 ^ 63) :
    ∃ st err, emitAll env r EmitState.init rows = .ret (st, err) ∧
      st.written = ((expandCounts rows).drop r.Offset.toNat).take r.Limit.toNat ∧
      st.rowsReturned = st.written.length ∧
      ((err = some .ErrLimitReached ∧ st.rowsReturned = r.Limit.toNat) ∨
        (err = none ∧ st.rowsReturned < r.Limit.toNat)) := by
  have hlim : toUint64 r.Limit = r.Limit.toNat := toUint64_of_nonneg _ (by omega) hL2
  obtain ⟨st, err, he, hw, hr, hcase⟩ :=
    emitAll_offset_limit env r hD hW rows EmitState.init rfl
      (by rw [hlim]; simp only [EmitState.init, List.length_nil]; omega)
  refine ⟨st, err, he, ?_, hr, ?_⟩
  · rw [hw, hlim]
    simp [EmitState.init]
  · rw [hr, ← hlim]
    rcases hcase with ⟨ha, hb⟩ | ⟨ha, hb⟩
    · exact Or.inr ⟨ha, hb⟩
    · exact Or.inl ⟨ha, hb⟩

theorem emit_offset_limit_window_witness :
    (({ Offset := 1, Limit := 3, Distinct := false, isPrimary := false } : ScanRequest).Distinct
        = false ∧
      (∀ log row, sampleEnv.WriteItem log row = none) ∧
      (1 : Int) ≤ ({ Offset := 1, Limit := 3, Distinct := false, isPrimary := false } :
        ScanRequest).Limit ∧
      ({ Offset := 1, Limit := 3, Distinct := false, isPrimary := false } :
        ScanRequest).Limit < 2 ^ 63) ∧
    ∃ st err,
      emitAll sampleEnv { Offset := 1, Limit := 3, Distinct := false, isPrimary := false }
          EmitState.init [([1], 2), ([2], 1), ([3], 3)] = .ret (st, err) ∧
        st.written = [[1], [2], [3]] ∧ err = some .ErrLimitReached := by
  obtain ⟨st, err, he, hw, hr, hcase⟩ :=
    emit_offset_limit_window sampleEnv
      { Offset := 1, Limit := 3, Distinct := false, isPrimary := false }
      [([1], 2), ([2], 1), ([3], 3)] rfl (fun _ _ => rfl) (by decide) (by decide)
  refine ⟨⟨rfl, fun _ _ => rfl, by decide, by decide⟩, st, err, he, ?_, ?_⟩
  · rw [hw]
    decide
  · have hlen : st.written.length = 3 := by
      rw [hw]
      decide
    rcases hcase with ⟨ha, _⟩ | ⟨_, hb⟩
    · exact ha
    · rw [hr, hlen] at hb
      exact absurd hb (by decide)

/-! ## Emission: distinct -/

theorem bytesCompare_eq_zero_iff (a b : Bytes) : bytesCompare a b = 0 ↔ a = b := by
  induction a generalizing b with
  | nil => cases b <;> simp [bytesCompare]
  | cons x xs ih =>
    cases b with
    | nil => simp [bytesCompare]
    | cons y ys =>
      rw [bytesCompare]
      by_cases h1 : x < y
      · have hne : x ≠ y := Nat.ne_of_lt h1
        simp [h1, hne]
      · by_cases h2 : y < x
        · have hne : x ≠ y := (Nat.ne_of_lt h2).symm
          simp [h1, h2, hne]
        · have hxy : x = y := Nat.le_antisymm (Nat.le_of_not_lt h2) (Nat.le_of_not_lt h1)
          subst hxy
          simp only [h1, if_false, List.cons.injEq, true_and]
          exact ih ys

theorem distinctCompare_of_rowOk (env : Env) (a b : Bytes) (ha : RowOk env a)
    (hb : RowOk env b) :
    distinctCompare env a b = .ret (decide (keyOf env a = keyOf env b)) := by
  unfold distinctCompare sliceTo keyOf
  simp only [ha.2.1, ha.2.2, hb.2.1, hb.2.2, and_self, if_true, Exec_bind_ret,
    bytesCompare_eq_zero_iff]

theorem emitLoop_distinct_break (env : Env) (r : ScanRequest) (entry : Bytes)
    (hD : r.Distinct = true) (n i : Nat) (st : EmitState) (hi : i > 0) :
    emitLoop env r entry n i st = (st, none) := by
  cases n with
  | zero => rfl
  | succ n =>
    rw [emitLoop]
    simp only [hD, hi, and_self, if_true]

/-- With `Distinct` set the emission loop runs its body at most once. -/
theorem emitLoop_distinct (env : Env) (r : ScanRequest) (entry : Bytes)
    (hD : r.Distinct = true) (n : Nat) (st : EmitState) :
    emitLoop env r entry (n + 1) 0 st
      = if st.currOffset ≥ r.Offset then
          match env.WriteItem st.written entry with
          | some wrErr =>
            (⟨st.currOffset, (st.rowsReturned + 1) % 2 ^ 64, st.previousRow, st.written⟩,
              some wrErr)
          | none =>
            (⟨st.currOffset, (st.rowsReturned + 1) % 2 ^ 64, st.previousRow,
                st.written ++ [entry]⟩,
              if (st.rowsReturned + 1) % 2 ^ 64 = toUint64 r.Limit then some .ErrLimitReached
              else none)
        else (⟨st.currOffset + 1, st.rowsReturned, st.previousRow, st.written⟩, none) := by
  rw [emitLoop]
  simp only [hD, gt_iff_lt, Nat.lt_irrefl, and_false, if_false]
  by_cases hoff : st.currOffset ≥ r.Offset
  · simp only [hoff, if_true]
    cases hw : env.WriteItem st.written entry with
    | some e => rfl
    | none =>
      simp only
      by_cases hl : (st.rowsReturned + 1) % 2 ^ 64 = toUint64 r.Limit
      · simp only [hl, if_true]
      · simp only [hl, if_false]
        exact emitLoop_distinct_break env r entry hD n 1 _ (by omega)
  · simp only [hoff, if_false]
    exact emitLoop_distinct_break env r entry hD n 1 _ (by omega)

/-- One call of the emission code of a distinct secondary scan on a well-formed row with
a count of at least 1: it returns, writes the row at most once, keeps neighbours among
the written rows different in their key prefixes, and re-establishes the invariant when
it returns no error. -/
theorem emitEntry_distinct_step (env : Env) (r : ScanRequest) (entry : Bytes) (count : Int)
    (st : EmitState) (hD : r.Distinct = true) (hP : r.isPrimary = false)
    (hinv : DistinctInv env r st) (hrow : RowOk env entry) (hc : 1 ≤ count) :
    ∃ st2 err, emitEntry env r entry count st = .ret (st2, err) ∧
      (st2.written = st.written ∨ st2.written = st.written ++ [entry]) ∧
      List.Chain' (KeysDiffer env) st2.written ∧
      (err = none → DistinctInv env r st2) := by
  obtain ⟨hchain, hprev, hlast⟩ := hinv
  obtain ⟨n, hn⟩ : ∃ n, count.toNat = n + 1 := ⟨count.toNat - 1, by omega⟩
  -- what the loop does once the row is known not to repeat the previous one
  have hloop : (∀ last, st.written.getLast? = some last → KeysDiffer env last entry) →
      ∃ st2 err,
        (match (emitLoop env r entry count.toNat 0 st).2 with
          | some e => Exec.ret ((emitLoop env r entry count.toNat 0 st).1, some e)
          | none =>
            if (r.Distinct && !r.isPrimary) = true then
              Exec.ret ({ (emitLoop env r entry count.toNat 0 st).1 with previousRow := entry },
                none)
            else Exec.ret ((emitLoop env r entry count.toNat 0 st).1, none))
          = .ret (st2, err) ∧
        (st2.written = st.written ∨ st2.written = st.written ++ [entry]) ∧
        List.Chain' (KeysDiffer env) st2.written ∧
        (err = none → DistinctInv env r st2) := by
    intro hdiff
    rw [hn, emitLoop_distinct env r entry hD n st]
    have happ : List.Chain' (KeysDiffer env) (st.written ++ [entry]) := by
      apply List.Chain'.append hchain (List.chain'_singleton _)
      intro x hx y hy
      simp only [List.head?_cons, Option.mem_def, Option.some.injEq] at hy
      subst hy
      exact hdiff x hx
    by_cases hoff : st.currOffset ≥ r.Offset
    · simp only [hoff, if_true]
      cases hw : env.WriteItem st.written entry with
      | some e =>
        exact ⟨_, _, rfl, Or.inl rfl, hchain, fun h => by cases h⟩
      | none =>
        simp only
        by_cases hl : (st.rowsReturned + 1) % 2 ^ 64 = toUint64 r.Limit
        · simp only [hl, if_true]
          exact ⟨_, _, rfl, Or.inr rfl, happ, fun h => by cases h⟩
        · simp only [hl, if_false, hD, hP, Bool.not_false, Bool.and_self, if_true]
          refine ⟨_, _, rfl, Or.inr rfl, happ, fun _ => ⟨happ, Or.inr hrow, ?_⟩⟩
          intro last hl2
          simp only [List.getLast?_concat, Option.some.injEq] at hl2
          subst hl2
          exact ⟨rfl, hrow.1, hoff⟩
    · simp only [hoff, if_false, hD, hP, Bool.not_false, Bool.and_self, if_true]
      refine ⟨_, _, rfl, Or.inl rfl, hchain, fun _ => ⟨hchain, Or.inr hrow, ?_⟩⟩
      intro last hl2
      exact absurd (hlast last hl2).2.2 hoff
  unfold emitEntry
  simp only [hD, hP, Bool.not_false, Bool.and_self, true_and]
  by_cases hempty : st.previousRow = []
  · have hnil : st.written.getLast? = none := by
      cases hg : st.written.getLast? with
      | none => rfl
      | some last =>
        have := hlast last hg
        exact absurd (this.1.symm.trans hempty) this.2.1
    simp only [hempty, List.length_nil, ne_eq, not_true_eq_false, if_false, Exec_bind_ret,
      Bool.false_eq_true]
    have := hloop (fun last hl2 => by rw [hnil] at hl2; cases hl2)
    simpa only [hD, hP, Bool.not_false, Bool.and_self] using this
  · have hok : RowOk env st.previousRow := by
      rcases hprev with h | h
      · exact absurd h hempty
      · exact h
    have hlen : st.previousRow.length ≠ 0 := by
      intro h
      exact hempty (List.length_eq_zero.mp h)
    simp only [ne_eq, hlen, not_false_eq_true, if_true,
      distinctCompare_of_rowOk env entry st.previousRow hrow hok, Exec_bind_ret]
    by_cases hk : keyOf env entry = keyOf env st.previousRow
    · simp only [hk, decide_True, if_true]
      exact ⟨st, none, rfl, Or.inl rfl, hchain, fun _ => ⟨hchain, hprev, hlast⟩⟩
    · simp only [hk, decide_False, Bool.false_eq_true, if_false]
      have := hloop (fun last hl2 => by
        have h1 := (hlast last hl2).1
        intro heq
        apply hk
        rw [h1]
        exact heq.symm)
      simpa only [hD, hP, Bool.not_false, Bool.and_self] using this

theorem DistinctInv_init (env : Env) (r : ScanRequest) :
    DistinctInv env r EmitState.init :=
  ⟨List.chain'_nil, Or.inl rfl, fun last h => by simp [EmitState.init] at h⟩

/-- A run of the emission code of a distinct secondary scan: it returns, every row is
written at most once and in order, and no two neighbours among the written rows have
equal key prefixes. -/
theorem emitAll_distinct (env : Env) (r : ScanRequest) (hD : r.Distinct = true)
    (hP : r.isPrimary = false) :
    ∀ (rows : List (Bytes × Int)) (st : EmitState), DistinctInv env r st →
      (∀ row ∈ rows, RowOk env row.1 ∧ 1 ≤ row.2) →
      ∃ st2 err extra, emitAll env r st rows = .ret (st2, err) ∧
        st2.written = st.written ++ extra ∧
        List.Sublist extra (rows.map Prod.fst) ∧
        List.Chain' (KeysDiffer env) st2.written := by
  intro rows
  induction rows with
  | nil =>
    intro st hinv _
    exact ⟨st, none, [], rfl, by simp, List.Sublist.slnil, hinv.1⟩
  | cons row rest ih =>
    intro st hinv hrows
    obtain ⟨hrow, hc⟩ := hrows row (List.mem_cons_self _ _)
    obtain ⟨st1, err1, he, hw, hchain, hnext⟩ :=
      emitEntry_distinct_step env r row.1 row.2 st hD hP hinv hrow hc
    rw [emitAll, he, Exec_bind_ret]
    cases err1 with
    | some e =>
      simp only
      rcases hw with hw | hw
      · exact ⟨st1, some e, [], rfl, by simp [hw], List.nil_sublist _, hchain⟩
      · refine ⟨st1, some e, [row.1], rfl, hw, ?_, hchain⟩
        simp only [List.map_cons]
        exact List.Sublist.cons₂ _ (List.nil_sublist _)
    | none =>
      simp only
      obtain ⟨st2, err, extra, he2, hw2, hsub, hchain2⟩ :=
        ih st1 (hnext rfl) (fun x hx => hrows x (List.mem_cons_of_mem _ hx))
      rcases hw with hw | hw
      · refine ⟨st2, err, extra, he2, by rw [hw2, hw], ?_, hchain2⟩
        simp only [List.map_cons]
        exact List.Sublist.cons _ hsub
      · refine ⟨st2, err, row.1 :: extra, he2, by rw [hw2, hw]; simp, ?_, hchain2⟩
        simp only [List.map_cons]
        exact List.Sublist.cons₂ _ hsub

/-- Two adjacent entries with the same secondary key: with no offset and writes that
succeed, exactly the first is written, whatever the limit and the counts. -/
theorem emitAll_distinct_pair (env : Env) (r : ScanRequest) (hD : r.Distinct = true)
    (hP : r.isPrimary = false) (e1 e2 : Bytes) (c1 c2 : Int)
    (h1 : RowOk env e1) (h2 : RowOk env e2) (hk : keyOf env e1 = keyOf env e2)
    (hc : 1 ≤ c1) (hO : r.Offset ≤ 0) (hW : ∀ log row, env.WriteItem log row = none) :
    ∃ st err, emitAll env r EmitState.init [(e1, c1), (e2, c2)] = .ret (st, err) ∧
      st.written = [e1] := by
  obtain ⟨n, hn⟩ : ∃ n, c1.toNat = n + 1 := ⟨c1.toNat - 1, by omega⟩
  have hoff : EmitState.init.currOffset ≥ r.Offset := by
    simp only [EmitState.init]
    omega
  have hfirst : emitEntry env r e1 c1 EmitState.init
      = if 1 = toUint64 r.Limit then
          .ret (⟨0, 1, [], [e1]⟩, some .ErrLimitReached)
        else .ret (⟨0, 1, e1, [e1]⟩, none) := by
    unfold emitEntry
    simp only [hD, hP, Bool.not_false, Bool.and_self, true_and, hn,
      emitLoop_distinct env r e1 hD n EmitState.init, hoff, if_true, hW]
    simp only [EmitState.init, List.length_nil, ne_eq, not_true_eq_false, if_false,
      Exec_bind_ret, Bool.false_eq_true, List.nil_append, Nat.zero_add]
    by_cases hl : 1 = toUint64 r.Limit
    · have hl2 : 1 % 2 ^ 64 = toUint64 r.Limit := by
        rw [← hl]
        norm_num
      simp only [hl2, if_true, ← hl]
    · have hl2 : ¬ 1 % 2 ^ 64 = toUint64 r.Limit := by
        intro h
        exact hl h
      simp only [hl2, hl, if_false]
      rfl
  have hlen : e1.length ≠ 0 := by
    intro h
    exact h1.1 (List.length_eq_zero.mp h)
  have hsecond : emitEntry env r e2 c2 ⟨0, 1, e1, [e1]⟩ = .ret (⟨0, 1, e1, [e1]⟩, none) := by
    unfold emitEntry
    simp only [hD, hP, Bool.not_false, Bool.and_self, true_and, ne_eq, hlen,
      not_false_eq_true, if_true, distinctCompare_of_rowOk env e2 e1 h2 h1, hk, decide_True,
      Exec_bind_ret]
  rw [emitAll, hfirst]
  by_cases hl : 1 = toUint64 r.Limit
  · rw [if_pos hl]
    exact ⟨_, _, rfl, rfl⟩
  · rw [if_neg hl, Exec_bind_ret]
    simp only
    rw [emitAll, hsecond, Exec_bind_ret]
    exact ⟨_, _, rfl, rfl⟩

/-- Counterexample for claim C5: in a DISTINCT scan of a secondary index, an entry with
the stored count 0 and another key between two entries with the same key is not written
but becomes `previousRow`, so both entries with the same key are written, one after the
other; and with offset 1 two adjacent entries with the same key yield no written row,
the first being consumed by the offset and the second being a duplicate of it. -/
theorem distinct_emission_unwritten_row :
    (emitAll sampleEnv sampleDistinctRequest EmitState.init
        [(sampleEntry, 1), (sampleEntryShort, 0), (sampleEntrySameKey, 1)]).bind
      (fun x => .ret x.1.written) = .ret [sampleEntry, sampleEntrySameKey] ∧
    sampleEntry.take (sampleEnv.lenKey sampleEntry).toNat =
      sampleEntrySameKey.take (sampleEnv.lenKey sampleEntrySameKey).toNat ∧
    (emitAll sampleEnv { Offset := 1, Limit := 10, Distinct := true, isPrimary := false }
        EmitState.init [(sampleEntry, 1), (sampleEntrySameKey, 1)]).bind
      (fun x => .ret x.1.written) = .ret [] := by
  refine ⟨by decide, by decide, by decide⟩

/-- Claim C5: in a DISTINCT scan of a secondary index, for every sequence of rows that
reach the emission code (each a well-formed row with a stored count of at least 1) and
any offset and limit, no two consecutively written rows have byte-equal secondary-key
prefixes and every row is written at most once, also when its count is above 1; and two
adjacent entries with the same secondary key (and any doc ids) yield exactly one written
row when the request has no offset and the writes succeed. -/
theorem distinct_emission (env : Env) (r : ScanRequest) (rows : List (Bytes × Int))
    (hD : r.Distinct = true) (hP : r.isPrimary = false)
    (hrows : ∀ row ∈ rows, RowOk env row.1 ∧ 1 ≤ row.2) :
    (∃ st err, emitAll env r EmitState.init rows = .ret (st, err) ∧
      List.Chain' (fun a b => a.take (env.lenKey a).toNat ≠ b.take (env.lenKey b).toNat)
        st.written ∧
      List.Sublist st.written (rows.map Prod.fst)) ∧
    (∀ (e1 e2 : Bytes) (c1 c2 : Int), RowOk env e1 → RowOk env e2 →
      e1.take (env.lenKey e1).toNat = e2.take (env.lenKey e2).toNat → 1 ≤ c1 →
      r.Offset ≤ 0 → (∀ log row, env.WriteItem log row = none) →
      ∃ st err, emitAll env r EmitState.init [(e1, c1), (e2, c2)] = .ret (st, err) ∧
        st.written = [e1]) := by
  constructor
  · obtain ⟨st, err, extra, he, hw, hsub, hchain⟩ :=
      emitAll_distinct env r hD hP rows EmitState.init (DistinctInv_init env r) hrows
    refine ⟨st, err, he, hchain, ?_⟩
    rw [hw]
    simpa [EmitState.init] using hsub
  · intro e1 e2 c1 c2 h1 h2 hk hc hO hW
    exact emitAll_distinct_pair env r hD hP e1 e2 c1 c2 h1 h2 hk hc hO hW

theorem sampleEntry_rowOk : RowOk sampleEnv sampleEntry := by
  unfold RowOk
  decide

theorem sampleEntrySameKey_rowOk : RowOk sampleEnv sampleEntrySameKey := by
  unfold RowOk
  decide

theorem distinct_emission_witness :
    (sampleDistinctRequest.Distinct = true ∧ sampleDistinctRequest.isPrimary = false ∧
      (∀ row ∈ [(sampleEntry, (2 : Int)), (sampleEntrySameKey, 1)],
        RowOk sampleEnv row.1 ∧ 1 ≤ row.2)) ∧
    (∃ st err, emitAll sampleEnv sampleDistinctRequest EmitState.init
        [(sampleEntry, 2), (sampleEntrySameKey, 1)] = .ret (st, err) ∧
      st.written = [sampleEntry]) := by
  have hrows : ∀ row ∈ [(sampleEntry, (2 : Int)), (sampleEntrySameKey, 1)],
      RowOk sampleEnv row.1 ∧ 1 ≤ row.2 := by
    intro row hrow
    simp only [List.mem_cons, List.mem_singleton, List.not_mem_nil, or_false] at hrow
    rcases hrow with rfl | rfl
    · exact ⟨sampleEntry_rowOk, by decide⟩
    · exact ⟨sampleEntrySameKey_rowOk, by decide⟩
  exact ⟨⟨rfl, rfl, hrows⟩,
    (distinct_emission sampleEnv sampleDistinctRequest
      [(sampleEntry, 2), (sampleEntrySameKey, 1)] rfl rfl hrows).2
      sampleEntry sampleEntrySameKey 2 1 sampleEntry_rowOk sampleEntrySameKey_rowOk
      (by decide) (by decide) (by decide) (fun _ _ => rfl)⟩

/-! ## Emission: the limit 0 -/

/-- Claim C4, evaluated at the limit 0: a non-distinct request with `Limit = 0` and one
entry of count 1. The emission loop increments `rowsReturned` to 1, writes the row, finds
`1 != uint64(0)` and returns no `ErrLimitReached`: `rowsReturned` exceeds the limit. -/
theorem emit_limit_zero_exceeded :
    emitAll sampleEnv sampleLimitZeroRequest EmitState.init [(sampleEntry, 1)]
        = .ret (⟨0, 1, [], [sampleEntry]⟩, none) ∧
      toUint64 sampleLimitZeroRequest.Limit < 1 := by
  decide

/-- With a limit whose `uint64` value is at least 1, the emission loop never takes
`rowsReturned` above the limit, and it leaves it below the limit whenever it returns no
error. -/
theorem emitLoop_rowsReturned_le (env : Env) (r : ScanRequest) (entry : Bytes) :
    ∀ (n i : Nat) (st : EmitState), st.rowsReturned < toUint64 r.Limit →
      (emitLoop env r entry n i st).1.rowsReturned ≤ toUint64 r.Limit ∧
        ((emitLoop env r entry n i st).2 = none →
          (emitLoop env r entry n i st).1.rowsReturned < toUint64 r.Limit) := by
  intro n
  induction n with
  | zero =>
    intro i st h
    exact ⟨Nat.le_of_lt h, fun _ => h⟩
  | succ n ih =>
    intro i st h
    have hlim := toUint64_lt r.Limit
    have hmod : (st.rowsReturned + 1) % 2 ^ 64 = st.rowsReturned + 1 :=
      Nat.mod_eq_of_lt (by omega)
    rw [emitLoop]
    by_cases hb : r.Distinct = true ∧ i > 0
    · simp only [hb, and_self, if_true]
      exact ⟨Nat.le_of_lt h, fun _ => h⟩
    · simp only [hb, if_false]
      by_cases hoff : st.currOffset ≥ r.Offset
      · simp only [hoff, if_true, hmod]
        cases hw : env.WriteItem st.written entry with
        | some e =>
          exact ⟨by simp only; omega, fun h2 => by cases h2⟩
        | none =>
          simp only
          by_cases hl : st.rowsReturned + 1 = toUint64 r.Limit
          · simp only [hl, if_true]
            exact ⟨le_refl _, fun h2 => by cases h2⟩
          · simp only [hl, if_false]
            exact ih (i + 1) _ (by simp only; omega)
      · simp only [hoff, if_false]
        exact ih (i + 1) _ h

/-! ## Entry cache and `filterScanRow2` -/

/-- The copy loop of `Update` stores the keys from index `i` on when the target has room
for them and the backing store is at least as long as the keys together. -/
theorem copyKeys_fits :
    ∀ (keys : List Bytes) (buf : BufShape) (target : List Bytes) (i : Nat),
      i + keys.length ≤ target.length → (keys.map List.length).sum ≤ buf.len →
      buf.len ≤ buf.cap →
      entryCache.copyKeys buf target i keys = .ret (overwrite target i keys) := by
  intro keys
  induction keys with
  | nil =>
    intro buf target i _ _ _
    simp [entryCache.copyKeys, overwrite_nil]
  | cons k ks ih =>
    intro buf target i h1 h2 h3
    simp only [List.length_cons, List.map_cons, List.sum_cons] at h1 h2
    have hi : i < target.length := by omega
    rw [entryCache.copyKeys]
    simp only [hi, true_and]
    rw [if_pos ⟨by omega, by omega⟩, ih _ _ _ (by simp only [List.length_set]; omega)
      (by simp only; omega) (by simp only; omega), overwrite_set _ _ _ _ hi]

/-- The copy loop of `Update` panics on a non-empty key when the backing store has
length 0, as the one has that `Update` has just reallocated. -/
theorem copyKeys_empty_store_panics (c : Nat) (target : List Bytes) (i : Nat) (k : Bytes)
    (ks : List Bytes) (hk : k ≠ []) :
    entryCache.copyKeys ⟨0, c⟩ target i (k :: ks) = .panic := by
  rw [entryCache.copyKeys]
  have : ¬ k.length ≤ 0 := by
    intro h
    exact hk (List.length_eq_zero.mp (Nat.le_zero.mp h))
  simp only [this, and_false, if_false]

/-- The loop over the filter collections returns, without error, whether no collection
matches, when no collection has more component filters than there are components. -/
theorem filterLoop_spec (cks : List Bytes) :
    ∀ (filters : List Filter),
      (∀ fc ∈ filters, fc.CompositeFilters.length ≤ cks.length) →
      ∃ skip, filterLoop cks filters = .ret (skip, none) ∧
        (skip = false ↔ ∃ fc ∈ filters, applyFilter cks fc.CompositeFilters = .ret true) := by
  intro filters
  induction filters with
  | nil =>
    intro _
    exact ⟨true, rfl, by simp⟩
  | cons fc rest ih =>
    intro hlen
    have hfc := hlen fc (List.mem_cons_self _ _)
    obtain ⟨skip, hs, hiff⟩ := ih (fun x hx => hlen x (List.mem_cons_of_mem _ hx))
    obtain ⟨b, hb, _⟩ := applyFilter_spec cks fc.CompositeFilters hfc
    rw [filterLoop, if_neg (by omega), hb, Exec_bind_ret]
    cases b with
    | true =>
      refine ⟨false, by simp, ?_⟩
      simp only [true_iff]
      exact ⟨fc, List.mem_cons_self _ _, hb⟩
    | false =>
      refine ⟨skip, by simpa using hs, ?_⟩
      rw [hiff]
      constructor
      · rintro ⟨x, hx, hx2⟩
        exact ⟨x, List.mem_cons_of_mem _ hx, hx2⟩
      · rintro ⟨x, hx, hx2⟩
        rcases List.mem_cons.mp hx with rfl | hmem
        · rw [hb] at hx2
          cases hx2
        · exact ⟨x, hmem, hx2⟩

theorem overwrite_full {α : Type} (l xs : List α) (h : l.length = xs.length) :
    overwrite l 0 xs = xs := by
  simp [overwrite, ← h]

theorem sum_length_le_encodedArray (elems : List Bytes) (tail : Bytes) :
    (elems.map List.length).sum ≤ (encodedArray elems tail).length := by
  simp only [encodedArray, List.length_cons, List.length_append, List.length_flatten]
  omega

/-- The first call of `filterScanRow2` in a scan (fresh cache, no decoded keys), on a
well-formed key that fits the pool's buffers: the call returns the key's components and
skips the row exactly when no filter collection matches them. -/
theorem filterScanRow2_fresh_fit (env : Env) (scan : Scan) (buf decbuf tail : Bytes)
    (elems texts cktmp : List Bytes) (r : ScanRequest)
    (hp : env.jsonEncoder.arrayLenPrefix = false)
    (hdec : List.Forall₂ (DecodesTo env.jsonEncoder buf) elems texts)
    (hck : cktmp.length = elems.length)
    (hfit : (encodedArray elems tail).length ≤ env.poolBuf.len)
    (hcap : env.poolBuf.len ≤ env.poolBuf.cap)
    (hfilters : ∀ fc ∈ scan.Filters, fc.CompositeFilters.length ≤ elems.length) :
    ∃ res, filterScanRow2 env (encodedArray elems tail) scan buf decbuf false cktmp none r
        entryCache.zero = .ret res ∧
      res.err = none ∧ res.compositekeys = some elems ∧
      (res.skip = false ↔
        ∃ fc ∈ scan.Filters, applyFilter elems fc.CompositeFilters = .ret true) := by
  obtain ⟨skip, hs, hiff⟩ := filterLoop_spec elems scan.Filters hfilters
  have hex := ExplodeArray2_encodedArray env.jsonEncoder buf tail decbuf elems texts cktmp none
    hp hdec (by omega) (by intro d hd; cases hd)
  rw [overwrite_full cktmp elems hck] at hex
  have hupd : (entryCache.zero.Init env false).Update (encodedArray elems tail) elems none
      = .ret { (entryCache.zero.Init env false) with
                entry := encodedArray elems tail, compkeys := some elems,
                decodedvalues := List.replicate elems.length none } := by
    unfold entryCache.Update
    have hnot : ¬ (encodedArray elems tail).length > env.poolBuf.cap := by omega
    simp only [entryCache.Init, entryCache.zero, shapeOf, Option.getD_some, hnot, if_false,
      Option.getD_none]
    rw [copyKeys_fits elems env.poolBuf _ 0 (by simp) (by
      have := sum_length_le_encodedArray elems tail
      omega) hcap]
    rw [overwrite_full _ elems (by simp)]
    rfl
  refine ⟨{ skip := skip, compositekeys := some elems, decodedkeys := none, err := none,
            cachedEntry := { (entryCache.zero.Init env false) with
              entry := encodedArray elems tail, compkeys := some elems,
              decodedvalues := List.replicate elems.length none },
            cktmp := elems, dktmp := none }, ?_, rfl, rfl, hiff⟩
  unfold filterScanRow2 filterScanRow2.lookup
  have hzero : entryCache.zero.Exists = false := rfl
  have hvalid : (entryCache.zero.Init env false).Valid = false := rfl
  simp only [hzero, Bool.and_false, Bool.false_eq_true, if_false, Exec_bind_ret, hex,
    Option.map_none', Option.getD_some, Bool.not_false, if_true, hvalid, hupd, hs,
    Option.isSome_some]

/-- The first call of `filterScanRow2` in a scan (fresh cache), on a well-formed key with
at least one component that is longer than the capacity of the pool's buffers: `Update`
reallocates its backing store with length 0 and panics while copying the first
component. -/
theorem filterScanRow2_fresh_long_panics (env : Env) (scan : Scan) (buf decbuf tail : Bytes)
    (e text : Bytes) (elems texts cktmp : List Bytes) (r : ScanRequest) (getDecoded : Bool)
    (hp : env.jsonEncoder.arrayLenPrefix = false)
    (hdec : List.Forall₂ (DecodesTo env.jsonEncoder buf) (e :: elems) (text :: texts))
    (hck : (e :: elems).length ≤ cktmp.length)
    (hlong : env.poolBuf.cap < (encodedArray (e :: elems) tail).length) :
    filterScanRow2 env (encodedArray (e :: elems) tail) scan buf decbuf getDecoded cktmp none r
      entryCache.zero = .panic := by
  have hex := ExplodeArray2_encodedArray env.jsonEncoder buf tail decbuf (e :: elems)
    (text :: texts) cktmp none hp hdec hck (by intro d hd; cases hd)
  have hne : e ≠ [] := by
    cases hdec with
    | cons h _ => exact h.1
  have hover : overwrite cktmp 0 (e :: elems) = e :: (elems ++ cktmp.drop (elems.length + 1)) := by
    simp [overwrite]
  have hupd : (entryCache.zero.Init env getDecoded).Update (encodedArray (e :: elems) tail)
      (e :: (elems ++ cktmp.drop (elems.length + 1))) none = .panic := by
    unfold entryCache.Update
    have hgt : (encodedArray (e :: elems) tail).length > env.poolBuf.cap := hlong
    simp only [entryCache.Init, entryCache.zero, shapeOf, Option.getD_some, hgt, if_true]
    rw [copyKeys_empty_store_panics _ _ _ _ _ hne]
    rfl
  unfold filterScanRow2 filterScanRow2.lookup
  have hzero : entryCache.zero.Exists = false := rfl
  have hvalid : (entryCache.zero.Init env getDecoded).Valid = false := rfl
  simp only [hzero, Bool.and_false, Bool.false_eq_true, if_false, Exec_bind_ret, hex, hover,
    Option.map_none', Option.getD_some, Bool.not_false, if_true, hvalid, hupd,
    Exec_bind_panic]

/-- Claim C2, evaluated at a key longer than the cache's backing store: the first call of
`filterScanRow2` in a scan, with pool buffers of 16 bytes, a well-formed entry of 19 bytes
and a scan whose one filter collection matches the key's components. The claim asks for
`skip = false`; the call panics in `entryCache.Update`, which indexes the backing store it
has just reallocated with length 0. With pool buffers of 64 bytes the same call returns
`skip = false`. -/
theorem filterScanRow2_long_key_panics :
    filterScanRow2 sampleEnv sampleEntry sampleScanAll [] [] false [[], []] none
        sampleRequest entryCache.zero = .panic ∧
      ExplodeArray sampleCodec sampleEntry []
        = .ret (some [[5, 48, 0], [6, 97, 98, 99, 0]], none) ∧
      applyFilter [[5, 48, 0], [6, 97, 98, 99, 0]] [] = .ret true ∧
      (filterScanRow2 sampleEnvLarge sampleEntry sampleScanAll [] [] false [[], []] none
        sampleRequest entryCache.zero).bind (fun res => .ret (res.skip, res.err))
          = .ret (false, none) := by
  decide

/-! ## `filterScanRow` -/

/-- Claim C12: for a well-formed entry key `e` and a scan with the single filter
collection `f`, which has no more component filters than `e` has components,
`filterScanRow` returns the negation of `applyFilter(ExplodeArray(e), f)` as its skip flag
and `ExplodeArray(e)` as its component list, with no error. -/
theorem filterScanRow_single_collection (env : Env) (scanType : ScanType)
    (f : List CompositeElementFilter) (buf tail : Bytes) (elems : List Bytes)
    (hp : env.jsonEncoder.arrayLenPrefix = false)
    (h : ∀ e ∈ elems, CompleteElem env.jsonEncoder buf e)
    (hlen : f.length ≤ elems.length) :
    ∃ b, ExplodeArray env.jsonEncoder (encodedArray elems tail) buf = .ret (some elems, none) ∧
      applyFilter elems f = .ret b ∧
      filterScanRow env (encodedArray elems tail) { ScanType := scanType, Filters := [⟨f⟩] } buf
        = .ret { skip := !b, compositekeys := some elems, err := none } := by
  obtain ⟨b, hb, _⟩ := applyFilter_spec elems f hlen
  have hex := ExplodeArray_encodedArray env.jsonEncoder buf tail elems hp h
  refine ⟨b, hex, hb, ?_⟩
  unfold filterScanRow
  simp only [hex, Exec_bind_ret, Option.getD_some, filterLoop, if_neg (Nat.not_lt.mpr hlen),
    hb]
  cases b <;> rfl

theorem filterScanRow_single_collection_witness :
    (sampleEnv.jsonEncoder.arrayLenPrefix = false ∧
      (∀ e ∈ [[2, 0], [5, 48, 0]], CompleteElem sampleEnv.jsonEncoder [] e) ∧
      [({ Low := ⟨.ordinary, [3]⟩, High := ⟨.MaxIndexKey, []⟩, Inclusion := .Low } :
        CompositeElementFilter)].length ≤ [[2, 0], [5, 48, 0]].length) ∧
    ∃ b, applyFilter [[2, 0], [5, 48, 0]]
        [{ Low := ⟨.ordinary, [3]⟩, High := ⟨.MaxIndexKey, []⟩, Inclusion := .Low }] = .ret b ∧
      filterScanRow sampleEnv (encodedArray [[2, 0], [5, 48, 0]] [9, 1, 0, 1, 0, 0, 0])
          { ScanType := .FilterRangeReq,
            Filters := [⟨[{ Low := ⟨.ordinary, [3]⟩, High := ⟨.MaxIndexKey, []⟩,
                            Inclusion := .Low }]⟩] } []
        = .ret { skip := !b, compositekeys := some [[2, 0], [5, 48, 0]], err := none } := by
  obtain ⟨b, _, hb, hf⟩ := filterScanRow_single_collection sampleEnv .FilterRangeReq
    [{ Low := ⟨.ordinary, [3]⟩, High := ⟨.MaxIndexKey, []⟩, Inclusion := .Low }] []
    [9, 1, 0, 1, 0, 0, 0] [[2, 0], [5, 48, 0]] rfl sampleCodec_complete (by decide)
  exact ⟨⟨rfl, sampleCodec_complete, by decide⟩, b, hb, hf⟩

/-! ## `entryCache.Update` -/

/-- `Update` on the path that reallocates the backing store: the new store has length 0
and the copy loop panics on the first key, when that key is not empty. -/
theorem Update_realloc_panics (e : entryCache) (entry k : Bytes) (ks : List Bytes)
    (dks : Option (List Bytes)) (hlong : entry.length > (shapeOf e.compkeybuf).cap)
    (hk : k ≠ []) :
    e.Update entry (k :: ks) dks = .panic := by
  unfold entryCache.Update
  simp only [shapeOf] at hlong ⊢
  simp only [hlong, if_true, Option.getD_some]
  rw [copyKeys_empty_store_panics _ _ _ _ _ hk]
  rfl

/-- `Update` without reallocation and without decoded keys, on a cache whose slice of
component slices is still `nil` or as long as the incoming list: the cache then holds the
entry and the incoming components. -/
theorem Update_fits (e : entryCache) (b : BufShape) (entry : Bytes) (cks : List Bytes)
    (hbuf : e.compkeybuf = some b) (hcap : entry.length ≤ b.cap) (hlen : b.len ≤ b.cap)
    (hsum : (cks.map List.length).sum ≤ b.len)
    (htarget : ∀ t, e.compkeys = some t → t.length = cks.length) :
    e.Update entry cks none
      = .ret { e with entry := entry, compkeys := some cks,
                      decodedvalues := List.replicate cks.length none } := by
  unfold entryCache.Update
  have hnot : ¬ entry.length > b.cap := by omega
  simp only [hbuf, shapeOf, Option.getD_some, hnot, if_false]
  have htl : (e.compkeys.getD (List.replicate cks.length [])).length = cks.length := by
    cases hc : e.compkeys with
    | none => simp
    | some t => simpa using htarget t hc
  rw [copyKeys_fits cks b _ 0 (by omega) hsum hlen, overwrite_full _ cks htl]
  rfl

/-- Claim C13, evaluated on the path that reallocates the backing store: a cache
initialised with pool buffers of 16 bytes, the entry of 19 bytes and its two components.
The claim asks that `Get()` then returns the two components; `Update` panics, because it
indexes the store it has just made with length 0 (`tmpbuf[len(k):]` on a slice of length
0). With pool buffers of 64 bytes, where nothing is reallocated, the cache holds the
entry and the components. -/
theorem Update_realloc_panics_eval :
    (entryCache.zero.Init sampleEnv false).Update sampleEntry
        [[5, 48, 0], [6, 97, 98, 99, 0]] none = .panic ∧
      ((entryCache.zero.Init sampleEnvLarge false).Update sampleEntry
          [[5, 48, 0], [6, 97, 98, 99, 0]] none).bind
            (fun e => .ret (e.entry, e.Get))
        = .ret (sampleEntry, some [[5, 48, 0], [6, 97, 98, 99, 0]], none) := by
  decide

/-! ## The valid flag of the entry cache -/

theorem distinctCompare_ret (env : Env) (a b : Bytes) (x : Bool)
    (h : distinctCompare env a b = .ret x) :
    x = decide (keyOf env a = keyOf env b) := by
  unfold distinctCompare sliceTo at h
  by_cases ha : 0 ≤ env.lenKey a ∧ env.lenKey a ≤ a.length
  · by_cases hb : 0 ≤ env.lenKey b ∧ env.lenKey b ≤ b.length
    · simp only [ha, hb, and_self, if_true, Exec_bind_ret, Exec.ret.injEq,
        bytesCompare_eq_zero_iff] at h
      rw [← h]
      rfl
    · simp only [ha, hb, and_self, if_true, if_false, Exec_bind_ret, Exec_bind_panic] at h
      cases h
  · simp only [ha, if_false, Exec_bind_panic] at h
    cases h

theorem Exec_bind_eq_ret {α β : Type} (x : Exec α) (f : α → Exec β) (b : β)
    (h : x.bind f = .ret b) : ∃ a, x = .ret a ∧ f a = .ret b := by
  cases x with
  | ret a => exact ⟨a, rfl, h⟩
  | panic => cases h
  | diverge => cases h

theorem Update_valid (e e2 : entryCache) (entry : Bytes) (cks : List Bytes)
    (dks : Option (List Bytes)) (h : e.Update entry cks dks = .ret e2) :
    e2.valid = e.valid := by
  unfold entryCache.Update at h
  obtain ⟨ck, _, h⟩ := Exec_bind_eq_ret _ _ _ h
  cases dks with
  | none =>
    simp only [Exec.ret.injEq] at h
    rw [← h]
    simp only
    split <;> rfl
  | some d =>
    obtain ⟨dk, _, h⟩ := Exec_bind_eq_ret _ _ _ h
    simp only [Exec.ret.injEq] at h
    rw [← h]
    simp only
    split <;> rfl

theorem Init_valid (env : Env) (e : entryCache) (needDecode : Bool) :
    (e.Init env needDecode).valid = e.valid := rfl

/-- The valid flag that `filterScanRow2` leaves in the cache is the one that its cache
lookup (lines 519-526) has set. -/
theorem filterScanRow2_valid_of_lookup (env : Env) (key : Bytes) (scan : Scan)
    (buf decbuf : Bytes) (getDecoded : Bool) (cktmp : List Bytes)
    (dktmp : Option (List Bytes)) (r : ScanRequest) (cache : entryCache)
    (res : FilterResult2)
    (h : filterScanRow2 env key scan buf decbuf getDecoded cktmp dktmp r cache = .ret res) :
    ∃ l, filterScanRow2.lookup env key r cache = .ret l ∧
      res.cachedEntry.valid = l.2.2.valid := by
  unfold filterScanRow2 at h
  obtain ⟨l, hl, h⟩ := Exec_bind_eq_ret _ _ _ h
  refine ⟨l, hl, ?_⟩
  obtain ⟨x, _, h⟩ := Exec_bind_eq_ret _ _ _ h
  cases hx : x.2.2.1 with
  | some e =>
    simp only [hx, Exec.ret.injEq] at h
    rw [← h]
  | none =>
    simp only [hx] at h
    obtain ⟨c3, hc3, h⟩ := Exec_bind_eq_ret _ _ _ h
    obtain ⟨m, _, h⟩ := Exec_bind_eq_ret _ _ _ h
    have hres : res.cachedEntry = c3 := by
      cases hm : m.2 with
      | some e =>
        simp only [hm, Exec.ret.injEq] at h
        rw [← h]
      | none =>
        simp only [hm, Exec.ret.injEq] at h
        rw [← h]
    rw [hres]
    have hc2 : (if (!l.2.2.Exists) = true then l.2.2.Init env getDecoded else l.2.2).valid
        = l.2.2.valid := by
      split
      · exact Init_valid env _ _
      · rfl
    by_cases hv : (!(if (!l.2.2.Exists) = true then l.2.2.Init env getDecoded
        else l.2.2).Valid) = true
    · rw [if_pos hv] at hc3
      rw [Update_valid _ _ _ _ _ hc3, hc2]
    · rw [if_neg hv] at hc3
      simp only [Exec.ret.injEq] at hc3
      rw [← hc3, hc2]

/-- Claim C14: for a call of `filterScanRow2` on a secondary request, the valid flag of
the cache on return is true if and only if the cache was initialised when the call
started and the secondary-key prefix of the cached entry is byte-equal to that of the
key; with a cache that is not yet initialised (whose flag is false) it stays false. -/
theorem filterScanRow2_valid_flag (env : Env) (key : Bytes) (scan : Scan)
    (buf decbuf : Bytes) (getDecoded : Bool) (cktmp : List Bytes)
    (dktmp : Option (List Bytes)) (r : ScanRequest) (cache : entryCache)
    (res : FilterResult2) (hP : r.isPrimary = false)
    (hfresh : cache.Exists = false → cache.valid = false)
    (h : filterScanRow2 env key scan buf decbuf getDecoded cktmp dktmp r cache = .ret res) :
    (res.cachedEntry.valid = true ↔
        cache.Exists = true ∧
          cache.entry.take (env.lenKey cache.entry).toNat = key.take (env.lenKey key).toNat) ∧
      (cache.Exists = false → res.cachedEntry.valid = false) := by
  obtain ⟨l, hl, hv⟩ := filterScanRow2_valid_of_lookup env key scan buf decbuf getDecoded
    cktmp dktmp r cache res h
  rw [hv]
  unfold filterScanRow2.lookup at hl
  cases hE : cache.Exists with
  | false =>
    simp only [hP, hE, Bool.not_false, Bool.and_false, Bool.false_eq_true, if_false,
      Exec.ret.injEq] at hl
    rw [← hl]
    simp [hfresh hE]
  | true =>
    simp only [hP, hE, Bool.not_false, Bool.and_self, if_true] at hl
    obtain ⟨eq, heq, hl⟩ := Exec_bind_eq_ret _ _ _ hl
    have heq2 := distinctCompare_ret env cache.entry key eq heq
    unfold keyOf at heq2
    by_cases hk : cache.entry.take (env.lenKey cache.entry).toNat
        = key.take (env.lenKey key).toNat
    · simp only [hk, decide_True] at heq2
      simp only [heq2, if_true, Exec.ret.injEq] at hl
      rw [← hl]
      simp [entryCache.SetValid, hk]
    · simp only [hk, decide_False] at heq2
      simp only [heq2, Bool.false_eq_true, if_false, Exec.ret.injEq] at hl
      rw [← hl]
      simp [entryCache.SetValid, hk]

theorem Exec_isRet_exists {α : Type} (x : Exec α) (h : x.isRet = true) :
    ∃ a, x = .ret a := by
  cases x with
  | ret a => exact ⟨a, rfl⟩
  | panic => cases h
  | diverge => cases h

theorem filterScanRow2_valid_flag_witness :
    ∃ res, filterScanRow2 sampleEnvLarge sampleEntrySameKey sampleScanAll [] [] false
        [[], []] none sampleRequest sampleCache = .ret res ∧
      res.cachedEntry.valid = true := by
  obtain ⟨res, hres⟩ := Exec_isRet_exists (filterScanRow2 sampleEnvLarge sampleEntrySameKey
    sampleScanAll [] [] false [[], []] none sampleRequest sampleCache) (by decide)
  exact ⟨res, hres, (filterScanRow2_valid_flag sampleEnvLarge sampleEntrySameKey
    sampleScanAll [] [] false [[], []] none sampleRequest sampleCache res rfl
    (fun h => absurd h (by decide)) hres).1.mpr ⟨by decide, by decide⟩⟩

/-! ## `CacheHitRatio` -/

theorem wrapInt64_succ (x : Int) : wrapInt64 (wrapInt64 x + 1) = wrapInt64 (x + 1) := by
  unfold wrapInt64
  omega

theorem wrapInt64_of_range (x : Int) (h1 : -2 ^ 63 ≤ x) (h2 : x < 2 ^ 63) :
    wrapInt64 x = x := by
  unfold wrapInt64
  omega

/-- The counters after a sequence of `SetValid` calls: the numbers of calls with `true`
and with `false`, added with wrap-around. -/
theorem setValidCalls_counters (calls : List Bool) (e : entryCache) :
    (e.setValidCalls calls).hit = (if calls.count true = 0 then e.hit
        else wrapInt64 (e.hit + calls.count true)) ∧
      (e.setValidCalls calls).miss = (if calls.count false = 0 then e.miss
        else wrapInt64 (e.miss + calls.count false)) := by
  induction calls generalizing e with
  | nil => exact ⟨rfl, rfl⟩
  | cons c cs ih =>
    have h := ih (e.SetValid c)
    unfold entryCache.setValidCalls at h ⊢
    rw [List.foldl_cons, h.1, h.2]
    cases c with
    | true =>
      have hc : List.count false (true :: cs) = List.count false cs := by simp
      rw [List.count_cons_self, hc]
      simp only [entryCache.SetValid, if_true, Nat.succ_ne_zero, if_false]
      refine ⟨?_, trivial⟩
      split
      · rename_i h0
        rw [h0]
        rfl
      · unfold wrapInt64
        push_cast
        omega
    | false =>
      have hc : List.count true (false :: cs) = List.count true cs := by simp
      rw [List.count_cons_self, hc]
      simp only [entryCache.SetValid, Bool.false_eq_true, if_false, Nat.succ_ne_zero]
      refine ⟨trivial, ?_⟩
      split
      · rename_i h0
        rw [h0]
        rfl
      · unfold wrapInt64
        push_cast
        omega

/-- The counters of a cache that started with both at 0. -/
theorem setValidCalls_counters_zero (calls : List Bool) (e : entryCache)
    (h0 : e.hit = 0) (m0 : e.miss = 0) :
    (e.setValidCalls calls).hit = wrapInt64 (calls.count true) ∧
      (e.setValidCalls calls).miss = wrapInt64 (calls.count false) := by
  obtain ⟨h1, h2⟩ := setValidCalls_counters calls e
  rw [h1, h2, h0, m0]
  constructor
  · split
    · rename_i h
      rw [h]
      rfl
    · rw [Int.zero_add]
  · split
    · rename_i h
      rw [h]
      rfl
    · rw [Int.zero_add]

theorem CacheHitRatio_arith (h m : Nat) (hhit : 100 * h < 2 ^ 63) (hsum : h + m < 2 ^ 63) :
    (if wrapInt64 ((h : Int) + m) ≠ 0 then
        wrapInt64 (Int.tdiv (wrapInt64 ((h : Int) * 100)) (wrapInt64 ((m : Int) + h)))
      else 0) =
      (if h + m > 0 then ((100 * h / (h + m) : Nat) : Int) else 0) := by
  have e1 : wrapInt64 ((h : Int) + m) = ((h + m : Nat) : Int) := by
    unfold wrapInt64
    push_cast
    omega
  have e2 : wrapInt64 ((h : Int) * 100) = ((100 * h : Nat) : Int) := by
    unfold wrapInt64
    push_cast
    omega
  have e3 : wrapInt64 ((m : Int) + h) = ((h + m : Nat) : Int) := by
    unfold wrapInt64
    push_cast
    omega
  rw [e1, e2, e3, ← Int.ofNat_tdiv]
  have hq : 100 * h / (h + m) ≤ 100 := by
    apply Nat.div_le_of_le_mul
    rw [Nat.add_mul]
    have : h * 100 = 100 * h := Nat.mul_comm _ _
    omega
  generalize 100 * h / (h + m) = q at hq ⊢
  by_cases hz : h + m > 0
  · have hne : ((h + m : Nat) : Int) ≠ 0 := by
      intro hc
      have := Int.ofNat_eq_zero.mp hc
      omega
    rw [if_pos hne, if_pos hz]
    unfold wrapInt64
    omega
  · have hne : ¬ ((h + m : Nat) : Int) ≠ 0 := by
      have h0 : h + m = 0 := by omega
      rw [h0]
      exact fun hc => hc rfl
    rw [if_neg hne, if_neg hz]

/-- The ratio after one `SetValid(true)` and `2^64 - 2` calls `SetValid(false)`, in any
order. -/
theorem CacheHitRatio_wrapped (calls : List Bool) (hc1 : calls.count true = 1)
    (hc2 : calls.count false = 2 ^ 64 - 2) :
    (entryCache.zero.setValidCalls calls).CacheHitRatio = -100 := by
  obtain ⟨h1, h2⟩ := setValidCalls_counters_zero calls entryCache.zero rfl rfl
  unfold entryCache.CacheHitRatio
  rw [h1, h2, hc1, hc2]
  decide

/-- Counterexample for claim C15: after one `SetValid(true)` and `2^64 - 2` calls
`SetValid(false)` the product `100 * hit` is 100, the counter `miss` has wrapped to -2,
and `CacheHitRatio` returns -100. -/
theorem CacheHitRatio_wrapped_miss :
    100 * List.count true (true :: List.replicate (2 ^ 64 - 2) false) < 2 ^ 63 ∧
      (entryCache.zero.setValidCalls
        (true :: List.replicate (2 ^ 64 - 2) false)).CacheHitRatio = -100 := by
  have hc1 : List.count true (true :: List.replicate (2 ^ 64 - 2) false) = 1 := by
    rw [List.count_cons_self, List.count_replicate]
    rfl
  have hc2 : List.count false (true :: List.replicate (2 ^ 64 - 2) false) = 2 ^ 64 - 2 := by
    rw [List.count_cons_of_ne (by decide), List.count_replicate]
    rfl
  refine ⟨?_, CacheHitRatio_wrapped _ hc1 hc2⟩
  rw [hc1]
  decide

/-- Claim C15: for a cache whose counters started at 0 and that went through any sequence
of `SetValid` calls, with `hit` calls with true and `miss` calls with false, where
`100 * hit` and `hit + miss` are within the `int64` range, `CacheHitRatio` returns
`floor(100 * hit / (hit + miss))` when `hit + miss > 0` and 0 otherwise, a value
between 0 and 100. -/
theorem CacheHitRatio_setValidCalls (e : entryCache) (calls : List Bool)
    (h0 : e.hit = 0) (m0 : e.miss = 0)
    (hhit : 100 * calls.count true < 2 ^ 63)
    (hsum : calls.count true + calls.count false < 2 ^ 63) :
    (e.setValidCalls calls).CacheHitRatio =
        (if calls.count true + calls.count false > 0 then
          ((100 * calls.count true / (calls.count true + calls.count false) : Nat) : Int)
        else 0) ∧
      0 ≤ (e.setValidCalls calls).CacheHitRatio ∧
      (e.setValidCalls calls).CacheHitRatio ≤ 100 := by
  obtain ⟨h1, h2⟩ := setValidCalls_counters_zero calls e h0 m0
  have hval : (e.setValidCalls calls).CacheHitRatio =
      (if calls.count true + calls.count false > 0 then
        ((100 * calls.count true / (calls.count true + calls.count false) : Nat) : Int)
      else 0) := by
    unfold entryCache.CacheHitRatio
    rw [h1, h2]
    have hh : wrapInt64 ((calls.count true : Nat) : Int) = (calls.count true : Nat) := by
      unfold wrapInt64
      omega
    have hm : wrapInt64 ((calls.count false : Nat) : Int) = (calls.count false : Nat) := by
      unfold wrapInt64
      omega
    rw [hh, hm]
    exact CacheHitRatio_arith _ _ hhit hsum
  have hq : 100 * calls.count true / (calls.count true + calls.count false) ≤ 100 := by
    apply Nat.div_le_of_le_mul
    rw [Nat.add_mul]
    have : calls.count true * 100 = 100 * calls.count true := Nat.mul_comm _ _
    omega
  rw [hval]
  refine ⟨rfl, ?_, ?_⟩
  · split
    · exact Int.ofNat_nonneg _
    · exact le_refl _
  · split
    · exact Int.ofNat_le.mpr hq
    · exact Int.le_of_lt (by decide)

theorem CacheHitRatio_setValidCalls_witness :
    (entryCache.zero.setValidCalls [true, false, true, true]).CacheHitRatio = 75 :=
  (CacheHitRatio_setValidCalls entryCache.zero [true, false, true, true] rfl rfl
    (by decide) (by decide)).1.trans (by decide)

/-! ## `aggrRow.AddAggregate` -/

theorem addInput_deltas (fn : AggrFunc) (agg : aggrVal) :
    fn.addInput agg = { fn with deltas := fn.deltas ++ [agg.delta] } := by
  unfold AggrFunc.addInput aggrVal.delta AggrFunc.AddDeltaObj AggrFunc.AddDelta
    AggrFunc.AddDeltaRaw
  split
  · rfl
  · split <;> rfl

theorem addInputs_deltas (agg : aggrVal) (n : Nat) (fn : AggrFunc) :
    AggrFunc.addInputs agg n fn =
      { fn with deltas := fn.deltas ++ List.replicate n agg.delta } := by
  induction n generalizing fn with
  | zero => simp [AggrFunc.addInputs]
  | succ n ih =>
    rw [AggrFunc.addInputs, ih, addInput_deltas]
    simp only [List.append_assoc, List.singleton_append, List.replicate_succ]

/-- The accumulator that the loop body of `AddAggregate` leaves in a slot: the inputs
received before, then `deltaCount` times the input of `agg` on its channel. -/
theorem AddAggregate_body_deltas (slot : Option rowAggr) (agg : aggrVal) :
    (aggrRow.AddAggregate.body slot agg).fn.deltas =
      slotDeltas slot ++ List.replicate agg.deltaCount agg.delta := by
  have hfirst : ∀ first : rowAggr,
      first.fn.deltas = slotDeltas slot ++ [agg.delta] →
      (if agg.count > 1 ∧
          (agg.typ = .AGG_SUM ∨ agg.typ = .AGG_COUNT ∨ agg.typ = .AGG_COUNTN) then
        ({ first with fn := AggrFunc.addInputs agg (agg.count - 1).toNat first.fn } : rowAggr)
      else first).fn.deltas = slotDeltas slot ++ List.replicate agg.deltaCount agg.delta := by
    intro first hf
    unfold aggrVal.deltaCount
    by_cases hc : agg.count > 1 ∧
        (agg.typ = .AGG_SUM ∨ agg.typ = .AGG_COUNT ∨ agg.typ = .AGG_COUNTN)
    · rw [if_pos hc, if_pos hc, addInputs_deltas]
      simp only
      rw [hf, List.append_assoc]
      have hn : agg.count.toNat = (agg.count - 1).toNat + 1 := by
        have := hc.1
        omega
      rw [hn, List.replicate_succ]
      rfl
    · rw [if_neg hc, if_neg hc, hf]
      rfl
  unfold aggrRow.AddAggregate.body
  apply hfirst
  cases slot with
  | none =>
    simp only [slotDeltas, List.nil_append, aggrVal.delta]
    split
    · rfl
    · split <;> rfl
  | some a =>
    simp only [slotDeltas, addInput_deltas]

/-- The loop of `AddAggregate` returns when the row has a slot for every input; it
replaces the slots `i`, `i+1`, ... by the results of the loop body on them and leaves
the other slots as they are. -/
theorem AddAggregate_loop_spec (aggrs : List aggrVal) :
    ∀ (i : Nat) (slots : List (Option rowAggr)), i + aggrs.length ≤ slots.length →
      ∃ out, aggrRow.AddAggregate.loop i aggrs slots = .ret out ∧
        out.length = slots.length ∧
        (∀ j, j < i → out[j]? = slots[j]?) ∧
        (∀ j, i + aggrs.length ≤ j → out[j]? = slots[j]?) ∧
        (∀ j agg, aggrs[j]? = some agg → ∃ s, slots[i + j]? = some s ∧
          out[i + j]? = some (some (aggrRow.AddAggregate.body s agg))) := by
  induction aggrs with
  | nil =>
    intro i slots _
    refine ⟨slots, rfl, rfl, fun _ _ => rfl, fun _ _ => rfl, ?_⟩
    intro j agg h
    simp at h
  | cons a rest ih =>
    intro i slots hlen
    simp only [List.length_cons] at hlen
    have hi : i < slots.length := by omega
    obtain ⟨out, hout, hl, hlt, hge, hmid⟩ := ih (i + 1)
      (slots.set i (some (aggrRow.AddAggregate.body slots[i] a)))
      (by rw [List.length_set]; omega)
    refine ⟨out, ?_, ?_, ?_, ?_, ?_⟩
    · rw [aggrRow.AddAggregate.loop]
      simp only [List.getElem?_eq_getElem hi]
      exact hout
    · rw [hl, List.length_set]
    · intro j hj
      rw [hlt j (by omega), List.getElem?_set_ne (by omega)]
    · intro j hj
      simp only [List.length_cons] at hj
      rw [hge j (by omega), List.getElem?_set_ne (by omega)]
    · intro j agg hagg
      cases j with
      | zero =>
        simp only [List.getElem?_cons_zero, Option.some.injEq] at hagg
        refine ⟨slots[i], List.getElem?_eq_getElem hi, ?_⟩
        rw [Nat.add_zero, hlt i (by omega), List.getElem?_set_self hi, hagg]
      | succ k =>
        simp only [List.getElem?_cons_succ] at hagg
        obtain ⟨s, hs, ho⟩ := hmid k agg hagg
        have hidx : i + (k + 1) = i + 1 + k := by omega
        rw [hidx]
        refine ⟨s, ?_, ho⟩
        rw [← hs, List.getElem?_set_ne (by omega)]

/-- The fields other than the inputs of the accumulator that the loop body of
`AddAggregate` leaves in a slot: those of the input for an empty slot, those of the slot
otherwise. -/
theorem AddAggregate_body_fields (slot : Option rowAggr) (agg : aggrVal) :
    (slot = none →
        (aggrRow.AddAggregate.body slot agg).fn.typ = agg.typ ∧
        (aggrRow.AddAggregate.body slot agg).fn.distinct = agg.distinct ∧
        (aggrRow.AddAggregate.body slot agg).fn.n1qlValue = agg.n1qlValue ∧
        (aggrRow.AddAggregate.body slot agg).projectId = agg.projectId) ∧
      (∀ b, slot = some b →
        (aggrRow.AddAggregate.body slot agg).fn.typ = b.fn.typ ∧
        (aggrRow.AddAggregate.body slot agg).fn.distinct = b.fn.distinct ∧
        (aggrRow.AddAggregate.body slot agg).fn.n1qlValue = b.fn.n1qlValue ∧
        (aggrRow.AddAggregate.body slot agg).projectId = b.projectId) := by
  have hfirst : ∀ first : rowAggr,
      (if agg.count > 1 ∧
          (agg.typ = .AGG_SUM ∨ agg.typ = .AGG_COUNT ∨ agg.typ = .AGG_COUNTN) then
        ({ first with fn := AggrFunc.addInputs agg (agg.count - 1).toNat first.fn } : rowAggr)
      else first).fn.typ = first.fn.typ ∧
      (if agg.count > 1 ∧
          (agg.typ = .AGG_SUM ∨ agg.typ = .AGG_COUNT ∨ agg.typ = .AGG_COUNTN) then
        ({ first with fn := AggrFunc.addInputs agg (agg.count - 1).toNat first.fn } : rowAggr)
      else first).fn.distinct = first.fn.distinct ∧
      (if agg.count > 1 ∧
          (agg.typ = .AGG_SUM ∨ agg.typ = .AGG_COUNT ∨ agg.typ = .AGG_COUNTN) then
        ({ first with fn := AggrFunc.addInputs agg (agg.count - 1).toNat first.fn } : rowAggr)
      else first).fn.n1qlValue = first.fn.n1qlValue ∧
      (if agg.count > 1 ∧
          (agg.typ = .AGG_SUM ∨ agg.typ = .AGG_COUNT ∨ agg.typ = .AGG_COUNTN) then
        ({ first with fn := AggrFunc.addInputs agg (agg.count - 1).toNat first.fn } : rowAggr)
      else first).projectId = first.projectId := by
    intro first
    by_cases hc : agg.count > 1 ∧
        (agg.typ = .AGG_SUM ∨ agg.typ = .AGG_COUNT ∨ agg.typ = .AGG_COUNTN)
    · simp only [if_pos hc, addInputs_deltas]
      exact ⟨trivial, trivial, trivial, trivial⟩
    · simp only [if_neg hc]
      exact ⟨trivial, trivial, trivial, trivial⟩
  constructor
  · intro h
    subst h
    unfold aggrRow.AddAggregate.body
    obtain ⟨f1, f2, f3, f4⟩ := hfirst
      (if agg.n1qlValue then
        { fn := NewAggrFunc agg.typ (.obj agg.obj) agg.distinct true,
          projectId := agg.projectId }
      else if agg.typ = .AGG_SUM then
        { fn := NewAggrFunc agg.typ (.decoded agg.decoded) agg.distinct false,
          projectId := agg.projectId }
      else
        { fn := NewAggrFunc agg.typ (.raw agg.raw) agg.distinct false,
          projectId := agg.projectId })
    simp only at f1 f2 f3 f4 ⊢
    rw [f1, f2, f3, f4]
    cases hn : agg.n1qlValue
    · by_cases hs : agg.typ = .AGG_SUM
      · simp only [Bool.false_eq_true, if_false, if_pos hs, NewAggrFunc]
        exact ⟨trivial, trivial, trivial, trivial⟩
      · simp only [Bool.false_eq_true, if_false, if_neg hs, NewAggrFunc]
        exact ⟨trivial, trivial, trivial, trivial⟩
    · simp only [if_true, NewAggrFunc]
      exact ⟨trivial, trivial, trivial, trivial⟩
  · intro b h
    subst h
    unfold aggrRow.AddAggregate.body
    obtain ⟨f1, f2, f3, f4⟩ := hfirst { b with fn := b.fn.addInput agg }
    simp only at f1 f2 f3 f4 ⊢
    rw [f1, f2, f3, f4, addInput_deltas]
    exact ⟨rfl, rfl, rfl, rfl⟩

/-- Claim C18: `aggrRow.AddAggregate` on a row that has a slot for every input returns,
and for every input `agg` at position `j` the accumulator of slot `j` has then received,
after the inputs it had before (none for an empty slot, whose accumulator is created with
the type, distinct flag and projection id of the input), exactly `count` further inputs
when `count > 1` and the function is SUM, COUNT or COUNTN, and exactly one otherwise;
each of them is the expression value for an expression input, else the decoded value for
SUM and the raw bytes otherwise. The other slots, the groups and the flush flag of the
row are unchanged. -/
theorem AddAggregate_delta_counts (row : aggrRow) (aggrs : List aggrVal)
    (hlen : aggrs.length ≤ row.aggrs.length) :
    ∃ row2, row.AddAggregate aggrs = .ret row2 ∧
      row2.groups = row.groups ∧ row2.flush = row.flush ∧
      row2.aggrs.length = row.aggrs.length ∧
      (∀ j, aggrs.length ≤ j → row2.aggrs[j]? = row.aggrs[j]?) ∧
      ∀ (j : Nat) (agg : aggrVal), aggrs[j]? = some agg →
        ∃ (slot : Option rowAggr) (a : rowAggr),
          row.aggrs[j]? = some slot ∧ row2.aggrs[j]? = some (some a) ∧
          a.fn.deltas = slotDeltas slot ++
            List.replicate
              (if agg.count > 1 ∧ (agg.typ = .AGG_SUM ∨ agg.typ = .AGG_COUNT ∨
                  agg.typ = .AGG_COUNTN) then agg.count.toNat else 1)
              (if agg.n1qlValue then Delta.obj agg.obj
                else if agg.typ = .AGG_SUM then Delta.decoded agg.decoded
                else Delta.raw agg.raw) ∧
          (slot = none → a.fn.typ = agg.typ ∧ a.fn.distinct = agg.distinct ∧
            a.fn.n1qlValue = agg.n1qlValue ∧ a.projectId = agg.projectId) ∧
          (∀ b, slot = some b → a.fn.typ = b.fn.typ ∧ a.fn.distinct = b.fn.distinct ∧
            a.fn.n1qlValue = b.fn.n1qlValue ∧ a.projectId = b.projectId) := by
  obtain ⟨out, hout, hl, _, hge, hmid⟩ := AddAggregate_loop_spec aggrs 0 row.aggrs
    (by omega)
  refine ⟨{ row with aggrs := out }, ?_, rfl, rfl, hl, ?_, ?_⟩
  · unfold aggrRow.AddAggregate
    rw [hout]
    rfl
  · intro j hj
    exact hge j (by omega)
  · intro j agg hagg
    obtain ⟨s, hs, ho⟩ := hmid j agg hagg
    rw [Nat.zero_add] at hs ho
    refine ⟨s, _, hs, ho, ?_, (AddAggregate_body_fields s agg).1,
      (AddAggregate_body_fields s agg).2⟩
    exact AddAggregate_body_deltas s agg

theorem AddAggregate_delta_counts_witness :
    ∃ row2, sampleRow.AddAggregate sampleAggrs = .ret row2 ∧
      row2.aggrs.map slotDeltas =
        [[.decoded (some (.number 1)), .decoded (some (.number 1)),
          .decoded (some (.number 1))],
         [.raw [1], .raw [5, 50, 0]]] := by
  obtain ⟨row2, h, _⟩ := AddAggregate_delta_counts sampleRow sampleAggrs (by decide)
  refine ⟨row2, h, ?_⟩
  have h2 : (sampleRow.AddAggregate sampleAggrs).bind
      (fun r => .ret (r.aggrs.map slotDeltas)) =
      .ret [[.decoded (some (.number 1)), .decoded (some (.number 1)),
          .decoded (some (.number 1))],
         [.raw [1], .raw [5, 50, 0]]] := by decide
  rw [h] at h2
  exact Exec.ret.inj h2

/-! ## `computeGroupAggr` and the stored count -/

/-- Claim C19 fails on a cache hit: `computeGroupAggr` on an entry with stored count 2
and then on an entry with the same secondary key and stored count 1, with a shared entry
cache and a grouping that does not depend on the primary key. The first call finds the
cache invalid and computes its inputs. The second call finds the cache valid, skips
`computeAggrVal` and hands the scratch aggregate of the first entry, count 2 included, to
`AddNewGroup`: the COUNT accumulator of the group receives four inputs, where the entries
stand for three. -/
theorem computeGroupAggr_stale_count :
    ((computeGroupAggr sampleEnvLarge none none 2 [] sampleEntryCount2 [] []
        { rows := [], maxRows := 1 } sampleGroupAggr [[], []] none entryCache.zero).bind
      fun r1 =>
        (computeGroupAggr sampleEnvLarge none none 1 [] sampleEntrySameKey [] []
          r1.aggrRes r1.groupAggr r1.cktmp r1.dktmp r1.cachedEntry).bind fun r2 =>
          .ret (r1.cachedEntry.Valid, r2.cachedEntry.Valid)) = .ret (false, true) ∧
    ((computeGroupAggr sampleEnvLarge none none 2 [] sampleEntryCount2 [] []
        { rows := [], maxRows := 1 } sampleGroupAggr [[], []] none entryCache.zero).bind
      fun r1 =>
        (computeGroupAggr sampleEnvLarge none none 1 [] sampleEntrySameKey [] []
          r1.aggrRes r1.groupAggr r1.cktmp r1.dktmp r1.cachedEntry).bind fun r2 =>
          .ret (r2.groupAggr.aggrs.map (fun a => a.count),
            r2.aggrRes.rows.map fun row => row.aggrs.map slotDeltas)) =
      .ret ([2],
        [[[.raw [6, 97, 98, 99, 0], .raw [6, 97, 98, 99, 0], .raw [6, 97, 98, 99, 0],
           .raw [6, 97, 98, 99, 0]]]]) := by
  constructor <;> decide

/-! ## `aggrResult.AddNewGroup`: general lemmas -/

theorem AddAggregate_ret_fields (row row2 : aggrRow) (aggrs : List aggrVal)
    (h : row.AddAggregate aggrs = .ret row2) :
    row2.groups = row.groups ∧ row2.flush = row.flush := by
  unfold aggrRow.AddAggregate at h
  obtain ⟨slots, _, h⟩ := Exec_bind_eq_ret _ _ _ h
  simp only [Exec.ret.injEq] at h
  rw [← h]
  exact ⟨rfl, rfl⟩

/-- What a returning search loop of `AddNewGroup` has done: no row compared equal, or the
incoming aggregates were added to the first row that compared equal. -/
theorem AddNewGroup_find_cases (groups : List groupKey) (aggrs : List aggrVal) :
    ∀ (rows : List aggrRow) (found : Option (List aggrRow)),
      aggrResult.AddNewGroup.find groups aggrs rows = .ret found →
      (found = none ∧ ∀ r ∈ rows, r.CheckEqualGroup groups = .ret false) ∨
      ∃ pre row post row2, rows = pre ++ row :: post ∧
        (∀ r ∈ pre, r.CheckEqualGroup groups = .ret false) ∧
        row.CheckEqualGroup groups = .ret true ∧
        row.AddAggregate aggrs = .ret row2 ∧ found = some (pre ++ row2 :: post) := by
  intro rows
  induction rows with
  | nil =>
    intro found h
    left
    simp only [aggrResult.AddNewGroup.find, Exec.ret.injEq] at h
    exact ⟨h.symm, fun r hr => absurd hr (List.not_mem_nil r)⟩
  | cons row rest ih =>
    intro found h
    rw [aggrResult.AddNewGroup.find] at h
    obtain ⟨eq, heq, h⟩ := Exec_bind_eq_ret _ _ _ h
    cases eq with
    | true =>
      simp only [if_true] at h
      obtain ⟨row2, hrow2, h⟩ := Exec_bind_eq_ret _ _ _ h
      simp only [Exec.ret.injEq] at h
      right
      exact ⟨[], row, rest, row2, rfl, fun r hr => absurd hr (List.not_mem_nil r), heq, hrow2,
        h.symm⟩
    | false =>
      simp only [Bool.false_eq_true, if_false] at h
      obtain ⟨f, hf, h⟩ := Exec_bind_eq_ret _ _ _ h
      simp only [Exec.ret.injEq] at h
      rcases ih f hf with ⟨hnone, hall⟩ | ⟨pre, r, post, r2, hrows, hpre, hr, hadd, hfound⟩
      · left
        rw [hnone] at h
        refine ⟨h.symm, ?_⟩
        intro r hr
        rcases List.mem_cons.mp hr with rfl | hmem
        · exact heq
        · exact hall r hmem
      · right
        refine ⟨row :: pre, r, post, r2, by rw [hrows]; rfl, ?_, hr, hadd, ?_⟩
        · intro x hx
          rcases List.mem_cons.mp hx with rfl | hmem
          · exact heq
          · exact hpre x hmem
        · rw [← h, hfound]
          rfl

/-- What a returning `AddNewGroup` has done: the fast path added the incoming aggregates
to the only row without comparing groups; or they were added to the first row whose
groups compared equal; or no row compared equal and a new row with copies of the
incoming keys was appended, the first row being flagged for flush when the result
already held `maxRows` rows or more. -/
theorem AddNewGroup_cases (ar ar2 : aggrResult) (groups : List groupKey)
    (aggrs : List aggrVal) (cacheValid : Bool)
    (h : ar.AddNewGroup groups aggrs cacheValid = .ret ar2) :
    ar2.maxRows = ar.maxRows ∧
    ((cacheValid = true ∧ ∃ row row2, ar.rows = [row] ∧
        row.AddAggregate aggrs = .ret row2 ∧ ar2.rows = [row2]) ∨
      (¬ (cacheValid = true ∧ ar.rows.length = 1) ∧
        ∃ pre row post row2, ar.rows = pre ++ row :: post ∧
          (∀ r ∈ pre, r.CheckEqualGroup groups = .ret false) ∧
          row.CheckEqualGroup groups = .ret true ∧
          row.AddAggregate aggrs = .ret row2 ∧ ar2.rows = pre ++ row2 :: post) ∨
      (¬ (cacheValid = true ∧ ar.rows.length = 1) ∧
        (∀ r ∈ ar.rows, r.CheckEqualGroup groups = .ret false) ∧
        ∃ newRow2,
          aggrRow.AddAggregate
            { groups := groups.map groupKey.copy,
              aggrs := List.replicate aggrs.length none, flush := false } aggrs
            = .ret newRow2 ∧
          (((ar.rows.length : Int) < ar.maxRows ∧ ar2.rows = ar.rows ++ [newRow2]) ∨
            ((ar.rows.length : Int) ≥ ar.maxRows ∧ ∃ first rest, ar.rows = first :: rest ∧
              ar2.rows = (first.SetFlush true :: rest) ++ [newRow2])))) := by
  have slow : ¬ (cacheValid = true ∧ ar.rows.length = 1) →
      (aggrResult.AddNewGroup.find groups aggrs ar.rows).bind (fun found =>
        match found with
        | some rows => .ret { ar with rows := rows }
        | none =>
          (aggrRow.AddAggregate
            { groups := groups.map groupKey.copy,
              aggrs := List.replicate aggrs.length none, flush := false } aggrs).bind
            fun newRow2 =>
              if (ar.rows.length : Int) ≥ ar.maxRows then
                match ar.rows with
                | [] => .panic
                | first :: rest =>
                  .ret { ar with rows := (first.SetFlush true :: rest) ++ [newRow2] }
              else .ret { ar with rows := ar.rows ++ [newRow2] }) = .ret ar2 →
      ar2.maxRows = ar.maxRows ∧
      ((cacheValid = true ∧ ∃ row row2, ar.rows = [row] ∧
          row.AddAggregate aggrs = .ret row2 ∧ ar2.rows = [row2]) ∨
        (¬ (cacheValid = true ∧ ar.rows.length = 1) ∧
          ∃ pre row post row2, ar.rows = pre ++ row :: post ∧
            (∀ r ∈ pre, r.CheckEqualGroup groups = .ret false) ∧
            row.CheckEqualGroup groups = .ret true ∧
            row.AddAggregate aggrs = .ret row2 ∧ ar2.rows = pre ++ row2 :: post) ∨
        (¬ (cacheValid = true ∧ ar.rows.length = 1) ∧
          (∀ r ∈ ar.rows, r.CheckEqualGroup groups = .ret false) ∧
          ∃ newRow2,
            aggrRow.AddAggregate
              { groups := groups.map groupKey.copy,
                aggrs := List.replicate aggrs.length none, flush := false } aggrs
              = .ret newRow2 ∧
            (((ar.rows.length : Int) < ar.maxRows ∧ ar2.rows = ar.rows ++ [newRow2]) ∨
              ((ar.rows.length : Int) ≥ ar.maxRows ∧ ∃ first rest, ar.rows = first :: rest ∧
                ar2.rows = (first.SetFlush true :: rest) ++ [newRow2])))) := by
    intro hslow h
    obtain ⟨found, hfind, h⟩ := Exec_bind_eq_ret _ _ _ h
    rcases AddNewGroup_find_cases groups aggrs ar.rows found hfind with
      ⟨hnone, hall⟩ | ⟨pre, row, post, row2, hrows, hpre, hrow, hadd, hfound⟩
    · subst hnone
      simp only at h
      obtain ⟨newRow2, hnew, h⟩ := Exec_bind_eq_ret _ _ _ h
      by_cases hge : (ar.rows.length : Int) ≥ ar.maxRows
      · rw [if_pos hge] at h
        cases hr : ar.rows with
        | nil =>
          rw [hr] at h
          cases h
        | cons first rest =>
          rw [hr] at h
          simp only [Exec.ret.injEq] at h
          rw [← h]
          refine ⟨rfl, Or.inr (Or.inr ⟨by rw [← hr]; exact hslow, ?_, newRow2, hnew,
            Or.inr ⟨?_, first, rest, rfl, rfl⟩⟩)⟩
          · rw [← hr]; exact hall
          · rw [← hr]; exact hge
      · rw [if_neg hge] at h
        simp only [Exec.ret.injEq] at h
        rw [← h]
        exact ⟨rfl, Or.inr (Or.inr ⟨hslow, hall, newRow2, hnew, Or.inl ⟨by omega, rfl⟩⟩)⟩
    · subst hfound
      simp only [Exec.ret.injEq] at h
      rw [← h]
      exact ⟨rfl, Or.inr (Or.inl ⟨hslow, pre, row, post, row2, hrows, hpre, hrow, hadd, rfl⟩)⟩
  unfold aggrResult.AddNewGroup at h
  cases cacheValid with
  | false => exact slow (by simp) h
  | true =>
    cases hr : ar.rows with
    | nil =>
      rw [hr] at h
      have := slow (by rw [hr]; simp) (by rw [hr]; exact h)
      rw [hr] at this
      exact this
    | cons row rest =>
      cases rest with
      | nil =>
        rw [hr] at h
        simp only at h
        obtain ⟨row2, hrow2, h⟩ := Exec_bind_eq_ret _ _ _ h
        simp only [Exec.ret.injEq] at h
        rw [← h]
        exact ⟨rfl, Or.inl ⟨rfl, row, row2, rfl, hrow2, rfl⟩⟩
      | cons r2 rest2 =>
        rw [hr] at h
        have := slow (by rw [hr]; simp) (by rw [hr]; exact h)
        rw [hr] at this
        exact this

/-! ## The number of buffered rows -/

theorem takeRow_none_of_no_flush (rows : List aggrRow)
    (h : ∀ r ∈ rows, r.flush = false) : projectGroupAggr.takeRow rows = none := by
  induction rows with
  | nil => rfl
  | cons r rest ih =>
    rw [projectGroupAggr.takeRow]
    have hr : r.Flush = false := h r (List.mem_cons_self _ _)
    rw [hr, ih (fun x hx => h x (List.mem_cons_of_mem _ hx))]
    rfl

theorem takeRow_head (r : aggrRow) (rest : List aggrRow) (h : r.flush = true) :
    projectGroupAggr.takeRow (r :: rest) = some (r, rest) := by
  rw [projectGroupAggr.takeRow]
  have hr : r.Flush = true := h
  rw [hr]
  rfl

/-- Counterexample for claim C16: from the empty result with `maxRows = 1`, two calls of
`AddNewGroup` with different groups leave two buffered rows. -/
theorem AddNewGroup_exceeds_maxRows :
    (((aggrResult.mk [] 1).AddNewGroup (sampleInput [65] 100).groups
        (sampleInput [65] 100).aggrs false).bind fun a =>
      (a.AddNewGroup (sampleInput [66] 50).groups (sampleInput [66] 50).aggrs false).bind
        fun b => .ret (b.rows.length, b.maxRows)) = .ret (2, 1) := by
  decide

/-- From a result with at most `maxRows` rows, none of them flagged, `AddNewGroup` leaves
at most `maxRows + 1` rows, and the following `projectGroupAggr` leaves at most `maxRows`
rows, none of them flagged. -/
theorem aggrStep_rows (ar : aggrResult) (groups : List groupKey) (aggrs : List aggrVal)
    (cacheValid : Bool) (hlen : (ar.rows.length : Int) ≤ ar.maxRows)
    (hflush : ∀ r ∈ ar.rows, r.flush = false) :
    (∀ ar2, ar.AddNewGroup groups aggrs cacheValid = .ret ar2 →
      (ar2.rows.length : Int) ≤ ar.maxRows + 1) ∧
    (∀ s, aggrStep ar groups aggrs cacheValid = .ret s →
      s.1.maxRows = ar.maxRows ∧ (s.1.rows.length : Int) ≤ ar.maxRows ∧
        ∀ r ∈ s.1.rows, r.flush = false) := by
  have key : ∀ ar2, ar.AddNewGroup groups aggrs cacheValid = .ret ar2 →
      ar2.maxRows = ar.maxRows ∧
      (((ar2.rows.length : Int) ≤ ar.maxRows ∧ ∀ r ∈ ar2.rows, r.flush = false) ∨
        ∃ first rest, first.flush = true ∧ ar2.rows = first :: rest ∧
          (rest.length : Int) ≤ ar.maxRows ∧ ∀ r ∈ rest, r.flush = false) := by
    intro ar2 h
    obtain ⟨hmax, hcases⟩ := AddNewGroup_cases ar ar2 groups aggrs cacheValid h
    refine ⟨hmax, ?_⟩
    rcases hcases with ⟨_, row, row2, hrows, hadd, hrows2⟩ |
      ⟨_, pre, row, post, row2, hrows, _, _, hadd, hrows2⟩ |
      ⟨_, _, newRow2, hnew, hrest⟩
    · left
      rw [hrows2]
      rw [hrows] at hlen
      refine ⟨hlen, ?_⟩
      intro r hr
      rw [List.mem_singleton] at hr
      rw [hr, (AddAggregate_ret_fields row row2 aggrs hadd).2]
      exact hflush row (by rw [hrows]; exact List.mem_singleton_self _)
    · left
      rw [hrows2]
      rw [hrows] at hlen
      refine ⟨by simpa using hlen, ?_⟩
      intro r hr
      rcases List.mem_append.mp hr with hp | hp
      · exact hflush r (by rw [hrows]; exact List.mem_append_left _ hp)
      · rcases List.mem_cons.mp hp with rfl | hp
        · rw [(AddAggregate_ret_fields row r aggrs hadd).2]
          exact hflush row (by rw [hrows]; simp)
        · exact hflush r (by rw [hrows]; simp [hp])
    · have hnf : newRow2.flush = false :=
        (AddAggregate_ret_fields _ newRow2 aggrs hnew).2
      rcases hrest with ⟨hlt, hrows2⟩ | ⟨_, first, rest, hrows, hrows2⟩
      · left
        rw [hrows2]
        refine ⟨by rw [List.length_append]; simp only [List.length_singleton]; omega, ?_⟩
        intro r hr
        rcases List.mem_append.mp hr with hp | hp
        · exact hflush r hp
        · rw [List.mem_singleton] at hp
          rw [hp]
          exact hnf
      · right
        refine ⟨first.SetFlush true, rest ++ [newRow2], rfl, by rw [hrows2]; rfl, ?_, ?_⟩
        · rw [hrows] at hlen
          simp only [List.length_cons, List.length_append, List.length_singleton] at hlen ⊢
          exact hlen
        · intro r hr
          rcases List.mem_append.mp hr with hp | hp
          · exact hflush r (by rw [hrows]; exact List.mem_cons_of_mem _ hp)
          · rw [List.mem_singleton] at hp
            rw [hp]
            exact hnf
  constructor
  · intro ar2 h
    rcases (key ar2 h).2 with ⟨hl, _⟩ | ⟨first, rest, _, hrows, hl, _⟩
    · omega
    · rw [hrows]
      simp only [List.length_cons]
      omega
  · intro s h
    unfold aggrStep at h
    obtain ⟨ar2, hadd, h⟩ := Exec_bind_eq_ret _ _ _ h
    obtain ⟨hmax, hc⟩ := key ar2 hadd
    rcases hc with ⟨hl, hf⟩ | ⟨first, rest, hff, hrows, hl, hf⟩
    · rw [takeRow_none_of_no_flush _ hf] at h
      simp only [Exec.ret.injEq] at h
      rw [← h]
      exact ⟨hmax, hl, hf⟩
    · rw [hrows, takeRow_head first rest hff] at h
      simp only [Exec.ret.injEq] at h
      rw [← h]
      exact ⟨hmax, hl, hf⟩

theorem aggrSteps_rows (inputs : List AggrInput) :
    ∀ (ar : aggrResult) (s : aggrResult × List aggrRow),
      (ar.rows.length : Int) ≤ ar.maxRows → (∀ r ∈ ar.rows, r.flush = false) →
      aggrSteps ar inputs = .ret s →
      s.1.maxRows = ar.maxRows ∧ (s.1.rows.length : Int) ≤ ar.maxRows ∧
        ∀ r ∈ s.1.rows, r.flush = false := by
  induction inputs with
  | nil =>
    intro ar s hlen hflush h
    simp only [aggrSteps, Exec.ret.injEq] at h
    rw [← h]
    exact ⟨rfl, hlen, hflush⟩
  | cons x rest ih =>
    intro ar s hlen hflush h
    rw [aggrSteps] at h
    obtain ⟨s1, hs1, h⟩ := Exec_bind_eq_ret _ _ _ h
    obtain ⟨t, ht, h⟩ := Exec_bind_eq_ret _ _ _ h
    obtain ⟨hm1, hl1, hf1⟩ := (aggrStep_rows ar x.groups x.aggrs x.cacheValid hlen hflush).2
      s1 hs1
    obtain ⟨hm2, hl2, hf2⟩ := ih s1.1 t (by rw [hm1]; exact hl1) hf1 ht
    simp only [Exec.ret.injEq] at h
    rw [← h]
    exact ⟨by rw [hm2, hm1], by rw [← hm1]; exact hl2, hf2⟩

/-- Claim C16: for a result with `maxRows >= 1` reached from the empty result by any
sequence of per-entry steps, each being `AddNewGroup` followed by `projectGroupAggr`, the
number of buffered rows is at most `maxRows` after every step, and at most `maxRows + 1`
after the `AddNewGroup` of a further step. -/
theorem aggrSteps_rows_le_maxRows (maxRows : Int) (inputs : List AggrInput)
    (s : aggrResult × List aggrRow) (hmax : maxRows ≥ 1)
    (h : aggrSteps { rows := [], maxRows := maxRows } inputs = .ret s) :
    (s.1.rows.length : Int) ≤ maxRows ∧
      ∀ groups aggrs cacheValid ar2,
        s.1.AddNewGroup groups aggrs cacheValid = .ret ar2 →
        (ar2.rows.length : Int) ≤ maxRows + 1 := by
  obtain ⟨hm, hl, hf⟩ := aggrSteps_rows inputs { rows := [], maxRows := maxRows } s
    (by simp only [List.length_nil]; omega) (fun r hr => by cases hr) h
  refine ⟨hl, ?_⟩
  intro groups aggrs cacheValid ar2 hadd
  have := (aggrStep_rows s.1 groups aggrs cacheValid (by rw [hm]; exact hl) hf).1 ar2 hadd
  rw [hm] at this
  exact this

theorem aggrSteps_rows_le_maxRows_witness :
    ∃ s, aggrSteps { rows := [], maxRows := 1 }
        [sampleInput [65] 100, sampleInput [65] 200, sampleInput [66] 50] = .ret s ∧
      (s.1.rows.length : Int) ≤ 1 := by
  obtain ⟨s, hs⟩ := Exec_isRet_exists (aggrSteps { rows := [], maxRows := 1 }
    [sampleInput [65] 100, sampleInput [65] 200, sampleInput [66] 50]) (by decide)
  exact ⟨s, hs, (aggrSteps_rows_le_maxRows 1 _ s (by decide) hs).1⟩

/-! ## `aggrResult.AddNewGroup`: the row that receives the aggregates -/

/-- The loop over the filter collections returns the error of an over-long collection
when no collection before it is over-long or matches. -/
theorem filterLoop_more_ranges (cks : List Bytes) (fc : Filter) (post : List Filter)
    (hfc : fc.CompositeFilters.length > cks.length) :
    ∀ (pre : List Filter),
      (∀ f ∈ pre, f.CompositeFilters.length ≤ cks.length ∧
        ¬ allBoundsHold cks f.CompositeFilters) →
      filterLoop cks (pre ++ fc :: post) = .ret (false, some .ErrMoreRanges) := by
  intro pre
  induction pre with
  | nil =>
    intro _
    rw [List.nil_append, filterLoop, if_pos hfc]
  | cons f rest ih =>
    intro hpre
    obtain ⟨hl, hno⟩ := hpre f (List.mem_cons_self _ _)
    obtain ⟨b, hb, hiff⟩ := applyFilter_spec cks f.CompositeFilters hl
    have hbf : b = false := by
      cases b with
      | false => rfl
      | true => exact absurd (hiff.mp rfl) hno
    rw [List.cons_append, filterLoop, if_neg (by omega), hb, hbf, Exec_bind_ret]
    simp only [Bool.false_eq_true, if_false]
    exact ih (fun x hx => hpre x (List.mem_cons_of_mem _ hx))

/-- Counterexample for claim C11: the second collection of the scan has three component
filters and the key has two components, but the first collection matches, and
`filterScanRow` and `filterScanRow2` return the decision not to skip, without error. -/
theorem filterScanRow_match_before_more_ranges :
    filterScanRow sampleEnv sampleEntry sampleScanLong [] =
      .ret { skip := false, compositekeys := some [[5, 48, 0], [6, 97, 98, 99, 0]],
             err := none } ∧
    (filterScanRow2 sampleEnvLarge sampleEntry sampleScanLong [] [] false [[], []] none
        sampleRequest entryCache.zero).bind (fun res => .ret (res.skip, res.err)) =
      .ret (false, none) := by
  constructor <;> decide

/-- Claim C11: for a well-formed key and a scan that has a filter collection with more
component filters than the key has components, such that no collection before it
matches the key, `filterScanRow` returns the error of more ranges than composite
elements with no components; so does `filterScanRow2` on the first call of a scan, when
the key fits the buffers of the pool, and on a call that finds the key's components in the
entry cache. -/
theorem filterScanRow_more_ranges (env : Env) (scan : Scan) (buf decbuf tail : Bytes)
    (elems texts cktmp : List Bytes) (r : ScanRequest)
    (pre : List Filter) (fc : Filter) (post : List Filter)
    (hp : env.jsonEncoder.arrayLenPrefix = false)
    (hdec : List.Forall₂ (DecodesTo env.jsonEncoder buf) elems texts)
    (hfilters : scan.Filters = pre ++ fc :: post)
    (hpre : ∀ f ∈ pre, f.CompositeFilters.length ≤ elems.length ∧
      ¬ allBoundsHold elems f.CompositeFilters)
    (hfc : fc.CompositeFilters.length > elems.length) :
    filterScanRow env (encodedArray elems tail) scan buf =
        .ret { skip := false, compositekeys := none, err := some .ErrMoreRanges } ∧
    (cktmp.length = elems.length → (encodedArray elems tail).length ≤ env.poolBuf.len →
      env.poolBuf.len ≤ env.poolBuf.cap →
      ∃ res, filterScanRow2 env (encodedArray elems tail) scan buf decbuf false cktmp none r
          entryCache.zero = .ret res ∧
        res.skip = false ∧ res.compositekeys = none ∧ res.decodedkeys = none ∧
        res.err = some .ErrMoreRanges) ∧
    (∀ (cache : entryCache) (getDecoded : Bool) (dktmp : Option (List Bytes)),
      r.isPrimary = false → cache.Exists = true → RowOk env cache.entry →
      RowOk env (encodedArray elems tail) →
      keyOf env cache.entry = keyOf env (encodedArray elems tail) →
      cache.compkeys = some elems →
      ∃ res, filterScanRow2 env (encodedArray elems tail) scan buf decbuf getDecoded cktmp
          dktmp r cache = .ret res ∧
        res.skip = false ∧ res.compositekeys = none ∧ res.decodedkeys = none ∧
        res.err = some .ErrMoreRanges) := by
  have hloop : filterLoop elems scan.Filters = .ret (false, some .ErrMoreRanges) := by
    rw [hfilters]
    exact filterLoop_more_ranges elems fc post hfc pre hpre
  refine ⟨?_, ?_, ?_⟩
  · have hex := ExplodeArray_encodedArray env.jsonEncoder buf tail elems hp
      (forall₂_decodes_complete hdec)
    unfold filterScanRow
    simp only [hex, Exec_bind_ret, Option.getD_some, hloop]
  · intro hck hfit hcap
    have hex := ExplodeArray2_encodedArray env.jsonEncoder buf tail decbuf elems texts cktmp none
      hp hdec (by omega) (by intro d hd; cases hd)
    rw [overwrite_full cktmp elems hck] at hex
    have hupd : (entryCache.zero.Init env false).Update (encodedArray elems tail) elems none
        = .ret { (entryCache.zero.Init env false) with
                  entry := encodedArray elems tail, compkeys := some elems,
                  decodedvalues := List.replicate elems.length none } := by
      unfold entryCache.Update
      have hnot : ¬ (encodedArray elems tail).length > env.poolBuf.cap := by omega
      simp only [entryCache.Init, entryCache.zero, shapeOf, Option.getD_some, hnot, if_false,
        Option.getD_none]
      rw [copyKeys_fits elems env.poolBuf _ 0 (by simp) (by
        have := sum_length_le_encodedArray elems tail
        omega) hcap]
      rw [overwrite_full _ elems (by simp)]
      rfl
    refine ⟨{ skip := false, compositekeys := none, decodedkeys := none,
              err := some .ErrMoreRanges,
              cachedEntry := { (entryCache.zero.Init env false) with
                entry := encodedArray elems tail, compkeys := some elems,
                decodedvalues := List.replicate elems.length none },
              cktmp := elems, dktmp := none }, ?_, rfl, rfl, rfl, rfl⟩
    unfold filterScanRow2 filterScanRow2.lookup
    have hzero : entryCache.zero.Exists = false := rfl
    have hvalid : (entryCache.zero.Init env false).Valid = false := rfl
    simp only [hzero, Bool.and_false, Bool.false_eq_true, if_false, Exec_bind_ret, hex,
      Option.map_none', Option.getD_some, Bool.not_false, if_true, hvalid, hupd, hloop,
      Option.isSome_some]
  · intro cache getDecoded dktmp hP hE hok1 hok2 hkey hck
    have heq : cache.EqualsEntry env (encodedArray elems tail) = .ret true := by
      unfold entryCache.EqualsEntry
      rw [distinctCompare_of_rowOk env _ _ hok1 hok2, hkey]
      simp only [decide_True]
    have hE2 : (cache.SetValid true).Exists = true := hE
    have hV2 : (cache.SetValid true).Valid = true := rfl
    refine ⟨{ skip := false, compositekeys := none, decodedkeys := none,
              err := some .ErrMoreRanges, cachedEntry := cache.SetValid true,
              cktmp := cktmp, dktmp := dktmp }, ?_, rfl, rfl, rfl, rfl⟩
    unfold filterScanRow2 filterScanRow2.lookup
    simp only [hP, hE, Bool.not_false, Bool.and_self, if_true, heq, Exec_bind_ret,
      entryCache.Get, hck, Option.getD_some, hE2, hV2, Bool.not_true, Bool.false_eq_true,
      if_false, hloop]

theorem filterScanRow_more_ranges_witness :
    filterScanRow sampleEnv (encodedArray [[2, 0], [5, 48, 0]] [9, 1, 0, 1, 0, 0, 0])
        { ScanType := .FilterRangeReq, Filters := [sampleFilter3] } [] =
      .ret { skip := false, compositekeys := none, err := some .ErrMoreRanges } :=
  (filterScanRow_more_ranges sampleEnv
    { ScanType := .FilterRangeReq, Filters := [sampleFilter3] } [] [] [9, 1, 0, 1, 0, 0, 0]
    [[2, 0], [5, 48, 0]] [[2], [5, 48]] [[], []] sampleRequest [] sampleFilter3 [] rfl
    sampleCodec_forall₂ rfl (fun f hf => absurd hf (List.not_mem_nil f)) (by decide)).1

/-! ## A leading-group run -/

/-- Claim C20 fails for entries with the same secondary key and different stored counts:
a leading-group run (group by the first key component, COUNT over the second, `maxRows`
1, offset 0, limit 10, buffers of 64 bytes) over an entry with count 2, an entry with the
same key and count 1, and an entry with another key and count 1. The first call of the
callback leaves the row of the group with 2 inputs. The second entry is a cache hit, for
which `computeGroupAggr` hands the scratch aggregate of the entry before, with its count
2, to `AddNewGroup`: the row has then received 4 inputs, where the two entries stand for
2 + 1 = 3. The run writes the rows of the two groups in order, the first with the COUNT 4;
the same COUNT is written when the first two entries come through the filter of a scan.
With the count 1 on all three entries the run writes the COUNT 2 and the COUNT 1, as the
claim has it. -/
theorem leading_group_stale_count :
    IndexScanSource.fn sampleEnvLarge sampleAggrEnv sampleSourceEnv sampleLeadingConfig
        sampleRangeScan none sampleEntryCount2
        (SourceState.init sampleEnvLarge (some sampleGroupAggr) 2 10) =
      .ret (sampleLeadingState 1 [5, 48, 0] sampleEntryCount2 false 0 0 2 2 [], none) ∧
    IndexScanSource.fn sampleEnvLarge sampleAggrEnv sampleSourceEnv sampleLeadingConfig
        sampleRangeScan none sampleEntrySameKey
        (sampleLeadingState 1 [5, 48, 0] sampleEntryCount2 false 0 0 2 2 []) =
      .ret (sampleLeadingState 2 [5, 48, 0] sampleEntryCount2 true 1 0 2 4 [], none) ∧
    (IndexScanSource.Routine sampleEnvLarge sampleAggrEnv sampleSourceEnv sampleLeadingConfig
        [(sampleRangeScan, [(sampleEntryCount2, none), (sampleEntrySameKey, none),
          (sampleEntryOtherKey, none)])]
        (SourceState.init sampleEnvLarge (some sampleGroupAggr) 2 10)).bind
      (fun x => .ret (x.st.vars.emit.written, x.err)) =
      .ret ([[7, 5, 48, 0, 5, 52, 0, 0], [7, 5, 49, 0, 5, 49, 0, 0]], none) ∧
    (IndexScanSource.Routine sampleEnvLarge sampleAggrEnv sampleSourceEnv sampleLeadingConfig
        [(sampleScanAll, [(sampleEntryCount2, none), (sampleEntrySameKey, none)])]
        (SourceState.init sampleEnvLarge (some sampleGroupAggr) 2 10)).bind
      (fun x => .ret (x.st.vars.emit.written, x.err)) =
      .ret ([[7, 5, 48, 0, 5, 52, 0, 0]], none) ∧
    (IndexScanSource.Routine sampleEnvLarge sampleAggrEnv sampleSourceEnv sampleLeadingConfig
        [(sampleRangeScan, [(sampleEntry, none), (sampleEntrySameKey, none),
          (sampleEntryOtherKey, none)])]
        (SourceState.init sampleEnvLarge (some sampleGroupAggr) 2 10)).bind
      (fun x => .ret (x.st.vars.emit.written, x.err)) =
      .ret ([[7, 5, 48, 0, 5, 50, 0, 0], [7, 5, 49, 0, 5, 49, 0, 0]], none) := by
  have h1 : IndexScanSource.fn sampleEnvLarge sampleAggrEnv sampleSourceEnv
      sampleLeadingConfig sampleRangeScan none sampleEntryCount2
      (SourceState.init sampleEnvLarge (some sampleGroupAggr) 2 10) =
      .ret (sampleLeadingState 1 [5, 48, 0] sampleEntryCount2 false 0 0 2 2 [], none) := by
    decide
  have h2 : IndexScanSource.fn sampleEnvLarge sampleAggrEnv sampleSourceEnv
      sampleLeadingConfig sampleRangeScan none sampleEntrySameKey
      (sampleLeadingState 1 [5, 48, 0] sampleEntryCount2 false 0 0 2 2 []) =
      .ret (sampleLeadingState 2 [5, 48, 0] sampleEntryCount2 true 1 0 2 4 [], none) := by
    decide
  have h3 : IndexScanSource.fn sampleEnvLarge sampleAggrEnv sampleSourceEnv
      sampleLeadingConfig sampleRangeScan none sampleEntryOtherKey
      (sampleLeadingState 2 [5, 48, 0] sampleEntryCount2 true 1 0 2 4 []) =
      .ret (sampleLeadingState 3 [5, 49, 0] sampleEntryOtherKey false 1 1 1 1
        [[7, 5, 48, 0, 5, 52, 0, 0]], none) := by
    decide
  have g1 : IndexScanSource.fn sampleEnvLarge sampleAggrEnv sampleSourceEnv
      sampleLeadingConfig sampleRangeScan none sampleEntry
      (SourceState.init sampleEnvLarge (some sampleGroupAggr) 2 10) =
      .ret (sampleLeadingState 1 [5, 48, 0] sampleEntry false 0 0 1 1 [], none) := by
    decide
  have g2 : IndexScanSource.fn sampleEnvLarge sampleAggrEnv sampleSourceEnv
      sampleLeadingConfig sampleRangeScan none sampleEntrySameKey
      (sampleLeadingState 1 [5, 48, 0] sampleEntry false 0 0 1 1 []) =
      .ret (sampleLeadingState 2 [5, 48, 0] sampleEntry true 1 0 1 2 [], none) := by
    decide
  have g3 : IndexScanSource.fn sampleEnvLarge sampleAggrEnv sampleSourceEnv
      sampleLeadingConfig sampleRangeScan none sampleEntryOtherKey
      (sampleLeadingState 2 [5, 48, 0] sampleEntry true 1 0 1 2 []) =
      .ret (sampleLeadingState 3 [5, 49, 0] sampleEntryOtherKey false 1 1 1 1
        [[7, 5, 48, 0, 5, 50, 0, 0]], none) := by
    decide
  refine ⟨h1, h2, ?_, by decide, ?_⟩
  · rw [IndexScanSource.Routine, IndexScanSource.scans, scatter, h1, Exec_bind_ret]
    simp only
    rw [scatter, h2, Exec_bind_ret]
    simp only
    rw [scatter, h3, Exec_bind_ret]
    simp only [scatter, Exec_bind_ret, IndexScanSource.scans]
    decide
  · rw [IndexScanSource.Routine, IndexScanSource.scans, scatter, g1, Exec_bind_ret]
    simp only
    rw [scatter, g2, Exec_bind_ret]
    simp only
    rw [scatter, g3, Exec_bind_ret]
    simp only [scatter, Exec_bind_ret, IndexScanSource.scans]
    decide

/-! ## `encodeString` -/

theorem encodeString_foldl (s : Bytes) :
    ∀ code : Bytes,
      s.foldl (fun code x => if x = 0 then (code ++ [x]) ++ [1] else code ++ [x]) code =
        code ++ escapeZeros s := by
  induction s with
  | nil => intro code; simp [escapeZeros]
  | cons x xs ih =>
    intro code
    rw [List.foldl_cons, ih, escapeZeros]
    by_cases hx : x = 0
    · simp [hx]
    · simp [hx]

theorem escapeZeros_length (s : Bytes) :
    (escapeZeros s).length = s.length + s.count 0 := by
  induction s with
  | nil => rfl
  | cons x xs ih =>
    rw [escapeZeros]
    by_cases hx : x = 0
    · subst hx
      simp only [if_true, List.length_cons, ih, List.count_cons_self]
      omega
    · rw [if_neg hx, List.length_cons, ih, List.length_cons,
        List.count_cons_of_ne (fun h => hx h.symm)]
      omega

/-- In the escaped string followed by the closing zero byte, every zero byte is the last
byte or is followed by a byte 1. -/
theorem escapeZeros_zero_followed (s : Bytes) :
    ∀ i, (escapeZeros s ++ [0])[i]? = some 0 →
      i + 1 = (escapeZeros s ++ [0]).length ∨ (escapeZeros s ++ [0])[i + 1]? = some 1 := by
  induction s with
  | nil =>
    intro i h
    cases i with
    | zero => left; rfl
    | succ j => simp [escapeZeros] at h
  | cons x xs ih =>
    intro i h
    rw [escapeZeros] at h ⊢
    by_cases hx : x = 0
    · simp only [hx, if_true, List.cons_append] at h ⊢
      cases i with
      | zero => right; simp
      | succ j =>
        cases j with
        | zero => simp at h
        | succ k =>
          simp only [List.getElem?_cons_succ] at h ⊢
          rcases ih k h with h1 | h1
          · left
            simp only [List.length_cons]
            omega
          · right
            exact h1
    · simp only [hx, if_false, List.cons_append] at h ⊢
      cases i with
      | zero =>
        simp only [List.getElem?_cons_zero, Option.some.injEq] at h
        exact absurd h hx
      | succ j =>
        simp only [List.getElem?_cons_succ] at h ⊢
        rcases ih j h with h1 | h1
        · left
          simp only [List.length_cons]
          omega
        · right
          exact h1

theorem escapeZeros_injective (s : Bytes) :
    ∀ t : Bytes, escapeZeros s ++ [0] = escapeZeros t ++ [0] → s = t := by
  induction s with
  | nil =>
    intro t h
    cases t with
    | nil => rfl
    | cons y ys =>
      rw [escapeZeros] at h
      by_cases hy : y = 0
      · simp [escapeZeros, hy] at h
      · simp only [escapeZeros, List.nil_append, hy, if_false, List.cons_append,
          List.cons.injEq] at h
        exact absurd h.1.symm hy
  | cons x xs ih =>
    intro t h
    cases t with
    | nil =>
      rw [escapeZeros] at h
      by_cases hx : x = 0
      · simp [escapeZeros, hx] at h
      · simp only [escapeZeros, List.nil_append, hx, if_false, List.cons_append,
          List.cons.injEq] at h
        exact h.1.elim
    | cons y ys =>
      rw [escapeZeros, escapeZeros] at h
      by_cases hx : x = 0
      · by_cases hy : y = 0
        · simp only [hx, hy, if_true, List.cons_append, List.cons.injEq, true_and] at h
          rw [hx, hy, ih ys h]
        · simp only [hx, hy, if_true, if_false, List.cons_append, List.cons.injEq] at h
          exact absurd h.1.symm hy
      · by_cases hy : y = 0
        · simp only [hx, hy, if_true, if_false, List.cons_append, List.cons.injEq] at h
          exact h.1.elim
        · simp only [hx, hy, if_false, List.cons_append, List.cons.injEq] at h
          rw [h.1, ih ys h.2]

/-- Claim C30: for every byte string `s` and every buffer `code`, `encodeString(s, code)`
is `code`, then `s` with a byte 1 inserted after every zero byte, then one zero byte. In
the appended part every zero byte is the last byte or is followed by a byte 1, the last
byte is zero, the appended length is `len(s)` plus the number of zero bytes of `s` plus 1,
and two strings with the same encoding after the same buffer are equal. -/
theorem encodeString_spec (s code : Bytes) :
    encodeString s code = code ++ (escapeZeros s ++ [0]) ∧
      (∀ i, (escapeZeros s ++ [0])[i]? = some 0 →
        i + 1 = (escapeZeros s ++ [0]).length ∨ (escapeZeros s ++ [0])[i + 1]? = some 1) ∧
      (escapeZeros s ++ [0]).getLast? = some 0 ∧
      (encodeString s code).length = code.length + (s.length + s.count 0 + 1) ∧
      ∀ t : Bytes, encodeString s code = encodeString t code → s = t := by
  have henc : ∀ u : Bytes, encodeString u code = code ++ (escapeZeros u ++ [0]) := by
    intro u
    unfold encodeString
    rw [encodeString_foldl, List.append_assoc]
  refine ⟨henc s, escapeZeros_zero_followed s, by simp, ?_, ?_⟩
  · rw [henc, List.length_append, List.length_append, escapeZeros_length]
    rfl
  · intro t h
    rw [henc, henc] at h
    exact escapeZeros_injective s t (List.append_cancel_left h)

/-! ## The writer stage -/

/-- The loop of the writer over complete pairs that the response writer accepts: one
call of `Row` for each pair, in order, and the loop goes on with the reads that follow. -/
theorem writer_loop_pairs (w : WriterEnv) (more : List (Bytes × Option Error)) :
    ∀ (pairs done : List (Bytes × Bytes)), rowsAccepted w done pairs = true →
      IndexScanWriter.loop w (pairReads pairs ++ more) done =
        IndexScanWriter.loop w more (done ++ rowCalls pairs) := by
  intro pairs
  induction pairs with
  | nil =>
    intro done _
    simp [pairReads, rowCalls]
  | cons p rest ih =>
    intro done h
    simp only [rowsAccepted, Bool.and_eq_true, Option.isNone_iff_eq_none] at h
    have hreads : pairReads (p :: rest) ++ more =
        (p.1, none) :: (p.2, none) :: (pairReads rest ++ more) := by
      simp [pairReads]
    rw [hreads, IndexScanWriter.loop, h.1]
    simp only
    rw [ih _ h.2]
    simp [rowCalls]

theorem writer_errors_le_one (w : WriterEnv) (reads : List (Bytes × Option Error))
    (run : WriterRun) (h : IndexScanWriter.Routine w reads = .ret run) :
    run.errors.length ≤ 1 := by
  unfold IndexScanWriter.Routine at h
  obtain ⟨x, _, h⟩ := Exec_bind_eq_ret _ _ _ h
  simp only [Exec.ret.injEq] at h
  rw [← h]
  simp only
  cases x.1 with
  | none => simp
  | some e =>
    simp only
    split <;> simp

/-- Claim C26: the writer, given the read results of complete (secondary key, document id)
pairs that the response writer accepts, calls `Row(docid, sk)` once per pair in arrival
order and then: when the next read of a secondary key yields `ErrNoMoreItem`, it returns
nil without calling `Error`; when that read yields another error, or the read of the
document id yields an error, or `Row` returns an error for the next pair, it returns that
error and calls `Error` once with it, unless the text of the error is that of the
client-cancel error, in which case `Error` is not called. No run calls `Error` more than
once. -/
theorem writer_routine (w : WriterEnv) (pairs : List (Bytes × Bytes))
    (more : List (Bytes × Option Error)) (sk pk x : Bytes) (e : Error)
    (hrows : rowsAccepted w [] pairs = true) :
    (e = w.ErrNoMoreItem →
      IndexScanWriter.Routine w (pairReads pairs ++ (x, some e) :: more) =
        .ret { rows := rowCalls pairs, errors := [], err := none }) ∧
    (e ≠ w.ErrNoMoreItem →
      IndexScanWriter.Routine w (pairReads pairs ++ (x, some e) :: more) =
        .ret { rows := rowCalls pairs,
               errors := if w.isClientCancel e then [] else [e], err := some e }) ∧
    IndexScanWriter.Routine w (pairReads pairs ++ (sk, none) :: (x, some e) :: more) =
      .ret { rows := rowCalls pairs,
             errors := if w.isClientCancel e then [] else [e], err := some e } ∧
    (w.Row (rowCalls pairs) pk sk = some e →
      IndexScanWriter.Routine w (pairReads pairs ++ (sk, none) :: (pk, none) :: more) =
        .ret { rows := rowCalls pairs ++ [(pk, sk)],
               errors := if w.isClientCancel e then [] else [e], err := some e }) ∧
    ∀ reads run, IndexScanWriter.Routine w reads = .ret run → run.errors.length ≤ 1 := by
  refine ⟨?_, ?_, ?_, ?_, writer_errors_le_one w⟩
  · intro he
    unfold IndexScanWriter.Routine
    rw [writer_loop_pairs w _ pairs [] hrows, IndexScanWriter.loop, if_pos he]
    rfl
  · intro he
    unfold IndexScanWriter.Routine
    rw [writer_loop_pairs w _ pairs [] hrows, IndexScanWriter.loop, if_neg he]
    rfl
  · unfold IndexScanWriter.Routine
    rw [writer_loop_pairs w _ pairs [] hrows, IndexScanWriter.loop]
    rfl
  · intro hrow
    unfold IndexScanWriter.Routine
    rw [writer_loop_pairs w _ pairs [] hrows, IndexScanWriter.loop]
    simp only [List.nil_append, hrow]
    rfl

theorem writer_routine_witness :
    IndexScanWriter.Routine sampleWriterEnv
        (pairReads [([1], [2]), ([3], [4])] ++ [([], some (.other 0))]) =
      .ret { rows := [([2], [1]), ([4], [3])], errors := [], err := none } :=
  (writer_routine sampleWriterEnv [([1], [2]), ([3], [4])] [] [] [] [] (.other 0)
    (by decide)).1 rfl

/-! ## `projectEmptyResult` -/

theorem projectEmptyResult_collect (aggrs : List Bytes) :
    ∀ (slots : List projGroup) (keysToJoin : List Bytes),
      (∀ pg ∈ slots, 0 ≤ pg.pos ∧ pg.pos < aggrs.length) →
      projectEmptyResult.collect aggrs slots keysToJoin =
        .ret (keysToJoin ++ slots.map fun pg => (aggrs[pg.pos.toNat]?).getD []) := by
  intro slots
  induction slots with
  | nil => intro k _; simp [projectEmptyResult.collect]
  | cons pg rest ih =>
    intro k h
    obtain ⟨h0, h1⟩ := h pg (List.mem_cons_self _ _)
    have hlt : pg.pos.toNat < aggrs.length := by omega
    rw [projectEmptyResult.collect]
    simp only [getAt, h0, if_true, List.getElem?_eq_getElem hlt]
    rw [ih _ (fun x hx => h x (List.mem_cons_of_mem _ hx))]
    simp [List.getElem?_eq_getElem hlt]

/-- Claim C22: without length-prefixed arrays, for a group/aggregate spec without
group-by columns and a projection whose slots are positions of aggregates,
`projectEmptyResult` into an empty buffer returns `TypeArray`, then for each projection
slot in order `[5,48,0]` when the aggregate is COUNT or COUNTN and `[2,0]` otherwise, then
`Terminator`, with no error; for `[COUNT(*), SUM(x)]` projected in order these are the
bytes `[7,5,48,0,2,0,0]`. With a group-by column it returns no row and no error. -/
theorem projectEmptyResult_spec (env : Env) (proj : Projection) (groupAggr : GroupAggr)
    (hp : env.jsonEncoder.arrayLenPrefix = false)
    (hslots : ∀ pg ∈ proj.projectGroupKeys,
      0 ≤ pg.pos ∧ pg.pos < groupAggr.Aggrs.length) :
    (groupAggr.Group = [] →
      projectEmptyResult env [] (some proj) groupAggr =
        .ret (some ([TypeArray] ++
          (proj.projectGroupKeys.map fun pg =>
            match groupAggr.Aggrs[pg.pos.toNat]? with
            | some ak =>
              if ak.AggrFunc = .AGG_COUNT ∨ ak.AggrFunc = .AGG_COUNTN then [5, 48, 0]
              else [2, 0]
            | none => []).flatten ++ [Terminator]), none)) ∧
    (groupAggr.Group ≠ [] →
      projectEmptyResult env [] (some proj) groupAggr = .ret (none, none)) ∧
    projectEmptyResult sampleEnv [] (some sampleAggrProjection) sampleCountSum =
      .ret (some [7, 5, 48, 0, 2, 0, 0], none) := by
  refine ⟨?_, ?_, by decide⟩
  · intro hg
    unfold projectEmptyResult
    rw [hg]
    simp only [List.length_nil, if_true]
    rw [projectEmptyResult_collect _ _ _ (by
      intro pg hpg
      rw [List.length_map]
      exact hslots pg hpg)]
    simp only [Exec_bind_ret, JoinArray_eq _ _ _ hp, List.nil_append]
    have hmap : (proj.projectGroupKeys.map fun pg =>
        ((groupAggr.Aggrs.map fun ak =>
          if ak.AggrFunc = .AGG_COUNT ∨ ak.AggrFunc = .AGG_COUNTN then encodedZero
          else encodedNull)[pg.pos.toNat]?).getD []) =
        (proj.projectGroupKeys.map fun pg =>
          match groupAggr.Aggrs[pg.pos.toNat]? with
          | some ak =>
            if ak.AggrFunc = .AGG_COUNT ∨ ak.AggrFunc = .AGG_COUNTN then [5, 48, 0]
            else [2, 0]
          | none => []) := by
      apply List.map_congr_left
      intro pg _
      rw [List.getElem?_map]
      cases groupAggr.Aggrs[pg.pos.toNat]? with
      | none => rfl
      | some ak =>
        simp only [Option.map_some', Option.getD_some]
        split <;> rfl
    rw [hmap]
  · intro hg
    unfold projectEmptyResult
    have : groupAggr.Group.length ≠ 0 := fun h => hg (List.length_eq_zero.mp h)
    rw [if_neg this]

theorem projectEmptyResult_spec_witness :
    projectEmptyResult sampleEnv [] (some sampleAggrProjection)
        { sampleCountSum with
          Group := [{ EntryKeyId := 0, KeyPos := 0, Expr := 0, ExprValue := none }] } =
      .ret (none, none) :=
  (projectEmptyResult_spec sampleEnv sampleAggrProjection
    { sampleCountSum with
      Group := [{ EntryKeyId := 0, KeyPos := 0, Expr := 0, ExprValue := none }] }
    rfl (by decide)).2.1 (by decide)

/-! ## `projectKeys` and `projectLeadingKey` -/

theorem selectKeys_cons (e : Bytes) (elems : List Bytes) (f : Bool) (flags : List Bool) :
    selectKeys (e :: elems) (f :: flags) =
      (if f then [e] else []) ++ selectKeys elems flags := by
  unfold selectKeys
  cases f <;> simp [List.filter_cons]

theorem selectKeys_append (flags : List Bool) :
    ∀ (elems extra : List Bytes), flags.length ≤ elems.length →
      selectKeys (elems ++ extra) flags = selectKeys elems flags := by
  induction flags with
  | nil => intro elems extra _; simp [selectKeys]
  | cons f rest ih =>
    intro elems extra h
    cases elems with
    | nil => simp at h
    | cons e es =>
      simp only [List.length_cons, Nat.add_le_add_iff_right] at h
      rw [List.cons_append, selectKeys_cons, selectKeys_cons, ih es extra h]

/-- The loop over the projection flags of `projectKeys` collects the components with a
set flag, in index order, when there is a component for every flag. -/
theorem projectKeys_collect (cks : List Bytes) :
    ∀ (flags : List Bool) (i : Nat) (keysToJoin : List Bytes),
      i + flags.length ≤ cks.length →
      projectKeys.collect cks i flags keysToJoin =
        .ret (keysToJoin ++ selectKeys (cks.drop i) flags) := by
  intro flags
  induction flags with
  | nil => intro i k _; simp [projectKeys.collect, selectKeys]
  | cons f rest ih =>
    intro i k h
    simp only [List.length_cons] at h
    have hi : i < cks.length := by omega
    rw [projectKeys.collect, List.drop_eq_getElem_cons hi, selectKeys_cons]
    cases f with
    | true =>
      simp only [if_true, List.getElem?_eq_getElem hi]
      rw [ih (i + 1) _ (by omega)]
      simp
    | false =>
      simp only [Bool.false_eq_true, if_false, List.nil_append]
      exact ih (i + 1) _ (by omega)

theorem encodedArray_drop_key (elems : List Bytes) (tail : Bytes) :
    (encodedArray elems tail).drop (encodedArray elems []).length = tail := by
  unfold encodedArray
  simp only [List.length_cons, List.length_append, List.length_nil, List.drop_succ_cons]
  have h : elems.flatten ++ Terminator :: tail = (elems.flatten ++ [Terminator]) ++ tail := by
    simp
  rw [h]
  have hl : elems.flatten.length + (0 + 1) = (elems.flatten ++ [Terminator]).length := by
    simp
  rw [hl, List.drop_left]

theorem sliceFrom_key (env : Env) (elems : List Bytes) (tail : Bytes)
    (hlk : env.lenKey (encodedArray elems tail) = ((encodedArray elems []).length : Int)) :
    sliceFrom (encodedArray elems tail) (env.lenKey (encodedArray elems tail)) = .ret tail := by
  unfold sliceFrom
  rw [hlk]
  have hle : ((encodedArray elems []).length : Int) ≤ (encodedArray elems tail).length := by
    unfold encodedArray
    simp only [List.length_cons, List.length_append, List.length_nil]
    omega
  rw [if_pos ⟨Int.ofNat_nonneg _, hle⟩, Int.toNat_ofNat, encodedArray_drop_key]

/-- The projection by `projectKeys` of a well-formed entry with as many projection flags
as key components, with the components supplied by the caller or exploded inside. -/
theorem projectKeys_wellformed (env : Env) (proj : Projection) (tail : Bytes)
    (elems texts cktmp : List Bytes)
    (hp : env.jsonEncoder.arrayLenPrefix = false)
    (hdec : List.Forall₂ (DecodesTo env.jsonEncoder []) elems texts)
    (hlk : env.lenKey (encodedArray elems tail) = ((encodedArray elems []).length : Int))
    (hflags : proj.projectionKeys.length = elems.length)
    (hck : elems.length ≤ cktmp.length)
    (hne : proj.entryKeysEmpty = false) :
    projectKeys env (some elems) (encodedArray elems tail) [] proj cktmp =
        .ret (some ([TypeArray] ++ (selectKeys elems proj.projectionKeys).flatten ++
          [Terminator] ++ tail), none, cktmp) ∧
    projectKeys env none (encodedArray elems tail) [] proj cktmp =
        .ret (some ([TypeArray] ++ (selectKeys elems proj.projectionKeys).flatten ++
          [Terminator] ++ tail), none, overwrite cktmp 0 elems) := by
  constructor
  · unfold projectKeys
    simp only [hne, Bool.false_eq_true, if_false, Exec_bind_ret, Option.getD_some]
    rw [projectKeys_collect elems _ 0 [] (by omega)]
    simp only [Exec_bind_ret, List.drop_zero, List.nil_append, JoinArray_eq _ _ _ hp,
      Option.getD_some, sliceFrom_key env elems tail hlk]
  · have hex := ExplodeArray2_encodedArray env.jsonEncoder [] tail [] elems texts cktmp none
      hp hdec hck (by intro d hd; cases hd)
    unfold projectKeys
    simp only [hne, Bool.false_eq_true, if_false, hex, Exec_bind_ret, Option.getD_some]
    rw [projectKeys_collect _ _ 0 [] (by
      rw [overwrite_length _ _ _ (by omega)]
      omega)]
    have hov : overwrite cktmp 0 elems = elems ++ cktmp.drop elems.length := by
      unfold overwrite
      simp
    simp only [Exec_bind_ret, List.drop_zero, List.nil_append, JoinArray_eq _ _ _ hp,
      Option.getD_some, sliceFrom_key env elems tail hlk]
    rw [hov, selectKeys_append _ _ _ (by omega)]

/-- Claim C24: for a well-formed secondary entry whose key has `n` components and a
projection with `n` flags, without length-prefixed arrays, `projectKeys` into an empty
buffer returns `TypeArray`, then the components whose flag is set, in index order, then
`Terminator`, then the bytes of the entry after its secondary-key prefix, whether the
components are supplied or exploded inside; with `entryKeysEmpty` set it returns only the
bytes of the entry after the secondary-key prefix. For the components `("US","NYC")`
projected on the second position the emitted key is the encoding of `["NYC"]`. -/
theorem projectKeys_spec (env : Env) (proj : Projection) (tail : Bytes)
    (elems texts cktmp : List Bytes)
    (hp : env.jsonEncoder.arrayLenPrefix = false)
    (hdec : List.Forall₂ (DecodesTo env.jsonEncoder []) elems texts)
    (hlk : env.lenKey (encodedArray elems tail) = ((encodedArray elems []).length : Int))
    (hflags : proj.projectionKeys.length = elems.length)
    (hck : elems.length ≤ cktmp.length) :
    (proj.entryKeysEmpty = false →
      projectKeys env (some elems) (encodedArray elems tail) [] proj cktmp =
          .ret (some ([TypeArray] ++ (selectKeys elems proj.projectionKeys).flatten ++
            [Terminator] ++ tail), none, cktmp) ∧
      projectKeys env none (encodedArray elems tail) [] proj cktmp =
          .ret (some ([TypeArray] ++ (selectKeys elems proj.projectionKeys).flatten ++
            [Terminator] ++ tail), none, overwrite cktmp 0 elems)) ∧
    (proj.entryKeysEmpty = true → ∀ ck,
      projectKeys env ck (encodedArray elems tail) [] proj cktmp =
        .ret (some tail, none, cktmp)) ∧
    (projectKeys sampleEnv none sampleEntryUsNyc [] sampleProjectSecond [[], []]).bind
        (fun p => .ret p.1) =
      .ret (some ([7, 6, 78, 89, 67, 0, 0] ++ [100, 1, 0, 1, 0, 0, 0])) := by
  refine ⟨projectKeys_wellformed env proj tail elems texts cktmp hp hdec hlk hflags hck,
    ?_, by decide⟩
  intro he ck
  unfold projectKeys
  simp only [he, if_true, sliceFrom_key env elems tail hlk, Exec_bind_ret, List.nil_append]

theorem projectKeys_spec_witness :
    projectKeys sampleEnv (some [[2, 0], [5, 48, 0]])
        (encodedArray [[2, 0], [5, 48, 0]] [100, 1, 0, 1, 0, 0, 0]) []
        { projectSecKeys := true, projectionKeys := [true, false], entryKeysEmpty := false,
          projectGroupKeys := [] } [[], []] =
      .ret (some ([TypeArray] ++ [2, 0] ++ [Terminator] ++ [100, 1, 0, 1, 0, 0, 0]), none,
        [[], []]) :=
  ((projectKeys_spec sampleEnv
    { projectSecKeys := true, projectionKeys := [true, false], entryKeysEmpty := false,
      projectGroupKeys := [] } [100, 1, 0, 1, 0, 0, 0] [[2, 0], [5, 48, 0]] [[2], [5, 48]]
    [[], []] rfl sampleCodec_forall₂ (by decide) rfl (by decide)).1 rfl).1

theorem selectKeys_leading (c0 : Bytes) (rest : List Bytes) :
    selectKeys (c0 :: rest) (true :: List.replicate rest.length false) = [c0] := by
  rw [selectKeys_cons]
  have h : ∀ (l : List Bytes) (n : Nat), selectKeys l (List.replicate n false) = [] := by
    intro l
    induction l with
    | nil => intro n; simp [selectKeys]
    | cons x xs ih =>
      intro n
      cases n with
      | zero => simp [selectKeys]
      | succ m =>
        rw [List.replicate_succ, selectKeys_cons, ih]
        rfl
  rw [h]
  rfl

/-- Claim C25: for a well-formed secondary entry with at least one key component,
without length-prefixed arrays, `projectLeadingKey` returns `TypeArray`, then the first
component, then `Terminator`, then the bytes of the entry after its secondary-key prefix,
whether the components are supplied by the caller or exploded inside the function; these
are the bytes that `projectKeys` returns for a projection that selects only position 0. -/
theorem projectLeadingKey_spec (env : Env) (tail c0 : Bytes)
    (rest texts cktmp : List Bytes)
    (hp : env.jsonEncoder.arrayLenPrefix = false)
    (hdec : List.Forall₂ (DecodesTo env.jsonEncoder []) (c0 :: rest) texts)
    (hlk : env.lenKey (encodedArray (c0 :: rest) tail) =
      ((encodedArray (c0 :: rest) []).length : Int))
    (hck : (c0 :: rest).length ≤ cktmp.length) :
    projectLeadingKey env (some (c0 :: rest)) (encodedArray (c0 :: rest) tail) =
        .ret (some ([TypeArray] ++ c0 ++ [Terminator] ++ tail), none) ∧
    projectLeadingKey env none (encodedArray (c0 :: rest) tail) =
        .ret (some ([TypeArray] ++ c0 ++ [Terminator] ++ tail), none) ∧
    (∀ ck, ck = some (c0 :: rest) ∨ ck = none →
      (projectKeys env ck (encodedArray (c0 :: rest) tail) []
          { projectSecKeys := true,
            projectionKeys := true :: List.replicate rest.length false,
            entryKeysEmpty := false, projectGroupKeys := [] } cktmp).bind
        (fun p => .ret (p.1, p.2.1)) =
      projectLeadingKey env ck (encodedArray (c0 :: rest) tail)) := by
  have hsupplied : projectLeadingKey env (some (c0 :: rest))
      (encodedArray (c0 :: rest) tail) =
      .ret (some ([TypeArray] ++ c0 ++ [Terminator] ++ tail), none) := by
    unfold projectLeadingKey
    simp only [Exec_bind_ret, Option.getD_some, List.getElem?_cons_zero,
      JoinArray_eq _ _ _ hp, sliceFrom_key env (c0 :: rest) tail hlk, List.nil_append,
      List.flatten_cons, List.flatten_nil, List.append_nil]
  have hexploded : projectLeadingKey env none (encodedArray (c0 :: rest) tail) =
      .ret (some ([TypeArray] ++ c0 ++ [Terminator] ++ tail), none) := by
    have hex := ExplodeArray_encodedArray env.jsonEncoder [] tail (c0 :: rest) hp
      (forall₂_decodes_complete hdec)
    unfold projectLeadingKey
    simp only [hex, Exec_bind_ret, Option.getD_some, List.getElem?_cons_zero,
      JoinArray_eq _ _ _ hp, sliceFrom_key env (c0 :: rest) tail hlk, List.nil_append,
      List.flatten_cons, List.flatten_nil, List.append_nil]
  refine ⟨hsupplied, hexploded, ?_⟩
  obtain ⟨h1, h2⟩ := projectKeys_wellformed env
    { projectSecKeys := true, projectionKeys := true :: List.replicate rest.length false,
      entryKeysEmpty := false, projectGroupKeys := [] } tail (c0 :: rest) texts cktmp hp hdec
    hlk (by simp) hck rfl
  simp only [selectKeys_leading, List.flatten_cons, List.flatten_nil, List.append_nil]
    at h1 h2
  intro ck hck2
  rcases hck2 with rfl | rfl
  · rw [h1, hsupplied]
    rfl
  · rw [h2, hexploded]
    rfl

theorem projectLeadingKey_spec_witness :
    projectLeadingKey sampleEnv none
        (encodedArray [[2, 0], [5, 48, 0]] [100, 1, 0, 1, 0, 0, 0]) =
      .ret (some ([TypeArray] ++ [2, 0] ++ [Terminator] ++ [100, 1, 0, 1, 0, 0, 0]), none) :=
  (projectLeadingKey_spec sampleEnv [100, 1, 0, 1, 0, 0, 0] [2, 0] [[5, 48, 0]]
    [[2], [5, 48]] [[], []] rfl sampleCodec_forall₂ (by decide) (by decide)).2.1

/-! ## `projectGroupAggr` and the flush tail -/

theorem takeRow_first_flagged :
    ∀ (pre : List aggrRow) (row : aggrRow) (post : List aggrRow),
      (∀ r ∈ pre, r.flush = false) → row.flush = true →
      projectGroupAggr.takeRow (pre ++ row :: post) = some (row, pre ++ post) := by
  intro pre
  induction pre with
  | nil =>
    intro row post _ hrow
    exact takeRow_head row post hrow
  | cons p rest ih =>
    intro row post hpre hrow
    have hp : p.Flush = false := hpre p (List.mem_cons_self _ _)
    rw [List.cons_append, projectGroupAggr.takeRow, hp,
      ih row post (fun r hr => hpre r (List.mem_cons_of_mem _ hr)) hrow]
    rfl

theorem projectGroupAggr_rows (env : Env) (aenv : AggrEnv) (buf : Bytes)
    (projection : Option Projection) (ar : aggrResult) (isPrimary : Bool)
    (row : aggrRow) (rest : List aggrRow) (res : ProjectAggrResult)
    (htake : projectGroupAggr.takeRow ar.rows = some (row, rest))
    (h : projectGroupAggr env aenv buf projection ar isPrimary = .ret res) :
    res.aggrRes = { ar with rows := rest } := by
  unfold projectGroupAggr at h
  rw [htake] at h
  simp only at h
  cases projection with
  | none => cases h
  | some proj =>
    simp only at h
    obtain ⟨k, _, h⟩ := Exec_bind_eq_ret _ _ _ h
    cases hk : k.1 with
    | some e =>
      simp only [hk, Exec.ret.injEq] at h
      rw [← h]
    | none =>
      simp only [hk] at h
      obtain ⟨j, _, h⟩ := Exec_bind_eq_ret _ _ _ h
      cases hj : j.2 with
      | some e =>
        simp only [hj, Exec.ret.injEq] at h
        rw [← h]
      | none =>
        simp only [hj, Exec.ret.injEq] at h
        rw [← h]

/-- One projection of a flagged first row whose encoding succeeds: the row is removed
and its encoding is returned. -/
theorem projectGroupAggr_head (env : Env) (aenv : AggrEnv) (proj : Projection)
    (row : aggrRow) (rest : List aggrRow) (maxRows : Int) (isPrimary : Bool)
    (keys : List Bytes) (hp : env.jsonEncoder.arrayLenPrefix = false)
    (hflush : row.flush = true)
    (henc : projectGroupAggr.encode aenv row isPrimary proj.projectGroupKeys [] =
      .ret (none, keys)) :
    projectGroupAggr env aenv [] (some proj) { rows := row :: rest, maxRows := maxRows }
        isPrimary =
      .ret { entry := some ([TypeArray] ++ keys.flatten ++ [Terminator]), err := none,
             aggrRes := { rows := rest, maxRows := maxRows } } := by
  unfold projectGroupAggr
  rw [takeRow_head row rest hflush]
  simp only [henc, Exec_bind_ret, JoinArray_eq _ _ _ hp, List.nil_append]

/-- The loop of the flush tail on flagged rows whose encodings and writes succeed, with
the offset consumed and the limit out of reach: one projection and one write per row,
oldest first, and the loop ends with the projection that finds no row. -/
theorem flushTail_loop_drain (env : Env) (aenv : AggrEnv) (r : ScanRequest)
    (proj : Projection) (groupAggr : GroupAggr) (maxRows : Int)
    (encKeys : aggrRow → List Bytes)
    (hp : env.jsonEncoder.arrayLenPrefix = false)
    (hW : ∀ log row, env.WriteItem log row = none) :
    ∀ (rows : List aggrRow) (fuel : Nat) (st : EmitState),
      rows.length < fuel →
      (∀ row ∈ rows, row.flush = true ∧
        projectGroupAggr.encode aenv row r.isPrimary proj.projectGroupKeys [] =
          .ret (none, encKeys row)) →
      st.currOffset ≥ r.Offset →
      st.rowsReturned + rows.length < toUint64 r.Limit →
      (rows = [] → st.rowsReturned ≠ 0) →
      flushTail.loop env aenv r (some proj) groupAggr fuel
          { rows := rows, maxRows := maxRows } st =
        .ret { emit := { st with
                 rowsReturned := st.rowsReturned + rows.length
                 written := st.written ++ rows.map fun row =>
                   [TypeArray] ++ (encKeys row).flatten ++ [Terminator] },
               aggrRes := { rows := [], maxRows := maxRows }, closed := none } := by
  intro rows
  induction rows with
  | nil =>
    intro fuel st hfuel _ _ _ hne
    cases fuel with
    | zero => omega
    | succ f =>
      rw [flushTail.loop]
      simp only [projectGroupAggr, projectGroupAggr.takeRow, Exec_bind_ret,
        if_neg (hne rfl), List.length_nil, Nat.add_zero, List.map_nil, List.append_nil]
  | cons row rest ih =>
    intro fuel st hfuel hrows hoff hlim _
    cases fuel with
    | zero => omega
    | succ f =>
      obtain ⟨hflush, henc⟩ := hrows row (List.mem_cons_self _ _)
      have hlt := toUint64_lt r.Limit
      simp only [List.length_cons] at hlim hfuel
      have hmod : (st.rowsReturned + 1) % 2 ^ 64 = st.rowsReturned + 1 :=
        Nat.mod_eq_of_lt (by omega)
      rw [flushTail.loop, projectGroupAggr_head env aenv proj row rest maxRows r.isPrimary
        (encKeys row) hp hflush henc]
      simp only [Exec_bind_ret, if_pos hoff, hW, hmod]
      rw [if_neg (by omega)]
      have hnext := ih f
        ⟨st.currOffset, st.rowsReturned + 1, st.previousRow,
          st.written ++ [[TypeArray] ++ (encKeys row).flatten ++ [Terminator]]⟩
        (by omega) (fun x hx => hrows x (List.mem_cons_of_mem _ hx)) hoff
        (by show st.rowsReturned + 1 + rest.length < toUint64 r.Limit; omega)
        (fun _ => by show st.rowsReturned + 1 ≠ 0; omega)
      rw [hnext]
      simp only [List.map_cons, List.append_assoc, List.singleton_append, List.length_cons,
        List.cons_append, List.nil_append]
      congr 3
      omega

/-- Repeated row removal on rows that are all flagged takes the rows out oldest first and
stops after as many removals as there are rows. -/
theorem drainRows_all_flagged :
    ∀ (rows : List aggrRow) (fuel : Nat), rows.length ≤ fuel →
      (∀ row ∈ rows, row.flush = true) → drainRows fuel rows = rows := by
  intro rows
  induction rows with
  | nil =>
    intro fuel _ _
    cases fuel <;> rfl
  | cons row rest ih =>
    intro fuel hfuel hrows
    cases fuel with
    | zero => simp at hfuel
    | succ f =>
      rw [drainRows, takeRow_head row rest (hrows row (List.mem_cons_self _ _))]
      simp only
      rw [ih f (by simpa using hfuel) (fun x hx => hrows x (List.mem_cons_of_mem _ hx))]

/-- Counterexample for claim C21: with two buffered rows and limit 1 the loop of the
flush tail returns after the first projection, at the limit, and the second row stays in
the result. -/
theorem flushTail_stops_at_limit :
    flushTail sampleEnv sampleAggrEnv sampleLimitOneRequest (some sampleCountProjection)
        sampleCountOnly { rows := [sampleCountRow 3, sampleCountRow 5], maxRows := 10 }
        EmitState.init =
      .ret { emit := { EmitState.init with rowsReturned := 1, written := [[7, 5, 51, 0, 0]] },
             aggrRes := { rows := [(sampleCountRow 5).SetFlush true], maxRows := 10 },
             closed := none } := by
  decide

/-- Claim C21: `projectGroupAggr` returns `(nil, nil)` and leaves the result as it is when
no buffered row is flagged. When the first flagged row is `row`, after the unflagged rows
`pre` and before the rows `post`, every call that returns leaves the rows `pre ++ post`,
and the call returns whenever the encoding of `row` returns. Once every row is flagged,
repeated removal takes the rows out oldest first and finds no row after as many removals
as there are rows; and the loop of the flush tail on a non-empty result, with encodings
and writes that succeed, the offset consumed and the limit out of reach, ends after one
projection per row and has written the encodings of the rows, oldest first. -/
theorem projectGroupAggr_frame (env : Env) (aenv : AggrEnv) (buf : Bytes)
    (projection : Option Projection) (ar : aggrResult) (isPrimary : Bool) :
    ((∀ r ∈ ar.rows, r.flush = false) →
      projectGroupAggr env aenv buf projection ar isPrimary =
        .ret { entry := none, err := none, aggrRes := ar }) ∧
    (∀ pre row post, ar.rows = pre ++ row :: post → (∀ r ∈ pre, r.flush = false) →
      row.flush = true →
      (∀ res, projectGroupAggr env aenv buf projection ar isPrimary = .ret res →
        res.aggrRes = { ar with rows := pre ++ post }) ∧
      (∀ proj k, projection = some proj →
        projectGroupAggr.encode aenv row isPrimary proj.projectGroupKeys [] = .ret k →
        ∃ res, projectGroupAggr env aenv buf projection ar isPrimary = .ret res)) ∧
    (∀ k, drainRows (ar.rows.length + k) ar.flushAll.rows = ar.flushAll.rows) ∧
    (∀ (r : ScanRequest) (proj : Projection) (groupAggr : GroupAggr)
        (encKeys : aggrRow → List Bytes) (st : EmitState),
      env.jsonEncoder.arrayLenPrefix = false →
      (∀ log row, env.WriteItem log row = none) →
      ar.rows ≠ [] →
      (∀ row ∈ ar.rows,
        projectGroupAggr.encode aenv (row.SetFlush true) r.isPrimary proj.projectGroupKeys []
          = .ret (none, encKeys (row.SetFlush true))) →
      st.currOffset ≥ r.Offset →
      st.rowsReturned + ar.rows.length < toUint64 r.Limit →
      flushTail env aenv r (some proj) groupAggr ar st =
        .ret { emit := { st with
                 rowsReturned := st.rowsReturned + ar.rows.length
                 written := st.written ++ ar.rows.map fun row =>
                   [TypeArray] ++ (encKeys (row.SetFlush true)).flatten ++ [Terminator] },
               aggrRes := { ar with rows := [] }, closed := none }) := by
  refine ⟨?_, ?_, ?_, ?_⟩
  · intro h
    unfold projectGroupAggr
    rw [takeRow_none_of_no_flush ar.rows h]
  · intro pre row post hrows hpre hrow
    have htake := takeRow_first_flagged pre row post hpre hrow
    rw [← hrows] at htake
    refine ⟨fun res h => projectGroupAggr_rows env aenv buf projection ar isPrimary row
      (pre ++ post) res htake h, ?_⟩
    intro proj k hproj hk
    unfold projectGroupAggr
    rw [htake, hproj]
    simp only [hk, Exec_bind_ret]
    cases k.1 with
    | some e => exact ⟨_, rfl⟩
    | none =>
      simp only
      unfold JoinArray
      split
      · exact ⟨_, rfl⟩
      · exact ⟨_, rfl⟩
  · intro k
    apply drainRows_all_flagged
    · simp only [aggrResult.flushAll, List.length_map]
      omega
    · intro row hrow
      simp only [aggrResult.flushAll] at hrow
      obtain ⟨x, _, rfl⟩ := List.mem_map.mp hrow
      rfl
  · intro r proj groupAggr encKeys st hp hW hne henc hoff hlim
    unfold flushTail
    have hdrain := flushTail_loop_drain env aenv r proj groupAggr ar.maxRows encKeys hp hW
      (ar.rows.map fun row => row.SetFlush true) (ar.rows.length + 1) st
      (by rw [List.length_map]; omega)
      (by
        intro row hrow
        obtain ⟨x, hx, rfl⟩ := List.mem_map.mp hrow
        exact ⟨rfl, henc x hx⟩)
      hoff (by rw [List.length_map]; exact hlim)
      (by
        intro h
        exact absurd (List.map_eq_nil_iff.mp h) hne)
    rw [List.length_map, List.map_map] at hdrain
    exact hdrain

theorem projectGroupAggr_frame_witness :
    flushTail sampleEnv sampleAggrEnv sampleRequest (some sampleCountProjection)
        sampleCountOnly { rows := [sampleCountRow 3, sampleCountRow 5], maxRows := 10 }
        EmitState.init =
      .ret { emit := { EmitState.init with
               rowsReturned := 2, written := [[7, 5, 51, 0, 0], [7, 5, 53, 0, 0]] },
             aggrRes := { rows := [], maxRows := 10 }, closed := none } :=
  (projectGroupAggr_frame sampleEnv sampleAggrEnv [] (some sampleCountProjection)
    { rows := [sampleCountRow 3, sampleCountRow 5], maxRows := 10 } false).2.2.2
    sampleRequest sampleCountProjection sampleCountOnly
    (fun row => [(sampleAggrEnv.encodeValue
      (.aggr (sampleAggrEnv.fnValue ((row.aggrs.headD none).getD
        { fn := NewAggrFunc .AGG_COUNT (.raw []) false false, projectId := 0 }).fn))).1])
    EmitState.init rfl (fun _ _ => rfl) (by decide) (by decide) (by decide) (by decide)

/-! ## The aggregate-identity row -/

/-- Claim C23 fails with a positive offset: a run with the aggregate COUNT, no group-by
columns, offset 1 and one scanned entry, which passes (the scan does not filter) and for
which an aggregate row with count 1 is built. The flush tail projects that row and counts
it against the offset, finds `rowsReturned` at 0 when no row is left, and writes the row
of `projectEmptyResult`, a count of 0. With offset 0 the same run writes the count 1, and
a run without entries writes the count 0. -/
theorem identity_row_after_offset :
    (IndexScanSource.Routine sampleEnvLarge sampleAggrEnv sampleSourceEnv (sampleAggrConfig 1)
        [(sampleRangeScan, [(sampleEntry, none)])]
        (SourceState.init sampleEnvLarge (some sampleCountOnly) 2 10)).bind
      (fun x => .ret (x.st.vars.emit.written, x.st.rowsScanned)) =
      .ret ([[7, 5, 48, 0, 0]], 1) ∧
    (IndexScanSource.Routine sampleEnvLarge sampleAggrEnv sampleSourceEnv (sampleAggrConfig 0)
        [(sampleRangeScan, [(sampleEntry, none)])]
        (SourceState.init sampleEnvLarge (some sampleCountOnly) 2 10)).bind
      (fun x => .ret (x.st.vars.emit.written, x.st.rowsScanned)) =
      .ret ([[7, 5, 49, 0, 0]], 1) ∧
    (IndexScanSource.Routine sampleEnvLarge sampleAggrEnv sampleSourceEnv (sampleAggrConfig 0)
        [(sampleRangeScan, [])]
        (SourceState.init sampleEnvLarge (some sampleCountOnly) 2 10)).bind
      (fun x => .ret (x.st.vars.emit.written, x.st.rowsScanned)) =
      .ret ([[7, 5, 48, 0, 0]], 0) := by
  refine ⟨by decide, by decide, by decide⟩

/-! ## The callback: where its errors come from -/

/-- The errors of `ExplodeArray2` are its own two errors and those of the element
decoder. -/
theorem ExplodeArray2_loop_err (P : Error → Prop) (codec : Codec) (tmp : Bytes)
    (hcodec : ∀ code text r, codec.code2json code text = .ret r → ∀ e, r.2.2 = some e → P e) :
    ∀ (fuel : Nat) (code elemBuf : Bytes) (s : Explode2State)
      (res : Option (List Bytes) × Option (List Bytes) × Option Error),
      ExplodeArray2.loop codec tmp fuel code elemBuf s = .ret res →
      ∀ e, res.2.2 = some e → P e := by
  intro fuel
  induction fuel with
  | zero =>
    intro code elemBuf s res h e he
    cases code with
    | nil => simp [ExplodeArray2.loop] at h
    | cons c cs =>
      rw [ExplodeArray2.loop] at h
      by_cases hc : c = Terminator
      · simp only [hc, if_true, Exec.ret.injEq] at h
        rw [← h] at he
        cases he
      · simp only [hc, if_false] at h
        cases h
  | succ fuel ih =>
    intro code elemBuf s res h e he
    cases code with
    | nil => simp [ExplodeArray2.loop] at h
    | cons c cs =>
      rw [ExplodeArray2.loop] at h
      by_cases hc : c = Terminator
      · simp only [hc, if_true, Exec.ret.injEq] at h
        rw [← h] at he
        cases he
      · simp only [hc, if_false] at h
        obtain ⟨r, hr, h⟩ := Exec_bind_eq_ret _ _ _ h
        cases hre : r.2.2 with
        | some e2 =>
          simp only [hre, Exec.ret.injEq] at h
          rw [← h] at he
          simp only [Option.some.injEq] at he
          rw [← he]
          exact hcodec _ _ r hr e2 hre
        | none =>
          simp only [hre] at h
          obtain ⟨s1, _, h⟩ := Exec_bind_eq_ret _ _ _ h
          split at h
          · split at h
            · exact ih _ _ _ res h e he
            · cases h
          · split at h
            · cases h
            · exact ih _ _ _ res h e he

theorem ExplodeArray2_err (P : Error → Prop) (codec : Codec) (code tmp decbuf : Bytes)
    (cktmp : List Bytes) (dktmp : Option (List Bytes))
    (res : Option (List Bytes) × Option (List Bytes) × Option Error)
    (hcodec : ∀ code text r, codec.code2json code text = .ret r → ∀ e, r.2.2 = some e → P e)
    (h1 : P .ErrNotAnArray) (h2 : P .ErrLenPrefixUnsupported)
    (h : ExplodeArray2 codec code tmp decbuf cktmp dktmp = .ret res) :
    ∀ e, res.2.2 = some e → P e := by
  intro e he
  unfold ExplodeArray2 at h
  split at h
  · simp only [Exec.ret.injEq] at h
    rw [← h] at he
    simp only [Option.some.injEq] at he
    rw [← he]
    exact h2
  · split at h
    · cases h
    · split at h
      · simp only [Exec.ret.injEq] at h
        rw [← h] at he
        simp only [Option.some.injEq] at he
        rw [← he]
        exact h1
      · exact ExplodeArray2_loop_err P codec tmp hcodec _ _ _ _ res h e he

theorem filterLoop_err (cks : List Bytes) :
    ∀ (filters : List Filter) (m : Bool × Option Error),
      filterLoop cks filters = .ret m → ∀ e, m.2 = some e → e = .ErrMoreRanges := by
  intro filters
  induction filters with
  | nil =>
    intro m h e he
    simp only [filterLoop, Exec.ret.injEq] at h
    rw [← h] at he
    cases he
  | cons fc rest ih =>
    intro m h e he
    rw [filterLoop] at h
    split at h
    · simp only [Exec.ret.injEq] at h
      rw [← h] at he
      simp only [Option.some.injEq] at he
      exact he.symm
    · obtain ⟨b, _, h⟩ := Exec_bind_eq_ret _ _ _ h
      split at h
      · simp only [Exec.ret.injEq] at h
        rw [← h] at he
        cases he
      · exact ih m h e he

theorem filterScanRow2_err (P : Error → Prop) (env : Env) (key : Bytes) (scan : Scan)
    (buf decbuf : Bytes) (getDecoded : Bool) (cktmp : List Bytes)
    (dktmp : Option (List Bytes)) (r : ScanRequest) (cachedEntry : entryCache)
    (res : FilterResult2)
    (hcodec : ∀ code text r, env.jsonEncoder.code2json code text = .ret r →
      ∀ e, r.2.2 = some e → P e)
    (h1 : P .ErrNotAnArray) (h2 : P .ErrLenPrefixUnsupported) (h3 : P .ErrMoreRanges)
    (h : filterScanRow2 env key scan buf decbuf getDecoded cktmp dktmp r cachedEntry
      = .ret res) :
    ∀ e, res.err = some e → P e := by
  intro e he
  unfold filterScanRow2 at h
  obtain ⟨l, _, h⟩ := Exec_bind_eq_ret _ _ _ h
  obtain ⟨x, hx, h⟩ := Exec_bind_eq_ret _ _ _ h
  have hxe : ∀ e, x.2.2.1 = some e → P e := by
    intro e2 he2
    split at hx
    · simp only [Exec.ret.injEq] at hx
      rw [← hx] at he2
      cases he2
    · obtain ⟨y, hy, hx⟩ := Exec_bind_eq_ret _ _ _ hx
      simp only [Exec.ret.injEq] at hx
      rw [← hx] at he2
      exact ExplodeArray2_err P _ _ _ _ _ _ y hcodec h1 h2 hy e2 he2
  cases hx1 : x.2.2.1 with
  | some e2 =>
    simp only [hx1, Exec.ret.injEq] at h
    rw [← h] at he
    simp only [Option.some.injEq] at he
    rw [← he]
    exact hxe e2 hx1
  | none =>
    simp only [hx1] at h
    obtain ⟨c3, _, h⟩ := Exec_bind_eq_ret _ _ _ h
    obtain ⟨m, hm, h⟩ := Exec_bind_eq_ret _ _ _ h
    cases hm2 : m.2 with
    | some e2 =>
      simp only [hm2, Exec.ret.injEq] at h
      rw [← h] at he
      simp only [Option.some.injEq] at he
      rw [← he, filterLoop_err _ _ m hm e2 hm2]
      exact h3
    | none =>
      simp only [hm2, Exec.ret.injEq] at h
      rw [← h] at he
      cases he

theorem decodedValueAt_err (P : Error → Prop) (env : Env)
    (decodedkeys : Option (List Bytes)) (decodedvalues : List (Option Value)) (pos : Int)
    (res : Option Error × Option Value × List (Option Value))
    (hunm : ∀ t e, (env.jsonUnmarshal t).2 = some e → P e)
    (h : decodedValueAt env decodedkeys decodedvalues pos = .ret res) :
    ∀ e, res.1 = some e → P e := by
  intro e he
  unfold decodedValueAt at h
  split at h
  · cases h
  · simp only [Exec.ret.injEq] at h
    rw [← h] at he
    cases he
  · split at h
    · cases h
    · rename_i text _
      split at h
      · rename_i e2 hu
        simp only [Exec.ret.injEq] at h
        rw [← h] at he
        simp only [Option.some.injEq] at he
        rw [← he]
        exact hunm text e2 (by rw [hu])
      · simp only [Exec.ret.injEq] at h
        rw [← h] at he
        cases he

theorem covers_err (P : Error → Prop) (env : Env) (groupAggr : GroupAggr)
    (decodedkeys : Option (List Bytes)) (docid : Bytes)
    (hunm : ∀ t e, (env.jsonUnmarshal t).2 = some e → P e) :
    ∀ (iks : List Int) (dv : List (Option Value)) (covers : List (Nat × Value))
      (res : Option Error × List (Option Value) × List (Nat × Value)),
      evaluateN1QLExpresssion.covers env groupAggr decodedkeys docid iks dv covers = .ret res →
      ∀ e, res.1 = some e → P e := by
  intro iks
  induction iks with
  | nil =>
    intro dv covers res h e he
    simp only [evaluateN1QLExpresssion.covers, Exec.ret.injEq] at h
    rw [← h] at he
    cases he
  | cons ik rest ih =>
    intro dv covers res h e he
    rw [evaluateN1QLExpresssion.covers] at h
    split at h
    · split at h
      · cases h
      · exact ih _ _ res h e he
    · obtain ⟨d, hd, h⟩ := Exec_bind_eq_ret _ _ _ h
      cases hd1 : d.1 with
      | some e2 =>
        simp only [hd1, Exec.ret.injEq] at h
        rw [← h] at he
        simp only [Option.some.injEq] at he
        rw [← he]
        exact decodedValueAt_err P env _ _ _ d hunm hd e2 hd1
      | none =>
        simp only [hd1] at h
        split at h
        · cases h
        · exact ih _ _ res h e he

theorem evaluateN1QLExpresssion_err (P : Error → Prop) (env : Env) (groupAggr : GroupAggr)
    (expr : Nat) (decodedkeys : Option (List Bytes)) (decodedvalues : List (Option Value))
    (docid : Bytes)
    (res : Option Value × Option Error × List (Option Value) × List (Nat × Value))
    (hunm : ∀ t e, (env.jsonUnmarshal t).2 = some e → P e)
    (heval : ∀ x c e, (env.EvaluateForIndex x c).2 = some e → P e)
    (h : evaluateN1QLExpresssion env groupAggr expr decodedkeys decodedvalues docid = .ret res) :
    ∀ e, res.2.1 = some e → P e := by
  intro e he
  unfold evaluateN1QLExpresssion at h
  obtain ⟨c, hc, h⟩ := Exec_bind_eq_ret _ _ _ h
  cases hc1 : c.1 with
  | some e2 =>
    simp only [hc1, Exec.ret.injEq] at h
    rw [← h] at he
    simp only [Option.some.injEq] at he
    rw [← he]
    exact covers_err P env groupAggr decodedkeys docid hunm _ _ _ c hc e2 hc1
  | none =>
    simp only [hc1] at h
    split at h
    · rename_i e2 hu
      simp only [Exec.ret.injEq] at h
      rw [← h] at he
      simp only [Option.some.injEq] at he
      rw [← he]
      exact heval _ _ e2 (by rw [hu])
    · simp only [Exec.ret.injEq] at h
      rw [← h] at he
      cases he

theorem computeGroupKey_err (P : Error → Prop) (env : Env) (groupAggr : GroupAggr)
    (gk : GroupKey) (compositekeys decodedkeys : Option (List Bytes))
    (decodedvalues : List (Option Value)) (docid : Bytes) (pos : Nat) (res : ComputeResult)
    (hunm : ∀ t e, (env.jsonUnmarshal t).2 = some e → P e)
    (heval : ∀ x c e, (env.EvaluateForIndex x c).2 = some e → P e)
    (h : computeGroupKey env groupAggr gk compositekeys decodedkeys decodedvalues docid pos
      = .ret res) :
    ∀ e, res.err = some e → P e := by
  intro e he
  unfold computeGroupKey at h
  split at h
  · cases h
  · split at h
    · split at h
      · cases h
      · simp only [Exec.ret.injEq] at h
        rw [← h] at he
        cases he
    · obtain ⟨x, hx, h⟩ := Exec_bind_eq_ret _ _ _ h
      cases hx1 : x.2.1 with
      | some e2 =>
        simp only [hx1, Exec.ret.injEq] at h
        rw [← h] at he
        simp only [Option.some.injEq] at he
        rw [← he]
        split at hx
        · simp only [Exec.ret.injEq] at hx
          rw [← hx] at hx1
          cases hx1
        · exact evaluateN1QLExpresssion_err P env _ _ _ _ _ x hunm heval hx e2 hx1
      | none =>
        simp only [hx1, Exec.ret.injEq] at h
        rw [← h] at he
        cases he

theorem computeAggrVal_err (P : Error → Prop) (env : Env) (groupAggr : GroupAggr)
    (ak : Aggregate) (compositekeys decodedkeys : Option (List Bytes))
    (decodedvalues : List (Option Value)) (docid : Bytes) (count : Int) (pos : Nat)
    (res : ComputeResult)
    (hunm : ∀ t e, (env.jsonUnmarshal t).2 = some e → P e)
    (heval : ∀ x c e, (env.EvaluateForIndex x c).2 = some e → P e)
    (h : computeAggrVal env groupAggr ak compositekeys decodedkeys decodedvalues docid count
      pos = .ret res) :
    ∀ e, res.err = some e → P e := by
  intro e he
  unfold computeAggrVal at h
  split at h
  · cases h
  · simp only at h
    split at h
    · split at h
      · obtain ⟨d, hd, h⟩ := Exec_bind_eq_ret _ _ _ h
        cases hd1 : d.1 with
        | some e2 =>
          simp only [hd1, Exec.ret.injEq] at h
          rw [← h] at he
          simp only [Option.some.injEq] at he
          rw [← he]
          exact decodedValueAt_err P env _ _ _ d hunm hd e2 hd1
        | none =>
          simp only [hd1, Exec.ret.injEq] at h
          rw [← h] at he
          cases he
      · split at h
        · cases h
        · simp only [Exec.ret.injEq] at h
          rw [← h] at he
          cases he
    · obtain ⟨x, hx, h⟩ := Exec_bind_eq_ret _ _ _ h
      cases hx1 : x.2.1 with
      | some e2 =>
        simp only [hx1, Exec.ret.injEq] at h
        rw [← h] at he
        simp only [Option.some.injEq] at he
        rw [← he]
        split at hx
        · simp only [Exec.ret.injEq] at hx
          rw [← hx] at hx1
          cases hx1
        · exact evaluateN1QLExpresssion_err P env _ _ _ _ _ x hunm heval hx e2 hx1
      | none =>
        simp only [hx1, Exec.ret.injEq] at h
        rw [← h] at he
        cases he

theorem groupLoop_err (P : Error → Prop) (env : Env)
    (compositekeys decodedkeys : Option (List Bytes)) (docid : Bytes)
    (hunm : ∀ t e, (env.jsonUnmarshal t).2 = some e → P e)
    (heval : ∀ x c e, (env.EvaluateForIndex x c).2 = some e → P e) :
    ∀ (gks : List GroupKey) (i : Nat) (groupAggr : GroupAggr) (dv : List (Option Value))
      (res : ComputeResult),
      computeGroupAggr.groupLoop env compositekeys decodedkeys docid i gks groupAggr dv
        = .ret res →
      ∀ e, res.err = some e → P e := by
  intro gks
  induction gks with
  | nil =>
    intro i groupAggr dv res h e he
    simp only [computeGroupAggr.groupLoop, Exec.ret.injEq] at h
    rw [← h] at he
    cases he
  | cons gk rest ih =>
    intro i groupAggr dv res h e he
    rw [computeGroupAggr.groupLoop] at h
    obtain ⟨c, hc, h⟩ := Exec_bind_eq_ret _ _ _ h
    cases hce : c.err with
    | some e2 =>
      simp only [hce, Exec.ret.injEq] at h
      rw [← h] at he
      simp only [Option.some.injEq] at he
      rw [← he]
      exact computeGroupKey_err P env _ _ _ _ _ _ _ c hunm heval hc e2 hce
    | none =>
      simp only [hce] at h
      exact ih _ _ _ res h e he

theorem aggrLoop_err (P : Error → Prop) (env : Env)
    (compositekeys decodedkeys : Option (List Bytes)) (docid : Bytes) (count : Int)
    (hunm : ∀ t e, (env.jsonUnmarshal t).2 = some e → P e)
    (heval : ∀ x c e, (env.EvaluateForIndex x c).2 = some e → P e) :
    ∀ (aks : List Aggregate) (i : Nat) (groupAggr : GroupAggr) (dv : List (Option Value))
      (res : ComputeResult),
      computeGroupAggr.aggrLoop env compositekeys decodedkeys docid count i aks groupAggr dv
        = .ret res →
      ∀ e, res.err = some e → P e := by
  intro aks
  induction aks with
  | nil =>
    intro i groupAggr dv res h e he
    simp only [computeGroupAggr.aggrLoop, Exec.ret.injEq] at h
    rw [← h] at he
    cases he
  | cons ak rest ih =>
    intro i groupAggr dv res h e he
    rw [computeGroupAggr.aggrLoop] at h
    obtain ⟨c, hc, h⟩ := Exec_bind_eq_ret _ _ _ h
    cases hce : c.err with
    | some e2 =>
      simp only [hce, Exec.ret.injEq] at h
      rw [← h] at he
      simp only [Option.some.injEq] at he
      rw [← he]
      exact computeAggrVal_err P env _ _ _ _ _ _ _ _ c hunm heval hc e2 hce
    | none =>
      simp only [hce] at h
      exact ih _ _ _ res h e he

theorem computeGroupAggr_keys_err (P : Error → Prop) (env : Env)
    (compositekeys decodedkeys : Option (List Bytes)) (key buf decbuf : Bytes)
    (groupAggr : GroupAggr) (cktmp : List Bytes) (dktmp : Option (List Bytes))
    (cachedEntry : entryCache)
    (res : Option Error × Option (List Bytes) × Option (List Bytes) × entryCache
      × List Bytes × Option (List Bytes))
    (hcodec : ∀ code text r, env.jsonEncoder.code2json code text = .ret r →
      ∀ e, r.2.2 = some e → P e)
    (h1 : P .ErrNotAnArray) (h2 : P .ErrLenPrefixUnsupported)
    (h : computeGroupAggr.keys env compositekeys decodedkeys key buf decbuf groupAggr cktmp
      dktmp cachedEntry = .ret res) :
    ∀ e, res.1 = some e → P e := by
  intro e he
  unfold computeGroupAggr.keys at h
  split at h
  · simp only [Exec.ret.injEq] at h
    rw [← h] at he
    cases he
  · split at h
    · obtain ⟨l, _, h⟩ := Exec_bind_eq_ret _ _ _ h
      split at h
      · obtain ⟨x, hx, h⟩ := Exec_bind_eq_ret _ _ _ h
        cases hx1 : x.2.2 with
        | some e2 =>
          simp only [hx1, Exec.ret.injEq] at h
          rw [← h] at he
          simp only [Option.some.injEq] at he
          rw [← he]
          exact ExplodeArray2_err P _ _ _ _ _ _ x hcodec h1 h2 hx e2 hx1
        | none =>
          simp only [hx1] at h
          obtain ⟨c, _, h⟩ := Exec_bind_eq_ret _ _ _ h
          simp only [Exec.ret.injEq] at h
          rw [← h] at he
          cases he
      · simp only [Exec.ret.injEq] at h
        rw [← h] at he
        cases he
    · simp only [Exec.ret.injEq] at h
      rw [← h] at he
      cases he

theorem computeGroupAggr_err (P : Error → Prop) (env : Env)
    (compositekeys decodedkeys : Option (List Bytes)) (count : Int)
    (docid key buf decbuf : Bytes) (aggrRes : aggrResult) (groupAggr : GroupAggr)
    (cktmp : List Bytes) (dktmp : Option (List Bytes)) (cachedEntry : entryCache)
    (res : GroupAggrResult)
    (hcodec : ∀ code text r, env.jsonEncoder.code2json code text = .ret r →
      ∀ e, r.2.2 = some e → P e)
    (hunm : ∀ t e, (env.jsonUnmarshal t).2 = some e → P e)
    (heval : ∀ x c e, (env.EvaluateForIndex x c).2 = some e → P e)
    (h1 : P .ErrNotAnArray) (h2 : P .ErrLenPrefixUnsupported)
    (h : computeGroupAggr env compositekeys decodedkeys count docid key buf decbuf aggrRes
      groupAggr cktmp dktmp cachedEntry = .ret res) :
    ∀ e, res.err = some e → P e := by
  intro e he
  unfold computeGroupAggr at h
  obtain ⟨k, hk, h⟩ := Exec_bind_eq_ret _ _ _ h
  cases hk1 : k.1 with
  | some e2 =>
    simp only [hk1, Exec.ret.injEq] at h
    rw [← h] at he
    simp only [Option.some.injEq] at he
    rw [← he]
    exact computeGroupAggr_keys_err P env _ _ _ _ _ _ _ _ _ k hcodec h1 h2 hk e2 hk1
  | none =>
    simp only [hk1] at h
    obtain ⟨c, hc, h⟩ := Exec_bind_eq_ret _ _ _ h
    have hce : ∀ e, c.err = some e → P e := by
      intro e3 he3
      split at hc
      · obtain ⟨g, hg, hc⟩ := Exec_bind_eq_ret _ _ _ hc
        cases hge : g.err with
        | some e4 =>
          simp only [hge, Exec.ret.injEq] at hc
          rw [← hc] at he3
          simp only [Option.some.injEq] at he3
          rw [← he3]
          exact groupLoop_err P env _ _ _ hunm heval _ _ _ _ g hg e4 hge
        | none =>
          simp only [hge] at hc
          exact aggrLoop_err P env _ _ _ _ hunm heval _ _ _ _ c hc e3 he3
      · simp only [Exec.ret.injEq] at hc
        rw [← hc] at he3
        cases he3
    cases hce2 : c.err with
    | some e2 =>
      simp only [hce2, Exec.ret.injEq] at h
      rw [← h] at he
      simp only [Option.some.injEq] at he
      rw [← he]
      exact hce e2 hce2
    | none =>
      simp only [hce2] at h
      obtain ⟨ar, _, h⟩ := Exec_bind_eq_ret _ _ _ h
      simp only [Exec.ret.injEq] at h
      rw [← h] at he
      cases he

theorem group_err (P : Error → Prop) (env : Env) (senv : SourceEnv) (cfg : SourceConfig)
    (entry : Bytes) (ck dk : Option (List Bytes)) (v : ScanVars)
    (res : ScanVars × Option Error)
    (hcodec : ∀ code text r, env.jsonEncoder.code2json code text = .ret r →
      ∀ e, r.2.2 = some e → P e)
    (hunm : ∀ t e, (env.jsonUnmarshal t).2 = some e → P e)
    (heval : ∀ x c e, (env.EvaluateForIndex x c).2 = some e → P e)
    (hdoc : ∀ b e, (senv.ReadDocId b).2 = some e → P e)
    (h1 : P .ErrNotAnArray) (h2 : P .ErrLenPrefixUnsupported)
    (h : IndexScanSource.group env senv cfg entry ck dk v = .ret res) :
    ∀ e, res.2 = some e → P e := by
  intro e he
  unfold IndexScanSource.group at h
  split at h
  · simp only [Exec.ret.injEq] at h
    rw [← h] at he
    cases he
  · rename_i ga _
    simp only at h
    split at h
    · rename_i e2 hd
      simp only [Exec.ret.injEq] at h
      rw [← h] at he
      simp only [Option.some.injEq] at he
      rw [← he]
      split at hd
      · cases hd
      · split at hd
        · exact hdoc _ e2 hd
        · cases hd
    · obtain ⟨g, hg, h⟩ := Exec_bind_eq_ret _ _ _ h
      cases hge : g.err with
      | some e2 =>
        simp only [hge, Exec.ret.injEq] at h
        rw [← h] at he
        simp only [Option.some.injEq] at he
        rw [← he]
        exact computeGroupAggr_err P env _ _ _ _ _ _ _ _ _ _ _ _ g hcodec hunm heval h1 h2 hg
          e2 hge
      | none =>
        simp only [hge, Exec.ret.injEq] at h
        rw [← h] at he
        cases he

theorem JoinArray_err (codec : Codec) (vals : List Bytes) (code : Bytes)
    (res : Option Bytes × Option Error) (h : JoinArray codec vals code = .ret res) :
    ∀ e, res.2 = some e → e = .ErrLenPrefixUnsupported := by
  intro e he
  unfold JoinArray at h
  split at h
  · simp only [Exec.ret.injEq] at h
    rw [← h] at he
    simp only [Option.some.injEq] at he
    exact he.symm
  · simp only [Exec.ret.injEq] at h
    rw [← h] at he
    cases he

theorem projectGroupAggr_encode_err (P : Error → Prop) (aenv : AggrEnv) (row : aggrRow)
    (isPrimary : Bool)
    (hn1ql : ∀ v e, (aenv.EncodeN1QLValue v).2 = some e → P e)
    (henc : ∀ a e, (aenv.encodeValue a).2 = some e → P e) :
    ∀ (pgs : List projGroup) (keysToJoin : List Bytes) (res : Option Error × List Bytes),
      projectGroupAggr.encode aenv row isPrimary pgs keysToJoin = .ret res →
      ∀ e, res.1 = some e → P e := by
  intro pgs
  induction pgs with
  | nil =>
    intro k res h e he
    simp only [projectGroupAggr.encode, Exec.ret.injEq] at h
    rw [← h] at he
    cases he
  | cons pg rest ih =>
    intro k res h e he
    rw [projectGroupAggr.encode] at h
    have hret : ∀ (e2 : Error) (k2 : List Bytes), P e2 →
        Exec.ret (some e2, k2) = Exec.ret res → P e := by
      intro e2 k2 hp hr
      simp only [Exec.ret.injEq] at hr
      rw [← hr] at he
      simp only [Option.some.injEq] at he
      rw [← he]
      exact hp
    split at h
    · split at h
      · cases h
      · split at h
        · split at h
          · rename_i e2 hu
            exact hret e2 _ (hn1ql _ e2 (by rw [hu])) h
          · exact ih _ res h e he
        · split at h
          · split at h
            · rename_i e2 hu
              exact hret e2 _ (henc _ e2 (by rw [hu])) h
            · exact ih _ res h e he
          · exact ih _ res h e he
    · split at h
      · cases h
      · cases h
      · split at h
        · split at h
          · rename_i e2 hu
            exact hret e2 _ (henc _ e2 (by rw [hu])) h
          · exact ih _ res h e he
        · split at h
          · split at h
            · split at h
              · rename_i e2 hu
                exact hret e2 _ (henc _ e2 (by rw [hu])) h
              · exact ih _ res h e he
            · exact ih _ res h e he
          · split at h
            · rename_i e2 hu
              exact hret e2 _ (henc _ e2 (by rw [hu])) h
            · exact ih _ res h e he
          · exact ih _ res h e he

theorem projectGroupAggr_err (P : Error → Prop) (env : Env) (aenv : AggrEnv) (buf : Bytes)
    (projection : Option Projection) (aggrRes : aggrResult) (isPrimary : Bool)
    (res : ProjectAggrResult)
    (hn1ql : ∀ v e, (aenv.EncodeN1QLValue v).2 = some e → P e)
    (henc : ∀ a e, (aenv.encodeValue a).2 = some e → P e)
    (h2 : P .ErrLenPrefixUnsupported)
    (h : projectGroupAggr env aenv buf projection aggrRes isPrimary = .ret res) :
    ∀ e, res.err = some e → P e := by
  intro e he
  unfold projectGroupAggr at h
  split at h
  · simp only [Exec.ret.injEq] at h
    rw [← h] at he
    cases he
  · simp only at h
    split at h
    · cases h
    · obtain ⟨k, hk, h⟩ := Exec_bind_eq_ret _ _ _ h
      cases hk1 : k.1 with
      | some e2 =>
        simp only [hk1, Exec.ret.injEq] at h
        rw [← h] at he
        simp only [Option.some.injEq] at he
        rw [← he]
        exact projectGroupAggr_encode_err P aenv _ _ hn1ql henc _ _ k hk e2 hk1
      | none =>
        simp only [hk1] at h
        obtain ⟨j, hj, h⟩ := Exec_bind_eq_ret _ _ _ h
        cases hj2 : j.2 with
        | some e2 =>
          simp only [hj2, Exec.ret.injEq] at h
          rw [← h] at he
          simp only [Option.some.injEq] at he
          rw [← he, JoinArray_err _ _ _ j hj e2 hj2]
          exact h2
        | none =>
          simp only [hj2, Exec.ret.injEq] at h
          rw [← h] at he
          cases he

theorem projectKeys_err (P : Error → Prop) (env : Env)
    (compositekeys : Option (List Bytes)) (key buf : Bytes) (projection : Projection)
    (cktmp : List Bytes) (res : Option Bytes × Option Error × List Bytes)
    (hcodec : ∀ code text r, env.jsonEncoder.code2json code text = .ret r →
      ∀ e, r.2.2 = some e → P e)
    (h1 : P .ErrNotAnArray) (h2 : P .ErrLenPrefixUnsupported)
    (h : projectKeys env compositekeys key buf projection cktmp = .ret res) :
    ∀ e, res.2.1 = some e → P e := by
  intro e he
  unfold projectKeys at h
  split at h
  · obtain ⟨t, _, h⟩ := Exec_bind_eq_ret _ _ _ h
    simp only [Exec.ret.injEq] at h
    rw [← h] at he
    cases he
  · obtain ⟨x, hx, h⟩ := Exec_bind_eq_ret _ _ _ h
    cases hx1 : x.2.1 with
    | some e2 =>
      simp only [hx1, Exec.ret.injEq] at h
      rw [← h] at he
      simp only [Option.some.injEq] at he
      rw [← he]
      split at hx
      · simp only [Exec.ret.injEq] at hx
        rw [← hx] at hx1
        cases hx1
      · obtain ⟨y, hy, hx⟩ := Exec_bind_eq_ret _ _ _ hx
        simp only [Exec.ret.injEq] at hx
        rw [← hx] at hx1
        exact ExplodeArray2_err P _ _ _ _ _ _ y hcodec h1 h2 hy e2 hx1
    | none =>
      simp only [hx1] at h
      obtain ⟨k, _, h⟩ := Exec_bind_eq_ret _ _ _ h
      obtain ⟨j, hj, h⟩ := Exec_bind_eq_ret _ _ _ h
      cases hj2 : j.2 with
      | some e2 =>
        simp only [hj2, Exec.ret.injEq] at h
        rw [← h] at he
        simp only [Option.some.injEq] at he
        rw [← he, JoinArray_err _ _ _ j hj e2 hj2]
        exact h2
      | none =>
        simp only [hj2] at h
        obtain ⟨t, _, h⟩ := Exec_bind_eq_ret _ _ _ h
        simp only [Exec.ret.injEq] at h
        rw [← h] at he
        cases he

theorem project_err (P : Error → Prop) (env : Env) (aenv : AggrEnv) (cfg : SourceConfig)
    (entry : Bytes) (ck : Option (List Bytes)) (v : ScanVars)
    (res : ScanVars × Bytes × Option (Option Error))
    (hcodec : ∀ code text r, env.jsonEncoder.code2json code text = .ret r →
      ∀ e, r.2.2 = some e → P e)
    (hn1ql : ∀ v e, (aenv.EncodeN1QLValue v).2 = some e → P e)
    (henc : ∀ a e, (aenv.encodeValue a).2 = some e → P e)
    (h1 : P .ErrNotAnArray) (h2 : P .ErrLenPrefixUnsupported)
    (h : IndexScanSource.project env aenv cfg entry ck v = .ret res) :
    ∀ e, res.2.2 = some (some e) → P e := by
  intro e he
  unfold IndexScanSource.project at h
  split at h
  · simp only [Exec.ret.injEq] at h
    rw [← h] at he
    cases he
  · split at h
    · split at h
      · obtain ⟨p, hp, h⟩ := Exec_bind_eq_ret _ _ _ h
        have hpe := projectGroupAggr_err P env aenv _ _ _ _ p hn1ql henc h2 hp
        split at h
        · simp only [Exec.ret.injEq] at h
          rw [← h] at he
          simp only [Option.some.injEq] at he
          exact hpe e he
        · split at h
          · rename_i e2 hpe2
            simp only [Exec.ret.injEq] at h
            rw [← h] at he
            simp only [Option.some.injEq] at he
            rw [← he]
            exact hpe e2 hpe2
          · simp only [Exec.ret.injEq] at h
            rw [← h] at he
            cases he
      · split at h
        · obtain ⟨p, hp, h⟩ := Exec_bind_eq_ret _ _ _ h
          have hpe := projectKeys_err P env _ _ _ _ _ p hcodec h1 h2 hp
          cases hp21 : p.2.1 with
          | some e2 =>
            simp only [hp21, Exec.ret.injEq] at h
            rw [← h] at he
            simp only [Option.some.injEq] at he
            rw [← he]
            exact hpe e2 hp21
          | none =>
            simp only [hp21, Exec.ret.injEq] at h
            rw [← h] at he
            cases he
        · simp only [Exec.ret.injEq] at h
          rw [← h] at he
          cases he
    · simp only [Exec.ret.injEq] at h
      rw [← h] at he
      cases he

theorem emitLoop_err (P : Error → Prop) (env : Env) (r : ScanRequest) (entry : Bytes)
    (hwrite : ∀ log row e, env.WriteItem log row = some e → P e)
    (h4 : P .ErrLimitReached) :
    ∀ (n i : Nat) (st : EmitState) (e : Error),
      (emitLoop env r entry n i st).2 = some e → P e := by
  intro n
  induction n with
  | zero =>
    intro i st e he
    simp only [emitLoop] at he
    cases he
  | succ n ih =>
    intro i st e he
    rw [emitLoop] at he
    split at he
    · cases he
    · split at he
      · simp only at he
        split at he
        · rename_i e2 hw
          simp only [Option.some.injEq] at he
          rw [← he]
          exact hwrite _ _ e2 hw
        · split at he
          · simp only [Option.some.injEq] at he
            rw [← he]
            exact h4
          · exact ih _ _ e he
      · exact ih _ _ e he

theorem emitEntry_err (P : Error → Prop) (env : Env) (r : ScanRequest) (entry : Bytes)
    (count : Int) (st : EmitState) (res : EmitState × Option Error)
    (hwrite : ∀ log row e, env.WriteItem log row = some e → P e)
    (h4 : P .ErrLimitReached)
    (h : emitEntry env r entry count st = .ret res) :
    ∀ e, res.2 = some e → P e := by
  intro e he
  unfold emitEntry at h
  obtain ⟨dup, _, h⟩ := Exec_bind_eq_ret _ _ _ h
  split at h
  · simp only [Exec.ret.injEq] at h
    rw [← h] at he
    cases he
  · simp only at h
    split at h
    · rename_i e2 hl
      simp only [Exec.ret.injEq] at h
      rw [← h] at he
      simp only [Option.some.injEq] at he
      rw [← he]
      exact emitLoop_err P env r entry hwrite h4 _ _ _ e2 hl
    · split at h
      · simp only [Exec.ret.injEq] at h
        rw [← h] at he
        cases he
      · simp only [Exec.ret.injEq] at h
        rw [← h] at he
        cases he

theorem filter_err (P : Error → Prop) (env : Env) (cfg : SourceConfig) (currentScan : Scan)
    (entry : Bytes) (v : ScanVars)
    (res : ScanVars × Bool × Option (List Bytes) × Option (List Bytes) × Option Error)
    (hcodec : ∀ code text r, env.jsonEncoder.code2json code text = .ret r →
      ∀ e, r.2.2 = some e → P e)
    (h1 : P .ErrNotAnArray) (h2 : P .ErrLenPrefixUnsupported) (h3 : P .ErrMoreRanges)
    (h : IndexScanSource.filter env cfg currentScan entry v = .ret res) :
    ∀ e, res.2.2.2.2 = some e → P e := by
  intro e he
  unfold IndexScanSource.filter at h
  split at h
  · obtain ⟨f, hf, h⟩ := Exec_bind_eq_ret _ _ _ h
    simp only [Exec.ret.injEq] at h
    rw [← h] at he
    exact filterScanRow2_err P env _ _ _ _ _ _ _ _ _ f hcodec h1 h2 h3 hf e he
  · simp only [Exec.ret.injEq] at h
    rw [← h] at he
    cases he

/-- Every error that the body of the callback returns is one of `ErrNotAnArray`,
`ErrLenPrefixUnsupported`, `ErrMoreRanges` and `ErrLimitReached`, or an error that a
collaborator has handed back. -/
theorem fnBody_err (P : Error → Prop) (env : Env) (aenv : AggrEnv) (senv : SourceEnv)
    (cfg : SourceConfig) (currentScan : Scan) (entry0 : Bytes) (v : ScanVars)
    (res : ScanVars × Option Error)
    (hcodec : ∀ code text r, env.jsonEncoder.code2json code text = .ret r →
      ∀ e, r.2.2 = some e → P e)
    (hunm : ∀ t e, (env.jsonUnmarshal t).2 = some e → P e)
    (heval : ∀ x c e, (env.EvaluateForIndex x c).2 = some e → P e)
    (hwrite : ∀ log row e, env.WriteItem log row = some e → P e)
    (hdoc : ∀ b e, (senv.ReadDocId b).2 = some e → P e)
    (hn1ql : ∀ v e, (aenv.EncodeN1QLValue v).2 = some e → P e)
    (henc : ∀ a e, (aenv.encodeValue a).2 = some e → P e)
    (h1 : P .ErrNotAnArray) (h2 : P .ErrLenPrefixUnsupported) (h3 : P .ErrMoreRanges)
    (h4 : P .ErrLimitReached)
    (h : IndexScanSource.fnBody env aenv senv cfg currentScan entry0 v = .ret res) :
    ∀ e, res.2 = some e → P e := by
  intro e he
  unfold IndexScanSource.fnBody at h
  simp only at h
  obtain ⟨f, hf, h⟩ := Exec_bind_eq_ret _ _ _ h
  cases hfe : f.2.2.2.2 with
  | some e2 =>
    simp only [hfe, Exec.ret.injEq] at h
    rw [← h] at he
    simp only [Option.some.injEq] at he
    rw [← he]
    exact filter_err P env cfg currentScan _ v f hcodec h1 h2 h3 hf e2 hfe
  | none =>
    simp only [hfe] at h
    split at h
    · simp only [Exec.ret.injEq] at h
      rw [← h] at he
      cases he
    · obtain ⟨g, hg, h⟩ := Exec_bind_eq_ret _ _ _ h
      cases hg2 : g.2 with
      | some e2 =>
        simp only [hg2, Exec.ret.injEq] at h
        rw [← h] at he
        simp only [Option.some.injEq] at he
        rw [← he]
        exact group_err P env senv cfg _ _ _ _ g hcodec hunm heval hdoc h1 h2 hg e2 hg2
      | none =>
        simp only [hg2] at h
        obtain ⟨p, hp, h⟩ := Exec_bind_eq_ret _ _ _ h
        have hpe := project_err P env aenv cfg _ _ _ p hcodec hn1ql henc h1 h2 hp
        cases hp22 : p.2.2 with
        | some ret =>
          simp only [hp22, Exec.ret.injEq] at h
          rw [← h] at he
          simp only at he
          rw [he] at hp22
          exact hpe e hp22
        | none =>
          simp only [hp22] at h
          obtain ⟨x, hx, h⟩ := Exec_bind_eq_ret _ _ _ h
          simp only [Exec.ret.injEq] at h
          rw [← h] at he
          exact emitEntry_err P env cfg.r _ _ _ x hwrite h4 hx e he

/-- The body of the callback never returns `ErrIndexRollback` when no collaborator hands
that error back. -/
theorem fnBody_never_rollback (env : Env) (aenv : AggrEnv) (senv : SourceEnv)
    (cfg : SourceConfig) (currentScan : Scan) (entry : Bytes) (v : ScanVars)
    (res : ScanVars × Option Error)
    (hcol : NoRollbackFromCollaborators env aenv senv)
    (h : IndexScanSource.fnBody env aenv senv cfg currentScan entry v = .ret res) :
    res.2 ≠ some .ErrIndexRollback := by
  obtain ⟨hcodec, hunm, heval, hwrite, hdoc, hn1ql, henc⟩ := hcol
  intro hres
  exact fnBody_err (fun e => e ≠ .ErrIndexRollback) env aenv senv cfg currentScan entry v res
    (fun code text r hr e he heq => hcodec code text r hr (by rw [he, heq]))
    (fun t e he heq => hunm t (by rw [he, heq]))
    (fun x c e he heq => heval x c (by rw [he, heq]))
    (fun log row e he heq => hwrite log row (by rw [he, heq]))
    (fun b e he heq => hdoc b (by rw [he, heq]))
    (fun v e he heq => hn1ql v (by rw [he, heq]))
    (fun a e he heq => henc a (by rw [he, heq]))
    (by decide) (by decide) (by decide) (by decide) h .ErrIndexRollback hres rfl

theorem wrapInt64_mod (n : Nat) : wrapInt64 (((n + 1) % 2 ^ 64 : Nat) : Int) =
    wrapInt64 (wrapInt64 (n : Int) + 1) := by
  unfold wrapInt64
  push_cast
  omega

/-- A run of `scatter` keeps `iterCount` equal to `rowsScanned` read as an `int`: both
count the calls of the callback that went past the poll. -/
theorem scatter_iterCount (env : Env) (aenv : AggrEnv) (senv : SourceEnv)
    (cfg : SourceConfig) (currentScan : Scan) :
    ∀ (entries : List (Bytes × Option Bool)) (st : SourceState)
      (res : SourceState × Option Error),
      st.iterCount = wrapInt64 st.rowsScanned →
      scatter env aenv senv cfg currentScan st entries = .ret res →
      res.1.iterCount = wrapInt64 res.1.rowsScanned := by
  intro entries
  induction entries with
  | nil =>
    intro st res hst h
    simp only [scatter, Exec.ret.injEq] at h
    rw [← h]
    exact hst
  | cons x rest ih =>
    intro st res hst h
    rw [scatter] at h
    obtain ⟨y, hy, h⟩ := Exec_bind_eq_ret _ _ _ h
    have hy1 : y.1.iterCount = wrapInt64 y.1.rowsScanned := by
      unfold IndexScanSource.fn at hy
      split at hy
      · simp only [Exec.ret.injEq] at hy
        rw [← hy]
        exact hst
      · obtain ⟨b, _, hy⟩ := Exec_bind_eq_ret _ _ _ hy
        simp only [Exec.ret.injEq] at hy
        rw [← hy]
        simp only
        rw [hst, wrapInt64_mod]
    split at h
    · simp only [Exec.ret.injEq] at h
      rw [← h]
      exact hy1
    · exact ih y.1 res hy1 h

/-! ## The callback: the rollback poll -/

/-- Claim C28: when no collaborator hands `ErrIndexRollback` back, a call of the callback
returns `ErrIndexRollback` exactly when `iterCount`, the number of entries accepted so
far, is a multiple of `SCAN_ROLLBACK_ERROR_BATCHSIZE` (zero included) and the rollback
flag is set. In that case the call returns with the state untouched, that is before
incrementing `iterCount` and `rowsScanned` and without filtering, aggregating or emitting
the entry; in every other case a call that returns has incremented both counters; and at
a count that is not a multiple of the batch size the result does not depend on the flag.
Over the entries of a scan `iterCount` stays equal to `rowsScanned` read as an `int`. -/
theorem fn_rollback_poll (env : Env) (aenv : AggrEnv) (senv : SourceEnv)
    (cfg : SourceConfig) (currentScan : Scan) (rollback : Option Bool) (entry : Bytes)
    (st : SourceState) (hcol : NoRollbackFromCollaborators env aenv senv) :
    ((∃ st2, IndexScanSource.fn env aenv senv cfg currentScan rollback entry st =
        .ret (st2, some .ErrIndexRollback)) ↔
      ((senv.batchSize : Int) ∣ st.iterCount ∧ rollback = some true)) ∧
    (((senv.batchSize : Int) ∣ st.iterCount ∧ rollback = some true) →
      IndexScanSource.fn env aenv senv cfg currentScan rollback entry st =
        .ret (st, some .ErrIndexRollback)) ∧
    (¬ ((senv.batchSize : Int) ∣ st.iterCount ∧ rollback = some true) →
      ∀ res, IndexScanSource.fn env aenv senv cfg currentScan rollback entry st = .ret res →
        res.1.iterCount = wrapInt64 (st.iterCount + 1) ∧
        res.1.rowsScanned = (st.rowsScanned + 1) % 2 ^ 64 ∧
        res.2 ≠ some .ErrIndexRollback) ∧
    (¬ (senv.batchSize : Int) ∣ st.iterCount → ∀ flag,
      IndexScanSource.fn env aenv senv cfg currentScan flag entry st =
        IndexScanSource.fn env aenv senv cfg currentScan rollback entry st) ∧
    (∀ (entries : List (Bytes × Option Bool)) (res : SourceState × Option Error),
      st.iterCount = wrapInt64 st.rowsScanned →
      scatter env aenv senv cfg currentScan st entries = .ret res →
      res.1.iterCount = wrapInt64 res.1.rowsScanned) := by
  have hpoll : ((senv.batchSize : Int) ∣ st.iterCount ∧ rollback = some true) →
      IndexScanSource.fn env aenv senv cfg currentScan rollback entry st =
        .ret (st, some .ErrIndexRollback) := by
    intro hc
    unfold IndexScanSource.fn
    rw [if_pos ⟨Int.dvd_iff_tmod_eq_zero.mp hc.1, hc.2⟩]
  have hother : ¬ ((senv.batchSize : Int) ∣ st.iterCount ∧ rollback = some true) →
      ∀ res, IndexScanSource.fn env aenv senv cfg currentScan rollback entry st = .ret res →
        res.1.iterCount = wrapInt64 (st.iterCount + 1) ∧
        res.1.rowsScanned = (st.rowsScanned + 1) % 2 ^ 64 ∧
        res.2 ≠ some .ErrIndexRollback := by
    intro hc res h
    unfold IndexScanSource.fn at h
    rw [if_neg (fun hp => hc ⟨Int.dvd_iff_tmod_eq_zero.mpr hp.1, hp.2⟩)] at h
    obtain ⟨x, hx, h⟩ := Exec_bind_eq_ret _ _ _ h
    simp only [Exec.ret.injEq] at h
    rw [← h]
    exact ⟨rfl, rfl, fnBody_never_rollback env aenv senv cfg currentScan entry st.vars x hcol hx⟩
  refine ⟨⟨?_, fun hc => ⟨st, hpoll hc⟩⟩, hpoll, hother, ?_, ?_⟩
  · rintro ⟨st2, h⟩
    by_contra hc
    exact (hother hc _ h).2.2 rfl
  · intro hdvd flag
    unfold IndexScanSource.fn
    rw [if_neg (fun hp => hdvd (Int.dvd_iff_tmod_eq_zero.mpr hp.1)),
      if_neg (fun hp => hdvd (Int.dvd_iff_tmod_eq_zero.mpr hp.1))]
  · intro entries res hst h
    exact scatter_iterCount env aenv senv cfg currentScan entries st res hst h

theorem sample_no_rollback :
    NoRollbackFromCollaborators sampleEnv sampleAggrEnv sampleSourceEnv := by
  refine ⟨?_, ?_, ?_, ?_, ?_, ?_, ?_⟩
  · intro code text r h
    simp only [sampleEnv, sampleCodec, Exec.ret.injEq] at h
    rw [← h]
    exact fun hn => Option.noConfusion hn
  · intro t
    show (sampleUnmarshal t).2 ≠ some .ErrIndexRollback
    unfold sampleUnmarshal
    split <;> simp
  · intro x c
    exact fun hn => Option.noConfusion hn
  · intro log row
    exact fun hn => Option.noConfusion hn
  · intro b
    exact fun hn => Option.noConfusion hn
  · intro v
    exact fun hn => Option.noConfusion hn
  · intro a
    show (match a with
      | .aggr (.value (.number n)) => (([5, 48 + n.toNat % 10, 0] : Bytes), (none : Option Error))
      | _ => ([2, 0], none)).2 ≠ some .ErrIndexRollback
    split <;> exact fun hn => Option.noConfusion hn

theorem fn_rollback_poll_witness :
    IndexScanSource.fn sampleEnv sampleAggrEnv sampleSourceEnv sampleWindowConfig sampleRangeScan
        (some true) sampleEntry (SourceState.init sampleEnv none 2 0) =
      .ret (SourceState.init sampleEnv none 2 0, some .ErrIndexRollback) :=
  (fn_rollback_poll sampleEnv sampleAggrEnv sampleSourceEnv sampleWindowConfig sampleRangeScan
    (some true) sampleEntry (SourceState.init sampleEnv none 2 0) sample_no_rollback).2.1
    ⟨dvd_zero _, rfl⟩

/-! ## The callback: a plain scan with offset and limit -/

/-- The callback of a non-distinct request on a secondary index without projection and
without group/aggregate, on an entry of a scan that is not filtered, when no rollback is
polled: both counters are incremented and the emission loop runs `Count` times. -/
theorem fn_plain (env : Env) (aenv : AggrEnv) (senv : SourceEnv) (cfg : SourceConfig)
    (scan : Scan) (entry : Bytes) (st : SourceState)
    (hscan : scan.ScanType ≠ .FilterRangeReq) (hdesc : cfg.hasDesc = false)
    (hproj : cfg.Indexprojection = none) (hprim : cfg.r.isPrimary = false)
    (hD : cfg.r.Distinct = false) (hga : st.vars.groupAggr = none) :
    IndexScanSource.fn env aenv senv cfg scan none entry st =
      .ret ({ iterCount := wrapInt64 (st.iterCount + 1),
              rowsScanned := (st.rowsScanned + 1) % 2 ^ 64,
              vars := { st.vars with
                count := senv.Count entry
                emit := (emitLoop env cfg.r entry (senv.Count entry).toNat 0
                  st.vars.emit).1 } },
        (emitLoop env cfg.r entry (senv.Count entry).toNat 0 st.vars.emit).2) := by
  unfold IndexScanSource.fn
  rw [if_neg (fun h => Option.noConfusion h.2)]
  unfold IndexScanSource.fnBody IndexScanSource.filter IndexScanSource.group
    IndexScanSource.project
  simp only [hscan, hdesc, hproj, hprim, hga, Bool.false_eq_true, if_false,
    Exec_bind_ret, Bool.not_false, if_true, emitEntry_nondistinct _ _ _ _ _ hD]

/-- Counterexample for claim C27: the six entries with the ages 3 to 8, each with count
1, offset 1 and limit 3; the storage stops at the call that returns `ErrLimitReached`.
The rows written are the second, third and fourth entry and `rowsReturned` ends at 3, but
the callback has been called four times and `rowsScanned` ends at 4, not at 6. -/
theorem scan_window_rows_scanned :
    (IndexScanSource.Routine sampleEnv sampleAggrEnv sampleSourceEnv sampleWindowConfig
        [(sampleRangeScan, [(sampleAgeEntry 3, none), (sampleAgeEntry 4, none),
          (sampleAgeEntry 5, none), (sampleAgeEntry 6, none), (sampleAgeEntry 7, none),
          (sampleAgeEntry 8, none)])]
        (SourceState.init sampleEnv none 1 0)).bind
      (fun x => .ret (x.st.vars.emit.written, x.st.vars.emit.rowsReturned)) =
      .ret ([sampleAgeEntry 4, sampleAgeEntry 5, sampleAgeEntry 6], 3) ∧
    (IndexScanSource.Routine sampleEnv sampleAggrEnv sampleSourceEnv sampleWindowConfig
        [(sampleRangeScan, [(sampleAgeEntry 3, none), (sampleAgeEntry 4, none),
          (sampleAgeEntry 5, none), (sampleAgeEntry 6, none), (sampleAgeEntry 7, none),
          (sampleAgeEntry 8, none)])]
        (SourceState.init sampleEnv none 1 0)).bind
      (fun x => .ret (x.st.rowsScanned, x.err)) = .ret (4, some .ErrLimitReached) := by
  constructor <;> decide

/-- Claim C27: for a non-distinct, non-aggregate request on a secondary index without
projection, with offset 1 and limit 3, and a scan that is not filtered and delivers six
entries, each with count 1, with writes that succeed and no rollback, where the storage
stops at the call that returns `ErrLimitReached`: the rows written are the second, third
and fourth entry in order, `rowsReturned` ends at 3, the run ends with `ErrLimitReached`
at the fourth entry, and `rowsScanned` ends at 4. -/
theorem scan_window (env : Env) (aenv : AggrEnv) (senv : SourceEnv) (scan : Scan)
    (e1 e2 e3 e4 e5 e6 : Bytes) (ncomp : Nat) (bufferSize : Int)
    (hscan : scan.ScanType ≠ .FilterRangeReq)
    (hcount : ∀ e ∈ [e1, e2, e3, e4, e5, e6], senv.Count e = 1)
    (hW : ∀ log row, env.WriteItem log row = none) :
    IndexScanSource.Routine env aenv senv sampleWindowConfig
        [(scan, [(e1, none), (e2, none), (e3, none), (e4, none), (e5, none), (e6, none)])]
        (SourceState.init env none ncomp bufferSize) =
      .ret { st := { iterCount := 4, rowsScanned := 4
                     vars := { (SourceState.init env none ncomp bufferSize).vars with
                       count := 1
                       emit := { currOffset := 1, rowsReturned := 3, previousRow := [],
                                 written := [e2, e3, e4] } } },
             err := some .ErrLimitReached, closed := none } := by
  have c1 : senv.Count e1 = 1 := hcount e1 (by simp)
  have c2 : senv.Count e2 = 1 := hcount e2 (by simp)
  have c3 : senv.Count e3 = 1 := hcount e3 (by simp)
  have c4 : senv.Count e4 = 1 := hcount e4 (by simp)
  have hlim : toUint64 3 = 3 := by decide
  have hw1 : wrapInt64 1 = 1 := by decide
  have hw2 : wrapInt64 2 = 2 := by decide
  have hw3 : wrapInt64 3 = 3 := by decide
  have hw4 : wrapInt64 4 = 4 := by decide
  simp [IndexScanSource.Routine, IndexScanSource.scans, scatter, fn_plain, hscan, c1, c2, c3,
    c4, emitLoop, hW, hlim, sampleWindowConfig, SourceState.init, EmitState.init, hw1, hw2,
    hw3, hw4]

theorem scan_window_witness :
    (IndexScanSource.Routine sampleEnv sampleAggrEnv sampleSourceEnv sampleWindowConfig
        [(sampleRangeScan, [(sampleAgeEntry 3, none), (sampleAgeEntry 4, none),
          (sampleAgeEntry 5, none), (sampleAgeEntry 6, none), (sampleAgeEntry 7, none),
          (sampleAgeEntry 8, none)])]
        (SourceState.init sampleEnv none 1 0)).bind (fun x => .ret x.st.rowsScanned) =
      .ret 4 := by
  rw [scan_window sampleEnv sampleAggrEnv sampleSourceEnv sampleRangeScan (sampleAgeEntry 3)
    (sampleAgeEntry 4) (sampleAgeEntry 5) (sampleAgeEntry 6) (sampleAgeEntry 7)
    (sampleAgeEntry 8) 1 0 (by decide) (by decide) (fun _ _ => rfl)]
  rfl

/-! ## The entry cache of a primary-index request -/

theorem Update_hit (e e2 : entryCache) (entry : Bytes) (cks : List Bytes)
    (dks : Option (List Bytes)) (h : e.Update entry cks dks = .ret e2) :
    e2.hit = e.hit := by
  unfold entryCache.Update at h
  obtain ⟨ck, _, h⟩ := Exec_bind_eq_ret _ _ _ h
  cases dks with
  | none =>
    simp only [Exec.ret.injEq] at h
    rw [← h]
    simp only
    split <;> rfl
  | some d =>
    obtain ⟨dk, _, h⟩ := Exec_bind_eq_ret _ _ _ h
    simp only [Exec.ret.injEq] at h
    rw [← h]
    simp only
    split <;> rfl

/-- The hit counter that `filterScanRow2` leaves in the cache is the one that its cache
lookup has left. -/
theorem filterScanRow2_hit_of_lookup (env : Env) (key : Bytes) (scan : Scan)
    (buf decbuf : Bytes) (getDecoded : Bool) (cktmp : List Bytes)
    (dktmp : Option (List Bytes)) (r : ScanRequest) (cache : entryCache)
    (res : FilterResult2)
    (h : filterScanRow2 env key scan buf decbuf getDecoded cktmp dktmp r cache = .ret res) :
    ∃ l, filterScanRow2.lookup env key r cache = .ret l ∧
      res.cachedEntry.hit = l.2.2.hit := by
  unfold filterScanRow2 at h
  obtain ⟨l, hl, h⟩ := Exec_bind_eq_ret _ _ _ h
  refine ⟨l, hl, ?_⟩
  obtain ⟨x, _, h⟩ := Exec_bind_eq_ret _ _ _ h
  cases hx : x.2.2.1 with
  | some e =>
    simp only [hx, Exec.ret.injEq] at h
    rw [← h]
  | none =>
    simp only [hx] at h
    obtain ⟨c3, hc3, h⟩ := Exec_bind_eq_ret _ _ _ h
    obtain ⟨m, _, h⟩ := Exec_bind_eq_ret _ _ _ h
    have hres : res.cachedEntry = c3 := by
      cases hm : m.2 with
      | some e =>
        simp only [hm, Exec.ret.injEq] at h
        rw [← h]
      | none =>
        simp only [hm, Exec.ret.injEq] at h
        rw [← h]
    rw [hres]
    have hc2 : (if (!l.2.2.Exists) = true then l.2.2.Init env getDecoded else l.2.2).hit
        = l.2.2.hit := by
      split <;> rfl
    by_cases hv : (!(if (!l.2.2.Exists) = true then l.2.2.Init env getDecoded
        else l.2.2).Valid) = true
    · rw [if_pos hv] at hc3
      rw [Update_hit _ _ _ _ _ hc3, hc2]
    · rw [if_neg hv] at hc3
      simp only [Exec.ret.injEq] at hc3
      rw [← hc3, hc2]

/-- A call of `filterScanRow2` for a primary-index request leaves the valid flag and the
hit counter of the cache as they are. -/
theorem filterScanRow2_primary_cache (env : Env) (key : Bytes) (scan : Scan)
    (buf decbuf : Bytes) (getDecoded : Bool) (cktmp : List Bytes)
    (dktmp : Option (List Bytes)) (r : ScanRequest) (cache : entryCache)
    (res : FilterResult2) (hP : r.isPrimary = true)
    (h : filterScanRow2 env key scan buf decbuf getDecoded cktmp dktmp r cache = .ret res) :
    res.cachedEntry.valid = cache.valid ∧ res.cachedEntry.hit = cache.hit := by
  obtain ⟨l, hl, hv⟩ := filterScanRow2_valid_of_lookup env key scan buf decbuf getDecoded
    cktmp dktmp r cache res h
  obtain ⟨l2, hl2, hh⟩ := filterScanRow2_hit_of_lookup env key scan buf decbuf getDecoded
    cktmp dktmp r cache res h
  have hlook : filterScanRow2.lookup env key r cache = .ret (none, none, cache) := by
    unfold filterScanRow2.lookup
    simp only [hP, Bool.not_true, Bool.false_and, Bool.false_eq_true, if_false]
  rw [hlook] at hl hl2
  rw [hv, hh, ← Exec.ret.inj hl, ← Exec.ret.inj hl2]
  exact ⟨rfl, rfl⟩

/-- A call of `computeGroupAggr` for a primary-index group/aggregate spec on a cache
whose valid flag is not set runs the loops over the group keys and the aggregates on the
key of this entry, and leaves the valid flag and the hit counter as they are. -/
theorem computeGroupAggr_primary_cache (env : Env)
    (compositekeys decodedkeys : Option (List Bytes)) (count : Int)
    (docid key buf decbuf : Bytes) (aggrRes : aggrResult) (groupAggr : GroupAggr)
    (cktmp : List Bytes) (dktmp : Option (List Bytes)) (cache : entryCache)
    (res : GroupAggrResult) (hP : groupAggr.IsPrimary = true) (hv : cache.valid = false)
    (h : computeGroupAggr env compositekeys decodedkeys count docid key buf decbuf aggrRes
      groupAggr cktmp dktmp cache = .ret res) :
    res.cachedEntry.valid = false ∧ res.cachedEntry.hit = cache.hit ∧
    ∃ g, computeGroupAggr.groupLoop env (some [key]) decodedkeys docid 0 groupAggr.Group
        groupAggr cache.decodedvalues = .ret g ∧
      (g.err = none →
        ∃ a, computeGroupAggr.aggrLoop env (some [key]) decodedkeys docid count 0
            groupAggr.Aggrs g.groupAggr g.decodedvalues = .ret a ∧
          res.groupAggr = a.groupAggr) := by
  have hkeys : computeGroupAggr.keys env compositekeys decodedkeys key buf decbuf groupAggr
      cktmp dktmp cache = .ret (none, some [key], decodedkeys, cache, cktmp, dktmp) := by
    unfold computeGroupAggr.keys
    rw [if_pos hP]
  have hvalid : cache.Valid = false := hv
  unfold computeGroupAggr at h
  rw [hkeys] at h
  simp only [Exec_bind_ret, hvalid, Bool.not_false, Bool.true_or, if_true] at h
  obtain ⟨c, hc, h⟩ := Exec_bind_eq_ret _ _ _ h
  obtain ⟨g, hg, hc⟩ := Exec_bind_eq_ret _ _ _ hc
  have hcache : res.cachedEntry = { cache with decodedvalues := c.decodedvalues } ∧
      res.groupAggr = c.groupAggr := by
    cases hce : c.err with
    | some e =>
      simp only [hce, Exec.ret.injEq] at h
      rw [← h]
      exact ⟨rfl, rfl⟩
    | none =>
      simp only [hce] at h
      obtain ⟨ar, _, h⟩ := Exec_bind_eq_ret _ _ _ h
      simp only [Exec.ret.injEq] at h
      rw [← h]
      exact ⟨rfl, rfl⟩
  refine ⟨by rw [hcache.1]; exact hv, by rw [hcache.1], g, hg, ?_⟩
  intro hge
  simp only [hge] at hc
  exact ⟨c, hc, hcache.2⟩

/-- Claim C29: for a primary-index request whose group/aggregate spec is for the primary
index, after any sequence of calls of `filterScanRow2` and `computeGroupAggr` that share
an entry cache which started with the valid flag not set and the hit counter at 0, the
valid flag is not set and the hit counter is 0; and every call of `computeGroupAggr` in
such a state runs the loops over the group keys and the aggregates on the key of its
entry. -/
theorem primary_cache_never_valid (env : Env) (r : ScanRequest) (hP : r.isPrimary = true) :
    (∀ (calls : List CacheCall) (c0 c : entryCache),
      (∀ call ∈ calls, call.groupIsPrimary = true) →
      c0.valid = false → c0.hit = 0 →
      runCacheCalls env r c0 calls = .ret c → c.valid = false ∧ c.hit = 0) ∧
    (∀ (compositekeys decodedkeys : Option (List Bytes)) (count : Int)
        (docid key buf decbuf : Bytes) (aggrRes : aggrResult) (groupAggr : GroupAggr)
        (cktmp : List Bytes) (dktmp : Option (List Bytes)) (cache : entryCache)
        (res : GroupAggrResult),
      groupAggr.IsPrimary = true → cache.valid = false →
      computeGroupAggr env compositekeys decodedkeys count docid key buf decbuf aggrRes
        groupAggr cktmp dktmp cache = .ret res →
      ∃ g, computeGroupAggr.groupLoop env (some [key]) decodedkeys docid 0 groupAggr.Group
          groupAggr cache.decodedvalues = .ret g ∧
        (g.err = none →
          ∃ a, computeGroupAggr.aggrLoop env (some [key]) decodedkeys docid count 0
              groupAggr.Aggrs g.groupAggr g.decodedvalues = .ret a ∧
            res.groupAggr = a.groupAggr)) := by
  constructor
  · intro calls
    induction calls with
    | nil =>
      intro c0 c _ hv hh h
      simp only [runCacheCalls, Exec.ret.injEq] at h
      rw [← h]
      exact ⟨hv, hh⟩
    | cons call rest ih =>
      intro c0 c hcalls hv hh h
      have hrest : ∀ x ∈ rest, x.groupIsPrimary = true :=
        fun x hx => hcalls x (List.mem_cons_of_mem _ hx)
      have hcall := hcalls call (List.mem_cons_self _ _)
      cases call with
      | filter key scan buf decbuf getDecoded cktmp dktmp =>
        rw [runCacheCalls] at h
        obtain ⟨f, hf, h⟩ := Exec_bind_eq_ret _ _ _ h
        obtain ⟨h1, h2⟩ := filterScanRow2_primary_cache env key scan buf decbuf getDecoded
          cktmp dktmp r c0 f hP hf
        exact ih f.cachedEntry c hrest (by rw [h1, hv]) (by rw [h2, hh]) h
      | group compositekeys decodedkeys count docid key buf decbuf aggrRes groupAggr cktmp
          dktmp =>
        rw [runCacheCalls] at h
        obtain ⟨g, hg, h⟩ := Exec_bind_eq_ret _ _ _ h
        obtain ⟨h1, h2, _⟩ := computeGroupAggr_primary_cache env compositekeys decodedkeys
          count docid key buf decbuf aggrRes groupAggr cktmp dktmp c0 g hcall hv hg
        exact ih g.cachedEntry c hrest h1 (by rw [h2, hh]) h
  · intro compositekeys decodedkeys count docid key buf decbuf aggrRes groupAggr cktmp dktmp
      cache res hga hv h
    exact (computeGroupAggr_primary_cache env compositekeys decodedkeys count docid key buf
      decbuf aggrRes groupAggr cktmp dktmp cache res hga hv h).2.2

theorem primary_cache_never_valid_witness :
    ∃ c, runCacheCalls sampleEnvLarge samplePrimaryRequest entryCache.zero samplePrimaryCalls
        = .ret c ∧ c.valid = false ∧ c.hit = 0 := by
  obtain ⟨c, hc⟩ := Exec_isRet_exists
    (runCacheCalls sampleEnvLarge samplePrimaryRequest entryCache.zero samplePrimaryCalls)
    (by decide)
  exact ⟨c, hc, (primary_cache_never_valid sampleEnvLarge samplePrimaryRequest rfl).1
    samplePrimaryCalls entryCache.zero c (by decide) rfl rfl hc⟩

/-! ## `projectKeys` with every position selected -/

theorem selectKeys_all (elems : List Bytes) :
    selectKeys elems (List.replicate elems.length true) = elems := by
  induction elems with
  | nil => simp [selectKeys]
  | cons e es ih =>
    rw [List.length_cons, List.replicate_succ, selectKeys_cons, ih]
    rfl

/-- Claim C33: for a well-formed secondary entry whose key has `n` components, without
length-prefixed arrays, `projectKeys` with `entryKeysEmpty` false and the `n` projection
flags all set, writing into an empty buffer, returns the bytes of the entry itself,
without error, whether the components are supplied by the caller or exploded inside. -/
theorem projectKeys_all_positions (env : Env) (proj : Projection) (tail : Bytes)
    (elems texts cktmp : List Bytes)
    (hp : env.jsonEncoder.arrayLenPrefix = false)
    (hdec : List.Forall₂ (DecodesTo env.jsonEncoder []) elems texts)
    (hlk : env.lenKey (encodedArray elems tail) = ((encodedArray elems []).length : Int))
    (hall : proj.projectionKeys = List.replicate elems.length true)
    (hck : elems.length ≤ cktmp.length)
    (hne : proj.entryKeysEmpty = false) :
    projectKeys env (some elems) (encodedArray elems tail) [] proj cktmp =
        .ret (some (encodedArray elems tail), none, cktmp) ∧
    projectKeys env none (encodedArray elems tail) [] proj cktmp =
        .ret (some (encodedArray elems tail), none, overwrite cktmp 0 elems) := by
  obtain ⟨h1, h2⟩ := projectKeys_wellformed env proj tail elems texts cktmp hp hdec hlk
    (by rw [hall, List.length_replicate]) hck hne
  have hbytes : [TypeArray] ++ (selectKeys elems proj.projectionKeys).flatten ++
      [Terminator] ++ tail = encodedArray elems tail := by
    rw [hall, selectKeys_all]
    simp [encodedArray]
  rw [hbytes] at h1 h2
  exact ⟨h1, h2⟩

theorem projectKeys_all_positions_witness :
    projectKeys sampleEnv none sampleEntryUsNyc []
        { projectSecKeys := true, projectionKeys := [true, true], entryKeysEmpty := false,
          projectGroupKeys := [] } [[], []] =
      .ret (some sampleEntryUsNyc, none, [[6, 85, 83, 0], [6, 78, 89, 67, 0]]) :=
  (projectKeys_all_positions sampleEnv
    { projectSecKeys := true, projectionKeys := [true, true], entryKeysEmpty := false,
      projectGroupKeys := [] } [100, 1, 0, 1, 0, 0, 0] [[6, 85, 83, 0], [6, 78, 89, 67, 0]]
    [[6, 85, 83], [6, 78, 89, 67]] [[], []] rfl
    (List.Forall₂.cons (by
      refine ⟨by decide, by decide, ?_⟩
      intro rest
      rfl) (List.Forall₂.cons (by
      refine ⟨by decide, by decide, ?_⟩
      intro rest
      rfl) List.Forall₂.nil)) (by decide) rfl (by decide) rfl).2

/-! ## The aggregate step of the callback -/

theorem takeRow_length :
    ∀ (rows : List aggrRow) (x : aggrRow × List aggrRow),
      projectGroupAggr.takeRow rows = some x → rows.length = x.2.length + 1 := by
  intro rows
  induction rows with
  | nil => intro x h; cases h
  | cons r rest ih =>
    intro x h
    rw [projectGroupAggr.takeRow] at h
    cases hf : r.Flush with
    | true =>
      simp only [hf, if_true, Option.some.injEq] at h
      rw [← h]
      rfl
    | false =>
      simp only [hf, Bool.false_eq_true, if_false] at h
      cases ht : projectGroupAggr.takeRow rest with
      | none => simp [ht] at h
      | some y =>
        simp only [ht, Option.map_some', Option.some.injEq] at h
        rw [← h]
        simp only [List.length_cons]
        rw [ih y ht]

/-- What `projectGroupAggr` leaves in the result: the rows without the first flagged row,
and it returns an entry only when it has taken a row. -/
theorem projectGroupAggr_result (env : Env) (aenv : AggrEnv) (buf : Bytes)
    (projection : Option Projection) (ar : aggrResult) (isPrimary : Bool)
    (res : ProjectAggrResult)
    (h : projectGroupAggr env aenv buf projection ar isPrimary = .ret res) :
    (projectGroupAggr.takeRow ar.rows = none ∧ res.aggrRes = ar ∧ res.entry = none) ∨
    (∃ x, projectGroupAggr.takeRow ar.rows = some x ∧
      res.aggrRes = { ar with rows := x.2 }) := by
  cases ht : projectGroupAggr.takeRow ar.rows with
  | none =>
    left
    unfold projectGroupAggr at h
    rw [ht] at h
    simp only [Exec.ret.injEq] at h
    rw [← h]
    exact ⟨rfl, rfl, rfl⟩
  | some x =>
    right
    exact ⟨x, rfl, projectGroupAggr_rows env aenv buf projection ar isPrimary x.1 x.2 res ht h⟩

/-- One aggregate step from a result with at most `maxRows` rows, none of them flagged:
`AddNewGroup` leaves at most `maxRows + 1` rows, `projectGroupAggr` takes at most one row
out, and leaves at most `maxRows` rows, none of them flagged. -/
theorem groupStep_rows (env : Env) (aenv : AggrEnv) (projection : Option Projection)
    (isPrimary : Bool) (ar : aggrResult) (x : AggrInput) (s : GroupStep)
    (hlen : (ar.rows.length : Int) ≤ ar.maxRows)
    (hflush : ∀ r ∈ ar.rows, r.flush = false)
    (h : IndexScanSource.groupStep env aenv projection isPrimary ar x = .ret s) :
    s.projected.aggrRes.maxRows = ar.maxRows ∧
    (s.projected.aggrRes.rows.length : Int) ≤ ar.maxRows ∧
    (∀ r ∈ s.projected.aggrRes.rows, r.flush = false) ∧
    (s.added.rows.length : Int) ≤ ar.maxRows + 1 ∧
    s.added.rows.length ≤ s.projected.aggrRes.rows.length + 1 ∧
    (s.projected.entry.isSome = true →
      s.added.rows.length = s.projected.aggrRes.rows.length + 1) := by
  unfold IndexScanSource.groupStep at h
  obtain ⟨ar2, hadd, h⟩ := Exec_bind_eq_ret _ _ _ h
  obtain ⟨p, hp, h⟩ := Exec_bind_eq_ret _ _ _ h
  simp only [Exec.ret.injEq] at h
  rw [← h]
  simp only
  obtain ⟨hbound, hstep⟩ := aggrStep_rows ar x.groups x.aggrs x.cacheValid hlen hflush
  have hb := hbound ar2 hadd
  rcases projectGroupAggr_result env aenv [] projection ar2 isPrimary p hp with
    ⟨ht, hres, hentry⟩ | ⟨y, ht, hres⟩
  · have hs := hstep (ar2, none) (by
      unfold aggrStep
      rw [hadd, Exec_bind_ret, ht])
    rw [hres]
    refine ⟨hs.1, hs.2.1, hs.2.2, hb, by omega, ?_⟩
    rw [hentry]
    intro hsome
    cases hsome
  · have hs := hstep ({ ar2 with rows := y.2 }, some y.1) (by
      unfold aggrStep
      rw [hadd, Exec_bind_ret, ht])
    have hl := takeRow_length ar2.rows y ht
    rw [hres]
    refine ⟨hs.1, hs.2.1, hs.2.2, hb, ?_, ?_⟩
    · show ar2.rows.length ≤ y.2.length + 1
      omega
    · intro _
      exact hl

theorem groupSteps_rows (env : Env) (aenv : AggrEnv) (projection : Option Projection)
    (isPrimary : Bool) (inputs : List AggrInput) :
    ∀ (ar : aggrResult) (steps : List GroupStep),
      (ar.rows.length : Int) ≤ ar.maxRows → (∀ r ∈ ar.rows, r.flush = false) →
      IndexScanSource.groupSteps env aenv projection isPrimary ar inputs = .ret steps →
      steps.length ≤ inputs.length ∧
      ∀ s ∈ steps,
        s.projected.aggrRes.maxRows = ar.maxRows ∧
        (s.projected.aggrRes.rows.length : Int) ≤ ar.maxRows ∧
        (∀ r ∈ s.projected.aggrRes.rows, r.flush = false) ∧
        (s.added.rows.length : Int) ≤ ar.maxRows + 1 ∧
        s.added.rows.length ≤ s.projected.aggrRes.rows.length + 1 ∧
        (s.projected.entry.isSome = true →
          s.added.rows.length = s.projected.aggrRes.rows.length + 1) := by
  induction inputs with
  | nil =>
    intro ar steps _ _ h
    simp only [IndexScanSource.groupSteps, Exec.ret.injEq] at h
    rw [← h]
    exact ⟨le_refl _, fun s hs => absurd hs (List.not_mem_nil s)⟩
  | cons x rest ih =>
    intro ar steps hlen hflush h
    rw [IndexScanSource.groupSteps] at h
    obtain ⟨s1, hs1, h⟩ := Exec_bind_eq_ret _ _ _ h
    have h1 := groupStep_rows env aenv projection isPrimary ar x s1 hlen hflush hs1
    cases herr : s1.projected.err with
    | some e =>
      simp only [herr, Exec.ret.injEq] at h
      rw [← h]
      refine ⟨by simp, ?_⟩
      intro s hs
      rw [List.mem_singleton] at hs
      rw [hs]
      exact h1
    | none =>
      simp only [herr] at h
      obtain ⟨t, ht, h⟩ := Exec_bind_eq_ret _ _ _ h
      simp only [Exec.ret.injEq] at h
      obtain ⟨hl2, hall2⟩ := ih s1.projected.aggrRes t (by rw [h1.1]; exact h1.2.1)
        h1.2.2.1 ht
      rw [← h]
      refine ⟨by simp only [List.length_cons]; omega, ?_⟩
      intro s hs
      rcases List.mem_cons.mp hs with rfl | hs
      · exact h1
      · have := hall2 s hs
        rw [h1.1] at this
        exact this

/-- Claim C31: from the empty result with `maxRows >= 1`, when every `AddNewGroup` is
immediately followed by one `projectGroupAggr` (the aggregate step of the callback when
secondary keys are projected), then after every step the result holds at most `maxRows`
rows, none of them flagged, and the step has emitted at most one row: `projectGroupAggr`
has taken at most one row out of the result, exactly one when it returns an entry, and
the entries emitted are no more than the steps. -/
theorem groupSteps_invariant (env : Env) (aenv : AggrEnv) (projection : Option Projection)
    (isPrimary : Bool) (maxRows : Int) (inputs : List AggrInput) (steps : List GroupStep)
    (hmax : maxRows ≥ 1)
    (h : IndexScanSource.groupSteps env aenv projection isPrimary
      { rows := [], maxRows := maxRows } inputs = .ret steps) :
    steps.length ≤ inputs.length ∧
    (steps.filterMap fun s => s.projected.entry).length ≤ inputs.length ∧
    ∀ s ∈ steps,
      (s.projected.aggrRes.rows.length : Int) ≤ maxRows ∧
      (∀ r ∈ s.projected.aggrRes.rows, r.flush = false) ∧
      s.added.rows.length ≤ s.projected.aggrRes.rows.length + 1 ∧
      (s.projected.entry.isSome = true →
        s.added.rows.length = s.projected.aggrRes.rows.length + 1) := by
  obtain ⟨hl, hall⟩ := groupSteps_rows env aenv projection isPrimary inputs
    { rows := [], maxRows := maxRows } steps (by simp only [List.length_nil]; omega)
    (fun r hr => absurd hr (List.not_mem_nil r)) h
  refine ⟨hl, le_trans (List.length_filterMap_le _ _) hl, ?_⟩
  intro s hs
  obtain ⟨_, h2, h3, _, h5, h6⟩ := hall s hs
  exact ⟨h2, h3, h5, h6⟩

theorem groupSteps_invariant_witness :
    ∃ steps, IndexScanSource.groupSteps sampleEnv sampleAggrEnv (some sampleGroupProjection)
        false { rows := [], maxRows := 1 }
        [sampleInput [65] 100, sampleInput [65] 200, sampleInput [66] 50] = .ret steps ∧
      steps.map (fun s => (s.added.rows.length, s.projected.aggrRes.rows.length,
        s.projected.entry)) =
        [(1, 1, none), (1, 1, none), (2, 1, some [7, 65, 5, 48, 0, 0])] ∧
      ∀ s ∈ steps, (s.projected.aggrRes.rows.length : Int) ≤ 1 ∧
        ∀ r ∈ s.projected.aggrRes.rows, r.flush = false := by
  obtain ⟨steps, hs⟩ := Exec_isRet_exists (IndexScanSource.groupSteps sampleEnv sampleAggrEnv
    (some sampleGroupProjection) false { rows := [], maxRows := 1 }
    [sampleInput [65] 100, sampleInput [65] 200, sampleInput [66] 50]) (by decide)
  have hview : (IndexScanSource.groupSteps sampleEnv sampleAggrEnv
      (some sampleGroupProjection) false { rows := [], maxRows := 1 }
      [sampleInput [65] 100, sampleInput [65] 200, sampleInput [66] 50]).bind
      (fun steps => .ret (steps.map fun s =>
        (s.added.rows.length, s.projected.aggrRes.rows.length, s.projected.entry))) =
      .ret [(1, 1, none), (1, 1, none), (2, 1, some [7, 65, 5, 48, 0, 0])] := by
    decide
  rw [hs, Exec_bind_ret] at hview
  have hinv := groupSteps_invariant sampleEnv sampleAggrEnv (some sampleGroupProjection)
    false 1 _ steps (by decide) hs
  exact ⟨steps, hs, Exec.ret.inj hview, fun s hmem =>
    ⟨(hinv.2.2 s hmem).1, (hinv.2.2 s hmem).2.1⟩⟩

/-! ## Calls of `filterScanRow2` that share the entry cache -/

/-- The loop over the filter collections always returns. -/
theorem filterLoop_total (cks : List Bytes) :
    ∀ (filters : List Filter), ∃ m, filterLoop cks filters = .ret m := by
  intro filters
  induction filters with
  | nil => exact ⟨(true, none), rfl⟩
  | cons fc rest ih =>
    rw [filterLoop]
    by_cases hlen : fc.CompositeFilters.length > cks.length
    · exact ⟨(false, some .ErrMoreRanges), by rw [if_pos hlen]⟩
    · obtain ⟨b, hb, _⟩ := applyFilter_spec cks fc.CompositeFilters (by omega)
      rw [if_neg hlen, hb, Exec_bind_ret]
      cases b with
      | true => exact ⟨(false, none), by simp⟩
      | false =>
        obtain ⟨m, hm⟩ := ih
        exact ⟨m, by simpa using hm⟩

/-- The result of `filterScanRow` on a well-formed key, from the result of the loop over
the filter collections. -/
theorem filterScanRow_wellformed (env : Env) (scan : Scan) (buf tail : Bytes)
    (elems : List Bytes) (m : Bool × Option Error)
    (hp : env.jsonEncoder.arrayLenPrefix = false)
    (hc : ∀ e ∈ elems, CompleteElem env.jsonEncoder buf e)
    (hm : filterLoop elems scan.Filters = .ret m) :
    filterScanRow env (encodedArray elems tail) scan buf =
      .ret (match m.2 with
        | some e => { skip := false, compositekeys := none, err := some e }
        | none => { skip := m.1, compositekeys := some elems, err := none }) := by
  unfold filterScanRow
  rw [ExplodeArray_encodedArray env.jsonEncoder buf tail elems hp hc]
  simp only [Exec_bind_ret, Option.getD_some, hm]
  cases m.2 <;> rfl

theorem encodedArray_take_key (elems : List Bytes) (tail : Bytes) :
    (encodedArray elems tail).take (encodedArray elems []).length = encodedArray elems [] := by
  unfold encodedArray
  simp only [List.length_cons, List.length_append, List.length_nil, List.take_succ_cons]
  have h : elems.flatten ++ Terminator :: tail = (elems.flatten ++ [Terminator]) ++ tail := by
    simp
  have hl : elems.flatten.length + (0 + 1) = (elems.flatten ++ [Terminator]).length := by
    simp
  rw [h, hl, List.take_left]

theorem wellformed_rowOk (env : Env) (elems : List Bytes) (tail : Bytes)
    (hlk : env.lenKey (encodedArray elems tail) = ((encodedArray elems []).length : Int)) :
    RowOk env (encodedArray elems tail) ∧
      keyOf env (encodedArray elems tail) = encodedArray elems [] := by
  refine ⟨⟨by simp [encodedArray], by rw [hlk]; exact Int.ofNat_nonneg _, ?_⟩, ?_⟩
  · rw [hlk]
    unfold encodedArray
    simp only [List.length_cons, List.length_append, List.length_nil]
    omega
  · unfold keyOf
    rw [hlk, Int.toNat_ofNat, encodedArray_take_key]

/-- Two lists of complete element encodings with the same encoded array are equal. -/
theorem encodedArray_key_inj (codec : Codec) (tmp : Bytes) (elems1 elems2 : List Bytes)
    (hp : codec.arrayLenPrefix = false)
    (h1 : ∀ e ∈ elems1, CompleteElem codec tmp e)
    (h2 : ∀ e ∈ elems2, CompleteElem codec tmp e)
    (h : encodedArray elems1 [] = encodedArray elems2 []) : elems1 = elems2 := by
  have e1 := ExplodeArray_encodedArray codec tmp [] elems1 hp h1
  have e2 := ExplodeArray_encodedArray codec tmp [] elems2 hp h2
  rw [h, e2] at e1
  simp only [Exec.ret.injEq, Prod.mk.injEq, Option.some.injEq, and_true] at e1
  exact e1.symm

theorem SetValid_fields (c : entryCache) (b : Bool) :
    (c.SetValid b).valid = b ∧ (c.SetValid b).compkeybuf = c.compkeybuf ∧
      (c.SetValid b).deckeybuf = c.deckeybuf ∧ (c.SetValid b).compkeys = c.compkeys ∧
      (c.SetValid b).decodedkeys = c.decodedkeys ∧ (c.SetValid b).entry = c.entry := by
  cases b <;> simp [entryCache.SetValid]

/-- `Update` without reallocation and with decoded keys, on a cache whose slices of
component and decoded slices are still `nil` or as long as the incoming lists: the cache
then holds the entry, the incoming components and the incoming decoded keys. -/
theorem Update_fits_decoded (e : entryCache) (b d : BufShape) (entry : Bytes)
    (cks dks : List Bytes)
    (hbuf : e.compkeybuf = some b) (hdbuf : e.deckeybuf = some d)
    (hcap : entry.length ≤ b.cap) (hlen : b.len ≤ b.cap) (hdlen : d.len ≤ d.cap)
    (hsum : (cks.map List.length).sum ≤ b.len) (hdsum : (dks.map List.length).sum ≤ d.len)
    (htarget : ∀ t, e.compkeys = some t → t.length = cks.length)
    (hdtarget : ∀ t, e.decodedkeys = some t → t.length = dks.length) :
    e.Update entry cks (some dks)
      = .ret { e with entry := entry, compkeys := some cks, decodedkeys := some dks,
                      decodedvalues := List.replicate cks.length none } := by
  unfold entryCache.Update
  have hnot : ¬ entry.length > b.cap := by omega
  simp only [hbuf, hdbuf, shapeOf, Option.getD_some, hnot, if_false]
  have htl : (e.compkeys.getD (List.replicate cks.length [])).length = cks.length := by
    cases hc : e.compkeys with
    | none => simp
    | some t => simpa using htarget t hc
  have hdtl : (e.decodedkeys.getD (List.replicate dks.length [])).length = dks.length := by
    cases hc : e.decodedkeys with
    | none => simp
    | some t => simpa using hdtarget t hc
  rw [copyKeys_fits cks b _ 0 (by omega) hsum hlen, overwrite_full _ cks htl]
  simp only [Exec_bind_ret]
  rw [copyKeys_fits dks d _ 0 (by omega) hdsum hdlen, overwrite_full _ dks hdtl]
  rfl

/-- A call of `filterScanRow2` whose lookup finds nothing, whose explosion and update
succeed: the results are those of the loop over the filter collections on the exploded
components. -/
theorem filterScanRow2_miss (env : Env) (key : Bytes) (scan : Scan) (buf decbuf : Bytes)
    (getDecoded : Bool) (cktmp : List Bytes) (dktmp : Option (List Bytes)) (r : ScanRequest)
    (c c1 c3 : entryCache) (elems : List Bytes) (dk : Option (List Bytes))
    (m : Bool × Option Error)
    (hl : filterScanRow2.lookup env key r c = .ret (none, none, c1))
    (hex : ExplodeArray2 env.jsonEncoder key buf decbuf cktmp dktmp = .ret (some elems, dk, none))
    (hv : (if (!c1.Exists) = true then c1.Init env getDecoded else c1).Valid = false)
    (hupd : (if (!c1.Exists) = true then c1.Init env getDecoded else c1).Update key elems dk
      = .ret c3)
    (hm : filterLoop elems scan.Filters = .ret m) :
    ∃ f, filterScanRow2 env key scan buf decbuf getDecoded cktmp dktmp r c = .ret f ∧
      f.outcome = (match m.2 with
        | some e => { skip := false, compositekeys := none, err := some e }
        | none => { skip := m.1, compositekeys := some elems, err := none }) ∧
      f.cachedEntry = c3 ∧ f.cktmp = elems ∧ f.dktmp = dk := by
  unfold filterScanRow2
  simp only [hl, hex, Exec_bind_ret, Option.getD_some, Option.isSome_some, if_true, hv,
    Bool.not_false, hupd, hm]
  cases m.2 <;> exact ⟨_, rfl, rfl, rfl, rfl, rfl⟩

/-- A call of `filterScanRow2` whose lookup finds the components in the cache: the
results are those of the loop over the filter collections on the cached components, and
the cache and the scratch slices are left as the lookup left them. -/
theorem filterScanRow2_hit (env : Env) (key : Bytes) (scan : Scan) (buf decbuf : Bytes)
    (getDecoded : Bool) (cktmp : List Bytes) (dktmp : Option (List Bytes)) (r : ScanRequest)
    (c c1 : entryCache) (elems : List Bytes) (dk : Option (List Bytes))
    (m : Bool × Option Error)
    (hl : filterScanRow2.lookup env key r c = .ret (some elems, dk, c1))
    (he : c1.Exists = true) (hv : c1.Valid = true)
    (hm : filterLoop elems scan.Filters = .ret m) :
    ∃ f, filterScanRow2 env key scan buf decbuf getDecoded cktmp dktmp r c = .ret f ∧
      f.outcome = (match m.2 with
        | some e => { skip := false, compositekeys := none, err := some e }
        | none => { skip := m.1, compositekeys := some elems, err := none }) ∧
      f.cachedEntry = c1 ∧ f.cktmp = cktmp ∧ f.dktmp = dktmp := by
  unfold filterScanRow2
  simp only [hl, Exec_bind_ret, Option.getD_some, he, hv, Bool.not_true, Bool.false_eq_true,
    if_false, hm]
  cases m.2 <;> exact ⟨_, rfl, rfl, rfl, rfl, rfl⟩

/-- One call of the sequence: from a cache that is fresh or holds a well-formed entry,
`filterScanRow2` on a well-formed entry that fits returns what `filterScanRow` returns for
the entry alone, and leaves the cache holding the entry it held or the new one. -/
theorem filterScanRow2_call_fit (env : Env) (scan : Scan) (buf decbuf : Bytes)
    (getDecoded : Bool) (r : ScanRequest) (n : Nat) (cktmp : List Bytes)
    (dktmp : Option (List Bytes)) (c : entryCache) (key : Bytes)
    (hp : env.jsonEncoder.arrayLenPrefix = false) (hsec : r.isPrimary = false)
    (hcap : env.poolBuf.len ≤ env.poolBuf.cap)
    (hck : cktmp.length = n) (hdk : dktmp.isSome = getDecoded)
    (hdkl : ∀ d, dktmp = some d → d.length = n)
    (hc : c = entryCache.zero ∨ CacheHolds env buf n getDecoded c)
    (hkey : EntryFits env buf decbuf n getDecoded key) :
    ∃ f, filterScanRow2 env key scan buf decbuf getDecoded cktmp dktmp r c = .ret f ∧
      filterScanRow env key scan buf = .ret f.outcome ∧
      f.cktmp.length = n ∧ f.dktmp.isSome = getDecoded ∧
      (∀ d, f.dktmp = some d → d.length = n) ∧
      CacheHolds env buf n getDecoded f.cachedEntry := by
  obtain ⟨elems, texts, tail, rfl, hdec, hn, hlk, hfit, hdfit⟩ := hkey
  obtain ⟨m, hm⟩ := filterLoop_total elems scan.Filters
  have hcomp := forall₂_decodes_complete hdec
  have hfs := filterScanRow_wellformed env scan buf tail elems m hp hcomp hm
  have htl : texts.length = elems.length := (List.Forall₂.length_eq hdec).symm
  have hex : ExplodeArray2 env.jsonEncoder (encodedArray elems tail) buf decbuf cktmp dktmp
      = .ret (some elems, dktmp.map (fun _ => texts), none) := by
    have h := ExplodeArray2_encodedArray env.jsonEncoder buf tail decbuf elems texts cktmp
      dktmp hp hdec (by omega) (by
        intro d hd
        have hg : getDecoded = true := by rw [← hdk, hd]; rfl
        exact ⟨by rw [hdkl d hd, hn], (hdfit hg).1⟩)
    rw [overwrite_full cktmp elems (by omega)] at h
    rw [h]
    cases hd : dktmp with
    | none => rfl
    | some d =>
      simp only [Option.map_some']
      rw [overwrite_full d texts (by rw [hdkl d hd, htl, hn])]
  have hsum : (elems.map List.length).sum ≤ env.poolBuf.len :=
    le_trans (sum_length_le_encodedArray elems tail) hfit
  have hmiss : ∀ c1 c2,
      filterScanRow2.lookup env (encodedArray elems tail) r c = .ret (none, none, c1) →
      (if (!c1.Exists) = true then c1.Init env getDecoded else c1) = c2 →
      c2.valid = false → c2.compkeybuf = some env.poolBuf →
      (getDecoded = true → c2.deckeybuf = some env.poolBuf) →
      (∀ t, c2.compkeys = some t → t.length = n) →
      (∀ t, c2.decodedkeys = some t → t.length = n) →
      ∃ f, filterScanRow2 env (encodedArray elems tail) scan buf decbuf getDecoded cktmp dktmp
          r c = .ret f ∧
        filterScanRow env (encodedArray elems tail) scan buf = .ret f.outcome ∧
        f.cktmp.length = n ∧ f.dktmp.isSome = getDecoded ∧
        (∀ d, f.dktmp = some d → d.length = n) ∧
        CacheHolds env buf n getDecoded f.cachedEntry := by
    intro c1 c2 hl hc2 hv hb hd htc htd
    cases hdt : dktmp with
    | none =>
      have hupd := Update_fits c2 env.poolBuf (encodedArray elems tail) elems hb (by omega)
        hcap hsum (by intro t ht; rw [htc t ht, hn])
      rw [hdt] at hex hdk
      obtain ⟨f, hcall, hout, hcache, hfck, hfdk⟩ := filterScanRow2_miss env _ scan buf decbuf
        getDecoded cktmp none r c c1 _ elems none m hl hex
        (by rw [hc2]; exact hv) (by rw [hc2]; exact hupd) hm
      refine ⟨f, hcall, ?_, ?_, ?_, ?_, ?_⟩
      · rw [hfs, hout]
      · rw [hfck]
        exact hn
      · rw [hfdk, ← hdk]
      · intro d hd2
        rw [hfdk] at hd2
        cases hd2
      rw [hcache]
      exact ⟨hb, hd, htd, elems, texts, tail, rfl, hdec, hn, hlk, rfl⟩
    | some dslots =>
      have hg : getDecoded = true := by rw [← hdk, hdt]; rfl
      have hupd := Update_fits_decoded c2 env.poolBuf env.poolBuf (encodedArray elems tail)
        elems texts hb (hd hg) (by omega) hcap hcap hsum (hdfit hg).2
        (by intro t ht; rw [htc t ht, hn]) (by intro t ht; rw [htd t ht, htl, hn])
      rw [hdt] at hex
      obtain ⟨f, hcall, hout, hcache, hfck, hfdk⟩ := filterScanRow2_miss env _ scan buf decbuf
        getDecoded cktmp (some dslots) r c c1 _ elems (some texts) m hl hex
        (by rw [hc2]; exact hv) (by rw [hc2]; exact hupd) hm
      refine ⟨f, hcall, ?_, ?_, ?_, ?_, ?_⟩
      · rw [hfs, hout]
      · rw [hfck]
        exact hn
      · rw [hfdk, hg]
        rfl
      · intro d hd2
        rw [hfdk] at hd2
        simp only [Option.some.injEq] at hd2
        rw [← hd2, htl, hn]
      rw [hcache]
      refine ⟨hb, hd, ?_, elems, texts, tail, rfl, hdec, hn, hlk, rfl⟩
      intro t ht
      simp only [Option.some.injEq] at ht
      rw [← ht, htl, hn]
  rcases hc with rfl | ⟨hb, hd, htd, elems0, texts0, tail0, hentry, hdec0, hn0, hlk0, hck0⟩
  · refine hmiss entryCache.zero (entryCache.zero.Init env getDecoded) ?_ rfl rfl rfl ?_
      (fun t ht => by cases ht) (fun t ht => by cases ht)
    · unfold filterScanRow2.lookup
      have hzero : entryCache.zero.Exists = false := rfl
      simp only [hzero, Bool.and_false, Bool.false_eq_true, if_false]
    · intro hg
      simp [entryCache.Init, hg]
  · have hexists : c.Exists = true := by
      unfold entryCache.Exists
      rw [hb]
      rfl
    obtain ⟨hrow, hkeyOf⟩ := wellformed_rowOk env elems tail hlk
    rw [hentry] at hlk0
    obtain ⟨hrow0, hkeyOf0⟩ := wellformed_rowOk env elems0 tail0 hlk0
    have hcmp : c.EqualsEntry env (encodedArray elems tail) =
        .ret (decide (encodedArray elems0 [] = encodedArray elems [])) := by
      unfold entryCache.EqualsEntry
      rw [hentry, distinctCompare_of_rowOk env _ _ hrow0 hrow, hkeyOf, hkeyOf0]
    obtain ⟨_, hb1, hd1, hc1, hdk1, _⟩ := SetValid_fields c true
    obtain ⟨hv2, hb2, hd2, hc2, hdk2, he2⟩ := SetValid_fields c false
    by_cases heq : encodedArray elems0 [] = encodedArray elems []
    · have hsame : elems0 = elems := encodedArray_key_inj env.jsonEncoder buf elems0 elems hp
        (forall₂_decodes_complete hdec0) hcomp heq
      have hl : filterScanRow2.lookup env (encodedArray elems tail) r c =
          .ret (some elems, c.decodedkeys, c.SetValid true) := by
        unfold filterScanRow2.lookup
        simp only [hsec, hexists, Bool.not_false, Bool.and_self, if_true, hcmp, Exec_bind_ret,
          heq, decide_True, entryCache.Get, hck0, hsame]
      obtain ⟨f, hcall, hout, hcache, hfck, hfdk⟩ := filterScanRow2_hit env _ scan buf decbuf
        getDecoded cktmp dktmp r c _ elems c.decodedkeys m hl
        (by unfold entryCache.Exists; rw [hb1, hb]; rfl) (SetValid_fields c true).1 hm
      refine ⟨f, hcall, ?_, ?_, ?_, ?_, ?_⟩
      · rw [hfs, hout]
      · rw [hfck]
        exact hck
      · rw [hfdk]
        exact hdk
      · rw [hfdk]
        exact hdkl
      rw [hcache]
      refine ⟨by rw [hb1]; exact hb, by rw [hd1]; exact hd, by rw [hdk1]; exact htd,
        elems0, texts0, tail0, ?_, hdec0, hn0, ?_, by rw [hc1]; exact hck0⟩
      · rw [(SetValid_fields c true).2.2.2.2.2]
        exact hentry
      · rw [(SetValid_fields c true).2.2.2.2.2, hentry]
        exact hlk0
    · have hl : filterScanRow2.lookup env (encodedArray elems tail) r c =
          .ret (none, none, c.SetValid false) := by
        unfold filterScanRow2.lookup
        simp only [hsec, hexists, Bool.not_false, Bool.and_self, if_true, hcmp, Exec_bind_ret,
          heq, decide_False, Bool.false_eq_true, if_false]
      refine hmiss (c.SetValid false) (c.SetValid false) hl ?_ hv2 (by rw [hb2]; exact hb)
        (by rw [hd2]; exact hd) (by
          intro t ht
          rw [hc2, hck0] at ht
          simp only [Option.some.injEq] at ht
          rw [← ht]
          exact hn0) (by rw [hdk2]; exact htd)
      have hex2 : (c.SetValid false).Exists = true := by
        unfold entryCache.Exists
        rw [hb2, hb]
        rfl
      rw [hex2]
      rfl

/-- A sequence of calls of `filterScanRow2` on well-formed entries that fit, from a cache
that is fresh or holds a well-formed entry: every call returns what `filterScanRow`
returns for its entry alone. -/
theorem filterScanRow2_calls_fit_from (env : Env) (scan : Scan) (buf decbuf : Bytes)
    (getDecoded : Bool) (r : ScanRequest) (n : Nat)
    (hp : env.jsonEncoder.arrayLenPrefix = false) (hsec : r.isPrimary = false)
    (hcap : env.poolBuf.len ≤ env.poolBuf.cap) (entries : List Bytes) :
    ∀ (cktmp : List Bytes) (dktmp : Option (List Bytes)) (c : entryCache),
      cktmp.length = n → dktmp.isSome = getDecoded → (∀ d, dktmp = some d → d.length = n) →
      (c = entryCache.zero ∨ CacheHolds env buf n getDecoded c) →
      (∀ e ∈ entries, EntryFits env buf decbuf n getDecoded e) →
      ∃ out, filterScanRow2.calls env scan buf decbuf getDecoded r cktmp dktmp c entries
          = .ret out ∧
        List.Forall₂ (fun f e => filterScanRow env e scan buf = .ret f.outcome) out
          entries := by
  induction entries with
  | nil =>
    intro cktmp dktmp c _ _ _ _ _
    exact ⟨[], rfl, List.Forall₂.nil⟩
  | cons key rest ih =>
    intro cktmp dktmp c hck hdk hdkl hc hfit
    obtain ⟨f, hcall, hout, hfck, hfdk, hfdkl, hcache⟩ := filterScanRow2_call_fit env scan buf
      decbuf getDecoded r n cktmp dktmp c key hp hsec hcap hck hdk hdkl hc
      (hfit key (List.mem_cons_self _ _))
    obtain ⟨t, ht, hall⟩ := ih f.cktmp f.dktmp f.cachedEntry hfck hfdk hfdkl (Or.inr hcache)
      (fun e he => hfit e (List.mem_cons_of_mem _ he))
    refine ⟨f :: t, ?_, List.Forall₂.cons hout hall⟩
    rw [filterScanRow2.calls, hcall, Exec_bind_ret, ht, Exec_bind_ret]

/-- The calls of `filterScanRow2` on a sequence of well-formed secondary entries with `n`
key components that fit the buffers of the pool, with one shared cache that is not yet
initialised, a `cktmp` of `n` slots and a `dktmp` of `n` slots exactly when the keys are
decoded too: all calls return, each with the skip decision, the component slices and the
error that `filterScanRow` returns for the same entry alone. -/
theorem filterScanRow2_calls_fit (env : Env) (scan : Scan) (buf decbuf : Bytes)
    (getDecoded : Bool) (r : ScanRequest) (n : Nat) (cktmp : List Bytes)
    (dktmp : Option (List Bytes)) (entries : List Bytes)
    (hp : env.jsonEncoder.arrayLenPrefix = false) (hsec : r.isPrimary = false)
    (hcap : env.poolBuf.len ≤ env.poolBuf.cap)
    (hck : cktmp.length = n) (hdk : dktmp.isSome = getDecoded)
    (hdkl : ∀ d, dktmp = some d → d.length = n)
    (hfit : ∀ e ∈ entries, EntryFits env buf decbuf n getDecoded e) :
    ∃ out, filterScanRow2.calls env scan buf decbuf getDecoded r cktmp dktmp entryCache.zero
        entries = .ret out ∧
      List.Forall₂ (fun f e => filterScanRow env e scan buf = .ret f.outcome) out entries :=
  filterScanRow2_calls_fit_from env scan buf decbuf getDecoded r n hp hsec hcap entries cktmp
    dktmp entryCache.zero hck hdk hdkl (Or.inl rfl) hfit

/-- Claim C32 fails for an entry longer than the buffers of the pool: with buffers of 16
bytes and a scan that matches every key, the calls for an entry of 14 bytes and then one
of 19 bytes share a cache. The first call returns what `filterScanRow` returns. The second
finds another key in the cache, explodes the entry, and panics in `entryCache.Update`,
which has reallocated its backing store with length 0; `filterScanRow` returns
`skip = false` and the two components for that entry. With buffers of 64 bytes the calls
for the 19-byte entry and an entry with the same key return what `filterScanRow` returns,
the second from the cache. -/
theorem filterScanRow2_calls_long_entry :
    filterScanRow2.calls sampleEnv sampleScanAll [] [] false sampleRequest [[], []] none
        entryCache.zero [sampleEntryShort, sampleEntry] = .panic ∧
    filterScanRow2 sampleEnv sampleEntryShort sampleScanAll [] [] false [[], []] none
        sampleRequest entryCache.zero =
      .ret { skip := false, compositekeys := some [[2, 0], [5, 48, 0]], decodedkeys := none,
             err := none, cachedEntry := sampleCacheShort, cktmp := [[2, 0], [5, 48, 0]],
             dktmp := none } ∧
    filterScanRow sampleEnv sampleEntryShort sampleScanAll [] =
      .ret { skip := false, compositekeys := some [[2, 0], [5, 48, 0]], err := none } ∧
    filterScanRow2 sampleEnv sampleEntry sampleScanAll [] [] false [[2, 0], [5, 48, 0]] none
        sampleRequest sampleCacheShort = .panic ∧
    filterScanRow sampleEnv sampleEntry sampleScanAll [] =
      .ret { skip := false, compositekeys := some [[5, 48, 0], [6, 97, 98, 99, 0]],
             err := none } ∧
    (filterScanRow2.calls sampleEnvLarge sampleScanAll [] [] false sampleRequest [[], []] none
        entryCache.zero [sampleEntry, sampleEntrySameKey]).bind
        (fun out => .ret (out.map fun f => (f.outcome, f.cachedEntry.valid))) =
      .ret [({ skip := false, compositekeys := some [[5, 48, 0], [6, 97, 98, 99, 0]],
               err := none }, false),
            ({ skip := false, compositekeys := some [[5, 48, 0], [6, 97, 98, 99, 0]],
               err := none }, true)] := by
  have h1 : filterScanRow2 sampleEnv sampleEntryShort sampleScanAll [] [] false [[], []] none
      sampleRequest entryCache.zero =
      .ret { skip := false, compositekeys := some [[2, 0], [5, 48, 0]], decodedkeys := none,
             err := none, cachedEntry := sampleCacheShort, cktmp := [[2, 0], [5, 48, 0]],
             dktmp := none } := by
    decide
  have h2 : filterScanRow2 sampleEnv sampleEntry sampleScanAll [] [] false
      [[2, 0], [5, 48, 0]] none sampleRequest sampleCacheShort = .panic := by
    decide
  have h3 : filterScanRow2 sampleEnvLarge sampleEntry sampleScanAll [] [] false [[], []] none
      sampleRequest entryCache.zero =
      .ret { skip := false, compositekeys := some [[5, 48, 0], [6, 97, 98, 99, 0]],
             decodedkeys := none, err := none, cachedEntry := sampleCache,
             cktmp := [[5, 48, 0], [6, 97, 98, 99, 0]], dktmp := none } := by
    decide
  have h4 : filterScanRow2 sampleEnvLarge sampleEntrySameKey sampleScanAll [] [] false
      [[5, 48, 0], [6, 97, 98, 99, 0]] none sampleRequest sampleCache =
      .ret { skip := false, compositekeys := some [[5, 48, 0], [6, 97, 98, 99, 0]],
             decodedkeys := none, err := none, cachedEntry := sampleCache.SetValid true,
             cktmp := [[5, 48, 0], [6, 97, 98, 99, 0]], dktmp := none } := by
    decide
  refine ⟨?_, h1, by decide, h2, by decide, ?_⟩
  · rw [filterScanRow2.calls, h1, Exec_bind_ret, filterScanRow2.calls, h2]
    rfl
  · rw [filterScanRow2.calls, h3, Exec_bind_ret, filterScanRow2.calls, h4, Exec_bind_ret,
      filterScanRow2.calls]
    rfl

end Indexing
